import Mathlib

/-!
# Embedded-List: a fixed-capacity doubly-linked list over a node pool

Shallow embedding of `embedded_list.c` and `list_save.c`.

* Memory is a total map from node addresses to nodes (`Heap`).  A node
  address is the byte address of a `list_node_t`; `NULL` is `none`.
* A `list_t` is the record `ListT`; the mutex is not modelled (the lock
  macros expand to no-ops in the unsynchronised build).
* `uint16_t` / `uint32_t` fields are natural numbers, reduced modulo
  `2^16` / `2^32` wherever the C code can wrap.  `int` is taken to be at
  least 32 bits wide, so sums of two `uint16_t` values do not wrap.
* `int16_t` values (the index of `list_at`, the counter and result of
  `list_index`) are integers, converted with `to_int16` where a value is
  stored into an `int16_t`.
* Loops that follow links take a fuel argument and return `none` when it
  runs out; loops bounded by a counter are total.
* `list` arguments and `element` arguments are never `NULL` (the
  corresponding early returns of the C code are excluded by the types).
-/

namespace EList

/-! ## Data model -/

abbrev Ptr := Nat

abbrev Bytes := List Nat

/-- The struct `list_node_t`: two links and the embedded data bytes. -/
structure Node where
  next : Option Ptr
  prev : Option Ptr
  data : Bytes

abbrev Heap := Ptr → Node

/-- The struct `list_t` without `is_static` and `mutex`. -/
structure ListT where
  head : Option Ptr
  tail : Option Ptr
  size : Nat
  capacity : Nat
  element_size : Nat
  free_list : Option Ptr
  node_pool : Ptr

/-- The value of `sizeof(list_node_t)`: two pointers (LP64). -/
def sizeof_list_node_t : Nat := 16

/-- The macro `LIST_NODE_SIZE`. -/
def LIST_NODE_SIZE (element_size : Nat) : Nat :=
  sizeof_list_node_t + (if element_size > 0 then element_size else 1)

/-- Address of pool slot `i`: `(uint8_t *)list->node_pool + i * node_size`. -/
def node_at (l : ListT) (i : Nat) : Ptr :=
  l.node_pool + i * LIST_NODE_SIZE l.element_size

def set_next (h : Heap) (p : Ptr) (v : Option Ptr) : Heap :=
  fun q => if q = p then { h q with next := v } else h q

def set_prev (h : Heap) (p : Ptr) (v : Option Ptr) : Heap :=
  fun q => if q = p then { h q with prev := v } else h q

def set_data (h : Heap) (p : Ptr) (d : Bytes) : Heap :=
  fun q => if q = p then { h q with data := d } else h q

/-- The call `memcpy(dst, src, n)` on byte arrays. -/
def memcpy (dst src : Bytes) (n : Nat) : Bytes := src.take n ++ dst.drop n

/-- The call `memset(dst, v, n)` on a byte array. -/
def memset (dst : Bytes) (v n : Nat) : Bytes := List.replicate n v ++ dst.drop n

/-! ## Pool and free list -/

/-- One iteration of the loop of `list_init_free_list`. -/
def init_free_step (l : ListT) (h : Heap) (i : Nat) : Heap :=
  set_prev
    (set_next h (node_at l i)
      (if i < l.capacity - 1 then some (node_at l (i + 1)) else none))
    (node_at l i) none

def list_init_free_list (h : Heap) (l : ListT) : Heap × ListT :=
  ((List.range l.capacity).foldl (init_free_step l) h,
   { l with free_list := some l.node_pool })

/-- `list_create` / `list_create_from_buf`: `h` is the memory as handed out
by the allocator (or supplied by the caller) and `pool` the address of the
node pool in it. -/
def list_create (h : Heap) (pool : Ptr) (capacity element_size : Nat) :
    Option (Heap × ListT) :=
  if capacity = 0 ∨ element_size = 0 then none
  else
    some (list_init_free_list h
      { head := none, tail := none, size := 0, capacity := capacity,
        element_size := element_size, free_list := none, node_pool := pool })

/-- `list_create_from_buf(node_pool_buf, capacity, element_size)`; the
buffer may be `NULL`. -/
def list_create_from_buf (h : Heap) (node_pool_buf : Option Ptr) (capacity element_size : Nat) :
    Option (Heap × ListT) :=
  match node_pool_buf with
  | none => none
  | some pool =>
    if capacity = 0 ∨ element_size = 0 then none
    else
      some (list_init_free_list h
        { head := none, tail := none, size := 0, capacity := capacity,
          element_size := element_size, free_list := none, node_pool := pool })

def list_alloc_node (h : Heap) (l : ListT) : Option Ptr × Heap × ListT :=
  match l.free_list with
  | none => (none, h, l)
  | some node =>
    let l1 := { l with free_list := (h node).next }
    let h1 := set_next h node none
    let h2 := set_prev h1 node none
    let h3 := set_data h2 node (memset (h2 node).data 0 l.element_size)
    (some node, h3, l1)

def list_free_node (h : Heap) (l : ListT) (node : Option Ptr) : Heap × ListT :=
  match node with
  | none => (h, l)
  | some n => (set_next h n l.free_list, { l with free_list := some n })

/-! ## Capacity queries and element access -/

def list_empty (l : ListT) : Bool := l.size == 0

def list_size (l : ListT) : Nat := l.size

def list_capacity (l : ListT) : Nat := l.capacity

def list_max_size (l : ListT) : Nat := l.capacity

/-- `list_front`: the returned bytes are the new contents of the output
buffer `element`. -/
def list_front (h : Heap) (l : ListT) (element : Bytes) : Bool × Bytes :=
  match l.head with
  | none => (false, element)
  | some hd => (true, memcpy element (h hd).data l.element_size)

def list_back (h : Heap) (l : ListT) (element : Bytes) : Bool × Bytes :=
  match l.tail with
  | none => (false, element)
  | some tl => (true, memcpy element (h tl).data l.element_size)

def list_begin (l : ListT) : Option Ptr := l.head

def list_end (l : ListT) : Option Ptr := l.tail

def list_next (h : Heap) (it : Option Ptr) : Option Ptr :=
  match it with
  | none => none
  | some p => (h p).next

def list_prev (h : Heap) (it : Option Ptr) : Option Ptr :=
  match it with
  | none => none
  | some p => (h p).prev

/-- Conversion of an integer to `int16_t` (two's complement, wrapping). -/
def to_int16 (i : Int) : Int := (i + 32768) % 65536 - 32768

/-- The loop `for (i = 0; i < index; i++) current = list_next(current)`. -/
def list_at_fwd (h : Heap) : Nat → Option Ptr → Option Ptr
  | 0, current => current
  | n + 1, current => list_at_fwd h n (list_next h current)

/-- The loop `for (i = 0; i > index; i--) current = list_prev(current)`,
which runs `-index` times. -/
def list_at_bwd (h : Heap) : Nat → Option Ptr → Option Ptr
  | 0, current => current
  | n + 1, current => list_at_bwd h n (list_prev h current)

/-- `list_at(list, index)`; the parameter is an `int16_t`, so the argument
is converted on the call. -/
def list_at (h : Heap) (l : ListT) (index : Int) : Option Ptr :=
  let index := to_int16 index
  if index ≥ l.size then none
  else if index < 0 then list_at_bwd h (-index).toNat l.tail
  else list_at_fwd h index.toNat l.head

/-- `list_get(list, index)`: the data of the node found by `list_at`. -/
def list_get (h : Heap) (l : ListT) (index : Int) : Option Bytes :=
  match list_at h l index with
  | some it => some (h it).data
  | none => none

/-- The loop of `list_index`; `index` is an `int16_t`. -/
def list_index_loop (h : Heap) (head : Option Ptr) : Nat → Option Ptr → Int → Option Int
  | 0, it, index => if it = head then some index else none
  | fuel + 1, it, index =>
    if it = head then some index
    else list_index_loop h head fuel (list_prev h it) (to_int16 (index + 1))

/-- `list_index(list, it)`; `none` when the fuel runs out. -/
def list_index (fuel : Nat) (h : Heap) (l : ListT) (it : Option Ptr) : Option Int :=
  match it with
  | none => some (-1)
  | some _ => list_index_loop h l.head fuel it 0

/-! ## Modifiers -/

def list_insert (h : Heap) (l : ListT) (position : Option Ptr) (element : Bytes) :
    Bool × Heap × ListT :=
  if l.size ≥ l.capacity then (false, h, l)
  else
    match list_alloc_node h l with
    | (none, h0, l0) => (false, h0, l0)
    | (some new_node, h0, l0) =>
      let h1 := set_data h0 new_node (memcpy (h0 new_node).data element l0.element_size)
      match position with
      | none =>
        match l0.tail with
        | none =>
          (true, h1, { l0 with head := some new_node, tail := some new_node,
                               size := (l0.size + 1) % 65536 })
        | some tl =>
          let h2 := set_next h1 tl (some new_node)
          let h3 := set_prev h2 new_node (some tl)
          (true, h3, { l0 with tail := some new_node, size := (l0.size + 1) % 65536 })
      | some pos =>
        let h2 := set_next h1 new_node (some pos)
        let h3 := set_prev h2 new_node (h2 pos).prev
        match (h3 pos).prev with
        | some pp =>
          let h4 := set_next h3 pp (some new_node)
          let h5 := set_prev h4 pos (some new_node)
          (true, h5, { l0 with size := (l0.size + 1) % 65536 })
        | none =>
          let h5 := set_prev h3 pos (some new_node)
          (true, h5, { l0 with head := some new_node, size := (l0.size + 1) % 65536 })

def list_erase (h : Heap) (l : ListT) (position : Option Ptr) : Bool × Heap × ListT :=
  match position with
  | none => (false, h, l)
  | some pos =>
    let h1 := match (h pos).prev with
      | some pp => set_next h pp (h pos).next
      | none => h
    let l1 := match (h pos).prev with
      | some _ => l
      | none => { l with head := (h pos).next }
    let h2 := match (h1 pos).next with
      | some pn => set_prev h1 pn (h1 pos).prev
      | none => h1
    let l2 := match (h1 pos).next with
      | some _ => l1
      | none => { l1 with tail := (h1 pos).prev }
    let r := list_free_node h2 l2 (some pos)
    (true, r.1, { r.2 with size := (r.2.size + 65535) % 65536 })

def list_replace (h : Heap) (l : ListT) (position : Option Ptr) (element : Bytes) :
    Bool × Heap × ListT :=
  match position with
  | none => (false, h, l)
  | some pos => (true, set_data h pos (memcpy (h pos).data element l.element_size), l)

def list_push_front (h : Heap) (l : ListT) (element : Bytes) : Bool × Heap × ListT :=
  list_insert h l l.head element

def list_push_back (h : Heap) (l : ListT) (element : Bytes) : Bool × Heap × ListT :=
  list_insert h l none element

/-- `list_pop_front`: `element` is the output buffer (`none` for `NULL`);
the second component of the result is its new contents. -/
def list_pop_front (h : Heap) (l : ListT) (element : Option Bytes) :
    Bool × Option Bytes × Heap × ListT :=
  match l.head with
  | none => (false, element, h, l)
  | some hd =>
    let out := element.map (fun e => memcpy e (h hd).data l.element_size)
    let r := list_erase h l l.head
    (r.1, out, r.2.1, r.2.2)

def list_pop_back (h : Heap) (l : ListT) (element : Option Bytes) :
    Bool × Option Bytes × Heap × ListT :=
  match l.tail with
  | none => (false, element, h, l)
  | some tl =>
    let out := element.map (fun e => memcpy e (h tl).data l.element_size)
    let r := list_erase h l l.tail
    (r.1, out, r.2.1, r.2.2)

/-- The loop of `list_clear`. -/
def list_clear_loop : Nat → Heap → ListT → Option Ptr → Option (Heap × ListT)
  | _, h, l, none => some (h, l)
  | 0, _, _, some _ => none
  | fuel + 1, h, l, some cur =>
    let next := (h cur).next
    let r := list_free_node h l (some cur)
    list_clear_loop fuel r.1 r.2 next

def list_clear (fuel : Nat) (h : Heap) (l : ListT) : Option (Heap × ListT) :=
  match list_clear_loop fuel h l l.head with
  | none => none
  | some (h1, l1) => some (h1, { l1 with head := none, tail := none, size := 0 })

/-- One iteration of the loop of `list_reverse`. -/
def list_reverse_loop : Nat → Heap → Option Ptr → Option Heap
  | _, h, none => some h
  | 0, _, some _ => none
  | fuel + 1, h, some cur =>
    let temp := (h cur).prev
    let h1 := set_prev h cur (h cur).next
    let h2 := set_next h1 cur temp
    list_reverse_loop fuel h2 (h2 cur).prev

def list_reverse (fuel : Nat) (h : Heap) (l : ListT) : Option (Heap × ListT) :=
  match list_reverse_loop fuel h l.head with
  | none => none
  | some h1 => some (h1, { l with head := l.tail, tail := l.head })

/-- The type `list_predicate_func_t`: the callee sees the node data and
the caller's `predicate_data`. -/
abbrev Pred := Bytes → Bytes → Bool

/-- The test `memcmp(a, b, n) == 0`. -/
def memcmp_eq (a b : Bytes) (n : Nat) : Bool := a.take n == b.take n

/-- The match test shared by `list_remove_if` and `list_find_if`:
`predicate ? predicate(data, value) : memcmp(data, value, element_size) == 0`. -/
def node_matches (h : Heap) (l : ListT) (predicate : Option Pred) (value : Bytes)
    (cur : Ptr) : Bool :=
  match predicate with
  | some p => p (h cur).data value
  | none => memcmp_eq (h cur).data value l.element_size

/-- The loop of `list_remove_if`; the counter is `remove_count`. -/
def list_remove_if_loop (predicate : Option Pred) (predicate_data : Bytes) :
    Nat → Heap → ListT → Option Ptr → Nat → Option (Nat × Heap × ListT)
  | _, h, l, none, c => some (c, h, l)
  | 0, _, _, some _, _ => none
  | fuel + 1, h, l, some cur, c =>
    let next := (h cur).next
    if node_matches h l predicate predicate_data cur then
      let r := list_erase h l (some cur)
      list_remove_if_loop predicate predicate_data fuel r.2.1 r.2.2 next ((c + 1) % 65536)
    else
      list_remove_if_loop predicate predicate_data fuel h l next c

def list_remove_if (fuel : Nat) (h : Heap) (l : ListT) (predicate : Option Pred)
    (predicate_data : Bytes) : Option (Nat × Heap × ListT) :=
  list_remove_if_loop predicate predicate_data fuel h l l.head 0

def list_remove (fuel : Nat) (h : Heap) (l : ListT) (value : Bytes) :
    Option (Nat × Heap × ListT) :=
  list_remove_if fuel h l none value

/-- The inner loop of `list_unique` for a fixed `pre`. -/
def list_unique_inner (pre : Ptr) :
    Nat → Heap → ListT → Option Ptr → Nat → Option (Nat × Heap × ListT)
  | _, h, l, none, c => some (c, h, l)
  | 0, _, _, some _, _ => none
  | fuel + 1, h, l, some cur, c =>
    if memcmp_eq (h pre).data (h cur).data l.element_size then
      let to_remove := cur
      let current := list_next h (some cur)
      let r := list_erase h l (some to_remove)
      list_unique_inner pre fuel r.2.1 r.2.2 current ((c + 1) % 65536)
    else
      list_unique_inner pre fuel h l (list_next h (some cur)) c

/-- The outer loop of `list_unique`; every inner loop gets `inner_fuel`. -/
def list_unique_outer (inner_fuel : Nat) :
    Nat → Heap → ListT → Option Ptr → Nat → Option (Nat × Heap × ListT)
  | _, h, l, none, c => some (c, h, l)
  | 0, _, _, some _, _ => none
  | fuel + 1, h, l, some pre, c =>
    match list_unique_inner pre inner_fuel h l (list_next h (some pre)) c with
    | none => none
    | some (c1, h1, l1) =>
      list_unique_outer inner_fuel fuel h1 l1 (list_next h1 (some pre)) c1

def list_unique (fuel : Nat) (h : Heap) (l : ListT) : Option (Nat × Heap × ListT) :=
  list_unique_outer fuel fuel h l l.head 0

/-- `list_swap(list1, list2)`: the memory is not touched. -/
def list_swap (list1 list2 : ListT) : ListT × ListT :=
  ({ list1 with head := list2.head, tail := list2.tail, free_list := list2.free_list,
                size := list2.size },
   { list2 with head := list1.head, tail := list1.tail, free_list := list1.free_list,
                size := list1.size })

/-! ## Splice -/

/-- The counting loop of `list_splice`: `move_count` for the run from `it`
up to `last` or `NULL`. -/
def splice_count (h : Heap) (last : Option Ptr) : Nat → Option Ptr → Nat → Option Nat
  | _, none, c => some c
  | 0, some p, c => if some p = last then some c else none
  | fuel + 1, some p, c =>
    if some p = last then some c
    else splice_count h last fuel (h p).next ((c + 1) % 65536)

/-- The loop `while (temp != NULL && temp->next != NULL) temp = temp->next`. -/
def splice_last (h : Heap) : Nat → Ptr → Option Ptr
  | 0, temp => if (h temp).next = none then some temp else none
  | fuel + 1, temp =>
    match (h temp).next with
    | none => some temp
    | some nx => splice_last h fuel nx

/-- The part of `list_splice` that unlinks the run from `list2` and closes
it: `before_first`, `after_last`, the two relinking branches, then
`first->prev = NULL` and, for `last != NULL`, `last_of_segment->next = NULL`.
`last_of_segment` is computed by the caller from the memory before. -/
def splice_detach (h : Heap) (list2 : ListT) (fst : Ptr) (last last_of_segment : Option Ptr) :
    Heap × ListT :=
  let before_first := (h fst).prev
  let after_last := match last with
    | some lst => some lst
    | none => list2.tail
  let h1 := match before_first with
    | some bf => set_next h bf after_last
    | none => h
  let l2a := match before_first with
    | some _ => list2
    | none => { list2 with head := after_last }
  let h2 := match after_last with
    | some al => set_prev h1 al before_first
    | none => h1
  let l2b := match after_last with
    | some _ => l2a
    | none => { l2a with tail := before_first }
  let h3 := set_prev h2 fst none
  let h4 := match last, last_of_segment with
    | some _, some ls => set_next h3 ls none
    | _, _ => h3
  (h4, l2b)

/-- The part of `list_splice` that links the run `fst .. last_of_segment`
into `list1` before `position` (at the end for `NULL`). -/
def splice_attach (h : Heap) (list1 : ListT) (position : Option Ptr) (fst : Ptr)
    (last_of_segment : Option Ptr) : Heap × ListT :=
  match position with
  | none =>
    let h5 := match list1.tail with
      | none => h
      | some tl => set_prev (set_next h tl (some fst)) fst (some tl)
    let l1a := match list1.tail with
      | none => { list1 with head := some fst }
      | some _ => list1
    (h5, { l1a with tail := last_of_segment })
  | some pos =>
    let before_position := (h pos).prev
    let h5 := match before_position with
      | some bp => set_prev (set_next h bp (some fst)) fst (some bp)
      | none => h
    let l1a := match before_position with
      | some _ => list1
      | none => { list1 with head := some fst }
    let h6 := set_prev h5 pos last_of_segment
    let h7 := match last_of_segment with
      | some ls => set_next h6 ls (some pos)
      | none => h6
    (h7, l1a)

/-- `list_splice(list1, position, list2, first, last)` for two distinct
`list_t` objects; the result is the return value, the memory, `list1`
and `list2`. -/
def list_splice (fuel : Nat) (h : Heap) (list1 : ListT) (position : Option Ptr)
    (list2 : ListT) (first last : Option Ptr) : Option (Bool × Heap × ListT × ListT) :=
  match first with
  | none => some (false, h, list1, list2)
  | some fst =>
    if list1.element_size ≠ list2.element_size then some (false, h, list1, list2)
    else
      match splice_count h last fuel first 0 with
      | none => none
      | some move_count =>
        if list1.size + move_count > list1.capacity then some (false, h, list1, list2)
        else
          let last_of_segment_opt : Option (Option Ptr) := match last with
            | some lst => some (h lst).prev
            | none => (splice_last h fuel fst).map some
          match last_of_segment_opt with
          | none => none
          | some last_of_segment =>
            let d := splice_detach h list2 fst last last_of_segment
            let a := splice_attach d.1 list1 position fst last_of_segment
            some (true, a.1,
              { a.2 with size := (a.2.size + move_count) % 65536 },
              { d.2 with size := (d.2.size + 65536 - move_count) % 65536 })

/-- `list_merge(list1, list2)`: the call
`list_splice(list1, NULL, list2, list2->head, list2->tail)`. -/
def list_merge (fuel : Nat) (h : Heap) (list1 list2 : ListT) :
    Option (Bool × Heap × ListT × ListT) :=
  list_splice fuel h list1 none list2 list2.head list2.tail

/-! ## Search -/

/-- The loop of `list_find_if` from `current`. -/
def list_find_if_loop (h : Heap) (l : ListT) (predicate : Option Pred) (value : Bytes) :
    Nat → Option Ptr → Option (Option Ptr)
  | _, none => some none
  | 0, some _ => none
  | fuel + 1, some current =>
    if node_matches h l predicate value current then some (some current)
    else list_find_if_loop h l predicate value fuel (h current).next

/-- `list_find_if(list, start, predicate, value)` with a non-`NULL` value;
the outer `Option` is `none` when the fuel runs out. -/
def list_find_if (fuel : Nat) (h : Heap) (l : ListT) (start : Option Ptr)
    (predicate : Option Pred) (value : Bytes) : Option (Option Ptr) :=
  list_find_if_loop h l predicate value fuel
    (match start with
     | some s => (h s).next
     | none => l.head)

def list_find (fuel : Nat) (h : Heap) (l : ListT) (value : Bytes) : Option (Option Ptr) :=
  list_find_if fuel h l none none value

/-- The type `list_foreach_func_t`: the callee gets the node as a writable
pointer and the caller's `user_data`, through which it can also reach the
list; the result is the memory, the list record and the user data as the
callee leaves them. -/
abbrev ForeachFunc (σ : Type) := Heap → ListT → Ptr → σ → Heap × ListT × σ

/-- The loop of `list_for_each_if`: `current->next` is read after the
callback has returned, from the memory as the callback left it. -/
def list_for_each_if_loop {σ : Type} (callback : ForeachFunc σ) :
    Nat → Heap → ListT → Option Ptr → σ → Option (Heap × ListT × σ)
  | _, h, l, none, user_data => some (h, l, user_data)
  | 0, _, _, some _, _ => none
  | fuel + 1, h, l, some current, user_data =>
    let r := callback h l current user_data
    list_for_each_if_loop callback fuel r.1 r.2.1 (r.1 current).next r.2.2

/-- `list_for_each_if(list, callback, user_data)`: the memory, the list
record and the user data after the call; `none` when the fuel runs out. A
`NULL` callback returns at once. -/
def list_for_each_if {σ : Type} (fuel : Nat) (h : Heap) (l : ListT)
    (callback : Option (ForeachFunc σ)) (user_data : σ) : Option (Heap × ListT × σ) :=
  match callback with
  | none => some (h, l, user_data)
  | some cb => list_for_each_if_loop cb fuel h l l.head user_data

/-! ## Persistence codec (`list_save.c`)

A buffer is the list of its bytes and `buffer_size` is its length.  A
read or write outside the buffer is undefined behaviour in C; here it
makes the operation return `none`.  The host is little-endian. -/

/-- The value of `sizeof(list_persist_header_t)`: three `uint16_t` fields. -/
def sizeof_list_persist_header_t : Nat := 6

def list_persist_node_size (element_size : Nat) : Nat := 2 + element_size

/-- `list_get_serialize_size`; the result is converted to `uint32_t`. -/
def list_get_serialize_size (l : ListT) : Nat :=
  (sizeof_list_persist_header_t + l.size * list_persist_node_size l.element_size) % 4294967296

def list_node_to_index (l : ListT) (node : Ptr) : Nat :=
  let node_size := LIST_NODE_SIZE l.element_size
  if node < l.node_pool ∨ (node - l.node_pool) % node_size ≠ 0 then 0xFFFF
  else
    let index := ((node - l.node_pool) / node_size) % 65536
    if index ≥ l.capacity then 0xFFFF else index

def list_index_to_node (l : ListT) (index : Nat) : Option Ptr :=
  if index ≥ l.capacity then none
  else some (l.node_pool + index * LIST_NODE_SIZE l.element_size)

/-- The two bytes of a `uint16_t` in host order. -/
def u16_bytes (v : Nat) : Bytes := [v % 256, v / 256 % 256]

/-- Load a `uint16_t` at byte offset `off`. -/
def read_u16 (buf : Bytes) (off : Nat) : Option Nat :=
  if off + 2 ≤ buf.length then
    some (buf.getD off 0 % 256 + 256 * (buf.getD (off + 1) 0 % 256))
  else none

/-- Load `n` bytes at byte offset `off`. -/
def read_bytes (buf : Bytes) (off n : Nat) : Option Bytes :=
  if off + n ≤ buf.length then some ((buf.drop off).take n) else none

/-- Store the bytes `bs` at byte offset `off`. -/
def write_bytes (buf : Bytes) (off : Nat) (bs : Bytes) : Option Bytes :=
  if off + bs.length ≤ buf.length then
    some (buf.take off ++ bs ++ buf.drop (off + bs.length))
  else none

/-- The record loop of `list_serialize`; the first argument is
`list->size - idx`, `node_ptr` is the byte offset of the next record. The
boolean is `false` when `list_node_to_index` reported an invalid node. -/
def serialize_loop (h : Heap) (l : ListT) :
    Nat → Option Ptr → Nat → Bytes → Option (Bool × Bytes)
  | 0, _, _, buf => some (true, buf)
  | _ + 1, none, _, buf => some (true, buf)
  | rem + 1, some cur, node_ptr, buf =>
    let node_idx := list_node_to_index l cur
    if node_idx = 0xFFFF then some (false, buf)
    else
      match write_bytes buf node_ptr (u16_bytes node_idx) with
      | none => none
      | some b1 =>
        match write_bytes b1 (node_ptr + 2) ((h cur).data.take l.element_size) with
        | none => none
        | some b2 =>
          serialize_loop h l rem (h cur).next
            (node_ptr + list_persist_node_size l.element_size) b2

/-- `list_serialize(list, buffer, buffer_size)`: the return value and the
new contents of the buffer. -/
def list_serialize (h : Heap) (l : ListT) (buffer : Bytes) : Option (Nat × Bytes) :=
  let required_size := list_get_serialize_size l
  if buffer.length < required_size then some (0, buffer)
  else
    match write_bytes buffer 0 (u16_bytes l.size) with
    | none => none
    | some b1 =>
      match write_bytes b1 2 (u16_bytes l.capacity) with
      | none => none
      | some b2 =>
        match write_bytes b2 4 (u16_bytes l.element_size) with
        | none => none
        | some b3 =>
          match serialize_loop h l l.size l.head sizeof_list_persist_header_t b3 with
          | none => none
          | some (false, b4) => some (0, b4)
          | some (true, b4) => some (required_size, b4)

/-- One iteration of the first free-list loop of `list_deserialize`. -/
def deser_free_step (l : ListT) (s : Heap × Option Ptr) (i : Nat) : Heap × Option Ptr :=
  (set_prev (set_next s.1 (node_at l i) s.2) (node_at l i) none, some (node_at l i))

/-- One iteration of the final free-list loop of `list_deserialize`. -/
def deser_rebuild_step (l : ListT) (node_used : List Bool) (s : Heap × Option Ptr) (i : Nat) :
    Heap × Option Ptr :=
  if node_used.getD i false then s
  else
    match list_index_to_node l i with
    | none => s
    | some node => (set_prev (set_next s.1 node s.2) node none, some node)

/-- The state of the record loop of `list_deserialize`. -/
structure DeserState where
  ok : Bool
  h : Heap
  l : ListT
  node_used : List Bool
  prev_node : Option Ptr

/-- The record loop of `list_deserialize`; the first argument is
`header->size - i`, `node_ptr` the byte offset of the next record. -/
def deserialize_loop (buffer : Bytes) (node_persist_size : Nat) :
    Nat → Nat → DeserState → Option DeserState
  | 0, _, s => some s
  | rem + 1, node_ptr, s =>
    match read_u16 buffer node_ptr with
    | none => none
    | some node_idx =>
      if node_idx ≥ s.l.capacity ∨ s.node_used.getD node_idx false then
        some { s with ok := false }
      else
        match list_index_to_node s.l node_idx with
        | none => some { s with ok := false }
        | some node =>
          match read_bytes buffer (node_ptr + 2) s.l.element_size with
          | none => none
          | some d =>
            let h1 := set_data s.h node (memcpy (s.h node).data d s.l.element_size)
            let h2 := set_prev h1 node s.prev_node
            let h3 := set_next h2 node none
            let h4 := match s.prev_node with
              | none => h3
              | some pv => set_next h3 pv (some node)
            let l1 := match s.prev_node with
              | none => { s.l with head := some node }
              | some _ => s.l
            deserialize_loop buffer node_persist_size rem (node_ptr + node_persist_size)
              { ok := true, h := h4, l := { l1 with size := (l1.size + 1) % 65536 },
                node_used := s.node_used.set node_idx true, prev_node := some node }

/-- `list_deserialize(list, buffer, buffer_size)`, the scratch array
`node_used` being allocated successfully; `fuel` bounds the walk of
`list_clear`. -/
def list_deserialize (fuel : Nat) (h : Heap) (l : ListT) (buffer : Bytes) :
    Option (Bool × Heap × ListT) :=
  match read_u16 buffer 0, read_u16 buffer 2, read_u16 buffer 4 with
  | some hsize, some hcapacity, some helement_size =>
    if hsize > hcapacity ∨ helement_size ≠ l.element_size ∨ l.capacity < hcapacity then
      some (false, h, l)
    else
      let node_persist_size := list_persist_node_size helement_size
      let required_size :=
        (sizeof_list_persist_header_t + hsize * node_persist_size) % 4294967296
      if buffer.length < required_size then some (false, h, l)
      else
        match list_clear fuel h l with
        | none => none
        | some (h1, l1) =>
          let r := (List.range l1.capacity).foldl (deser_free_step l1) (h1, none)
          let l2 := { l1 with free_list := r.2 }
          match deserialize_loop buffer node_persist_size hsize sizeof_list_persist_header_t
              { ok := true, h := r.1, l := l2,
                node_used := List.replicate l2.capacity false, prev_node := none } with
          | none => none
          | some s =>
            if s.ok then
              let l3 := { s.l with tail := s.prev_node }
              let r2 := (List.range l3.capacity).foldl
                (deser_rebuild_step l3 s.node_used) (s.h, none)
              some (true, r2.1, { l3 with free_list := r2.2 })
            else some (false, s.h, s.l)
  | _, _, _ => none

/-! ## Locking of the two-list operations -/

/-- One call of `LIST_LOCK(list)` or `LIST_UNLOCK(list)`; the mutex of a list
is named by the address of the list. -/
inductive LockOp where
  | lock (list : Ptr)
  | unlock (list : Ptr)
deriving DecidableEq

/-- The lock calls of `list_swap(list1, list2)` in program order. -/
def list_swap_locks (list1 list2 : Option Ptr) : List LockOp :=
  match list1, list2 with
  | some l1, some l2 => [LockOp.lock l1, LockOp.lock l2, LockOp.unlock l2, LockOp.unlock l1]
  | _, _ => []

/-- The lock calls of `list_splice(list1, position, list2, first, last)` in
program order; both the capacity failure and the success path release `list2`
and then `list1`. `element_size1` and `element_size2` are the element sizes
of the two lists. -/
def list_splice_locks (list1 list2 first : Option Ptr) (element_size1 element_size2 : Nat) :
    List LockOp :=
  match list1, list2, first with
  | some l1, some l2, some _ =>
    if element_size1 ≠ element_size2 then []
    else [LockOp.lock l1, LockOp.lock l2, LockOp.unlock l2, LockOp.unlock l1]
  | _, _, _ => []

/-- The lock calls of `list_merge(list1, list2)`, which is
`list_splice(list1, NULL, list2, list2->head, list2->tail)`. -/
def list_merge_locks (list1 list2 head2 : Option Ptr) (element_size1 element_size2 : Nat) :
    List LockOp :=
  list_splice_locks list1 list2 head2 element_size1 element_size2

/-- The two threads, 0 and 1. -/
abbrev Thread := Fin 2

/-- Two threads with the lock calls each still has to make, and the
recursive mutexes currently held: one entry `(list, thread)` per acquisition. -/
structure LockState where
  held : List (Ptr × Thread)
  todo0 : List LockOp
  todo1 : List LockOp
deriving DecidableEq

/-- The thread that holds the mutex of `list`, if any. -/
def holder (held : List (Ptr × Thread)) (list : Ptr) : Option Thread :=
  (held.find? (fun e => e.1 == list)).map (fun e => e.2)

/-- The lock calls thread `t` still has to make. -/
def todo_of (s : LockState) (t : Thread) : List LockOp := if t = 0 then s.todo0 else s.todo1

/-- The state after thread `t` made a call: its remaining calls are `ops`
and the held mutexes are `held`. -/
def set_todo (s : LockState) (t : Thread) (ops : List LockOp) (held : List (Ptr × Thread)) :
    LockState :=
  if t = 0 then { held := held, todo0 := ops, todo1 := s.todo1 }
  else { held := held, todo0 := s.todo0, todo1 := ops }

/-- One step of thread `t`: `none` when the thread has finished or waits for
a mutex held by the other thread. A recursive mutex can be taken again by its
holder. -/
def lock_step (s : LockState) (t : Thread) : Option LockState :=
  match todo_of s t with
  | [] => none
  | LockOp.lock m :: rest =>
    match holder s.held m with
    | none => some (set_todo s t rest ((m, t) :: s.held))
    | some o => if o = t then some (set_todo s t rest ((m, t) :: s.held)) else none
  | LockOp.unlock m :: rest => some (set_todo s t rest (s.held.erase (m, t)))

/-- Runs the threads in the order of `schedule`; a thread that cannot make
a step keeps waiting. -/
def lock_run (schedule : List Thread) (s : LockState) : LockState :=
  schedule.foldl (fun s t => (lock_step s t).getD s) s

/-- Both threads have returned. -/
def lock_finished (s : LockState) : Bool := s.todo0.isEmpty && s.todo1.isEmpty

/-- A thread still has lock calls to make and neither thread can make a step. -/
def deadlocked (s : LockState) : Bool :=
  !lock_finished s && (lock_step s 0).isNone && (lock_step s 1).isNone

/-- Thread 0 is about to make the calls `ops0` and thread 1 the calls `ops1`;
no mutex is held. -/
def lock_start (ops0 ops1 : List LockOp) : LockState :=
  { held := [], todo0 := ops0, todo1 := ops1 }

/-! ## Observations used by the statements -/

def nxt (h : Heap) : Ptr → Option Ptr := fun p => (h p).next

def prv (h : Heap) : Ptr → Option Ptr := fun p => (h p).prev

/-- Follow the links `f` from `p` until `NULL`; `none` when the fuel runs out. -/
def walk (f : Ptr → Option Ptr) : Nat → Option Ptr → Option (List Ptr)
  | _, none => some []
  | 0, some _ => none
  | n + 1, some p => (walk f n (f p)).map (fun r => p :: r)

/-- The nodes met walking `next` from `head`. -/
def forward_walk (fuel : Nat) (h : Heap) (l : ListT) : Option (List Ptr) :=
  walk (nxt h) fuel l.head

/-- The nodes met walking `prev` from `tail`. -/
def backward_walk (fuel : Nat) (h : Heap) (l : ListT) : Option (List Ptr) :=
  walk (prv h) fuel l.tail

/-- The nodes met walking `next` from `free_list`. -/
def free_walk (fuel : Nat) (h : Heap) (l : ListT) : Option (List Ptr) :=
  walk (nxt h) fuel l.free_list

/-- The `element_size` data bytes of a node, as `list_front` copies them out. -/
def elem (h : Heap) (l : ListT) (p : Ptr) : Bytes := (h p).data.take l.element_size

/-- The addresses of the `capacity` slots of the list's own pool. -/
def pool_nodes (l : ListT) : List Ptr := (List.range l.capacity).map (node_at l)

/-- `Chain f p xs q`: following `f` from `p` visits exactly `xs` and then
arrives at `q`. -/
def Chain (f : Ptr → Option Ptr) : Option Ptr → List Ptr → Option Ptr → Prop
  | p, [], q => p = q
  | p, x :: xs, q => p = some x ∧ Chain f (f x) xs q

instance Chain.dec (f : Ptr → Option Ptr) :
    ∀ (p : Option Ptr) (xs : List Ptr) (q : Option Ptr), Decidable (Chain f p xs q)
  | p, [], q => inferInstanceAs (Decidable (p = q))
  | _, x :: xs, q => @instDecidableAnd _ _ _ (Chain.dec f (f x) xs q)

/-- The link function after `if (o != NULL) o->link = v;`. -/
def redirect (f : Ptr → Option Ptr) (o v : Option Ptr) : Ptr → Option Ptr :=
  match o with
  | some x => Function.update f x v
  | none => f

/-- The entry pointer after `if (o != NULL) ...; else entry = v;`. -/
def entry (a o v : Option Ptr) : Option Ptr :=
  match o with
  | some _ => a
  | none => v

/-- The active chain of `l` is the doubly-linked sequence `act`: the
`next`-walk from `head` is `act`, the `prev`-walk from `tail` is its
reverse, no node occurs twice and `size` is its length. -/
def IsList (h : Heap) (l : ListT) (act : List Ptr) : Prop :=
  Chain (nxt h) l.head act none ∧ Chain (prv h) l.tail act.reverse none ∧
  act.Nodup ∧ l.size = act.length ∧ l.size ≤ l.capacity ∧ l.capacity < 65536

instance IsList.dec (h : Heap) (l : ListT) (act : List Ptr) : Decidable (IsList h l act) := by
  unfold IsList; infer_instance

/-- A list living entirely in its own pool: active chain `act`, free
chain `fr`, which together are exactly the pool slots. -/
def Valid (h : Heap) (l : ListT) (act fr : List Ptr) : Prop :=
  IsList h l act ∧ Chain (nxt h) l.free_list fr none ∧
  List.Perm (act ++ fr) (pool_nodes l)

instance Valid.dec (h : Heap) (l : ListT) (act fr : List Ptr) :
    Decidable (Valid h l act fr) := by
  unfold Valid; infer_instance

/-- The element sequence of the list in head-to-tail order. -/
def list_elems (fuel : Nat) (h : Heap) (l : ListT) : Option (List Bytes) :=
  (forward_walk fuel h l).map (fun act => act.map (elem h l))

/-- `p` is a node of the active chain of `l`. -/
def is_active (h : Heap) (l : ListT) (p : Ptr) : Bool :=
  match forward_walk l.capacity h l with
  | some act => decide (p ∈ act)
  | none => false

/-- A position argument: `NULL` or an active node. -/
def pos_ok (h : Heap) (l : ListT) (position : Option Ptr) : Bool :=
  match position with
  | none => true
  | some p => is_active h l p

/-- The heap after `list_alloc_node` returned `n` and `list_insert` copied
the element into it. -/
def ins_heap (h : Heap) (l : ListT) (n : Ptr) (e : Bytes) : Heap :=
  set_data (set_data (set_prev (set_next h n none) n none) n (memset (h n).data 0 l.element_size))
    n (memcpy (memset (h n).data 0 l.element_size) e l.element_size)

/-- Lists obtained from a freshly created list by insert / push / erase /
pop calls on valid positions. -/
inductive ReachIE : Heap → ListT → Prop
  | create {h0 : Heap} {pool cap es : Nat} {h : Heap} {l : ListT} :
      cap < 65536 → es < 65536 → list_create h0 pool cap es = some (h, l) → ReachIE h l
  | insert {h : Heap} {l : ListT} (position : Option Ptr) (e : Bytes) :
      ReachIE h l → pos_ok h l position = true →
      ReachIE (list_insert h l position e).2.1 (list_insert h l position e).2.2
  | push_front {h : Heap} {l : ListT} (e : Bytes) :
      ReachIE h l → ReachIE (list_push_front h l e).2.1 (list_push_front h l e).2.2
  | push_back {h : Heap} {l : ListT} (e : Bytes) :
      ReachIE h l → ReachIE (list_push_back h l e).2.1 (list_push_back h l e).2.2
  | erase {h : Heap} {l : ListT} (p : Ptr) :
      ReachIE h l → is_active h l p = true →
      ReachIE (list_erase h l (some p)).2.1 (list_erase h l (some p)).2.2
  | pop_front {h : Heap} {l : ListT} (out : Option Bytes) :
      ReachIE h l → ReachIE (list_pop_front h l out).2.2.1 (list_pop_front h l out).2.2.2
  | pop_back {h : Heap} {l : ListT} (out : Option Bytes) :
      ReachIE h l → ReachIE (list_pop_back h l out).2.2.1 (list_pop_back h l out).2.2.2

/-- Lists obtained from a freshly created list by the single-list
operations and by successful `list_deserialize` calls.  Operations that
walk the list are given at least `size` units of fuel. -/
inductive Reach : Heap → ListT → Prop
  | create {h0 : Heap} {pool cap es : Nat} {h : Heap} {l : ListT} :
      cap < 65536 → es < 65536 → list_create h0 pool cap es = some (h, l) → Reach h l
  | insert {h : Heap} {l : ListT} (position : Option Ptr) (e : Bytes) :
      Reach h l → pos_ok h l position = true →
      Reach (list_insert h l position e).2.1 (list_insert h l position e).2.2
  | push_front {h : Heap} {l : ListT} (e : Bytes) :
      Reach h l → Reach (list_push_front h l e).2.1 (list_push_front h l e).2.2
  | push_back {h : Heap} {l : ListT} (e : Bytes) :
      Reach h l → Reach (list_push_back h l e).2.1 (list_push_back h l e).2.2
  | erase {h : Heap} {l : ListT} (p : Ptr) :
      Reach h l → is_active h l p = true →
      Reach (list_erase h l (some p)).2.1 (list_erase h l (some p)).2.2
  | pop_front {h : Heap} {l : ListT} (out : Option Bytes) :
      Reach h l → Reach (list_pop_front h l out).2.2.1 (list_pop_front h l out).2.2.2
  | pop_back {h : Heap} {l : ListT} (out : Option Bytes) :
      Reach h l → Reach (list_pop_back h l out).2.2.1 (list_pop_back h l out).2.2.2
  | replace {h : Heap} {l : ListT} (position : Option Ptr) (e : Bytes) :
      Reach h l → pos_ok h l position = true →
      Reach (list_replace h l position e).2.1 (list_replace h l position e).2.2
  | clear {h : Heap} {l : ListT} (fuel : Nat) {H : Heap} {L : ListT} :
      Reach h l → l.size ≤ fuel → list_clear fuel h l = some (H, L) → Reach H L
  | reverse {h : Heap} {l : ListT} (fuel : Nat) {H : Heap} {L : ListT} :
      Reach h l → l.size ≤ fuel → list_reverse fuel h l = some (H, L) → Reach H L
  | remove_if {h : Heap} {l : ListT} (fuel : Nat) (predicate : Option Pred)
      (predicate_data : Bytes) {c : Nat} {H : Heap} {L : ListT} :
      Reach h l → l.size ≤ fuel →
      list_remove_if fuel h l predicate predicate_data = some (c, H, L) → Reach H L
  | remove {h : Heap} {l : ListT} (fuel : Nat) (value : Bytes) {c : Nat} {H : Heap}
      {L : ListT} :
      Reach h l → l.size ≤ fuel → list_remove fuel h l value = some (c, H, L) → Reach H L
  | unique {h : Heap} {l : ListT} (fuel : Nat) {c : Nat} {H : Heap} {L : ListT} :
      Reach h l → l.size ≤ fuel → list_unique fuel h l = some (c, H, L) → Reach H L
  | deserialize {h : Heap} {l : ListT} (fuel : Nat) (buffer : Bytes) {H : Heap} {L : ListT} :
      Reach h l → list_deserialize fuel h l buffer = some (true, H, L) → Reach H L

/-- The invariant of the record loop of `list_deserialize`: `done` are the
nodes claimed so far, in record order; `l0` is the list entering the loop. -/
def DeserInv (l0 : ListT) (s : DeserState) (done : List Ptr) : Prop :=
  s.l.capacity = l0.capacity ∧ s.l.element_size = l0.element_size ∧
  s.l.node_pool = l0.node_pool ∧
  Chain (nxt s.h) s.l.head done none ∧ Chain (prv s.h) s.prev_node done.reverse none ∧
  s.l.size = done.length ∧ done.Nodup ∧ s.node_used.length = l0.capacity ∧
  (∀ i, i < l0.capacity → (s.node_used.getD i false = true ↔ node_at l0 i ∈ done)) ∧
  (∀ x ∈ done, x ∈ pool_nodes l0)

/-- The pool slots below index `k` that no record claimed. -/
def unused_nodes (l : ListT) (node_used : List Bool) (k : Nat) : List Ptr :=
  ((List.range k).filter (fun i => !node_used.getD i false)).map (node_at l)

/-- The bytes of one persisted record: slot index, then element bytes. -/
def record_bytes (idx : Nat) (d : Bytes) : Bytes := u16_bytes idx ++ d

/-- The persisted image of a list whose active chain is `act`: header, then
one record per node in head-to-tail order. -/
def list_image (h : Heap) (l : ListT) (act : List Ptr) : Bytes :=
  u16_bytes l.size ++ u16_bytes l.capacity ++ u16_bytes l.element_size ++
    (act.map (fun p => record_bytes (list_node_to_index l p) (elem h l p))).flatten

/-- The `n` consecutive records of `2 + es` bytes that start at byte offset
`off` of a persisted image: the slot index field and the element bytes of
each. -/
def parse_records (buffer : Bytes) (es : Nat) : Nat → Nat → List (Nat × Bytes)
  | 0, _ => []
  | n + 1, off =>
    ((read_u16 buffer off).getD 0, (read_bytes buffer (off + 2) es).getD []) ::
      parse_records buffer es n (off + (2 + es))

/-- The acceptance condition of `list_deserialize` as the specification
states it, for a buffer whose header fields are `hsize`, `hcapacity` and
`helement_size`. -/
def accepts (l : ListT) (buffer : Bytes) (hsize hcapacity helement_size : Nat) : Prop :=
  hsize ≤ hcapacity ∧ helement_size = l.element_size ∧ hcapacity ≤ l.capacity ∧
  6 + hsize * (2 + helement_size) ≤ buffer.length ∧
  (∀ r ∈ parse_records buffer helement_size hsize 6, r.1 < l.capacity) ∧
  ((parse_records buffer helement_size hsize 6).map (fun r => r.1)).Nodup

instance accepts.dec (l : ListT) (buffer : Bytes) (hsize hcapacity helement_size : Nat) :
    Decidable (accepts l buffer hsize hcapacity helement_size) := by
  unfold accepts; infer_instance

/-- The resumable search of the tests: call `list_find_if` with the previous
result as `start` until it returns `NULL`, collecting the results; the first
argument bounds the number of calls. -/
def find_all (fuel : Nat) (h : Heap) (l : ListT) (predicate : Option Pred) (value : Bytes) :
    Nat → Option Ptr → Option (List Ptr)
  | 0, _ => none
  | n + 1, start =>
    match list_find_if fuel h l start predicate value with
    | none => none
    | some none => some []
    | some (some it) => (find_all fuel h l predicate value n (some it)).map (fun r => it :: r)

/-- Scanning head to tail, keep a node exactly when no earlier node carries
the same bytes (`seen` holds the bytes met so far). -/
def first_occurrences (key : Ptr → Bytes) : List Bytes → List Ptr → List Ptr
  | _, [] => []
  | seen, x :: xs =>
    if seen.contains (key x) then first_occurrences key seen xs
    else x :: first_occurrences key (key x :: seen) xs

/-- What the two loops of `list_unique` compute on the node sequence: keep
the first node and delete its duplicates from the rest, then go on with the
next remaining node; `n` bounds the number of rounds. -/
def unique_rounds (key : Ptr → Bytes) : Nat → List Ptr → List Ptr
  | 0, _ => []
  | _ + 1, [] => []
  | n + 1, pre :: rest => pre :: unique_rounds key n (rest.filter (fun x => !(key pre == key x)))

/-- A sequence of `list_insert` calls, each before the node `list_at(list,
index)` (at the end when that is `NULL`): the return values in call order and
the final memory and list. -/
def insert_all : List (Int × Bytes) → Heap × ListT → List Bool × Heap × ListT
  | [], s => ([], s)
  | (index, e) :: rest, s =>
    let r := list_insert s.1 s.2 (list_at s.1 s.2 index) e
    let t := insert_all rest (r.2.1, r.2.2)
    (r.1 :: t.1, t.2)

/-! ## Concrete lists -/

/-- Memory in which no node has been written yet. -/
def mem0 : Heap := fun _ => ⟨none, none, []⟩

/-- The four bytes of a 32-bit `int` in host order. -/
def le32 (v : Nat) : Bytes := [v % 256, v / 256 % 256, v / 65536 % 256, v / 16777216 % 256]

/-- A list of `int` created by `list_create(cap, sizeof(int))` with its pool at `pool`. -/
def demo_create (pool cap : Nat) : Heap × ListT :=
  (list_create mem0 pool cap 4).getD (mem0, ⟨none, none, 0, 0, 0, none, 0⟩)

def demo_push (s : Heap × ListT) (v : Nat) : Heap × ListT :=
  ((list_push_back s.1 s.2 (le32 v)).2.1, (list_push_back s.1 s.2 (le32 v)).2.2)

/-- The list obtained by `push_back` of the values `vs` in turn. -/
def demo_list (pool cap : Nat) (vs : List Nat) : Heap × ListT :=
  vs.foldl demo_push (demo_create pool cap)

/-- The list `[1, 2, 3]` in a pool of five slots at address 1000. -/
def demo3 : Heap × ListT := demo_list 1000 5 [1, 2, 3]

/-- The full list `[1, 2, 3, 4, 5]` in a pool of five slots at address 1000. -/
def demo5 : Heap × ListT := demo_list 1000 5 [1, 2, 3, 4, 5]

/-- The scenario `pop_front` then `pop_back` on `demo5`, each into a zeroed
four-byte output buffer. -/
def demo5_pops : (Bool × Option Bytes) × (Bool × Option Bytes) × ListT :=
  let r1 := list_pop_front demo5.1 demo5.2 (some [0, 0, 0, 0])
  let r2 := list_pop_back r1.2.2.1 r1.2.2.2 (some [0, 0, 0, 0])
  ((r1.1, r1.2.1), (r2.1, r2.2.1), r2.2.2.2)

/-- Two lists of `int` in one memory, with pools of ten slots at addresses
1000 and 2000, filled by `push_back` with `vs1` and `vs2`. -/
def demo_pair (vs1 vs2 : List Nat) : Heap × ListT × ListT :=
  let a := demo_create 1000 10
  let b := (list_create a.1 2000 10 4).getD (a.1, ⟨none, none, 0, 0, 0, none, 0⟩)
  let s1 := vs1.foldl demo_push (b.1, a.2)
  let s2 := vs2.foldl demo_push (s1.1, b.2)
  (s2.1, s1.2, s2.2)

/-- The lists `[1, 2, 3]` and `[10, 20, 30, 40]`. -/
def demoA : Heap × ListT × ListT := demo_pair [1, 2, 3] [10, 20, 30, 40]

/-- The lists `[1, 3, 5]` and `[2, 4, 6]`. -/
def demoB : Heap × ListT × ListT := demo_pair [1, 3, 5] [2, 4, 6]

/-- An empty destination and the source `[1, 2]`. -/
def demoC : Heap × ListT × ListT := demo_pair [] [1, 2]

/-- The result of `list_splice(dest, NULL, src, src->head, NULL)` on `demoC`. -/
def demoC_spliced : Option (Bool × Heap × ListT × ListT) :=
  list_splice 10 demoC.1 demoC.2.1 none demoC.2.2 demoC.2.2.head none

/-- The result of `list_splice(list1, NULL, list2, node(20), node(30))` on `demoA`. -/
def demoA_spliced : Option (Bool × Heap × ListT × ListT) :=
  list_splice 10 demoA.1 demoA.2.1 none demoA.2.2 (some 2020) (some 2040)

/-- The result of `list_splice(list1, NULL, list2, node(20), node(20))` on
`demoA`: an empty run in the middle of the source. -/
def demoA_empty_run : Option (Bool × Heap × ListT × ListT) :=
  list_splice 10 demoA.1 demoA.2.1 none demoA.2.2 (some 2020) (some 2020)

/-- The result of `list_splice(list1, node(2), list2, node(10), node(10))` on
`demoA`: an empty run at the head of the source, placed before an inner node. -/
def demoA_empty_run_head : Option (Bool × Heap × ListT × ListT) :=
  list_splice 10 demoA.1 demoA.2.1 (some 1020) demoA.2.2 (some 2000) (some 2000)

/-- `n` successive `list_push_back` calls of the element `e`. -/
def fill (e : Bytes) : Nat → Heap × ListT → Heap × ListT
  | 0, s => s
  | n + 1, s =>
    ((list_push_back (fill e n s).1 (fill e n s).2 e).2.1,
     (list_push_back (fill e n s).1 (fill e n s).2 e).2.2)

/-- The list made by `list_create(65535, 65535)` with its pool at address 4096. -/
def big_created : Heap × ListT :=
  list_init_free_list mem0
    { head := none, tail := none, size := 0, capacity := 65535, element_size := 65535,
      free_list := none, node_pool := 4096 }

/-- The list of 65535 elements of 65535 zero bytes each: `list_create(65535,
65535)` followed by 65535 `list_push_back` calls. -/
def big_list : Heap × ListT := fill (List.replicate 65535 0) 65535 big_created

/-- The lists `[1, 2, 3]` and `[7]`. -/
def demoD : Heap × ListT × ListT := demo_pair [1, 2, 3] [7]

/-- The result of `list_merge(list1, list2)` on `demoD`. -/
def demoD_merged : Option (Bool × Heap × ListT × ListT) :=
  list_merge 10 demoD.1 demoD.2.1 demoD.2.2

/-- The result of `list_splice(list1, NULL, list2, node(20), node(40))` on `demoA`. -/
def demoA_spliced40 : Option (Bool × Heap × ListT × ListT) :=
  list_splice 10 demoA.1 demoA.2.1 none demoA.2.2 (some 2020) (some 2060)

/-- The list `[1, 2, 3, 2, 4, 2, 5]` in a pool of ten slots at address 1000. -/
def demo7 : Heap × ListT := demo_list 1000 10 [1, 2, 3, 2, 4, 2, 5]

/-- The predicate `is_even` of the tests: the `int` stored in the element
is even, which is decided by its lowest byte. -/
def is_even : Pred := fun list_data _ => list_data.getD 0 0 % 2 == 0

/-- The image of an empty list of capacity 10 with 4-byte elements. -/
def buf_cap10 : Bytes := u16_bytes 0 ++ u16_bytes 10 ++ u16_bytes 4

/-- An image of a list of capacity 5 whose two records both name slot 1. -/
def buf_dup : Bytes :=
  u16_bytes 2 ++ u16_bytes 5 ++ u16_bytes 4 ++ record_bytes 1 (le32 7) ++ record_bytes 1 (le32 8)

/-- The result of `list_deserialize` of `buf_dup` into a fresh list of
capacity 5. -/
def demo_dup : Option (Bool × Heap × ListT) :=
  list_deserialize 5 (demo_create 1000 5).1 (demo_create 1000 5).2 buf_dup

/-- An image of a list of capacity 5 whose second record names slot 9. -/
def buf_oob : Bytes :=
  u16_bytes 2 ++ u16_bytes 5 ++ u16_bytes 4 ++ record_bytes 1 (le32 7) ++ record_bytes 9 (le32 8)

/-- The result of `list_deserialize` of `buf_oob` into a fresh list of
capacity 5. -/
def demo_oob : Option (Bool × Heap × ListT) :=
  list_deserialize 5 (demo_create 1000 5).1 (demo_create 1000 5).2 buf_oob

/-- An image of a list of capacity 5 with the two records `(slot 3, 7)` and
`(slot 1, 8)`. -/
def buf_two : Bytes :=
  u16_bytes 2 ++ u16_bytes 5 ++ u16_bytes 4 ++ record_bytes 3 (le32 7) ++ record_bytes 1 (le32 8)

/-- The memory and list after `list_deserialize` of `buf_two` into the list
`[1, 2, 3]` of capacity 5. -/
def demo_restored : Heap × ListT :=
  ((list_deserialize 5 demo3.1 demo3.2 buf_two).getD (false, demo3.1, demo3.2)).2

/-- A buffer of six bytes: the header `size = capacity = element_size =
65535` and no record. -/
def buf_wrap : Bytes := u16_bytes 65535 ++ u16_bytes 65535 ++ u16_bytes 65535

/-- The list `[1, 1, 2, 2, 2, 2, 3, 4, 4, 5, 1]` in a pool of eleven slots. -/
def demo11 : Heap × ListT := demo_list 1000 11 [1, 1, 2, 2, 2, 2, 3, 4, 4, 5, 1]

/-- The list `[1, 2, 3, 2, 4, 2, 5, 2, 6]` in a pool of twenty slots. -/
def demo9 : Heap × ListT := demo_list 1000 20 [1, 2, 3, 2, 4, 2, 5, 2, 6]

/-- The lists `[1, 2, 3]` and `[4, 5]`. -/
def demoE : Heap × ListT × ListT := demo_pair [1, 2, 3] [4, 5]

/-- The callback `count_all` of the tests: it increments the counter behind
`user_data`. -/
def count_all : ForeachFunc Nat := fun h l _ count => (h, l, count + 1)

/-- A callback that records the node it is called on. -/
def record_node : ForeachFunc (List Ptr) := fun h l it seen => (h, l, seen ++ [it])

/-- The callback `callback` with a log of the nodes it is called on. -/
def logged {σ : Type} (callback : ForeachFunc σ) : ForeachFunc (σ × List Ptr) :=
  fun h l it u =>
    ((callback h l it u.1).1, (callback h l it u.1).2.1,
      ((callback h l it u.1).2.2, u.2 ++ [it]))

/-- A callback that overwrites the element of its node with `value` and
counts the calls. -/
def overwrite_with (value : Bytes) : ForeachFunc Nat :=
  fun h l it count =>
    (set_data h it (memcpy (h it).data value l.element_size), l, count + 1)

/-- A callback that calls `list_erase(list, it)` when the element of its node
equals `value`, and records the node it is called on. -/
def erase_matching (value : Bytes) : ForeachFunc (List Ptr) :=
  fun h l it seen =>
    if memcmp_eq (h it).data value l.element_size then
      ((list_erase h l (some it)).2.1, (list_erase h l (some it)).2.2, seen ++ [it])
    else (h, l, seen ++ [it])

/-- The source list of `demoA_spliced` (`[10, 30, 40]` after the node of `20`
was moved away) followed by six `list_push_back` calls. -/
def demoA_src_filled : Heap × ListT :=
  [50, 60, 70, 80, 90, 100].foldl demo_push
    ((demoA_spliced.getD (false, demoA.1, demoA.2.1, demoA.2.2)).2.1,
     (demoA_spliced.getD (false, demoA.1, demoA.2.1, demoA.2.2)).2.2.2)

/-- The image `buf_two` followed by three more bytes. -/
def buf_two_more : Bytes := buf_two ++ [9, 9, 9]

/-- The records of the slots 0 to `n - 1` in this order, each with `es` zero
bytes of data. -/
def zero_records (n es : Nat) : List (Nat × Bytes) :=
  (List.range n).map (fun i => (i, List.replicate es 0))

/-- The image with the header `size = n`, `capacity`, `element_size = es`
followed by the records of `zero_records n es`. -/
def zero_image (n capacity es : Nat) : Bytes :=
  u16_bytes n ++ (u16_bytes capacity ++ (u16_bytes es ++
    (((zero_records n es).map (fun r => record_bytes r.1 r.2)).flatten ++ [])))

/-- The image with the header `size = capacity = element_size = 65535`
followed by the 65535 records of the slots 0 to 65534 with 65535 zero bytes
each: 4294967301 bytes. -/
def big_image : Bytes := zero_image 65535 65535 65535

section heap
variable (h : Heap) (p q : Ptr) (v : Option Ptr) (d : Bytes)

@[simp] theorem set_next_next : (set_next h p v q).next = if q = p then v else (h q).next := by
  unfold set_next; split <;> rfl
@[simp] theorem set_next_prev : (set_next h p v q).prev = (h q).prev := by
  unfold set_next; split <;> rfl
@[simp] theorem set_next_data : (set_next h p v q).data = (h q).data := by
  unfold set_next; split <;> rfl
@[simp] theorem set_prev_next : (set_prev h p v q).next = (h q).next := by
  unfold set_prev; split <;> rfl
@[simp] theorem set_prev_prev : (set_prev h p v q).prev = if q = p then v else (h q).prev := by
  unfold set_prev; split <;> rfl
@[simp] theorem set_prev_data : (set_prev h p v q).data = (h q).data := by
  unfold set_prev; split <;> rfl
@[simp] theorem set_data_next : (set_data h p d q).next = (h q).next := by
  unfold set_data; split <;> rfl
@[simp] theorem set_data_prev : (set_data h p d q).prev = (h q).prev := by
  unfold set_data; split <;> rfl
@[simp] theorem set_data_data : (set_data h p d q).data = if q = p then d else (h q).data := by
  unfold set_data; split <;> rfl

@[simp] theorem nxt_set_next : nxt (set_next h p v) = Function.update (nxt h) p v := by
  funext x; simp [nxt, Function.update_apply]
@[simp] theorem nxt_set_prev : nxt (set_prev h p v) = nxt h := by
  funext x; simp [nxt]
@[simp] theorem nxt_set_data : nxt (set_data h p d) = nxt h := by
  funext x; simp [nxt]
@[simp] theorem prv_set_prev : prv (set_prev h p v) = Function.update (prv h) p v := by
  funext x; simp [prv, Function.update_apply]
@[simp] theorem prv_set_next : prv (set_next h p v) = prv h := by
  funext x; simp [prv]
@[simp] theorem prv_set_data : prv (set_data h p d) = prv h := by
  funext x; simp [prv]
end heap

section chain
variable {f g : Ptr → Option Ptr}

@[simp] theorem chain_nil {a b : Option Ptr} : Chain f a [] b ↔ a = b := Iff.rfl

@[simp] theorem chain_cons {a b : Option Ptr} {x : Ptr} {xs : List Ptr} :
    Chain f a (x :: xs) b ↔ a = some x ∧ Chain f (f x) xs b := Iff.rfl

theorem chain_append {a b : Option Ptr} {xs ys : List Ptr} :
    Chain f a (xs ++ ys) b ↔ ∃ m, Chain f a xs m ∧ Chain f m ys b := by
  induction xs generalizing a with
  | nil => simp
  | cons x xs ih =>
    simp only [List.cons_append, chain_cons, ih]
    constructor
    · rintro ⟨h1, m, h2, h3⟩; exact ⟨m, ⟨h1, h2⟩, h3⟩
    · rintro ⟨m, ⟨h1, h2⟩, h3⟩; exact ⟨h1, m, h2, h3⟩

theorem chain_split {a b : Option Ptr} {x : Ptr} {xs ys : List Ptr} :
    Chain f a (xs ++ x :: ys) b ↔ Chain f a xs (some x) ∧ Chain f (f x) ys b := by
  rw [chain_append]
  constructor
  · rintro ⟨m, h1, h2, h3⟩; subst h2; exact ⟨h1, h3⟩
  · rintro ⟨h1, h3⟩; exact ⟨_, h1, rfl, h3⟩

theorem chain_snoc {a b : Option Ptr} {x : Ptr} {xs : List Ptr} :
    Chain f a (xs ++ [x]) b ↔ Chain f a xs (some x) ∧ f x = b := by
  rw [chain_split]; simp

theorem chain_congr {a b : Option Ptr} {xs : List Ptr} (hfg : ∀ x ∈ xs, f x = g x) :
    Chain f a xs b ↔ Chain g a xs b := by
  induction xs generalizing a with
  | nil => simp
  | cons x xs ih =>
    simp only [chain_cons]
    rw [hfg x (List.mem_cons_self _ _), ih (fun y hy => hfg y (List.mem_cons_of_mem _ hy))]

theorem chain_update {a b : Option Ptr} {xs : List Ptr} {p : Ptr} {v : Option Ptr}
    (hp : p ∉ xs) : Chain (Function.update f p v) a xs b ↔ Chain f a xs b := by
  apply chain_congr
  intro x hx
  have : x ≠ p := fun e => hp (e ▸ hx)
  simp [Function.update_noteq this]

theorem chain_head {a b : Option Ptr} {xs : List Ptr} (hc : Chain f a xs b) (hne : xs ≠ []) :
    a = xs.head? := by
  cases xs with
  | nil => exact absurd rfl hne
  | cons x xs => simpa using hc.1

theorem chain_unique {a : Option Ptr} {xs ys : List Ptr}
    (h1 : Chain f a xs none) (h2 : Chain f a ys none) : xs = ys := by
  induction xs generalizing a ys with
  | nil =>
    cases ys with
    | nil => rfl
    | cons y ys => simp at h1; subst h1; simp at h2
  | cons x xs ih =>
    cases ys with
    | nil => simp at h2; subst h2; simp at h1
    | cons y ys =>
      obtain ⟨e1, c1⟩ := h1
      obtain ⟨e2, c2⟩ := h2
      have : x = y := by rw [e1] at e2; exact Option.some.inj e2
      subst this
      rw [ih c1 c2]

theorem walk_of_chain {a : Option Ptr} {xs : List Ptr} (hc : Chain f a xs none)
    {n : Nat} (hn : xs.length ≤ n) : walk f n a = some xs := by
  induction xs generalizing a n with
  | nil => simp at hc; subst hc; cases n <;> rfl
  | cons x xs ih =>
    obtain ⟨e, c⟩ := hc
    subst e
    cases n with
    | zero => simp at hn
    | succ n =>
      simp only [walk]
      rw [ih c (by simpa using hn)]; rfl

theorem chain_of_walk {a : Option Ptr} {xs : List Ptr} {n : Nat}
    (hw : walk f n a = some xs) : Chain f a xs none := by
  induction n generalizing a xs with
  | zero =>
    cases a with
    | none => simp [walk] at hw; subst hw; simp
    | some p => simp [walk] at hw
  | succ n ih =>
    cases a with
    | none => simp [walk] at hw; subst hw; simp
    | some p =>
      simp only [walk, Option.map_eq_some'] at hw
      obtain ⟨r, hr, e⟩ := hw
      subst e
      exact ⟨rfl, ih hr⟩

end chain

theorem LIST_NODE_SIZE_pos (es : Nat) : 0 < LIST_NODE_SIZE es := by
  unfold LIST_NODE_SIZE sizeof_list_node_t; omega

theorem node_at_inj (l : ListT) {i j : Nat} (e : node_at l i = node_at l j) : i = j := by
  unfold node_at at e
  have hp := LIST_NODE_SIZE_pos l.element_size
  have : i * LIST_NODE_SIZE l.element_size = j * LIST_NODE_SIZE l.element_size :=
    Nat.add_left_cancel e
  exact Nat.eq_of_mul_eq_mul_right hp this

theorem pool_nodes_nodup (l : ListT) : (pool_nodes l).Nodup := by
  unfold pool_nodes
  exact (List.nodup_range _).map (fun i j e => node_at_inj l e)

theorem pool_nodes_length (l : ListT) : (pool_nodes l).length = l.capacity := by
  simp [pool_nodes]

theorem Valid.nodup {h : Heap} {l : ListT} {act fr : List Ptr} (hv : Valid h l act fr) :
    (act ++ fr).Nodup := (hv.2.2.nodup_iff).2 (pool_nodes_nodup l)

theorem Valid.length {h : Heap} {l : ListT} {act fr : List Ptr} (hv : Valid h l act fr) :
    act.length + fr.length = l.capacity := by
  have := hv.2.2.length_eq
  simpa [pool_nodes_length] using this

theorem IsList.tail_eq {h : Heap} {l : ListT} {act : List Ptr} (hl : IsList h l act) :
    l.tail = act.getLast? := by
  rcases List.eq_nil_or_concat act with e | ⟨xs, x, e⟩
  · subst e; simpa using hl.2.1
  · subst e
    have := hl.2.1
    simp only [List.concat_eq_append, List.reverse_append, List.reverse_cons, List.reverse_nil,
      List.nil_append, List.cons_append, chain_cons] at this
    simp [this.1]

theorem IsList.head_eq {h : Heap} {l : ListT} {act : List Ptr} (hl : IsList h l act) :
    l.head = act.head? := by
  cases act with
  | nil => simpa using hl.1
  | cons x xs => simpa using hl.1.1

theorem Valid.free_cons {h : Heap} {l : ListT} {act fr : List Ptr} (hv : Valid h l act fr)
    (hlt : l.size < l.capacity) :
    ∃ n fr', fr = n :: fr' ∧ l.free_list = some n ∧ Chain (nxt h) (h n).next fr' none := by
  have hlen := hv.length
  have hsz := hv.1.2.2.2.1
  cases fr with
  | nil => simp at hlen; omega
  | cons n fr' =>
    have := hv.2.1
    exact ⟨n, fr', rfl, this.1, this.2⟩

theorem nxt_ins_heap (h l n e) : nxt (ins_heap h l n e) = Function.update (nxt h) n none := by
  simp [ins_heap]
theorem prv_ins_heap (h l n e) : prv (ins_heap h l n e) = Function.update (prv h) n none := by
  simp [ins_heap]
theorem ins_heap_prev (h l n e q) : (ins_heap h l n e q).prev = if q = n then none else (h q).prev := by
  simp [ins_heap]
theorem ins_heap_data (h l n e q) : (ins_heap h l n e q).data =
    if q = n then memcpy (memset (h n).data 0 l.element_size) e l.element_size else (h q).data := by
  simp [ins_heap]; split <;> simp

theorem list_insert_none_empty {h : Heap} {l : ListT} {n : Ptr} (e : Bytes)
    (hlt : l.size < l.capacity) (hfl : l.free_list = some n) (ht : l.tail = none) :
    list_insert h l none e = (true, ins_heap h l n e,
      { l with head := some n, tail := some n, size := (l.size + 1) % 65536,
               free_list := (h n).next }) := by
  have hnlt : ¬ l.size ≥ l.capacity := by omega
  simp [list_insert, hnlt, list_alloc_node, hfl, ht, ins_heap]

theorem list_insert_none_tail {h : Heap} {l : ListT} {n tl : Ptr} (e : Bytes)
    (hlt : l.size < l.capacity) (hfl : l.free_list = some n) (ht : l.tail = some tl) :
    list_insert h l none e = (true,
      set_prev (set_next (ins_heap h l n e) tl (some n)) n (some tl),
      { l with tail := some n, size := (l.size + 1) % 65536, free_list := (h n).next }) := by
  have hnlt : ¬ l.size ≥ l.capacity := by omega
  simp [list_insert, hnlt, list_alloc_node, hfl, ht, ins_heap]

theorem list_insert_some_prev {h : Heap} {l : ListT} {n pos pp : Ptr} (e : Bytes)
    (hlt : l.size < l.capacity) (hfl : l.free_list = some n) (hne : pos ≠ n)
    (hp : (h pos).prev = some pp) :
    list_insert h l (some pos) e = (true,
      set_prev (set_next (set_prev (set_next (ins_heap h l n e) n (some pos)) n (some pp))
        pp (some n)) pos (some n),
      { l with size := (l.size + 1) % 65536, free_list := (h n).next }) := by
  have hnlt : ¬ l.size ≥ l.capacity := by omega
  simp [list_insert, hnlt, list_alloc_node, hfl, ins_heap, hne, hp]

theorem list_insert_some_head {h : Heap} {l : ListT} {n pos : Ptr} (e : Bytes)
    (hlt : l.size < l.capacity) (hfl : l.free_list = some n) (hne : pos ≠ n)
    (hp : (h pos).prev = none) :
    list_insert h l (some pos) e = (true,
      set_prev (set_prev (set_next (ins_heap h l n e) n (some pos)) n none) pos (some n),
      { l with head := some n, size := (l.size + 1) % 65536, free_list := (h n).next }) := by
  have hnlt : ¬ l.size ≥ l.capacity := by omega
  simp [list_insert, hnlt, list_alloc_node, hfl, ins_heap, hne, hp]

theorem nodup_act_free {act fr' : List Ptr} {n : Ptr} (hnd : (act ++ n :: fr').Nodup) :
    act.Nodup ∧ n ∉ act ∧ n ∉ fr' ∧ fr'.Nodup ∧ ∀ x ∈ fr', x ∉ act := by
  rw [List.nodup_append, List.nodup_cons] at hnd
  obtain ⟨h1, ⟨h2, h3⟩, h4⟩ := hnd
  refine ⟨h1, fun hm => h4 hm (List.mem_cons_self _ _), h2, h3, fun x hx hm => h4 hm (List.mem_cons_of_mem _ hx)⟩

theorem eq_nil_or_snoc {α : Type} (l : List α) : l = [] ∨ ∃ xs x, l = xs ++ [x] := by
  rcases List.eq_nil_or_concat l with e | ⟨xs, x, e⟩
  · exact Or.inl e
  · exact Or.inr ⟨xs, x, by simpa using e⟩

theorem insert_valid {h : Heap} {l : ListT} {pre post fr : List Ptr}
    (hv : Valid h l (pre ++ post) fr) (hlt : l.size < l.capacity) (e : Bytes) :
    ∃ n fr' H L, fr = n :: fr' ∧ list_insert h l post.head? e = (true, H, L) ∧
      Valid H L (pre ++ n :: post) fr' ∧
      (H n).data = memcpy (memset (h n).data 0 l.element_size) e l.element_size ∧
      (∀ q, q ≠ n → (H q).data = (h q).data) ∧
      L.size = l.size + 1 ∧
      L.capacity = l.capacity ∧ L.element_size = l.element_size ∧ L.node_pool = l.node_pool := by
  obtain ⟨n, fr', hfr, hfl, hfc⟩ := hv.free_cons hlt
  subst hfr
  have hnd := hv.nodup
  have hlen := hv.length
  obtain ⟨⟨hf, hb, hn, hs, hc, h16⟩, -, hperm⟩ := hv
  have hmod : (l.size + 1) % 65536 = l.size + 1 := Nat.mod_eq_of_lt (by omega)
  have hperm' : ∀ L : ListT, L.capacity = l.capacity → L.element_size = l.element_size →
      L.node_pool = l.node_pool → List.Perm (pre ++ n :: post ++ fr') (pool_nodes L) := by
    intro L h1 h2 h3
    have : pool_nodes L = pool_nodes l := by simp [pool_nodes, node_at, h1, h2, h3]
    rw [this]
    refine List.Perm.trans ?_ hperm
    simp only [List.append_assoc, List.cons_append]
    exact (List.perm_append_left_iff pre).2 List.perm_middle.symm
  have hsz : (l.size + 1) % 65536 = (pre ++ n :: post).length := by
    rw [hmod, hs]; simp; omega
  have hcap : (l.size + 1) % 65536 ≤ l.capacity := by rw [hmod]; omega
  obtain ⟨hnd1, hn1, hn2, hnd2, hdis⟩ := nodup_act_free hnd
  have hnodup : (pre ++ n :: post).Nodup := List.nodup_middle.2 (List.nodup_cons.2 ⟨hn1, hnd1⟩)
  simp only [List.mem_append, not_or] at hn1 hdis
  refine ⟨n, fr', ?_⟩
  cases post with
  | nil =>
    rcases eq_nil_or_snoc pre with ea | ⟨xs, x, ea⟩
    · subst ea
      simp only [List.nil_append, chain_nil, List.reverse_nil] at hf hb
      refine ⟨_, _, rfl, list_insert_none_empty e hlt hfl hb, ?_⟩
      refine ⟨⟨⟨?_, ?_, ?_, ?_, ?_, ?_⟩, ?_, hperm' _ rfl rfl rfl⟩, ?_⟩
      · simp [nxt_ins_heap]
      · simp [prv_ins_heap]
      · simp
      · exact hsz
      · exact hcap
      · exact h16
      · simp [nxt_ins_heap]; rw [chain_update hn2]; exact hfc
      · simp [ins_heap_data, hmod]; intro q hq; simp [hq]
    · subst ea
      simp only [List.concat_eq_append, List.append_nil, List.reverse_append, List.reverse_cons,
        List.reverse_nil, List.nil_append, List.cons_append, chain_cons, chain_snoc] at hf hb
      simp only [List.concat_eq_append, List.append_nil, List.mem_append, List.mem_singleton, not_or,
        List.not_mem_nil, not_false_eq_true, and_true] at hn1 hdis hnd1
      obtain ⟨hnxs, hnx⟩ := hn1
      have hxn : x ≠ n := fun e => hnx e.symm
      have hnd1' := List.nodup_append.1 hnd1
      have hxxs : x ∉ xs := fun hm => hnd1'.2.2 hm (List.mem_singleton_self _)
      refine ⟨_, _, rfl, list_insert_none_tail e hlt hfl hb.1, ?_⟩
      refine ⟨⟨⟨?_, ?_, ?_, ?_, ?_, ?_⟩, ?_, hperm' _ rfl rfl rfl⟩, ?_⟩
      · simp [nxt_ins_heap, chain_split, chain_update, hxxs, hnxs, hf.1, hnx, hxn]
      · simp [prv_ins_heap, chain_update, hxxs, hnxs, hb.2, hnx, hxn]
      · simpa using hnodup
      · simpa using hsz
      · exact hcap
      · exact h16
      · simp only [nxt_set_prev, nxt_set_next, nxt_ins_heap]
        rw [chain_update (fun hm => (hdis x hm).2 rfl), chain_update hn2]; exact hfc
      · simp [ins_heap_data, hmod, hxn]; intro q hq; simp [hq]
  | cons pos post' =>
    simp only [List.mem_cons, not_or] at hn1 hdis
    obtain ⟨hnpre, hnpos, hnpost⟩ := hn1
    have hposn : pos ≠ n := fun e => hnpos e.symm
    have hnd1' := List.nodup_append.1 hnd1
    have hpospre : pos ∉ pre := fun hm => hnd1'.2.2 hm (List.mem_cons_self _ _)
    have hpospost : pos ∉ post' := (List.nodup_cons.1 hnd1'.2.1).1
    simp only [List.reverse_append, List.reverse_cons, List.append_assoc, List.singleton_append,
      chain_split] at hf hb
    rcases eq_nil_or_snoc pre with ea | ⟨xs, pp, ea⟩
    · subst ea
      simp only [List.reverse_nil, chain_nil] at hf hb
      refine ⟨_, _, rfl, list_insert_some_head e hlt hfl hposn hb.2, ?_⟩
      refine ⟨⟨⟨?_, ?_, ?_, ?_, ?_, ?_⟩, ?_, hperm' _ rfl rfl rfl⟩, ?_⟩
      · simp [nxt_ins_heap, chain_update, hnpost, hf.2, hposn]
      · simp [prv_ins_heap, chain_split, chain_update, hnpost, hpospost, hb.1, hposn, hnpos]
      · simpa using hnodup
      · simpa using hsz
      · exact hcap
      · exact h16
      · simp only [nxt_set_prev, nxt_set_next, nxt_ins_heap]
        rw [chain_update hn2, chain_update hn2]; exact hfc
      · simp [ins_heap_data, hmod, hposn]; intro q hq; simp [hq]
    · subst ea
      simp only [List.concat_eq_append, List.reverse_append, List.reverse_cons, List.reverse_nil,
        List.nil_append, List.singleton_append, chain_cons, chain_snoc] at hf hb
      simp only [List.concat_eq_append, List.mem_append, List.mem_singleton, not_or] at hnpre hpospre hdis
      have hnd1'' := List.nodup_append.1 hnd1'.1
      have hppxs : pp ∉ xs := fun hm => hnd1''.2.2 hm (List.mem_singleton_self _)
      have hpppost : pp ∉ post' := fun hm =>
        hnd1'.2.2 (List.mem_append_right _ (List.mem_singleton_self _)) (List.mem_cons_of_mem _ hm)
      have hpppos : pp ≠ pos := fun e => hpospre.2 e.symm
      have hppn : pp ≠ n := fun e => hnpre.2 e.symm
      refine ⟨_, _, rfl, list_insert_some_prev e hlt hfl hposn hb.2.1, ?_⟩
      refine ⟨⟨⟨?_, ?_, ?_, ?_, ?_, ?_⟩, ?_, hperm' _ rfl rfl rfl⟩, ?_⟩
      · simp [nxt_ins_heap, chain_split, chain_update, hnpost, hf.2, hf.1.1, hposn, hppn, hppxs,
          hpppost, hnpre.1, hnpre.2, hpppos, hpppos.symm]
      · simp [prv_ins_heap, chain_split, chain_update, hnpost, hpospost, hb.1, hb.2.2, hposn, hnpos,
          hppn, hppxs, hnpre.1, hnpre.2, hpppos, hpppos.symm, hpospre.1]
      · simpa using hnodup
      · simpa using hsz
      · exact hcap
      · exact h16
      · simp only [nxt_set_prev, nxt_set_next, nxt_ins_heap]
        rw [chain_update (fun hm => (hdis pp hm).1.2 rfl), chain_update hn2, chain_update hn2]
        exact hfc
      · simp [ins_heap_data, hmod, hposn]; intro q hq; simp [hq]

theorem chain_none_head {f : Ptr → Option Ptr} {a : Option Ptr} {xs : List Ptr}
    (hc : Chain f a xs none) : a = xs.head? := by
  cases xs with
  | nil => simpa using hc
  | cons x xs => simpa using hc.1

/-- The links of an active node are its neighbours in the sequence. -/
theorem IsList.links {h : Heap} {l : ListT} {pre post : List Ptr} {x : Ptr}
    (hl : IsList h l (pre ++ x :: post)) :
    (h x).next = post.head? ∧ (h x).prev = pre.getLast? ∧
    Chain (nxt h) l.head pre (some x) ∧ Chain (nxt h) post.head? post none ∧
    Chain (prv h) l.tail post.reverse (some x) ∧ Chain (prv h) pre.getLast? pre.reverse none := by
  obtain ⟨hf, hb, -⟩ := hl
  simp only [List.reverse_append, List.reverse_cons, List.append_assoc, List.singleton_append,
    chain_split] at hf hb
  have e1 : nxt h x = post.head? := chain_none_head hf.2
  have e2 : prv h x = pre.getLast? := by
    have := chain_none_head hb.2
    simpa [List.head?_reverse] using this
  exact ⟨e1, e2, hf.1, e1 ▸ hf.2, hb.1, e2 ▸ hb.2⟩

theorem list_erase_eq {h : Heap} {l : ListT} {pos : Ptr} {pv nx : Option Ptr}
    (hp : (h pos).prev = pv) (hn : (h pos).next = nx) (hne : pv ≠ some pos) :
    list_erase h l (some pos) = (true,
      set_next
        (match nx with
          | some pn => set_prev (match pv with | some pp => set_next h pp nx | none => h) pn pv
          | none => (match pv with | some pp => set_next h pp nx | none => h))
        pos l.free_list,
      { l with head := (match pv with | some _ => l.head | none => nx),
               tail := (match nx with | some _ => l.tail | none => pv),
               free_list := some pos,
               size := (l.size + 65535) % 65536 }) := by
  unfold list_erase
  cases pv with
  | none =>
    cases nx with
    | none => simp [list_free_node, hp, hn]
    | some pn => simp [list_free_node, hp, hn]
  | some pp =>
    have hpp : pos ≠ pp := fun e => hne (by rw [e])
    cases nx with
    | none => simp [list_free_node, hp, hn, hpp]
    | some pn => simp [list_free_node, hp, hn, hpp]

theorem erase_valid {h : Heap} {l : ListT} {pre post fr : List Ptr} {pos : Ptr}
    (hv : Valid h l (pre ++ pos :: post) fr) :
    ∃ H L, list_erase h l (some pos) = (true, H, L) ∧
      Valid H L (pre ++ post) (pos :: fr) ∧
      (∀ q, (H q).data = (h q).data) ∧
      L.size + 1 = l.size ∧
      L.capacity = l.capacity ∧ L.element_size = l.element_size ∧ L.node_pool = l.node_pool := by
  have hnd := hv.nodup
  obtain ⟨hl, hfc, hperm⟩ := hv
  obtain ⟨hnx, hpv, hf1, hf2, hb1, hb2⟩ := hl.links
  obtain ⟨-, -, hn, hs, hc, h16⟩ := hl
  have hs1 : 1 ≤ l.size := by rw [hs]; simp; omega
  have hmod : (l.size + 65535) % 65536 = l.size - 1 := by omega
  have hperm' : ∀ L : ListT, L.capacity = l.capacity → L.element_size = l.element_size →
      L.node_pool = l.node_pool → List.Perm (pre ++ post ++ pos :: fr) (pool_nodes L) := by
    intro L h1 h2 h3
    have : pool_nodes L = pool_nodes l := by simp [pool_nodes, node_at, h1, h2, h3]
    rw [this]
    refine List.Perm.trans ?_ hperm
    simp only [List.append_assoc, List.cons_append]
    refine (List.perm_append_left_iff pre).2 ?_
    exact List.perm_middle
  have hnd0 : (pre ++ post).Nodup := by
    have := List.nodup_middle.1 hn
    exact (List.nodup_cons.1 this).2
  have hpos0 : pos ∉ pre ++ post := (List.nodup_cons.1 (List.nodup_middle.1 hn)).1
  simp only [List.mem_append, not_or] at hpos0
  have hfr : ∀ x ∈ fr, x ∉ pre ∧ x ≠ pos ∧ x ∉ post := by
    intro x hx
    have := (List.nodup_append.1 hnd).2.2
    refine ⟨fun hm => this (List.mem_append_left _ hm) hx, ?_, fun hm => this (by simp [hm]) hx⟩
    rintro rfl; exact this (by simp) hx
  have hposfr : pos ∉ fr := fun hm => (hfr pos hm).2.1 rfl
  have hsz : (l.size + 65535) % 65536 = (pre ++ post).length := by
    rw [hmod, hs]; simp
  have hne : pre.getLast? ≠ some pos := by
    intro e
    exact hpos0.1 (List.mem_of_getLast?_eq_some e)
  have hdata : ∀ (H : Heap), (∀ q, (H q).data = (h q).data) → ∀ q, (set_next H pos l.free_list q).data = (h q).data := by
    intro H hH q; simp [hH]
  rcases eq_nil_or_snoc pre with ea | ⟨xs, pp, ea⟩ <;> rcases post with _ | ⟨pn, post'⟩ <;>
    subst ea <;>
    simp at hnx hpv hf1 hf2 hb1 hb2 hpos0 hfr hne hnd0 <;>
    refine ⟨_, _, list_erase_eq hpv hnx (by simp [hne]), ?_⟩ <;>
    refine ⟨⟨⟨?_, ?_, ?_, ?_, ?_, ?_⟩, ?_, hperm' _ rfl rfl rfl⟩, ?_⟩
  · simp
  · simp
  · simp
  · simpa using hsz
  · show (l.size + 65535) % 65536 ≤ l.capacity
    omega
  · exact h16
  · simp [chain_update, hposfr, hfc]
  · simp; omega
  -- head
  · simp [chain_update, hf2, hpos0, Ne.symm hpos0.1]
  · simp [chain_snoc] at hb1 ⊢
    have : pn ∉ post' := hnd0.1
    simp [chain_update, hb1, this]
  · simpa using hnd0
  · simpa using hsz
  · show (l.size + 65535) % 65536 ≤ l.capacity
    omega
  · exact h16
  · simp [chain_update, hposfr, hfc]
  · simp; omega
  -- tail
  · simp [chain_snoc] at hf1 ⊢
    have : pp ∉ xs := fun hm => (List.nodup_append.1 hnd0).2.2 hm (List.mem_singleton_self _)
    simp [chain_update, hf1, this, hpos0, hne]
  · simp [chain_update, hb2]
  · simpa using hnd0
  · simpa using hsz
  · show (l.size + 65535) % 65536 ≤ l.capacity
    omega
  · exact h16
  · have : pp ∉ fr := fun hm => (hfr pp hm).1.2 rfl
    simp [chain_update, hposfr, hfc, this]
  · simp; omega
  -- middle
  · simp [chain_snoc] at hf1
    have h1 : pp ∉ xs := fun hm => (List.nodup_append.1 hnd0).2.2 hm (List.mem_cons_self _ _)
    have h2 := List.nodup_cons.1 (List.nodup_append.1 hnd0).2.1
    simp at h2
    simp [chain_split, chain_update, hf1, hf2, h1, h2, hpos0, hne, Ne.symm hpos0.2.1, Ne.symm h2.1.1]
  · simp [chain_snoc] at hb1
    have h1 : pp ∉ xs := fun hm => (List.nodup_append.1 hnd0).2.2 hm (List.mem_cons_self _ _)
    have h2 := List.nodup_cons.1 (List.nodup_append.1 hnd0).2.1
    have h3 : pn ∉ xs := fun hm => (List.nodup_append.1 hnd0).2.2 hm (by simp)
    simp at h2
    have h4 := h2.2.1
    simp [chain_split, chain_update, hb1, hb2, h1, h2, h3, h4, Ne.symm h2.1.1]
  · simpa using hnd0
  · simpa using hsz
  · show (l.size + 65535) % 65536 ≤ l.capacity
    omega
  · exact h16
  · have : pp ∉ fr := fun hm => (hfr pp hm).1.2 rfl
    simp [chain_update, hposfr, hfc, this]
  · simp; omega

theorem node_at_zero (l : ListT) : node_at l 0 = l.node_pool := by simp [node_at]

theorem init_fold_other (l : ListT) (h : Heap) (k : Nat) (q : Ptr)
    (hq : ∀ i, i < k → q ≠ node_at l i) :
    (List.range k).foldl (init_free_step l) h q = h q := by
  induction k with
  | zero => simp
  | succ k ih =>
    rw [List.range_succ, List.foldl_append]
    simp only [List.foldl_cons, List.foldl_nil, init_free_step, set_prev, set_next]
    have := hq k (Nat.lt_succ_self k)
    simp [this, ih (fun i hi => hq i (Nat.lt_succ_of_lt hi))]

theorem init_fold_next (l : ListT) (h : Heap) (k i : Nat) (hi : i < k) :
    nxt ((List.range k).foldl (init_free_step l) h) (node_at l i) =
      (if i < l.capacity - 1 then some (node_at l (i + 1)) else none) := by
  induction k with
  | zero => omega
  | succ k ih =>
    rw [List.range_succ, List.foldl_append]
    simp only [List.foldl_cons, List.foldl_nil, init_free_step, nxt_set_prev, nxt_set_next]
    by_cases e : i = k
    · subst e; simp
    · have : node_at l i ≠ node_at l k := fun e' => e (node_at_inj l e')
      rw [Function.update_noteq this]
      exact ih (by omega)

theorem chain_range {f : Ptr → Option Ptr} {g : Nat → Ptr} {n : Nat}
    (hf : ∀ i, i < n → f (g i) = if i + 1 < n then some (g (i + 1)) else none) :
    ∀ m j, j + m = n →
      Chain f (if m = 0 then none else some (g j)) ((List.range' j m).map g) none := by
  intro m
  induction m with
  | zero => intro j _; simp
  | succ m ih =>
    intro j hj
    simp only [List.range'_succ, List.map_cons, chain_cons, Nat.succ_ne_zero, if_false, true_and]
    rw [hf j (by omega)]
    have := ih (j + 1) (by omega)
    by_cases hm : m = 0
    · subst hm; simp at this ⊢; omega
    · simp only [hm, if_false] at this
      have h2 : j + 1 < n := by omega
      simpa [h2] using this

theorem init_free_chain (h : Heap) (l : ListT) (hcap : 0 < l.capacity) :
    Chain (nxt ((List.range l.capacity).foldl (init_free_step l) h)) (some l.node_pool)
      (pool_nodes l) none := by
  have key := chain_range (f := nxt ((List.range l.capacity).foldl (init_free_step l) h))
    (g := node_at l) (n := l.capacity) ?_ l.capacity 0 (by simp)
  · have hc0 : l.capacity ≠ 0 := by omega
    simp only [hc0, if_false, node_at_zero] at key
    simpa [pool_nodes, List.range_eq_range'] using key
  · intro i hi
    rw [init_fold_next l h l.capacity i hi]
    have : (i < l.capacity - 1) ↔ (i + 1 < l.capacity) := by omega
    simp [this]

theorem pool_nodes_congr {l l' : ListT} (h1 : l'.capacity = l.capacity)
    (h2 : l'.element_size = l.element_size) (h3 : l'.node_pool = l.node_pool) :
    pool_nodes l' = pool_nodes l := by
  simp [pool_nodes, node_at, h1, h2, h3]

theorem list_create_valid {h0 : Heap} {pool cap es : Nat} {h : Heap} {l : ListT}
    (hc : cap < 65536) (hcr : list_create h0 pool cap es = some (h, l)) :
    Valid h l [] (pool_nodes l) ∧ l.capacity = cap ∧ l.element_size = es ∧ l.node_pool = pool ∧
      l.size = 0 ∧ 0 < cap ∧ 0 < es := by
  unfold list_create at hcr
  split at hcr
  · simp at hcr
  · rename_i hne
    simp only [not_or] at hne
    simp only [list_init_free_list, Option.some.injEq, Prod.mk.injEq] at hcr
    obtain ⟨hh, hl⟩ := hcr
    subst hl
    refine ⟨⟨⟨?_, ?_, ?_, ?_, ?_, ?_⟩, ?_, ?_⟩, rfl, rfl, rfl, rfl, by omega, by omega⟩
    · simp
    · simp
    · simp
    · simp
    · simp
    · exact hc
    · subst hh
      exact init_free_chain h0 _ (by simp; omega)
    · simp

theorem IsList.forward {h : Heap} {l : ListT} {act : List Ptr} (hl : IsList h l act)
    {fuel : Nat} (hf : act.length ≤ fuel) : forward_walk fuel h l = some act :=
  walk_of_chain hl.1 hf

theorem IsList.backward {h : Heap} {l : ListT} {act : List Ptr} (hl : IsList h l act)
    {fuel : Nat} (hf : act.length ≤ fuel) : backward_walk fuel h l = some act.reverse :=
  walk_of_chain hl.2.1 (by simpa using hf)

theorem IsList.length_le {h : Heap} {l : ListT} {act : List Ptr} (hl : IsList h l act) :
    act.length ≤ l.capacity := by
  have h1 := hl.2.2.2.1
  have h2 := hl.2.2.2.2.1
  omega

theorem IsList.active_iff {h : Heap} {l : ListT} {act : List Ptr} (hl : IsList h l act)
    (p : Ptr) : is_active h l p = true ↔ p ∈ act := by
  unfold is_active
  rw [hl.forward hl.length_le]
  simp

theorem IsList.elems {h : Heap} {l : ListT} {act : List Ptr} (hl : IsList h l act)
    {fuel : Nat} (hf : act.length ≤ fuel) : list_elems fuel h l = some (act.map (elem h l)) := by
  unfold list_elems
  rw [hl.forward hf]; rfl

/-- In a well-formed list `A.next = B` implies `B.prev = A`. -/
theorem IsList.next_prev {h : Heap} {l : ListT} {act : List Ptr} (hl : IsList h l act)
    {a b : Ptr} (ha : a ∈ act) (hab : (h a).next = some b) : (h b).prev = some a := by
  obtain ⟨pre, post, e⟩ := List.append_of_mem ha
  subst e
  have h1 := hl.links.1
  rw [hab] at h1
  cases post with
  | nil => simp at h1
  | cons c post' =>
    simp at h1
    subst h1
    have e2 : pre ++ a :: b :: post' = (pre ++ [a]) ++ b :: post' := by simp
    rw [e2] at hl
    have := hl.links.2.1
    simpa using this

theorem valid_insert {h : Heap} {l : ListT} {act fr : List Ptr} (hv : Valid h l act fr)
    {position : Option Ptr} (hp : pos_ok h l position = true) (e : Bytes) :
    ∃ act' fr', Valid (list_insert h l position e).2.1 (list_insert h l position e).2.2 act' fr' := by
  by_cases hlt : l.size < l.capacity
  · cases position with
    | none =>
      have hv' : Valid h l (act ++ []) fr := by simpa using hv
      obtain ⟨n, fr', H, L, -, he, hV, -⟩ := insert_valid hv' hlt e
      simp only [List.head?_nil] at he
      rw [he]
      exact ⟨_, _, hV⟩
    | some p =>
      have hm : p ∈ act := (hv.1.active_iff p).1 hp
      obtain ⟨pre, post, e'⟩ := List.append_of_mem hm
      subst e'
      obtain ⟨n, fr', H, L, -, he, hV, -⟩ := insert_valid hv hlt e
      simp only [List.head?_cons] at he
      rw [he]
      exact ⟨_, _, hV⟩
  · have : list_insert h l position e = (false, h, l) := by
      unfold list_insert
      simp [Nat.le_of_not_lt hlt]
    rw [this]
    exact ⟨_, _, hv⟩

theorem valid_erase {h : Heap} {l : ListT} {act fr : List Ptr} (hv : Valid h l act fr)
    {p : Ptr} (hp : is_active h l p = true) :
    ∃ act' fr', Valid (list_erase h l (some p)).2.1 (list_erase h l (some p)).2.2 act' fr' := by
  have hm : p ∈ act := (hv.1.active_iff p).1 hp
  obtain ⟨pre, post, e'⟩ := List.append_of_mem hm
  subst e'
  obtain ⟨H, L, he, hV, -⟩ := erase_valid hv
  rw [he]
  exact ⟨_, _, hV⟩

theorem IsList.head_active {h : Heap} {l : ListT} {act : List Ptr} (hl : IsList h l act)
    {x : Ptr} (hx : l.head = some x) : is_active h l x = true := by
  rw [hl.active_iff]
  have := hl.head_eq
  rw [hx] at this
  exact List.mem_of_mem_head? this.symm

theorem IsList.tail_active {h : Heap} {l : ListT} {act : List Ptr} (hl : IsList h l act)
    {x : Ptr} (hx : l.tail = some x) : is_active h l x = true := by
  rw [hl.active_iff]
  have := hl.tail_eq
  rw [hx] at this
  exact List.mem_of_getLast?_eq_some this.symm

theorem valid_push_front {h : Heap} {l : ListT} {act fr : List Ptr} (hv : Valid h l act fr)
    (e : Bytes) :
    ∃ act' fr', Valid (list_push_front h l e).2.1 (list_push_front h l e).2.2 act' fr' := by
  unfold list_push_front
  apply valid_insert hv
  cases hh : l.head with
  | none => rfl
  | some x => exact hv.1.head_active hh

theorem valid_push_back {h : Heap} {l : ListT} {act fr : List Ptr} (hv : Valid h l act fr)
    (e : Bytes) :
    ∃ act' fr', Valid (list_push_back h l e).2.1 (list_push_back h l e).2.2 act' fr' :=
  valid_insert hv (show pos_ok h l none = true from rfl) e

theorem list_pop_front_none {h : Heap} {l : ListT} (out : Option Bytes) (hh : l.head = none) :
    list_pop_front h l out = (false, out, h, l) := by
  simp [list_pop_front, hh]

theorem list_pop_front_some {h : Heap} {l : ListT} (out : Option Bytes) {x : Ptr}
    (hh : l.head = some x) :
    list_pop_front h l out = ((list_erase h l (some x)).1,
      out.map (fun e => memcpy e (h x).data l.element_size),
      (list_erase h l (some x)).2.1, (list_erase h l (some x)).2.2) := by
  simp [list_pop_front, hh]

theorem list_pop_back_none {h : Heap} {l : ListT} (out : Option Bytes) (hh : l.tail = none) :
    list_pop_back h l out = (false, out, h, l) := by
  simp [list_pop_back, hh]

theorem list_pop_back_some {h : Heap} {l : ListT} (out : Option Bytes) {x : Ptr}
    (hh : l.tail = some x) :
    list_pop_back h l out = ((list_erase h l (some x)).1,
      out.map (fun e => memcpy e (h x).data l.element_size),
      (list_erase h l (some x)).2.1, (list_erase h l (some x)).2.2) := by
  simp [list_pop_back, hh]

theorem valid_pop_front {h : Heap} {l : ListT} {act fr : List Ptr} (hv : Valid h l act fr)
    (out : Option Bytes) :
    ∃ act' fr', Valid (list_pop_front h l out).2.2.1 (list_pop_front h l out).2.2.2 act' fr' := by
  cases hh : l.head with
  | none => rw [list_pop_front_none out hh]; exact ⟨act, fr, hv⟩
  | some x =>
    rw [list_pop_front_some out hh]
    show ∃ act' fr', Valid (list_erase h l (some x)).2.1 (list_erase h l (some x)).2.2 act' fr'
    exact valid_erase hv (hv.1.head_active hh)

theorem valid_pop_back {h : Heap} {l : ListT} {act fr : List Ptr} (hv : Valid h l act fr)
    (out : Option Bytes) :
    ∃ act' fr', Valid (list_pop_back h l out).2.2.1 (list_pop_back h l out).2.2.2 act' fr' := by
  cases hh : l.tail with
  | none => rw [list_pop_back_none out hh]; exact ⟨act, fr, hv⟩
  | some x =>
    rw [list_pop_back_some out hh]
    show ∃ act' fr', Valid (list_erase h l (some x)).2.1 (list_erase h l (some x)).2.2 act' fr'
    exact valid_erase hv (hv.1.tail_active hh)

theorem ReachIE.valid {h : Heap} {l : ListT} (hr : ReachIE h l) : ∃ act fr, Valid h l act fr := by
  induction hr with
  | create hc _ hcr => exact ⟨_, _, (list_create_valid hc hcr).1⟩
  | insert position e _ hp ih =>
    obtain ⟨act, fr, hv⟩ := ih
    exact valid_insert hv hp e
  | push_front e _ ih =>
    obtain ⟨act, fr, hv⟩ := ih
    exact valid_push_front hv e
  | push_back e _ ih =>
    obtain ⟨act, fr, hv⟩ := ih
    exact valid_push_back hv e
  | erase p _ hp ih =>
    obtain ⟨act, fr, hv⟩ := ih
    exact valid_erase hv hp
  | pop_front out _ ih =>
    obtain ⟨act, fr, hv⟩ := ih
    exact valid_pop_front hv out
  | pop_back out _ ih =>
    obtain ⟨act, fr, hv⟩ := ih
    exact valid_pop_back hv out

/-- C2. Structural invariant under insert/erase: for every list obtained from a
freshly created list by `list_insert` (at `NULL` or before an active node),
`list_push_front`, `list_push_back`, `list_erase` of an active node,
`list_pop_front` and `list_pop_back`, the count is at most the capacity, the
walk along `next` from `head` visits exactly `size` nodes, the walk along `prev`
from `tail` visits the same nodes in reverse order, and `A.next = B` for an
active `A` implies `B.prev = A`. -/
theorem insert_erase_invariant {h : Heap} {l : ListT} (hr : ReachIE h l) :
    l.size ≤ l.capacity ∧
    ∃ act : List Ptr, act.length = l.size ∧
      (∀ fuel, l.size ≤ fuel →
        forward_walk fuel h l = some act ∧ backward_walk fuel h l = some act.reverse) ∧
      (∀ a ∈ act, ∀ b, (h a).next = some b → (h b).prev = some a) := by
  obtain ⟨act, fr, hv⟩ := hr.valid
  have hs := hv.1.2.2.2.1
  refine ⟨hv.1.2.2.2.2.1, act, hs.symm, ?_, ?_⟩
  · intro fuel hf
    exact ⟨hv.1.forward (by omega), hv.1.backward (by omega)⟩
  · intro a ha b hab
    exact hv.1.next_prev ha hab

theorem demo3_reach : ReachIE demo3.1 demo3.2 :=
  ReachIE.push_back (le32 3) (ReachIE.push_back (le32 2) (ReachIE.push_back (le32 1)
    (ReachIE.create (by decide : 5 < 65536) (by decide : 4 < 65536) rfl)))

theorem insert_erase_invariant_witness :
    ReachIE demo3.1 demo3.2 ∧ demo3.2.size ≤ demo3.2.capacity ∧
    ∃ act : List Ptr, act.length = demo3.2.size ∧
      (∀ fuel, demo3.2.size ≤ fuel →
        forward_walk fuel demo3.1 demo3.2 = some act ∧
        backward_walk fuel demo3.1 demo3.2 = some act.reverse) ∧
      (∀ a ∈ act, ∀ b, (demo3.1 a).next = some b → (demo3.1 b).prev = some a) :=
  ⟨demo3_reach, insert_erase_invariant demo3_reach⟩

/-- C4. Insert on a full list fails without side effects: when `size == capacity`,
`list_insert` at any position, `list_push_front` and `list_push_back` return
false and leave the memory (links, element bytes, free list) and the list
record (head, tail, size, free-list head) exactly as they were. -/
theorem list_insert_full (h : Heap) (l : ListT) (position : Option Ptr) (e : Bytes)
    (hfull : l.size = l.capacity) :
    list_insert h l position e = (false, h, l) ∧
    list_push_front h l e = (false, h, l) ∧
    list_push_back h l e = (false, h, l) := by
  have h1 : ∀ pos, list_insert h l pos e = (false, h, l) := by
    intro pos
    unfold list_insert
    simp [hfull]
  exact ⟨h1 _, h1 _, h1 _⟩

theorem list_insert_full_witness :
    demo5.2.size = demo5.2.capacity ∧
    (list_insert demo5.1 demo5.2 (some 1040) (le32 6) = (false, demo5.1, demo5.2) ∧
     list_push_front demo5.1 demo5.2 (le32 6) = (false, demo5.1, demo5.2) ∧
     list_push_back demo5.1 demo5.2 (le32 6) = (false, demo5.1, demo5.2)) :=
  ⟨by decide, list_insert_full demo5.1 demo5.2 (some 1040) (le32 6) (by decide)⟩

theorem elem_insert {h : Heap} {l L : ListT} {H : Heap} {n : Ptr} {e : Bytes}
    (hes : L.element_size = l.element_size) (he : l.element_size ≤ e.length)
    (hd : (H n).data = memcpy (memset (h n).data 0 l.element_size) e l.element_size) :
    elem H L n = e.take l.element_size := by
  unfold elem
  rw [hd, hes, memcpy]
  rw [List.take_append_of_le_length (by simp [he])]
  simp

theorem elem_frame {h H : Heap} {l L : ListT} {q : Ptr}
    (hes : L.element_size = l.element_size) (hd : (H q).data = (h q).data) :
    elem H L q = elem h l q := by
  unfold elem; rw [hd, hes]

/-- C5. Insert position semantics: on a well-formed list that lives in its own
pool (the active chain and the free list together hold each of the `capacity`
pool slots once, so free-list length plus count is the capacity) with
`size < capacity`, for an element buffer of at least `element_size` bytes,
`list_insert` with position `NULL` returns true and appends the new node at the
tail, and with an active node `p` returns true and places the new node
immediately before `p` (at the head when `p` is the head); in both cases `size`
grows by one, the new node holds the `element_size` bytes of the element and no
other node's bytes change. -/
theorem insert_position_semantics (h : Heap) (l : ListT) (act fr : List Ptr) (e : Bytes)
    (hv : Valid h l act fr) (hlt : l.size < l.capacity) (he : l.element_size ≤ e.length) :
    (∃ n H L, list_insert h l none e = (true, H, L) ∧ L.size = l.size + 1 ∧
      elem H L n = e.take l.element_size ∧ (∀ q, q ≠ n → (H q).data = (h q).data) ∧
      ∀ fuel, L.size ≤ fuel →
        forward_walk fuel H L = some (act ++ [n]) ∧
        list_elems fuel H L = some (act.map (elem h l) ++ [e.take l.element_size])) ∧
    (∀ pre p post, act = pre ++ p :: post →
      ∃ n H L, list_insert h l (some p) e = (true, H, L) ∧ L.size = l.size + 1 ∧
        elem H L n = e.take l.element_size ∧ (∀ q, q ≠ n → (H q).data = (h q).data) ∧
        ∀ fuel, L.size ≤ fuel →
          forward_walk fuel H L = some (pre ++ n :: p :: post) ∧
          list_elems fuel H L =
            some (pre.map (elem h l) ++ e.take l.element_size :: (p :: post).map (elem h l))) := by
  have key : ∀ pre post, act = pre ++ post →
      ∃ n H L, list_insert h l post.head? e = (true, H, L) ∧ L.size = l.size + 1 ∧
        elem H L n = e.take l.element_size ∧ (∀ q, q ≠ n → (H q).data = (h q).data) ∧
        ∀ fuel, L.size ≤ fuel →
          forward_walk fuel H L = some (pre ++ n :: post) ∧
          list_elems fuel H L =
            some (pre.map (elem h l) ++ e.take l.element_size :: post.map (elem h l)) := by
    intro pre post hact
    subst hact
    have hnd := hv.nodup
    obtain ⟨n, fr', H, L, hfr, hins, hV, hdn, hdo, hsz, -, hes, -⟩ := insert_valid hv hlt e
    subst hfr
    have hn : n ∉ pre ++ post := (nodup_act_free hnd).2.1
    simp only [List.mem_append, not_or] at hn
    have hlen : (pre ++ n :: post).length = L.size := hV.1.2.2.2.1.symm
    refine ⟨n, H, L, hins, hsz, elem_insert hes he hdn, hdo, ?_⟩
    intro fuel hf
    refine ⟨hV.1.forward (by omega), ?_⟩
    rw [hV.1.elems (by omega)]
    simp only [List.map_append, List.map_cons, elem_insert hes he hdn]
    congr 2
    · apply List.map_congr_left
      intro q hq
      exact elem_frame hes (hdo q (fun e' => hn.1 (e' ▸ hq)))
    · congr 1
      apply List.map_congr_left
      intro q hq
      exact elem_frame hes (hdo q (fun e' => hn.2 (e' ▸ hq)))
  constructor
  · simpa using key act [] (by simp)
  · intro pre p post hact
    simpa using key pre (p :: post) hact

theorem insert_position_semantics_witness :
    Valid demo3.1 demo3.2 [1000, 1020, 1040] [1060, 1080] ∧
    demo3.2.size < demo3.2.capacity ∧ demo3.2.element_size ≤ (le32 9).length ∧
    ((∃ n H L, list_insert demo3.1 demo3.2 none (le32 9) = (true, H, L) ∧
        L.size = demo3.2.size + 1 ∧
        elem H L n = (le32 9).take demo3.2.element_size ∧
        (∀ q, q ≠ n → (H q).data = (demo3.1 q).data) ∧
        ∀ fuel, L.size ≤ fuel →
          forward_walk fuel H L = some ([1000, 1020, 1040] ++ [n]) ∧
          list_elems fuel H L = some ([1000, 1020, 1040].map (elem demo3.1 demo3.2) ++
            [(le32 9).take demo3.2.element_size])) ∧
     (∀ pre p post, [1000, 1020, 1040] = pre ++ p :: post →
        ∃ n H L, list_insert demo3.1 demo3.2 (some p) (le32 9) = (true, H, L) ∧
          L.size = demo3.2.size + 1 ∧
          elem H L n = (le32 9).take demo3.2.element_size ∧
          (∀ q, q ≠ n → (H q).data = (demo3.1 q).data) ∧
          ∀ fuel, L.size ≤ fuel →
            forward_walk fuel H L = some (pre ++ n :: p :: post) ∧
            list_elems fuel H L = some (pre.map (elem demo3.1 demo3.2) ++
              (le32 9).take demo3.2.element_size :: (p :: post).map (elem demo3.1 demo3.2)))) :=
  ⟨by decide, by decide, by decide,
    insert_position_semantics demo3.1 demo3.2 [1000, 1020, 1040] [1060, 1080] (le32 9)
      (by decide) (by decide) (by decide)⟩

/-- C5 (counterexample). A list with `size < capacity` on which `list_insert`
fails: after `list_splice` moved the node of `20` out of `[10, 20, 30, 40]`
(capacity 10) the source has 3 nodes but only 6 free slots; six
`list_push_back` calls later it is the well-formed chain of 9 nodes with an
empty free list, and `list_insert` at the end, before an active node and at the
head returns false and leaves the list as it was. -/
theorem insert_fails_below_capacity_after_splice :
    demoA_spliced.map (fun r => r.1) = some true ∧
    IsList demoA_src_filled.1 demoA_src_filled.2
      [2000, 2040, 2060, 2080, 2100, 2120, 2140, 2160, 2180] ∧
    list_elems 9 demoA_src_filled.1 demoA_src_filled.2 =
      some [le32 10, le32 30, le32 40, le32 50, le32 60, le32 70, le32 80, le32 90, le32 100] ∧
    demoA_src_filled.2.size = 9 ∧ demoA_src_filled.2.capacity = 10 ∧
    free_walk 10 demoA_src_filled.1 demoA_src_filled.2 = some [] ∧
    (list_insert demoA_src_filled.1 demoA_src_filled.2 none (le32 7)).1 = false ∧
    (list_insert demoA_src_filled.1 demoA_src_filled.2 (some 2040) (le32 7)).1 = false ∧
    (list_push_front demoA_src_filled.1 demoA_src_filled.2 (le32 7)).1 = false ∧
    list_elems 10 (list_insert demoA_src_filled.1 demoA_src_filled.2 none (le32 7)).2.1
      (list_insert demoA_src_filled.1 demoA_src_filled.2 none (le32 7)).2.2 =
      some [le32 10, le32 30, le32 40, le32 50, le32 60, le32 70, le32 80, le32 90, le32 100] := by
  refine ⟨by decide, by decide, by decide, by decide, by decide, by decide, by decide,
    by decide, by decide, by decide⟩

/-- The effect of erasing an active node, in terms of walks. -/
theorem erase_spec (h : Heap) (l : ListT) (pre post fr : List Ptr) (p : Ptr)
    (hv : Valid h l (pre ++ p :: post) fr) :
    ∃ H L, list_erase h l (some p) = (true, H, L) ∧ L.size + 1 = l.size ∧
      (∀ q, (H q).data = (h q).data) ∧
      (∀ fuel, L.size ≤ fuel →
        forward_walk fuel H L = some (pre ++ post) ∧
        list_elems fuel H L = some ((pre ++ post).map (elem h l))) ∧
      L.free_list = some p ∧
      (∀ fuel, fr.length + 1 ≤ fuel → free_walk fuel H L = some (p :: fr)) := by
  obtain ⟨H, L, he, hV, hd, hsz, -, hes, -⟩ := erase_valid hv
  have hlen : (pre ++ post).length = L.size := hV.1.2.2.2.1.symm
  refine ⟨H, L, he, hsz, hd, ?_, ?_, ?_⟩
  · intro fuel hf
    refine ⟨hV.1.forward (by omega), ?_⟩
    rw [hV.1.elems (by omega)]
    congr 1
    apply List.map_congr_left
    intro q _
    exact elem_frame hes (hd q)
  · exact hV.2.1.1
  · intro fuel hf
    exact walk_of_chain hV.2.1 (by simpa using hf)

/-- C6. Erase semantics: erasing an active node `p` of a well-formed list returns
true, the head-to-tail sequence becomes the old one without `p` (same order,
same bytes), `size` drops by one and `p` becomes the head of the free list, in
front of the old free chain. -/
theorem erase_semantics (h : Heap) (l : ListT) (pre post fr : List Ptr) (p : Ptr)
    (hv : Valid h l (pre ++ p :: post) fr) :
    ∃ H L, list_erase h l (some p) = (true, H, L) ∧ L.size + 1 = l.size ∧
      (∀ q, (H q).data = (h q).data) ∧
      (∀ fuel, L.size ≤ fuel →
        forward_walk fuel H L = some (pre ++ post) ∧
        list_elems fuel H L = some ((pre ++ post).map (elem h l))) ∧
      L.free_list = some p ∧
      (∀ fuel, fr.length + 1 ≤ fuel → free_walk fuel H L = some (p :: fr)) :=
  erase_spec h l pre post fr p hv

theorem erase_semantics_witness :
    Valid demo3.1 demo3.2 ([1000] ++ 1020 :: [1040]) [1060, 1080] ∧
    ∃ H L, list_erase demo3.1 demo3.2 (some 1020) = (true, H, L) ∧ L.size + 1 = demo3.2.size ∧
      (∀ q, (H q).data = (demo3.1 q).data) ∧
      (∀ fuel, L.size ≤ fuel →
        forward_walk fuel H L = some ([1000] ++ [1040]) ∧
        list_elems fuel H L = some (([1000] ++ [1040]).map (elem demo3.1 demo3.2))) ∧
      L.free_list = some 1020 ∧
      (∀ fuel, [1060, 1080].length + 1 ≤ fuel → free_walk fuel H L = some (1020 :: [1060, 1080])) :=
  ⟨by decide, erase_semantics demo3.1 demo3.2 [1000] [1040] [1060, 1080] 1020 (by decide)⟩

/-- C7. Pop semantics: on a non-empty well-formed list `list_pop_front` returns
true, copies the `element_size` bytes of the first node into the output buffer
and leaves the remaining nodes in order with `size - 1`; `list_pop_back` does
the same with the last node. -/
theorem pop_semantics (h : Heap) (l : ListT) (act fr : List Ptr) (out : Bytes)
    (hv : Valid h l act fr) (hne : act ≠ []) :
    (∃ x xs H L, act = x :: xs ∧
      list_pop_front h l (some out) = (true, some (memcpy out (h x).data l.element_size), H, L) ∧
      L.size + 1 = l.size ∧ (∀ q, (H q).data = (h q).data) ∧
      ∀ fuel, L.size ≤ fuel →
        forward_walk fuel H L = some xs ∧ list_elems fuel H L = some (xs.map (elem h l))) ∧
    (∃ x xs H L, act = xs ++ [x] ∧
      list_pop_back h l (some out) = (true, some (memcpy out (h x).data l.element_size), H, L) ∧
      L.size + 1 = l.size ∧ (∀ q, (H q).data = (h q).data) ∧
      ∀ fuel, L.size ≤ fuel →
        forward_walk fuel H L = some xs ∧ list_elems fuel H L = some (xs.map (elem h l))) := by
  constructor
  · cases act with
    | nil => exact absurd rfl hne
    | cons x xs =>
      have hh : l.head = some x := by simpa using hv.1.head_eq
      have hv' : Valid h l ([] ++ x :: xs) fr := by simpa using hv
      obtain ⟨H, L, he, hsz, hd, hw, -⟩ := erase_spec h l [] xs fr x hv'
      refine ⟨x, xs, H, L, rfl, ?_, hsz, hd, by simpa using hw⟩
      rw [list_pop_front_some _ hh, he]; rfl
  · rcases eq_nil_or_snoc act with e | ⟨xs, x, e⟩
    · exact absurd e hne
    · subst e
      have hh : l.tail = some x := by simpa using hv.1.tail_eq
      obtain ⟨H, L, he, hsz, hd, hw, -⟩ := erase_spec h l xs [] fr x hv
      refine ⟨x, xs, H, L, rfl, ?_, hsz, hd, by simpa using hw⟩
      rw [list_pop_back_some _ hh, he]; rfl

theorem pop_semantics_witness :
    Valid demo5.1 demo5.2 [1000, 1020, 1040, 1060, 1080] [] ∧
    [1000, 1020, 1040, 1060, 1080] ≠ ([] : List Ptr) ∧
    ((∃ x xs H L, [1000, 1020, 1040, 1060, 1080] = x :: xs ∧
      list_pop_front demo5.1 demo5.2 (some [0, 0, 0, 0]) =
        (true, some (memcpy [0, 0, 0, 0] (demo5.1 x).data demo5.2.element_size), H, L) ∧
      L.size + 1 = demo5.2.size ∧ (∀ q, (H q).data = (demo5.1 q).data) ∧
      ∀ fuel, L.size ≤ fuel →
        forward_walk fuel H L = some xs ∧
        list_elems fuel H L = some (xs.map (elem demo5.1 demo5.2))) ∧
     (∃ x xs H L, [1000, 1020, 1040, 1060, 1080] = xs ++ [x] ∧
      list_pop_back demo5.1 demo5.2 (some [0, 0, 0, 0]) =
        (true, some (memcpy [0, 0, 0, 0] (demo5.1 x).data demo5.2.element_size), H, L) ∧
      L.size + 1 = demo5.2.size ∧ (∀ q, (H q).data = (demo5.1 q).data) ∧
      ∀ fuel, L.size ≤ fuel →
        forward_walk fuel H L = some xs ∧
        list_elems fuel H L = some (xs.map (elem demo5.1 demo5.2)))) ∧
    (list_push_back demo5.1 demo5.2 (le32 6)).1 = false ∧
    demo5_pops.1 = (true, some (le32 1)) ∧ demo5_pops.2.1 = (true, some (le32 5)) ∧
    list_size demo5_pops.2.2 = 3 :=
  ⟨by decide, by decide,
    pop_semantics demo5.1 demo5.2 [1000, 1020, 1040, 1060, 1080] [] [0, 0, 0, 0]
      (by decide) (by decide),
    by decide, by decide, by decide, by decide⟩

theorem chain_redirect {f : Ptr → Option Ptr} {a b : Option Ptr} {xs : List Ptr}
    (hc : Chain f a xs b) (hnd : xs.Nodup) (v : Option Ptr) :
    Chain (redirect f xs.getLast? v) (entry a xs.getLast? v) xs v := by
  rcases eq_nil_or_snoc xs with e | ⟨ys, x, e⟩
  · subst e; simp [redirect, entry]
  · subst e
    have hx : x ∉ ys := fun hm => (List.nodup_append.1 hnd).2.2 hm (List.mem_singleton_self _)
    rw [chain_snoc] at hc
    simp [redirect, entry, chain_snoc, chain_update, hx, hc.1]

theorem redirect_apply_of_ne {f : Ptr → Option Ptr} {o v : Option Ptr} {q : Ptr}
    (hq : o ≠ some q) : redirect f o v q = f q := by
  cases o with
  | none => rfl
  | some x =>
    have : q ≠ x := fun e => hq (by rw [e])
    simp [redirect, Function.update_noteq this]

theorem chain_redirect_frame {f : Ptr → Option Ptr} {a b o v : Option Ptr} {xs : List Ptr}
    (ho : ∀ x, o = some x → x ∉ xs) :
    Chain (redirect f o v) a xs b ↔ Chain f a xs b := by
  apply chain_congr
  intro x hx
  apply redirect_apply_of_ne
  intro e
  exact ho x e hx

theorem redirect_none_of_eq {f : Ptr → Option Ptr} {x : Ptr} (hx : f x = none) :
    Function.update f x none = f := by
  funext q
  by_cases e : q = x
  · subst e; simp [hx]
  · simp [Function.update_noteq e]

/-- The nodes of a chain ending in `none` determine membership of getLast. -/
theorem getLast?_ne_of_not_mem {xs : List Ptr} {q : Ptr} (hq : q ∉ xs) :
    xs.getLast? ≠ some q := fun e => hq (List.mem_of_getLast?_eq_some e)

theorem chain_some_head {f : Ptr → Option Ptr} {a b : Option Ptr} {xs : List Ptr} {x : Ptr}
    (hc : Chain f a xs b) (hx : xs.head? = some x) : a = some x := by
  cases xs with
  | nil => simp at hx
  | cons y ys =>
    simp at hx; subst hx; exact hc.1

/-- The three segments of a well-formed list split around a non-empty run. -/
theorem IsList.split3 {h : Heap} {l : ListT} {pre run post : List Ptr} {fst rl : Ptr}
    (hs : IsList h l (pre ++ run ++ post)) (hfst : run.head? = some fst)
    (hrl : run.getLast? = some rl) :
    Chain (nxt h) l.head pre (some fst) ∧ Chain (nxt h) (some fst) run post.head? ∧
    Chain (nxt h) post.head? post none ∧
    Chain (prv h) l.tail post.reverse (some rl) ∧ Chain (prv h) (some rl) run.reverse pre.getLast? ∧
    Chain (prv h) pre.getLast? pre.reverse none := by
  obtain ⟨hf, hb, -⟩ := hs
  rw [chain_append] at hf
  obtain ⟨m1, hf1, hf2⟩ := hf
  rw [chain_append] at hf1
  obtain ⟨m0, hf0, hf1⟩ := hf1
  have e0 : m0 = some fst := chain_some_head hf1 hfst
  have e1 : m1 = post.head? := chain_none_head hf2
  subst e0 e1
  simp only [List.reverse_append] at hb
  rw [chain_append] at hb
  obtain ⟨n1, hb1, hb2⟩ := hb
  rw [chain_append] at hb2
  obtain ⟨n0, hb2, hb3⟩ := hb2
  have e2 : n1 = some rl := chain_some_head hb2 (by simpa [List.head?_reverse] using hrl)
  have e3 : n0 = pre.getLast? := by
    have := chain_none_head hb3
    simpa [List.head?_reverse] using this
  subst e2 e3
  exact ⟨hf0, hf1, hf2, hb1, hb2, hb3⟩

theorem nodup3 {pre run post : List Ptr} (hnd : (pre ++ run ++ post).Nodup) :
    pre.Nodup ∧ run.Nodup ∧ post.Nodup ∧ (∀ x ∈ pre, x ∉ run) ∧ (∀ x ∈ pre, x ∉ post) ∧
    (∀ x ∈ run, x ∉ post) := by
  rw [List.nodup_append, List.nodup_append] at hnd
  obtain ⟨⟨h1, h2, h3⟩, h4, h5⟩ := hnd
  refine ⟨h1, h2, h4, fun x hx hm => h3 hx hm, fun x hx hm => h5 (List.mem_append_left _ hx) hm,
    fun x hx hm => h5 (List.mem_append_right _ hx) hm⟩

theorem nxt_detach_some (h : Heap) (l2 : ListT) (fst lst rl : Ptr) :
    nxt (splice_detach h l2 fst (some lst) (some rl)).1 =
      Function.update (redirect (nxt h) (h fst).prev (some lst)) rl none := by
  unfold splice_detach
  cases (h fst).prev <;> simp [redirect]

theorem prv_detach_some (h : Heap) (l2 : ListT) (fst lst rl : Ptr) :
    prv (splice_detach h l2 fst (some lst) (some rl)).1 =
      Function.update (Function.update (prv h) lst (h fst).prev) fst none := by
  unfold splice_detach
  cases (h fst).prev <;> simp

theorem list_detach_some (h : Heap) (l2 : ListT) (fst lst rl : Ptr) :
    (splice_detach h l2 fst (some lst) (some rl)).2 =
      { l2 with head := entry l2.head (h fst).prev (some lst) } := by
  unfold splice_detach
  cases (h fst).prev <;> simp [entry]

theorem data_detach (h : Heap) (l2 : ListT) (fst : Ptr) (last los : Option Ptr) (q : Ptr) :
    ((splice_detach h l2 fst last los).1 q).data = (h q).data := by
  unfold splice_detach
  cases (h fst).prev <;> cases last <;> cases los <;> cases l2.tail <;> simp

theorem chain_exit {f : Ptr → Option Ptr} {a b : Option Ptr} {xs : List Ptr} {x : Ptr}
    (hc : Chain f a xs b) (hx : xs.getLast? = some x) : f x = b := by
  rcases eq_nil_or_snoc xs with e | ⟨ys, y, e⟩
  · subst e; simp at hx
  · subst e
    simp at hx; subst hx
    exact (chain_snoc.1 hc).2

theorem set_next_of_ne {h : Heap} {p q : Ptr} {v : Option Ptr} (hq : q ≠ p) :
    set_next h p v q = h q := by simp [set_next, hq]

theorem set_prev_of_ne {h : Heap} {p q : Ptr} {v : Option Ptr} (hq : q ≠ p) :
    set_prev h p v q = h q := by simp [set_prev, hq]

theorem detach_frame {h : Heap} {l2 : ListT} {fst : Ptr} {last los : Option Ptr} {q : Ptr}
    (h1 : (h fst).prev ≠ some q) (h2 : last ≠ some q) (h3 : l2.tail ≠ some q)
    (h4 : q ≠ fst) (h5 : los ≠ some q) :
    (splice_detach h l2 fst last los).1 q = h q := by
  unfold splice_detach
  cases hp : (h fst).prev <;> cases last <;> cases los <;> cases ht : l2.tail <;>
    simp_all [set_next_of_ne, set_prev_of_ne, Ne.symm]

/-- Unlinking a bounded run leaves the source well linked and the run a
closed doubly-linked segment. -/
theorem detach_some {h : Heap} {l2 : ListT} {pre run post : List Ptr} {fst rl lst : Ptr}
    (hs : IsList h l2 (pre ++ run ++ lst :: post)) (hfst : run.head? = some fst)
    (hrl : run.getLast? = some rl) :
    (h lst).prev = some rl ∧
    Chain (nxt (splice_detach h l2 fst (some lst) (some rl)).1)
      (splice_detach h l2 fst (some lst) (some rl)).2.head (pre ++ lst :: post) none ∧
    Chain (prv (splice_detach h l2 fst (some lst) (some rl)).1)
      (splice_detach h l2 fst (some lst) (some rl)).2.tail (pre ++ lst :: post).reverse none ∧
    Chain (nxt (splice_detach h l2 fst (some lst) (some rl)).1) (some fst) run none ∧
    Chain (prv (splice_detach h l2 fst (some lst) (some rl)).1) (some rl) run.reverse none := by
  obtain ⟨c1, c2, c3, b1, b2, b3⟩ := hs.split3 hfst hrl
  obtain ⟨n1, n2, n3, d12, d13, d23⟩ := nodup3 hs.2.2.1
  have hfm : fst ∈ run := List.mem_of_mem_head? hfst
  have hrm : rl ∈ run := List.mem_of_getLast?_eq_some hrl
  have hprev : (h fst).prev = pre.getLast? :=
    chain_exit b2 (by simpa [List.getLast?_reverse] using hfst)
  have hlprev : (h lst).prev = some rl := chain_exit b1 (by simp [List.getLast?_reverse])
  have hbf_run : ∀ x, pre.getLast? = some x → x ∉ run :=
    fun x hx => d12 x (List.mem_of_getLast?_eq_some hx)
  have hbf_post : ∀ x, pre.getLast? = some x → x ∉ lst :: post :=
    fun x hx => d13 x (List.mem_of_getLast?_eq_some hx)
  have hrl_pre : rl ∉ pre := fun hm => d12 rl hm hrm
  have hrl_post : rl ∉ lst :: post := d23 rl hrm
  have hfst_pre : fst ∉ pre := fun hm => d12 fst hm hfm
  have hfst_post : fst ∉ lst :: post := d23 fst hfm
  have hlst_run : lst ∉ run := fun hm => d23 lst hm (List.mem_cons_self _ _)
  have hlst_pre : lst ∉ pre := fun hm => d13 lst hm (List.mem_cons_self _ _)
  refine ⟨hlprev, ?_, ?_, ?_, ?_⟩
  · rw [nxt_detach_some, list_detach_some, hprev, chain_append]
    refine ⟨some lst, ?_, ?_⟩
    · rw [chain_update hrl_pre]
      exact chain_redirect c1 n1 (some lst)
    · rw [chain_update hrl_post, chain_redirect_frame hbf_post]
      exact c3
  · rw [prv_detach_some, list_detach_some, hprev, List.reverse_append, chain_append]
    refine ⟨pre.getLast?, ?_, ?_⟩
    · rw [chain_update (fun hm => hfst_post (List.mem_reverse.1 hm))]
      have := chain_redirect b1 (List.nodup_reverse.2 n3) pre.getLast?
      simpa [List.getLast?_reverse, redirect, entry] using this
    · rw [chain_update (fun hm => hfst_pre (List.mem_reverse.1 hm)),
        chain_update (fun hm => hlst_pre (List.mem_reverse.1 hm))]
      exact b3
  · rw [nxt_detach_some, hprev]
    have c2' : Chain (redirect (nxt h) pre.getLast? (some lst)) (some fst) run (some lst) := by
      rw [chain_redirect_frame hbf_run]; exact c2
    have := chain_redirect c2' n2 none
    simpa [hrl, redirect, entry] using this
  · rw [prv_detach_some, hprev]
    have b2' : Chain (Function.update (prv h) lst pre.getLast?) (some rl) run.reverse
        pre.getLast? := by
      rw [chain_update (fun hm => hlst_run (List.mem_reverse.1 hm))]; exact b2
    have := chain_redirect b2' (List.nodup_reverse.2 n2) none
    simpa [List.getLast?_reverse, hfst, redirect, entry] using this

theorem nxt_attach_none (h : Heap) (l1 : ListT) (fst : Ptr) (los : Option Ptr) :
    nxt (splice_attach h l1 none fst los).1 = redirect (nxt h) l1.tail (some fst) := by
  unfold splice_attach
  cases l1.tail <;> simp [redirect]

theorem prv_attach_none (h : Heap) (l1 : ListT) (fst : Ptr) (los : Option Ptr)
    (hf : (h fst).prev = none) :
    prv (splice_attach h l1 none fst los).1 = Function.update (prv h) fst l1.tail := by
  unfold splice_attach
  cases ht : l1.tail with
  | none => simp [ht]; exact hf
  | some tl => simp [ht]

theorem list_attach_none (h : Heap) (l1 : ListT) (fst : Ptr) (los : Option Ptr) :
    (splice_attach h l1 none fst los).2 =
      { l1 with head := entry l1.head l1.tail (some fst), tail := los } := by
  unfold splice_attach
  cases l1.tail <;> simp [entry]

theorem nxt_attach_some (h : Heap) (l1 : ListT) (pos fst rl : Ptr) :
    nxt (splice_attach h l1 (some pos) fst (some rl)).1 =
      Function.update (redirect (nxt h) (h pos).prev (some fst)) rl (some pos) := by
  unfold splice_attach
  cases hp : (h pos).prev <;> simp [redirect, hp]

theorem prv_attach_some (h : Heap) (l1 : ListT) (pos fst rl : Ptr)
    (hf : (h fst).prev = none) :
    prv (splice_attach h l1 (some pos) fst (some rl)).1 =
      Function.update (Function.update (prv h) fst (h pos).prev) pos (some rl) := by
  unfold splice_attach
  cases hp : (h pos).prev with
  | none => simp [hp]; rw [@redirect_none_of_eq (prv h) fst hf]
  | some bp => simp [hp]

theorem list_attach_some (h : Heap) (l1 : ListT) (pos fst : Ptr) (los : Option Ptr) :
    (splice_attach h l1 (some pos) fst los).2 =
      { l1 with head := entry l1.head (h pos).prev (some fst) } := by
  unfold splice_attach
  cases hp : (h pos).prev <;> simp [entry, hp]

theorem data_attach (h : Heap) (l1 : ListT) (position : Option Ptr) (fst : Ptr)
    (los : Option Ptr) (q : Ptr) :
    ((splice_attach h l1 position fst los).1 q).data = (h q).data := by
  unfold splice_attach
  cases position with
  | none => cases ht : l1.tail <;> simp [ht]
  | some p => cases hp : (h p).prev <;> cases los <;> simp [hp]

theorem attach_frame {h : Heap} {l1 : ListT} {position : Option Ptr} {fst : Ptr}
    {los : Option Ptr} {q : Ptr}
    (h1 : position ≠ some q) (h2 : l1.tail ≠ some q) (h3 : q ≠ fst) (h4 : los ≠ some q)
    (h5 : ∀ p, position = some p → (h p).prev ≠ some q) :
    (splice_attach h l1 position fst los).1 q = h q := by
  unfold splice_attach
  cases position with
  | none =>
    cases ht : l1.tail <;> simp_all [set_next_of_ne, set_prev_of_ne, Ne.symm]
  | some p =>
    have h5' := h5 p rfl
    cases hp : (h p).prev <;> cases los <;>
      simp_all [set_next_of_ne, set_prev_of_ne, Ne.symm]

/-- Linking a closed run into the destination: the forward chain. -/
theorem attach_fwd {h : Heap} {l1 : ListT} {dpre dpost run : List Ptr} {fst rl : Ptr}
    (hd : IsList h l1 (dpre ++ dpost)) (cf : Chain (nxt h) (some fst) run none)
    (hrl : run.getLast? = some rl) (hnd : run.Nodup)
    (hdis : ∀ x ∈ run, x ∉ dpre ++ dpost) :
    Chain (nxt (splice_attach h l1 dpost.head? fst (some rl)).1)
      (splice_attach h l1 dpost.head? fst (some rl)).2.head (dpre ++ run ++ dpost) none := by
  have hrm : rl ∈ run := List.mem_of_getLast?_eq_some hrl
  have hndd := hd.2.2.1
  have hrl_d : rl ∉ dpre ++ dpost := hdis rl hrm
  simp only [List.mem_append, not_or] at hrl_d
  cases dpost with
  | nil =>
    have ht : l1.tail = dpre.getLast? := by simpa using hd.tail_eq
    have hfd : Chain (nxt h) l1.head dpre none := by simpa using hd.1
    simp only [List.head?_nil, List.append_nil] at hndd ⊢
    rw [nxt_attach_none, list_attach_none, ht, chain_append]
    refine ⟨some fst, chain_redirect hfd hndd (some fst), ?_⟩
    rw [chain_redirect_frame]
    · exact cf
    · intro x hx hm
      exact hdis x hm (by simp [List.mem_of_getLast?_eq_some hx])
  | cons pos dpost' =>
    obtain ⟨-, hpv, c1, c2, -, -⟩ := hd.links
    have hnd' := List.nodup_append.1 hndd
    have hbp_post : ∀ x, dpre.getLast? = some x → x ∉ pos :: dpost' :=
      fun x hx hm => hnd'.2.2 (List.mem_of_getLast?_eq_some hx) hm
    simp only [List.head?_cons]
    rw [nxt_attach_some, list_attach_some, hpv, chain_append]
    refine ⟨some pos, ?_, ?_⟩
    · rw [chain_append]
      refine ⟨some fst, ?_, ?_⟩
      · rw [chain_update hrl_d.1]
        exact chain_redirect c1 hnd'.1 (some fst)
      · have cf' : Chain (redirect (nxt h) dpre.getLast? (some fst)) (some fst) run none := by
          rw [chain_redirect_frame]
          · exact cf
          · intro x hx hm
            exact hdis x hm (by simp [List.mem_of_getLast?_eq_some hx])
        have := chain_redirect cf' hnd (some pos)
        have hne : run ≠ [] := fun e => by simp [e] at hrl
        have hh : run.head? = some fst := by
          cases run with
          | nil => exact absurd rfl hne
          | cons y ys => simpa using cf.1.symm
        simpa [hrl, redirect, entry] using this
    · rw [chain_update hrl_d.2, chain_redirect_frame hbp_post]
      have := hd.1
      rw [chain_append] at this
      obtain ⟨m, hm1, hm2⟩ := this
      have : m = some pos := chain_some_head hm2 rfl
      subst this
      exact hm2

/-- Linking a closed run into the destination: the backward chain. -/
theorem attach_bwd {h : Heap} {l1 : ListT} {dpre dpost run : List Ptr} {fst rl : Ptr}
    (hd : IsList h l1 (dpre ++ dpost)) (cb : Chain (prv h) (some rl) run.reverse none)
    (hfst : run.head? = some fst) (hnd : run.Nodup)
    (hdis : ∀ x ∈ run, x ∉ dpre ++ dpost) :
    Chain (prv (splice_attach h l1 dpost.head? fst (some rl)).1)
      (splice_attach h l1 dpost.head? fst (some rl)).2.tail
      (dpre ++ run ++ dpost).reverse none := by
  have hfm : fst ∈ run := List.mem_of_mem_head? hfst
  have hlast : run.reverse.getLast? = some fst := by simpa [List.getLast?_reverse] using hfst
  have hf0 : (h fst).prev = none := chain_exit cb hlast
  have hndd := hd.2.2.1
  have hfst_d : fst ∉ dpre ++ dpost := hdis fst hfm
  simp only [List.mem_append, not_or] at hfst_d
  have hndr : run.reverse.Nodup := List.nodup_reverse.2 hnd
  cases dpost with
  | nil =>
    have ht : l1.tail = dpre.getLast? := by simpa using hd.tail_eq
    have hbd : Chain (prv h) dpre.getLast? dpre.reverse none := by
      have := hd.2.1
      simpa [ht] using this
    simp only [List.head?_nil, List.append_nil, List.reverse_append]
    rw [prv_attach_none _ _ _ _ hf0, list_attach_none, ht, chain_append]
    refine ⟨dpre.getLast?, ?_, ?_⟩
    · have := chain_redirect cb hndr dpre.getLast?
      simpa [hlast, redirect, entry] using this
    · rw [chain_update (fun hm => hfst_d.1 (List.mem_reverse.1 hm))]
      exact hbd
  | cons pos dpost' =>
    obtain ⟨-, hpv, -, -, b1, b2⟩ := hd.links
    have hnd' := List.nodup_append.1 hndd
    have hpos_run : pos ∉ run := fun hm => hdis pos hm (by simp)
    have hpos_pre : pos ∉ dpre := fun hm => hnd'.2.2 hm (List.mem_cons_self _ _)
    simp only [List.head?_cons, List.reverse_append, List.reverse_cons, List.append_assoc]
    rw [prv_attach_some _ _ _ _ _ hf0, list_attach_some, hpv]
    rw [← List.append_assoc, chain_append]
    refine ⟨some rl, ?_, ?_⟩
    · have b1' : Chain (Function.update (prv h) fst dpre.getLast?) l1.tail
          (dpost'.reverse ++ [pos]) dpre.getLast? := by
        rw [chain_update (fun hm => hfst_d.2 (by simpa [or_comm] using hm)), chain_snoc]
        exact ⟨b1, hpv⟩
      have := chain_redirect b1' (by simpa using List.nodup_reverse.2 hnd'.2.1) (some rl)
      simpa [redirect, entry] using this
    · rw [chain_append]
      refine ⟨dpre.getLast?, ?_, ?_⟩
      · rw [chain_update (fun hm => hpos_run (List.mem_reverse.1 hm))]
        have := chain_redirect cb hndr dpre.getLast?
        simpa [hlast, redirect, entry] using this
      · rw [chain_update (fun hm => hpos_pre (List.mem_reverse.1 hm)),
          chain_update (fun hm => hfst_d.1 (List.mem_reverse.1 hm))]
        exact b2

theorem splice_count_spec {h : Heap} {last : Option Ptr} {run : List Ptr} :
    ∀ {fuel : Nat} {a : Option Ptr} {c : Nat}, Chain (nxt h) a run last →
      (∀ x ∈ run, last ≠ some x) → (last = none ∨ ∃ p, last = some p) →
      run.length ≤ fuel → c < 65536 →
      splice_count h last fuel a c = some ((c + run.length) % 65536) := by
  induction run with
  | nil =>
    intro fuel a c hc _ _ _ hlt
    simp only [chain_nil] at hc
    subst hc
    have : c % 65536 = c := Nat.mod_eq_of_lt hlt
    cases a with
    | none => cases fuel <;> simp [splice_count, this]
    | some p => cases fuel <;> simp [splice_count, this]
  | cons x xs ih =>
    intro fuel a c hc hnot hl hf hlt
    obtain ⟨ha, hc'⟩ := hc
    subst ha
    have hx : last ≠ some x := hnot x (List.mem_cons_self _ _)
    cases fuel with
    | zero => simp at hf
    | succ fuel =>
      simp only [splice_count, Ne.symm hx, if_false]
      have hc'' : Chain (nxt h) (h x).next xs last := hc'
      rw [ih hc'' (fun y hy => hnot y (List.mem_cons_of_mem _ hy)) hl (by simpa using hf)
        (Nat.mod_lt _ (by norm_num))]
      simp only [List.length_cons]
      congr 1
      omega

theorem splice_last_spec {h : Heap} {run : List Ptr} :
    ∀ {fuel : Nat} {fst rl : Ptr}, Chain (nxt h) (some fst) run none →
      run.getLast? = some rl → run.length ≤ fuel + 1 → splice_last h fuel fst = some rl := by
  induction run with
  | nil => intro fuel fst rl hc; simp at hc
  | cons x xs ih =>
    intro fuel fst rl hc hrl hf
    obtain ⟨ha, hc'⟩ := hc
    have ha' : fst = x := Option.some.inj ha
    subst ha'
    cases xs with
    | nil =>
      simp only [chain_nil] at hc'
      simp at hrl
      subst hrl
      have : (h fst).next = none := hc'
      cases fuel <;> simp [splice_last, this]
    | cons y ys =>
      have hn : (h fst).next = some y := hc'.1
      have hrl' : (y :: ys).getLast? = some rl := by
        simpa [List.getLast?_cons_cons] using hrl
      cases fuel with
      | zero => simp at hf
      | succ fuel =>
        simp only [splice_last, hn]
        exact ih (by simpa [nxt, hn] using hc') hrl' (by simpa using hf)

theorem IsList.congr {h H : Heap} {l L : ListT} {act : List Ptr} (hl : IsList h l act)
    (hh : ∀ q ∈ act, H q = h q) (hhead : L.head = l.head) (htail : L.tail = l.tail)
    (hsize : L.size = l.size) (hcap : L.capacity = l.capacity) : IsList H L act := by
  obtain ⟨hf, hb, hn, hs, hc, h16⟩ := hl
  refine ⟨?_, ?_, hn, by rw [hsize, hs], by rw [hsize, hcap]; exact hc, by rw [hcap]; exact h16⟩
  · rw [hhead]
    refine (chain_congr ?_).2 hf
    intro x hx; simp [nxt, hh x hx]
  · rw [htail]
    refine (chain_congr ?_).2 hb
    intro x hx; simp [prv, hh x (List.mem_reverse.1 hx)]

theorem exists_head_last {run : List Ptr} (hne : run ≠ []) :
    ∃ fst rl, run.head? = some fst ∧ run.getLast? = some rl := by
  cases run with
  | nil => exact absurd rfl hne
  | cons x xs =>
    refine ⟨x, (x :: xs).getLast (by simp), rfl, ?_⟩
    exact List.getLast?_eq_getLast _ _

theorem nodup_insert_run {dpre dpost run : List Ptr} (hd : (dpre ++ dpost).Nodup)
    (hr : run.Nodup) (hdis : ∀ x ∈ run, x ∉ dpre ++ dpost) : (dpre ++ run ++ dpost).Nodup := by
  have h1 : (run ++ (dpre ++ dpost)).Nodup :=
    List.nodup_append.2 ⟨hr, hd, fun x hx hm => hdis x hx hm⟩
  refine (List.Perm.nodup_iff ?_).1 h1
  rw [List.append_assoc]
  exact List.perm_append_comm_assoc run dpre dpost

/-- Splice of a bounded run, with the well-formedness of both results. -/
theorem splice_run_islist (fuel : Nat) (h : Heap) (l1 l2 : ListT)
    (dpre dpost pre run post : List Ptr) (lst : Ptr)
    (hd : IsList h l1 (dpre ++ dpost)) (hs : IsList h l2 (pre ++ run ++ lst :: post))
    (hdisj : ∀ x ∈ dpre ++ dpost, x ∉ pre ++ run ++ lst :: post)
    (hes : l1.element_size = l2.element_size) (hne : run ≠ [])
    (hcap : l1.size + run.length ≤ l1.capacity) (hfuel : run.length ≤ fuel) :
    ∃ H L1 L2, list_splice fuel h l1 dpost.head? l2 run.head? (some lst) = some (true, H, L1, L2) ∧
      IsList H L1 (dpre ++ run ++ dpost) ∧ IsList H L2 (pre ++ lst :: post) ∧
      (∀ q, (H q).data = (h q).data) ∧
      L1.size = l1.size + run.length ∧ L2.size + run.length = l2.size ∧
      L1.element_size = l1.element_size ∧ L2.element_size = l2.element_size ∧
      L1.capacity = l1.capacity ∧ L2.capacity = l2.capacity := by
  obtain ⟨fst, rl, hfst, hrl⟩ := exists_head_last hne
  obtain ⟨c1, c2, c3, b1, b2, b3⟩ := hs.split3 hfst hrl
  obtain ⟨n1, n2, n3, d12, d13, d23⟩ := nodup3 hs.2.2.1
  have hfm : fst ∈ run := List.mem_of_mem_head? hfst
  have hrm : rl ∈ run := List.mem_of_getLast?_eq_some hrl
  have hlst_run : lst ∉ run := fun hm => d23 lst hm (List.mem_cons_self _ _)
  obtain ⟨hlprev, s1, s2, r1, r2⟩ := detach_some hs hfst hrl
  have hprev : (h fst).prev = pre.getLast? :=
    chain_exit b2 (by simpa [List.getLast?_reverse] using hfst)
  have h16 := hd.2.2.2.2.2
  have hrun16 : run.length < 65536 := by omega
  have hcount : splice_count h (some lst) fuel (some fst) 0 = some run.length := by
    have := @splice_count_spec h (some lst) run fuel (some fst) 0 c2 (fun x hx e => hlst_run (by
      have : lst = x := Option.some.inj e
      rw [this]; exact hx)) (Or.inr ⟨lst, rfl⟩) hfuel (by norm_num)
    simpa [Nat.mod_eq_of_lt hrun16] using this
  -- the destination is untouched by the unlinking
  have hdfr : ∀ q ∈ dpre ++ dpost, (splice_detach h l2 fst (some lst) (some rl)).1 q = h q := by
    intro q hq
    have hq2 := hdisj q hq
    simp only [List.mem_append, List.mem_cons, not_or] at hq2
    apply detach_frame
    · rw [hprev]; exact getLast?_ne_of_not_mem hq2.1.1
    · intro e; exact hq2.2.1 (Option.some.inj e).symm
    · rw [hs.tail_eq]
      apply getLast?_ne_of_not_mem
      simp only [List.mem_append, List.mem_cons, not_or]
      exact ⟨⟨hq2.1.1, hq2.1.2⟩, hq2.2.1, hq2.2.2⟩
    · intro e; exact hq2.1.2 (e ▸ hfm)
    · intro e; exact hq2.1.2 ((Option.some.inj e) ▸ hrm)
  have hd' : IsList (splice_detach h l2 fst (some lst) (some rl)).1 l1 (dpre ++ dpost) :=
    hd.congr hdfr rfl rfl rfl rfl
  have hdis : ∀ x ∈ run, x ∉ dpre ++ dpost := by
    intro x hx hm
    exact hdisj x hm (by simp [hx])
  have a1 := attach_fwd hd' r1 hrl n2 hdis
  have a2 := attach_bwd hd' r2 hfst n2 hdis
  -- the source nodes are untouched by the linking
  have hsfr : ∀ q ∈ pre ++ lst :: post,
      (splice_attach (splice_detach h l2 fst (some lst) (some rl)).1 l1 dpost.head? fst
        (some rl)).1 q = (splice_detach h l2 fst (some lst) (some rl)).1 q := by
    intro q hq
    have hqd : q ∉ dpre ++ dpost := fun hm => hdisj q hm (by
      simp only [List.mem_append, List.mem_cons] at hq ⊢
      rcases hq with hq | hq | hq
      · exact Or.inl (Or.inl hq)
      · exact Or.inr (Or.inl hq)
      · exact Or.inr (Or.inr hq))
    have hqr : q ∉ run := by
      intro hm
      simp only [List.mem_append] at hq
      rcases hq with hq | hq
      · exact d12 q hq hm
      · exact d23 q hm hq
    apply attach_frame
    · intro e
      exact hqd (List.mem_append_right _ (List.mem_of_mem_head? e))
    · rw [hd.tail_eq]; exact getLast?_ne_of_not_mem hqd
    · intro e; exact hqr (e ▸ hfm)
    · intro e; exact hqr ((Option.some.inj e) ▸ hrm)
    · intro p hp
      have hpm : p ∈ dpost := List.mem_of_mem_head? hp
      obtain ⟨dp1, dp2, e⟩ := List.append_of_mem hpm
      have hp0 : dp1 = [] := by
        cases dp1 with
        | nil => rfl
        | cons y ys =>
          subst e
          simp at hp
          subst hp
          have := (List.nodup_append.1 hd.2.2.1).2.1
          simp at this
      subst hp0
      simp only [List.nil_append] at e
      subst e
      rw [hd'.links.2.1]
      apply getLast?_ne_of_not_mem
      intro hm
      exact hqd (List.mem_append_left _ hm)
  have hmod1 : (l1.size + run.length) % 65536 = l1.size + run.length :=
    Nat.mod_eq_of_lt (by omega)
  have hs2len : l2.size = (pre ++ run ++ lst :: post).length := hs.2.2.2.1
  have hs2 : run.length ≤ l2.size := by rw [hs2len]; simp; omega
  have hs2c := hs.2.2.2.2
  have hmod2 : (l2.size + 65536 - run.length) % 65536 = l2.size - run.length := by omega
  have heq : list_splice fuel h l1 dpost.head? l2 run.head? (some lst) = some (true,
      (splice_attach (splice_detach h l2 fst (some lst) (some rl)).1 l1 dpost.head? fst
        (some rl)).1,
      { (splice_attach (splice_detach h l2 fst (some lst) (some rl)).1 l1 dpost.head? fst
          (some rl)).2 with
        size := ((splice_attach (splice_detach h l2 fst (some lst) (some rl)).1 l1 dpost.head?
          fst (some rl)).2.size + run.length) % 65536 },
      { (splice_detach h l2 fst (some lst) (some rl)).2 with
        size := ((splice_detach h l2 fst (some lst) (some rl)).2.size + 65536 - run.length)
          % 65536 }) := by
    simp only [list_splice, hfst, hcount, hlprev]
    rw [if_neg (by simp [hes]), if_neg (by omega)]
  refine ⟨_, _, _, heq, ?_, ?_, ?_, ?_, ?_, ?_, ?_, ?_, ?_⟩
  · refine ⟨a1, a2, nodup_insert_run hd.2.2.1 n2 hdis, ?_, ?_, ?_⟩
    · show (_ + run.length) % 65536 = _
      cases dpost with
      | nil =>
        simp only [List.head?_nil, list_attach_none]
        have := hd.2.2.2.1
        simp at this ⊢
        omega
      | cons p ps =>
        simp only [List.head?_cons, list_attach_some]
        have := hd.2.2.2.1
        simp at this ⊢
        omega
    · cases dpost with
      | nil =>
        simp only [List.head?_nil, list_attach_none]
        show (l1.size + run.length) % 65536 ≤ l1.capacity
        omega
      | cons p ps =>
        simp only [List.head?_cons, list_attach_some]
        show (l1.size + run.length) % 65536 ≤ l1.capacity
        omega
    · cases dpost with
      | nil => simp only [List.head?_nil, list_attach_none]; exact h16
      | cons p ps => simp only [List.head?_cons, list_attach_some]; exact h16
  · refine ⟨?_, ?_, ?_, ?_, ?_, ?_⟩
    · refine (chain_congr ?_).2 s1
      intro x hx; simp [nxt, hsfr x hx]
    · refine (chain_congr ?_).2 s2
      intro x hx; simp [prv, hsfr x (List.mem_reverse.1 hx)]
    · have := hs.2.2.1
      rw [List.append_assoc] at this
      have h3 := nodup3 (by simpa using this : (pre ++ run ++ (lst :: post)).Nodup)
      refine List.nodup_append.2 ⟨h3.1, h3.2.2.1, fun x hx hm => h3.2.2.2.2.1 x hx hm⟩
    · show (_ + 65536 - run.length) % 65536 = _
      rw [list_detach_some]
      simp at hs2len ⊢
      omega
    · rw [list_detach_some]
      show (l2.size + 65536 - run.length) % 65536 ≤ l2.capacity
      omega
    · rw [list_detach_some]; exact hs2c.2
  · intro q
    rw [data_attach, data_detach]
  · show (_ + run.length) % 65536 = _
    cases dpost with
    | nil => simp only [List.head?_nil, list_attach_none]; exact hmod1
    | cons p ps => simp only [List.head?_cons, list_attach_some]; exact hmod1
  · show (_ + 65536 - run.length) % 65536 + run.length = _
    rw [list_detach_some]
    show (l2.size + 65536 - run.length) % 65536 + run.length = l2.size
    omega
  · cases dpost with
    | nil => simp only [List.head?_nil, list_attach_none]
    | cons p ps => simp only [List.head?_cons, list_attach_some]
  · rw [list_detach_some]
  · cases dpost with
    | nil => simp only [List.head?_nil, list_attach_none]
    | cons p ps => simp only [List.head?_cons, list_attach_some]
  · rw [list_detach_some]

theorem elems_of_islist {h H : Heap} {l L : ListT} {act : List Ptr} (hl : IsList H L act)
    (hes : L.element_size = l.element_size) (hd : ∀ q, (H q).data = (h q).data)
    {n : Nat} (hn : L.size ≤ n) :
    forward_walk n H L = some act ∧ list_elems n H L = some (act.map (elem h l)) := by
  have hlen : act.length = L.size := hl.2.2.2.1.symm
  refine ⟨hl.forward (by omega), ?_⟩
  rw [hl.elems (by omega)]
  congr 1
  apply List.map_congr_left
  intro q _
  exact elem_frame hes (hd q)

/-- C8. Splice of a bounded run `[first, last)`: for two distinct well-formed
lists with disjoint nodes and equal `element_size`, a non-empty run `run` of
`src` starting at `first` and followed by the node `last`, a position that is
`NULL` or an active node of `dest`, and `dest.size + run_length <=
dest.capacity`, `list_splice` returns true; the sequence of `dest` becomes the
old one with the run inserted before the position (appended for `NULL`), the
sequence of `src` the old one without the run, the two counts move by the run
length and no element bytes change. -/
theorem splice_bounded_run (fuel : Nat) (h : Heap) (l1 l2 : ListT)
    (dpre dpost pre run post : List Ptr) (lst : Ptr)
    (hd : IsList h l1 (dpre ++ dpost)) (hs : IsList h l2 (pre ++ run ++ lst :: post))
    (hdisj : ∀ x ∈ dpre ++ dpost, x ∉ pre ++ run ++ lst :: post)
    (hes : l1.element_size = l2.element_size) (hne : run ≠ [])
    (hcap : l1.size + run.length ≤ l1.capacity) (hfuel : run.length ≤ fuel) :
    ∃ H L1 L2, list_splice fuel h l1 dpost.head? l2 run.head? (some lst) = some (true, H, L1, L2) ∧
      (∀ n, L1.size ≤ n →
        forward_walk n H L1 = some (dpre ++ run ++ dpost) ∧
        list_elems n H L1 = some ((dpre ++ run ++ dpost).map (elem h l1))) ∧
      (∀ n, L2.size ≤ n →
        forward_walk n H L2 = some (pre ++ lst :: post) ∧
        list_elems n H L2 = some ((pre ++ lst :: post).map (elem h l2))) ∧
      L1.size = l1.size + run.length ∧ L2.size + run.length = l2.size ∧
      (∀ q, (H q).data = (h q).data) := by
  obtain ⟨H, L1, L2, heq, hl1, hl2, hdata, hs1, hs2, he1, he2, -, -⟩ :=
    splice_run_islist fuel h l1 l2 dpre dpost pre run post lst hd hs hdisj hes hne hcap hfuel
  exact ⟨H, L1, L2, heq, fun n hn => elems_of_islist hl1 he1 hdata hn,
    fun n hn => elems_of_islist hl2 he2 hdata hn, hs1, hs2, hdata⟩

theorem splice_bounded_run_witness :
    IsList demoA.1 demoA.2.1 ([1000, 1020, 1040] ++ []) ∧
    IsList demoA.1 demoA.2.2 ([2000] ++ [2020] ++ 2040 :: [2060]) ∧
    (∀ x ∈ [1000, 1020, 1040] ++ [], x ∉ [2000] ++ [2020] ++ 2040 :: [2060]) ∧
    demoA.2.1.element_size = demoA.2.2.element_size ∧ [2020] ≠ ([] : List Ptr) ∧
    demoA.2.1.size + [2020].length ≤ demoA.2.1.capacity ∧ [2020].length ≤ 10 ∧
    ∃ H L1 L2, list_splice 10 demoA.1 demoA.2.1 ([] : List Ptr).head? demoA.2.2 [2020].head?
        (some 2040) = some (true, H, L1, L2) ∧
      (∀ n, L1.size ≤ n →
        forward_walk n H L1 = some ([1000, 1020, 1040] ++ [2020] ++ []) ∧
        list_elems n H L1 =
          some (([1000, 1020, 1040] ++ [2020] ++ []).map (elem demoA.1 demoA.2.1))) ∧
      (∀ n, L2.size ≤ n →
        forward_walk n H L2 = some ([2000] ++ 2040 :: [2060]) ∧
        list_elems n H L2 = some (([2000] ++ 2040 :: [2060]).map (elem demoA.1 demoA.2.2))) ∧
      L1.size = demoA.2.1.size + [2020].length ∧ L2.size + [2020].length = demoA.2.2.size ∧
      (∀ q, (H q).data = (demoA.1 q).data) :=
  ⟨by decide, by decide, by decide, by decide, by decide, by decide, by decide,
    splice_bounded_run 10 demoA.1 demoA.2.1 demoA.2.2 [1000, 1020, 1040] [] [2000] [2020] [2060]
      2040 (by decide) (by decide) (by decide) (by decide) (by decide) (by decide) (by decide)⟩

theorem nxt_detach_none (h : Heap) (l2 : ListT) (fst : Ptr) (los : Option Ptr) :
    nxt (splice_detach h l2 fst none los).1 = redirect (nxt h) (h fst).prev l2.tail := by
  unfold splice_detach
  cases hp : (h fst).prev <;> cases ht : l2.tail <;> cases los <;> simp [redirect, hp, ht]

theorem size_detach (h : Heap) (l2 : ListT) (fst : Ptr) (last los : Option Ptr) :
    (splice_detach h l2 fst last los).2.size = l2.size ∧
    (splice_detach h l2 fst last los).2.capacity = l2.capacity ∧
    (splice_detach h l2 fst last los).2.element_size = l2.element_size := by
  unfold splice_detach
  cases hp : (h fst).prev <;> cases ht : l2.tail <;> cases last <;> simp [hp, ht]

/-- C9. Splice through the end (`last == NULL`) with position `NULL`: for two
distinct well-formed lists with disjoint nodes and equal `element_size`, `first`
an active node of `src` and enough capacity in `dest`, `list_splice` returns
true, the forward (`next`) sequence of `dest` becomes the old one followed by
the nodes of `src` from `first` through its last node, `dest.size` grows and
`src.size` shrinks by the run length, so that `src.size` is 0 and `list_empty`
holds when `first` is the head of `src`. -/
theorem splice_through_end (fuel : Nat) (h : Heap) (l1 l2 : ListT)
    (a1 pre run : List Ptr)
    (hd : IsList h l1 a1) (hs : IsList h l2 (pre ++ run))
    (hdisj : ∀ x ∈ a1, x ∉ pre ++ run)
    (hes : l1.element_size = l2.element_size) (hne : run ≠ [])
    (hcap : l1.size + run.length ≤ l1.capacity) (hfuel : run.length ≤ fuel) :
    ∃ H L1 L2, list_splice fuel h l1 none l2 run.head? none = some (true, H, L1, L2) ∧
      (∀ n, L1.size ≤ n →
        forward_walk n H L1 = some (a1 ++ run) ∧
        list_elems n H L1 = some ((a1 ++ run).map (elem h l1))) ∧
      L1.size = l1.size + run.length ∧ L2.size + run.length = l2.size ∧
      (pre = [] → L2.size = 0 ∧ list_empty L2 = true) := by
  obtain ⟨fst, rl, hfst, hrl⟩ := exists_head_last hne
  have hs' : IsList h l2 (pre ++ run ++ []) := by simpa using hs
  obtain ⟨c1, c2, -, -, b2, -⟩ := hs'.split3 hfst hrl
  simp only [List.head?_nil] at c2
  obtain ⟨n1, n2, -, d12, -, -⟩ := nodup3 hs'.2.2.1
  have hfm : fst ∈ run := List.mem_of_mem_head? hfst
  have hrm : rl ∈ run := List.mem_of_getLast?_eq_some hrl
  have hprev : (h fst).prev = pre.getLast? :=
    chain_exit b2 (by simpa [List.getLast?_reverse] using hfst)
  have h16 := hd.2.2.2.2.2
  have hrun16 : run.length < 65536 := by omega
  have hcount : splice_count h none fuel (some fst) 0 = some run.length := by
    have := @splice_count_spec h none run fuel (some fst) 0 c2 (fun x _ e => by simp at e)
      (Or.inl rfl) hfuel (by norm_num)
    simpa [Nat.mod_eq_of_lt hrun16] using this
  have hlast : splice_last h fuel fst = some rl := splice_last_spec c2 hrl (by omega)
  have heq : list_splice fuel h l1 none l2 run.head? none = some (true,
      (splice_attach (splice_detach h l2 fst none (some rl)).1 l1 none fst (some rl)).1,
      { (splice_attach (splice_detach h l2 fst none (some rl)).1 l1 none fst (some rl)).2 with
        size := ((splice_attach (splice_detach h l2 fst none (some rl)).1 l1 none fst
          (some rl)).2.size + run.length) % 65536 },
      { (splice_detach h l2 fst none (some rl)).2 with
        size := ((splice_detach h l2 fst none (some rl)).2.size + 65536 - run.length)
          % 65536 }) := by
    simp only [list_splice, hfst, hcount, hlast, Option.map_some']
    rw [if_neg (by simp [hes]), if_neg (by omega)]
  have htail2 : l2.tail = some rl := by
    rw [hs.tail_eq, List.getLast?_append, hrl]; rfl
  have hdfr : ∀ q ∈ a1 ++ [], (splice_detach h l2 fst none (some rl)).1 q = h q := by
    intro q hq
    have hq2 := hdisj q (by simpa using hq)
    simp only [List.mem_append, not_or] at hq2
    apply detach_frame
    · rw [hprev]; exact getLast?_ne_of_not_mem hq2.1
    · simp
    · rw [htail2]; intro e; exact hq2.2 ((Option.some.inj e) ▸ hrm)
    · intro e; exact hq2.2 (e ▸ hfm)
    · intro e; exact hq2.2 ((Option.some.inj e) ▸ hrm)
  have hd0 : IsList h l1 (a1 ++ []) := by simpa using hd
  have hd' : IsList (splice_detach h l2 fst none (some rl)).1 l1 (a1 ++ []) :=
    hd0.congr hdfr rfl rfl rfl rfl
  have hdis : ∀ x ∈ run, x ∉ a1 ++ [] := by
    intro x hx hm
    exact hdisj x (by simpa using hm) (by simp [hx])
  have r1 : Chain (nxt (splice_detach h l2 fst none (some rl)).1) (some fst) run none := by
    rw [nxt_detach_none, hprev, chain_redirect_frame]
    · exact c2
    · intro x hx
      exact d12 x (List.mem_of_getLast?_eq_some hx)
  have a1' := attach_fwd hd' r1 hrl n2 hdis
  simp only [List.head?_nil, List.append_nil] at a1'
  have hsz1 : (l1.size + run.length) % 65536 = l1.size + run.length :=
    Nat.mod_eq_of_lt (by omega)
  have hs2len : l2.size = (pre ++ run).length := hs.2.2.2.1
  have hs2c := hs.2.2.2.2
  have hs2 : run.length ≤ l2.size := by rw [hs2len]; simp
  have hsz2 : (l2.size + 65536 - run.length) % 65536 = l2.size - run.length := by omega
  have hdata : ∀ q, ((splice_attach (splice_detach h l2 fst none (some rl)).1 l1 none fst
      (some rl)).1 q).data = (h q).data := by
    intro q; rw [data_attach, data_detach]
  have hL1size : ((splice_attach (splice_detach h l2 fst none (some rl)).1 l1 none fst
      (some rl)).2.size + run.length) % 65536 = l1.size + run.length := by
    rw [list_attach_none]; exact hsz1
  have hlen1 : l1.size = a1.length := hd.2.2.2.1
  refine ⟨_, _, _, heq, ?_, hL1size, ?_, ?_⟩
  · intro n hn
    have hn' : (a1 ++ run).length ≤ n := by
      have : ((splice_attach (splice_detach h l2 fst none (some rl)).1 l1 none fst
        (some rl)).2.size + run.length) % 65536 ≤ n := hn
      rw [hL1size] at this
      simp; omega
    have hw : forward_walk n (splice_attach (splice_detach h l2 fst none (some rl)).1 l1 none
        fst (some rl)).1
        { (splice_attach (splice_detach h l2 fst none (some rl)).1 l1 none fst (some rl)).2 with
          size := ((splice_attach (splice_detach h l2 fst none (some rl)).1 l1 none fst
            (some rl)).2.size + run.length) % 65536 } = some (a1 ++ run) :=
      walk_of_chain a1' hn'
    refine ⟨hw, ?_⟩
    unfold list_elems
    rw [hw]
    simp only [Option.map_some', Option.some.injEq]
    apply List.map_congr_left
    intro q _
    exact elem_frame (by rw [list_attach_none]) (hdata q)
  · show ((splice_detach h l2 fst none (some rl)).2.size + 65536 - run.length) % 65536
      + run.length = l2.size
    rw [(size_detach h l2 fst none (some rl)).1]
    omega
  · intro hpre
    subst hpre
    have : ((splice_detach h l2 fst none (some rl)).2.size + 65536 - run.length) % 65536 = 0 := by
      rw [(size_detach h l2 fst none (some rl)).1]
      simp at hs2len
      omega
    exact ⟨this, by simp [list_empty, this]⟩

theorem splice_through_end_witness :
    IsList demoB.1 demoB.2.1 [1000, 1020, 1040] ∧
    IsList demoB.1 demoB.2.2 ([] ++ [2000, 2020, 2040]) ∧
    (∀ x ∈ [1000, 1020, 1040], x ∉ [] ++ [2000, 2020, 2040]) ∧
    demoB.2.1.element_size = demoB.2.2.element_size ∧ [2000, 2020, 2040] ≠ ([] : List Ptr) ∧
    demoB.2.1.size + [2000, 2020, 2040].length ≤ demoB.2.1.capacity ∧
    [2000, 2020, 2040].length ≤ 10 ∧
    ∃ H L1 L2, list_splice 10 demoB.1 demoB.2.1 none demoB.2.2 [2000, 2020, 2040].head? none =
        some (true, H, L1, L2) ∧
      (∀ n, L1.size ≤ n →
        forward_walk n H L1 = some ([1000, 1020, 1040] ++ [2000, 2020, 2040]) ∧
        list_elems n H L1 =
          some (([1000, 1020, 1040] ++ [2000, 2020, 2040]).map (elem demoB.1 demoB.2.1))) ∧
      L1.size = demoB.2.1.size + [2000, 2020, 2040].length ∧
      L2.size + [2000, 2020, 2040].length = demoB.2.2.size ∧
      (([] : List Ptr) = [] → L2.size = 0 ∧ list_empty L2 = true) :=
  ⟨by decide, by decide, by decide, by decide, by decide, by decide, by decide,
    splice_through_end 10 demoB.1 demoB.2.1 demoB.2.2 [1000, 1020, 1040] [] [2000, 2020, 2040]
      (by decide) (by decide) (by decide) (by decide) (by decide) (by decide) (by decide)⟩

/-- C10. On two well-formed lists (an empty destination, the source
`[1, 2]`), `list_splice(dest, NULL, src, src->head, NULL)` returns true and
leaves the destination with a forward walk of two nodes but a backward walk
of one, and the source with `size == 0` while `head` still points at the
node of `2`, so that `list_front` on it succeeds. -/
theorem splice_null_last_breaks_links :
    IsList demoC.1 demoC.2.1 [] ∧ IsList demoC.1 demoC.2.2 [2000, 2020] ∧
    demoC_spliced.map (fun r => (r.1, forward_walk 10 r.2.1 r.2.2.1,
        backward_walk 10 r.2.1 r.2.2.1, r.2.2.1.size)) =
      some (true, some [2000, 2020], some [2020], 2) ∧
    demoC_spliced.map (fun r => (r.2.2.2.size, r.2.2.2.head, r.2.2.2.tail,
        list_front r.2.1 r.2.2.2 [0, 0, 0, 0])) =
      some (0, some 2020, some 2020, true, le32 2) := by
  refine ⟨by decide, by decide, by decide, by decide⟩

theorem chain_suffix {f : Ptr → Option Ptr} {a b : Option Ptr} {xs zs : List Ptr} {x : Ptr}
    (hc : Chain f a (xs ++ x :: zs) b) : Chain f (f x) zs b :=
  (chain_split.1 hc).2

/-- A chain that reaches `NULL` never visits a node twice. -/
theorem chain_none_nodup {f : Ptr → Option Ptr} {xs : List Ptr} :
    ∀ {a : Option Ptr}, Chain f a xs none → xs.Nodup := by
  induction xs with
  | nil => intro a _; exact List.nodup_nil
  | cons x xs ih =>
    intro a hc
    obtain ⟨-, hc'⟩ := hc
    refine List.nodup_cons.2 ⟨?_, ih hc'⟩
    intro hm
    obtain ⟨ys, zs, e⟩ := List.append_of_mem hm
    have h1 : Chain f (f x) zs none := by
      rw [e] at hc'
      exact chain_suffix hc'
    have := chain_unique hc' h1
    have hl := congrArg List.length this
    rw [e] at hl
    simp at hl
    omega

/-- The loop of `list_clear` pushes the remaining nodes onto the free list. -/
theorem clear_loop_spec {rest : List Ptr} :
    ∀ {fuel : Nat} {h : Heap} {l : ListT} {cur : Option Ptr} {fr : List Ptr},
      Chain (nxt h) cur rest none → Chain (nxt h) l.free_list fr none →
      (∀ x ∈ rest, x ∉ fr) → rest.length ≤ fuel →
      ∃ H L, list_clear_loop fuel h l cur = some (H, L) ∧
        Chain (nxt H) L.free_list (rest.reverse ++ fr) none ∧
        L.head = l.head ∧ L.tail = l.tail ∧ L.size = l.size ∧ L.capacity = l.capacity ∧
        L.element_size = l.element_size ∧ L.node_pool = l.node_pool ∧
        (∀ q, (H q).data = (h q).data) ∧ (∀ q, (H q).prev = (h q).prev) ∧
        (∀ q, q ∉ rest → H q = h q) := by
  induction rest with
  | nil =>
    intro fuel h l cur fr hc hfc _ _
    simp only [chain_nil] at hc
    subst hc
    refine ⟨h, l, ?_, by simpa using hfc, rfl, rfl, rfl, rfl, rfl, rfl, fun _ => rfl,
      fun _ => rfl, fun _ _ => rfl⟩
    cases fuel <;> rfl
  | cons x xs ih =>
    intro fuel h l cur fr hc hfc hdis hf
    have hnd := chain_none_nodup hc
    obtain ⟨hx, hc'⟩ := hc
    subst hx
    have hxxs : x ∉ xs := (List.nodup_cons.1 hnd).1
    have hxfr : x ∉ fr := hdis x (List.mem_cons_self _ _)
    cases fuel with
    | zero => simp at hf
    | succ fuel =>
      have c1 : Chain (nxt (set_next h x l.free_list)) (h x).next xs none := by
        rw [nxt_set_next, chain_update hxxs]; exact hc'
      have c2 : Chain (nxt (set_next h x l.free_list))
          ({ l with free_list := some x } : ListT).free_list (x :: fr) none := by
        rw [nxt_set_next]
        refine ⟨rfl, ?_⟩
        simp only [Function.update_same]
        rw [chain_update hxfr]; exact hfc
      obtain ⟨H, L, he, hch, e1, e2, e3, e4, e5, e6, hd, hp, hfrm⟩ :=
        @ih fuel (set_next h x l.free_list) { l with free_list := some x } (h x).next (x :: fr)
          c1 c2
          (fun y hy hm => by
            rcases List.mem_cons.1 hm with e | hm
            · exact hxxs (e ▸ hy)
            · exact hdis y (List.mem_cons_of_mem _ hy) hm)
          (by simpa using hf)
      refine ⟨H, L, ?_, ?_, e1, e2, e3, e4, e5, e6, ?_, ?_, ?_⟩
      · simp only [list_clear_loop, list_free_node]
        exact he
      · simpa using hch
      · intro q; rw [hd q]; simp
      · intro q; rw [hp q]; simp
      · intro q hq
        simp only [List.mem_cons, not_or] at hq
        rw [hfrm q hq.2]
        exact set_next_of_ne hq.1

/-- `list_clear` on a valid list. -/
theorem clear_valid {h : Heap} {l : ListT} {act fr : List Ptr} (hv : Valid h l act fr)
    {fuel : Nat} (hf : act.length ≤ fuel) :
    ∃ H L, list_clear fuel h l = some (H, L) ∧ Valid H L [] (act.reverse ++ fr) ∧
      L.capacity = l.capacity ∧ L.element_size = l.element_size ∧ L.node_pool = l.node_pool ∧
      (∀ q, (H q).data = (h q).data) := by
  have hnd := hv.nodup
  obtain ⟨hl, hfc, hperm⟩ := hv
  have hdis : ∀ x ∈ act, x ∉ fr := fun x hx hm => (List.nodup_append.1 hnd).2.2 hx hm
  obtain ⟨H, L, he, hch, -, -, -, e4, e5, e6, hd, -, -⟩ := clear_loop_spec hl.1 hfc hdis hf
  refine ⟨H, { L with head := none, tail := none, size := 0 }, ?_, ?_, e4, e5, e6, hd⟩
  · simp [list_clear, he]
  · refine ⟨⟨by simp, by simp, by simp, by simp, by simp, by rw [e4]; exact hl.2.2.2.2.2⟩, hch, ?_⟩
    have hp : pool_nodes ({ L with head := none, tail := none, size := 0 } : ListT)
        = pool_nodes l := pool_nodes_congr e4 e5 e6
    rw [hp]
    refine List.Perm.trans ?_ hperm
    simp only [List.nil_append]
    exact List.Perm.append_right fr (List.reverse_perm act)

/-- The loop of `list_reverse` swaps the two links of every remaining node. -/
theorem reverse_loop_spec {rest : List Ptr} :
    ∀ {fuel : Nat} {h : Heap} {cur : Option Ptr},
      Chain (nxt h) cur rest none → rest.length ≤ fuel →
      ∃ H, list_reverse_loop fuel h cur = some H ∧
        (∀ q ∈ rest, (H q).next = (h q).prev ∧ (H q).prev = (h q).next) ∧
        (∀ q, q ∉ rest → H q = h q) ∧ (∀ q, (H q).data = (h q).data) := by
  induction rest with
  | nil =>
    intro fuel h cur hc _
    simp only [chain_nil] at hc
    subst hc
    refine ⟨h, ?_, by simp, fun _ _ => rfl, fun _ => rfl⟩
    cases fuel <;> rfl
  | cons x xs ih =>
    intro fuel h cur hc hf
    have hnd := chain_none_nodup hc
    obtain ⟨hx, hc'⟩ := hc
    subst hx
    have hxxs : x ∉ xs := (List.nodup_cons.1 hnd).1
    cases fuel with
    | zero => simp at hf
    | succ fuel =>
      have c1 : Chain (nxt (set_next (set_prev h x (h x).next) x (h x).prev))
          ((set_next (set_prev h x (h x).next) x (h x).prev) x).prev xs none := by
        rw [nxt_set_next, nxt_set_prev, chain_update hxxs]
        simpa using hc'
      obtain ⟨H, he, h1, h2, h3⟩ := ih c1 (by simpa using hf)
      refine ⟨H, ?_, ?_, ?_, ?_⟩
      · simp only [list_reverse_loop]
        exact he
      · intro q hq
        rcases List.mem_cons.1 hq with e | hq
        · subst e
          rw [h2 q hxxs]
          simp
        · have hne : q ≠ x := fun e => hxxs (e ▸ hq)
          obtain ⟨e1, e2⟩ := h1 q hq
          rw [e1, e2]
          simp [hne]
      · intro q hq
        simp only [List.mem_cons, not_or] at hq
        rw [h2 q hq.2, set_next_of_ne hq.1, set_prev_of_ne hq.1]
      · intro q
        rw [h3 q]; simp

/-- `list_reverse` on a valid list. -/
theorem reverse_valid {h : Heap} {l : ListT} {act fr : List Ptr} (hv : Valid h l act fr)
    {fuel : Nat} (hf : act.length ≤ fuel) :
    ∃ H L, list_reverse fuel h l = some (H, L) ∧ Valid H L act.reverse fr ∧
      L.head = l.tail ∧ L.tail = l.head ∧ L.size = l.size ∧
      L.capacity = l.capacity ∧ L.element_size = l.element_size ∧ L.node_pool = l.node_pool ∧
      (∀ q, (H q).data = (h q).data) ∧
      (∀ q ∈ act, (H q).next = (h q).prev ∧ (H q).prev = (h q).next) ∧
      (∀ q, q ∉ act → H q = h q) := by
  have hnd := hv.nodup
  obtain ⟨hl, hfc, hperm⟩ := hv
  have hdis : ∀ x ∈ fr, x ∉ act := fun x hx hm => (List.nodup_append.1 hnd).2.2 hm hx
  obtain ⟨H, he, h1, h2, h3⟩ := reverse_loop_spec hl.1 hf
  refine ⟨H, { l with head := l.tail, tail := l.head }, ?_, ?_, rfl, rfl, rfl, rfl, rfl, rfl,
    h3, h1, h2⟩
  · simp [list_reverse, he]
  · obtain ⟨hfw, hbw, hn, hs, hc, h16⟩ := hl
    refine ⟨⟨?_, ?_, List.nodup_reverse.2 hn, by simpa using hs, hc, h16⟩, ?_, ?_⟩
    · refine (chain_congr ?_).2 hbw
      intro x hx
      exact (h1 x (List.mem_reverse.1 hx)).1
    · rw [List.reverse_reverse]
      refine (chain_congr ?_).2 hfw
      intro x hx
      exact (h1 x hx).2
    · refine (chain_congr ?_).2 hfc
      intro x hx
      simp [nxt, h2 x (hdis x hx)]
    · refine List.Perm.trans ?_ hperm
      exact List.Perm.append_right fr (List.reverse_perm act)

/-- `list_replace` on a valid list. -/
theorem replace_valid {h : Heap} {l : ListT} {act fr : List Ptr} (hv : Valid h l act fr)
    (position : Option Ptr) (e : Bytes) :
    Valid (list_replace h l position e).2.1 (list_replace h l position e).2.2 act fr := by
  cases position with
  | none => exact hv
  | some p =>
    obtain ⟨⟨hfw, hbw, hrest⟩, hfc, hperm⟩ := hv
    refine ⟨⟨?_, ?_, hrest⟩, ?_, hperm⟩
    · simpa [list_replace] using hfw
    · simpa [list_replace] using hbw
    · simpa [list_replace] using hfc

theorem node_matches_congr {h H : Heap} {l L : ListT} (predicate : Option Pred) (value : Bytes)
    {x : Ptr} (hd : (H x).data = (h x).data) (hes : L.element_size = l.element_size) :
    node_matches H L predicate value x = node_matches h l predicate value x := by
  unfold node_matches
  rw [hd, hes]

/-- The loop of `list_remove_if`: the nodes still to visit are `rest`, the nodes already
kept are `kept`. -/
theorem remove_if_loop_spec (predicate : Option Pred) (pd : Bytes) {rest : List Ptr} :
    ∀ {kept : List Ptr} {fuel : Nat} {h : Heap} {l : ListT} {fr : List Ptr} {c : Nat},
      Valid h l (kept ++ rest) fr → rest.length ≤ fuel → c + rest.length < 65536 →
      ∃ H L fr', list_remove_if_loop predicate pd fuel h l rest.head? c =
          some (c + (rest.filter (node_matches h l predicate pd)).length, H, L) ∧
        Valid H L (kept ++ rest.filter (fun x => !node_matches h l predicate pd x)) fr' ∧
        (∀ q, (H q).data = (h q).data) ∧ L.element_size = l.element_size ∧
        L.capacity = l.capacity ∧ L.node_pool = l.node_pool := by
  induction rest with
  | nil =>
    intro kept fuel h l fr c hv _ _
    refine ⟨h, l, fr, ?_, by simpa using hv, fun _ => rfl, rfl, rfl, rfl⟩
    cases fuel <;> simp [list_remove_if_loop]
  | cons x xs ih =>
    intro kept fuel h l fr c hv hf hc
    have hnext : (h x).next = xs.head? := hv.1.links.1
    cases fuel with
    | zero => simp at hf
    | succ fuel =>
      simp only [List.head?_cons, list_remove_if_loop, hnext]
      by_cases hm : node_matches h l predicate pd x = true
      · obtain ⟨H1, L1, he, hV1, hd1, -, hcap1, hes1, hpool1⟩ := erase_valid hv
        simp only [hm, if_true, he]
        have hcm : (c + 1) % 65536 = c + 1 := Nat.mod_eq_of_lt (by simp at hc; omega)
        rw [hcm]
        obtain ⟨H, L, fr', hrun, hV, hd, hes, hcap, hpool⟩ :=
          @ih kept fuel H1 L1 (x :: fr) (c + 1) hV1 (by simpa using hf) (by simp at hc; omega)
        have hfun : ∀ y, node_matches H1 L1 predicate pd y = node_matches h l predicate pd y :=
          fun y => node_matches_congr predicate pd (hd1 y) hes1
        have hfun' : node_matches H1 L1 predicate pd = node_matches h l predicate pd :=
          funext hfun
        rw [hfun'] at hrun hV
        refine ⟨H, L, fr', ?_, ?_, fun q => (hd q).trans (hd1 q), hes.trans hes1,
          hcap.trans hcap1, hpool.trans hpool1⟩
        · rw [hrun]
          simp [List.filter_cons, hm]
          omega
        · simpa [List.filter_cons, hm] using hV
      · simp only [hm, if_false]
        have hv' : Valid h l ((kept ++ [x]) ++ xs) fr := by simpa using hv
        obtain ⟨H, L, fr', hrun, hV, hd, hes, hcap, hpool⟩ :=
          @ih (kept ++ [x]) fuel h l fr c hv' (by simpa using hf) (by simp at hc; omega)
        refine ⟨H, L, fr', ?_, ?_, hd, hes, hcap, hpool⟩
        · rw [hrun]
          simp [List.filter_cons, hm]
        · simpa [List.filter_cons, hm] using hV

/-- `list_remove_if` on a valid list. -/
theorem remove_if_valid {h : Heap} {l : ListT} {act fr : List Ptr} (hv : Valid h l act fr)
    (predicate : Option Pred) (pd : Bytes) {fuel : Nat} (hf : act.length ≤ fuel) :
    ∃ H L fr', list_remove_if fuel h l predicate pd =
        some ((act.filter (node_matches h l predicate pd)).length, H, L) ∧
      Valid H L (act.filter (fun x => !node_matches h l predicate pd x)) fr' ∧
      (∀ q, (H q).data = (h q).data) ∧ L.element_size = l.element_size ∧
      L.capacity = l.capacity ∧ L.node_pool = l.node_pool := by
  have hlen := hv.1.length_le
  have h16 := hv.1.2.2.2.2.2
  have hv' : Valid h l ([] ++ act) fr := by simpa using hv
  obtain ⟨H, L, fr', hrun, hV, hrest⟩ :=
    @remove_if_loop_spec predicate pd act [] fuel h l fr 0 hv' hf (by omega)
  refine ⟨H, L, fr', ?_, by simpa using hV, hrest⟩
  unfold list_remove_if
  rw [hv.1.head_eq, hrun]
  simp

/-- The inner loop of `list_unique` erases the nodes of `rest` whose bytes equal those of
`pre`. -/
theorem unique_inner_spec (pre : Ptr) {rest : List Ptr} :
    ∀ {kept : List Ptr} {fuel : Nat} {h : Heap} {l : ListT} {fr : List Ptr} {c : Nat},
      Valid h l (kept ++ rest) fr → rest.length ≤ fuel → c + rest.length < 65536 →
      ∃ H L fr', list_unique_inner pre fuel h l rest.head? c =
          some (c + (rest.filter
            (fun x => memcmp_eq (h pre).data (h x).data l.element_size)).length, H, L) ∧
        Valid H L (kept ++ rest.filter
            (fun x => !memcmp_eq (h pre).data (h x).data l.element_size)) fr' ∧
        (∀ q, (H q).data = (h q).data) ∧ L.element_size = l.element_size ∧
        L.capacity = l.capacity ∧ L.node_pool = l.node_pool := by
  induction rest with
  | nil =>
    intro kept fuel h l fr c hv _ _
    refine ⟨h, l, fr, ?_, by simpa using hv, fun _ => rfl, rfl, rfl, rfl⟩
    cases fuel <;> simp [list_unique_inner]
  | cons x xs ih =>
    intro kept fuel h l fr c hv hf hc
    have hnext : (h x).next = xs.head? := hv.1.links.1
    cases fuel with
    | zero => simp at hf
    | succ fuel =>
      simp only [List.head?_cons, list_unique_inner, list_next, hnext]
      by_cases hm : memcmp_eq (h pre).data (h x).data l.element_size = true
      · obtain ⟨H1, L1, he, hV1, hd1, -, hcap1, hes1, hpool1⟩ := erase_valid hv
        simp only [hm, if_true, he]
        have hcm : (c + 1) % 65536 = c + 1 := Nat.mod_eq_of_lt (by simp at hc; omega)
        rw [hcm]
        obtain ⟨H, L, fr', hrun, hV, hd, hes, hcap, hpool⟩ :=
          @ih kept fuel H1 L1 (x :: fr) (c + 1) hV1 (by simpa using hf) (by simp at hc; omega)
        simp only [hd1, hes1] at hrun hV
        refine ⟨H, L, fr', ?_, ?_, fun q => (hd q).trans (hd1 q), hes.trans hes1,
          hcap.trans hcap1, hpool.trans hpool1⟩
        · rw [hrun]
          simp [List.filter_cons, hm]
          omega
        · simpa [List.filter_cons, hm] using hV
      · simp only [hm, if_false]
        have hv' : Valid h l ((kept ++ [x]) ++ xs) fr := by simpa using hv
        obtain ⟨H, L, fr', hrun, hV, hd, hes, hcap, hpool⟩ :=
          @ih (kept ++ [x]) fuel h l fr c hv' (by simpa using hf) (by simp at hc; omega)
        refine ⟨H, L, fr', ?_, ?_, hd, hes, hcap, hpool⟩
        · rw [hrun]
          simp [List.filter_cons, hm]
        · simpa [List.filter_cons, hm] using hV

theorem filter_length_add {α : Type} (p : α → Bool) (xs : List α) :
    (xs.filter p).length + (xs.filter (fun x => !p x)).length = xs.length := by
  induction xs with
  | nil => rfl
  | cons x xs ih =>
    by_cases hp : p x = true
    · simp [List.filter_cons, hp]; omega
    · simp [List.filter_cons, hp]; omega

/-- The outer loop of `list_unique` keeps the list valid. -/
theorem unique_outer_spec (inner_fuel : Nat) :
    ∀ (n : Nat) {todo done : List Ptr} {fuel : Nat} {h : Heap} {l : ListT} {fr : List Ptr}
      {c : Nat}, todo.length ≤ n →
      Valid h l (done ++ todo) fr → todo.length ≤ fuel → todo.length ≤ inner_fuel + 1 →
      c + todo.length < 65536 + 1 →
      ∃ c' H L act' fr', list_unique_outer inner_fuel fuel h l todo.head? c = some (c', H, L) ∧
        Valid H L act' fr' ∧ c' + act'.length = c + (done ++ todo).length ∧
        (∀ q, (H q).data = (h q).data) ∧ L.element_size = l.element_size ∧
        L.capacity = l.capacity ∧ L.node_pool = l.node_pool := by
  intro n
  induction n with
  | zero =>
    intro todo done fuel h l fr c hn hv _ _ _
    have : todo = [] := List.length_eq_zero.1 (Nat.le_zero.1 hn)
    subst this
    refine ⟨c, h, l, done, fr, ?_, by simpa using hv, by simp, fun _ => rfl, rfl, rfl, rfl⟩
    cases fuel <;> simp [list_unique_outer]
  | succ n ih =>
    intro todo done fuel h l fr c hn hv hf hif hc
    cases todo with
    | nil =>
      refine ⟨c, h, l, done, fr, ?_, by simpa using hv, by simp, fun _ => rfl, rfl, rfl, rfl⟩
      cases fuel <;> simp [list_unique_outer]
    | cons pre rest =>
      have hnext : (h pre).next = rest.head? := hv.1.links.1
      cases fuel with
      | zero => simp at hf
      | succ fuel =>
        have hv' : Valid h l ((done ++ [pre]) ++ rest) fr := by simpa using hv
        obtain ⟨H1, L1, fr1, hrun1, hV1, hd1, hes1, hcap1, hpool1⟩ :=
          @unique_inner_spec pre rest (done ++ [pre]) inner_fuel h l fr c hv'
            (by simpa using hif) (by simp at hc; omega)
        have hV1' : Valid H1 L1 (done ++ pre :: rest.filter
            (fun x => !memcmp_eq (h pre).data (h x).data l.element_size)) fr1 := by
          simpa using hV1
        have hnext1 : (H1 pre).next = (rest.filter
            (fun x => !memcmp_eq (h pre).data (h x).data l.element_size)).head? :=
          hV1'.1.links.1
        have hle := List.length_filter_le
          (fun x => !memcmp_eq (h pre).data (h x).data l.element_size) rest
        have hadd := filter_length_add
          (fun x => memcmp_eq (h pre).data (h x).data l.element_size) rest
        obtain ⟨c', H, L, act', fr', hrun, hV, hcnt, hd, hes, hcap, hpool⟩ :=
          @ih (rest.filter (fun x => !memcmp_eq (h pre).data (h x).data l.element_size))
            (done ++ [pre]) fuel H1 L1 fr1
            (c + (rest.filter
              (fun x => memcmp_eq (h pre).data (h x).data l.element_size)).length)
            (by simp at hn; omega) hV1 (by simp at hf; omega) (by simp at hif; omega)
            (by simp at hc; omega)
        refine ⟨c', H, L, act', fr', ?_, hV, ?_, fun q => (hd q).trans (hd1 q),
          hes.trans hes1, hcap.trans hcap1, hpool.trans hpool1⟩
        · simp only [List.head?_cons, list_unique_outer, list_next, hnext, hrun1, hnext1]
          exact hrun
        · rw [hcnt]
          simp
          omega

/-- `list_unique` on a valid list. -/
theorem unique_valid {h : Heap} {l : ListT} {act fr : List Ptr} (hv : Valid h l act fr)
    {fuel : Nat} (hf : act.length ≤ fuel) :
    ∃ c H L act' fr', list_unique fuel h l = some (c, H, L) ∧ Valid H L act' fr' ∧
      c + act'.length = act.length ∧
      (∀ q, (H q).data = (h q).data) ∧ L.element_size = l.element_size ∧
      L.capacity = l.capacity ∧ L.node_pool = l.node_pool := by
  have hlen := hv.1.length_le
  have h16 := hv.1.2.2.2.2.2
  have hv' : Valid h l ([] ++ act) fr := by simpa using hv
  obtain ⟨c, H, L, act', fr', hrun, hV, hcnt, hrest⟩ :=
    @unique_outer_spec fuel act.length act [] fuel h l fr 0 (le_refl _) hv' hf (by omega)
      (by omega)
  refine ⟨c, H, L, act', fr', ?_, hV, by simpa using hcnt, hrest⟩
  unfold list_unique
  rw [hv.1.head_eq, hrun]

theorem clear_loop_fields :
    ∀ (fuel : Nat) (h : Heap) (l : ListT) (cur : Option Ptr) (H : Heap) (L : ListT),
      list_clear_loop fuel h l cur = some (H, L) →
      L.capacity = l.capacity ∧ L.element_size = l.element_size ∧ L.node_pool = l.node_pool := by
  intro fuel
  induction fuel with
  | zero =>
    intro h l cur H L he
    cases cur with
    | none => simp [list_clear_loop] at he; obtain ⟨-, rfl⟩ := he; exact ⟨rfl, rfl, rfl⟩
    | some c => simp [list_clear_loop] at he
  | succ fuel ih =>
    intro h l cur H L he
    cases cur with
    | none => simp [list_clear_loop] at he; obtain ⟨-, rfl⟩ := he; exact ⟨rfl, rfl, rfl⟩
    | some c =>
      simp only [list_clear_loop, list_free_node] at he
      have := ih _ _ _ _ _ he
      simpa using this

theorem list_clear_fields {fuel : Nat} {h : Heap} {l : ListT} {H : Heap} {L : ListT}
    (he : list_clear fuel h l = some (H, L)) :
    L.capacity = l.capacity ∧ L.element_size = l.element_size ∧ L.node_pool = l.node_pool ∧
    L.head = none ∧ L.tail = none ∧ L.size = 0 := by
  unfold list_clear at he
  cases hc : list_clear_loop fuel h l l.head with
  | none => simp [hc] at he
  | some r =>
    obtain ⟨H1, L1⟩ := r
    simp only [hc, Option.some.injEq, Prod.mk.injEq] at he
    obtain ⟨-, rfl⟩ := he
    obtain ⟨e1, e2, e3⟩ := clear_loop_fields _ _ _ _ _ _ hc
    exact ⟨e1, e2, e3, rfl, rfl, rfl⟩

theorem list_index_to_node_eq {l : ListT} {i : Nat} (hi : i < l.capacity) :
    list_index_to_node l i = some (node_at l i) := by
  unfold list_index_to_node node_at
  simp [Nat.not_le.2 hi]

theorem mem_pool_nodes {l : ListT} {x : Ptr} :
    x ∈ pool_nodes l ↔ ∃ i, i < l.capacity ∧ node_at l i = x := by
  simp [pool_nodes]

theorem node_at_congr {l l' : ListT} (h2 : l'.element_size = l.element_size)
    (h3 : l'.node_pool = l.node_pool) (i : Nat) : node_at l' i = node_at l i := by
  simp [node_at, h2, h3]

/-- One record claimed: the invariant of the record loop is kept. -/
theorem deser_step {l0 : ListT} {s : DeserState} {done : List Ptr} (hinv : DeserInv l0 s done)
    (h16 : l0.capacity < 65536)
    {idx : Nat} (hidx : idx < l0.capacity) (hun : s.node_used.getD idx false = false)
    (d : Bytes) :
    DeserInv l0
      { ok := true,
        h := (match s.prev_node with
          | none => set_next (set_prev (set_data s.h (node_at l0 idx)
              (memcpy (s.h (node_at l0 idx)).data d s.l.element_size)) (node_at l0 idx)
              s.prev_node) (node_at l0 idx) none
          | some pv => set_next (set_next (set_prev (set_data s.h (node_at l0 idx)
              (memcpy (s.h (node_at l0 idx)).data d s.l.element_size)) (node_at l0 idx)
              s.prev_node) (node_at l0 idx) none) pv (some (node_at l0 idx))),
        l := { (match s.prev_node with
            | none => { s.l with head := some (node_at l0 idx) }
            | some _ => s.l) with
          size := ((match s.prev_node with
            | none => { s.l with head := some (node_at l0 idx) }
            | some _ => s.l).size + 1) % 65536 },
        node_used := s.node_used.set idx true,
        prev_node := some (node_at l0 idx) }
      (done ++ [node_at l0 idx]) := by
  obtain ⟨e1, e2, e3, hf, hb, hs, hnd, hul, hu, hsub⟩ := hinv
  have hnew : node_at l0 idx ∉ done := by
    intro hm
    have := (hu idx hidx).2 hm
    rw [hun] at this
    exact Bool.false_ne_true this
  have hprev : s.prev_node = done.getLast? := by
    have := chain_none_head hb
    simpa [List.head?_reverse] using this
  have hlen : done.length < l0.capacity := by
    have hsub' : done ⊆ (pool_nodes l0).erase (node_at l0 idx) := by
      intro x hx
      refine (List.mem_erase_of_ne ?_).2 (hsub x hx)
      intro e; exact hnew (e ▸ hx)
    have h1 := (List.subperm_of_subset hnd hsub').length_le
    have h2 : node_at l0 idx ∈ pool_nodes l0 := mem_pool_nodes.2 ⟨idx, hidx, rfl⟩
    rw [List.length_erase_of_mem h2, pool_nodes_length] at h1
    omega
  refine ⟨?_, ?_, ?_, ?_, ?_, ?_, ?_, ?_, ?_, ?_⟩
  · cases s.prev_node <;> exact e1
  · cases s.prev_node <;> exact e2
  · cases s.prev_node <;> exact e3
  · have hr := chain_redirect hf hnd (some (node_at l0 idx))
    rw [← hprev] at hr
    rw [chain_snoc]
    cases hp : s.prev_node with
    | none =>
      rw [hp] at hr
      simp only [redirect, entry] at hr
      simp only [nxt_set_next, nxt_set_prev, nxt_set_data, Function.update_same, and_true]
      rw [chain_update hnew]
      exact hr
    | some pv =>
      rw [hp] at hr
      simp only [redirect, entry] at hr
      have hpv : pv ∈ done := List.mem_of_getLast?_eq_some (hprev.symm.trans hp)
      have hne : node_at l0 idx ≠ pv := fun e => hnew (e ▸ hpv)
      simp only [nxt_set_next, nxt_set_prev, nxt_set_data]
      refine ⟨?_, by simp [Function.update_noteq hne]⟩
      rw [Function.update_comm hne, chain_update hnew]
      exact hr
  · simp only [List.reverse_append, List.reverse_cons, List.reverse_nil, List.nil_append,
      List.singleton_append, chain_cons, true_and]
    have hnew' : node_at l0 idx ∉ done.reverse := fun hm => hnew (List.mem_reverse.1 hm)
    cases hp : s.prev_node with
    | none =>
      rw [hp] at hb
      simp only [prv_set_next, prv_set_prev, prv_set_data, Function.update_same]
      rw [chain_update hnew']; exact hb
    | some pv =>
      rw [hp] at hb
      simp only [prv_set_next, prv_set_prev, prv_set_data, Function.update_same]
      rw [chain_update hnew']; exact hb
  · have : (s.l.size + 1) % 65536 = done.length + 1 := by
      rw [hs]; apply Nat.mod_eq_of_lt
      omega
    cases hp : s.prev_node <;> simpa using this
  · exact List.nodup_append.2 ⟨hnd, List.nodup_singleton _, fun x hx hm => by
      simp at hm; exact hnew (hm ▸ hx)⟩
  · simpa using hul
  · intro i hi
    by_cases e : i = idx
    · subst e
      simp [List.getD_eq_getElem?_getD, hul, hi]
    · have := hu i hi
      have hne : node_at l0 i ≠ node_at l0 idx := fun e' => e (node_at_inj l0 e')
      simp only [List.mem_append, List.mem_singleton, hne, or_false]
      rw [← this]
      simp [List.getD_eq_getElem?_getD, List.getElem?_set, Ne.symm e]
  · intro x hx
    rcases List.mem_append.1 hx with hx | hx
    · exact hsub x hx
    · simp at hx; subst hx
      exact mem_pool_nodes.2 ⟨idx, hidx, rfl⟩

/-- A successful run of the record loop keeps its invariant. -/
theorem deser_loop_inv (buffer : Bytes) (nps : Nat) {l0 : ListT} (h16 : l0.capacity < 65536) :
    ∀ (rem node_ptr : Nat) (s : DeserState) (done : List Ptr) (s' : DeserState),
      DeserInv l0 s done → deserialize_loop buffer nps rem node_ptr s = some s' →
      s'.ok = true → ∃ done', DeserInv l0 s' done' ∧ done'.length = done.length + rem := by
  intro rem
  induction rem with
  | zero =>
    intro node_ptr s done s' hinv he _
    simp only [deserialize_loop, Option.some.injEq] at he
    subst he
    exact ⟨done, hinv, rfl⟩
  | succ rem ih =>
    intro node_ptr s done s' hinv he hok
    have e1 := hinv.1
    have e2 := hinv.2.1
    have e3 := hinv.2.2.1
    simp only [deserialize_loop] at he
    cases hr : read_u16 buffer node_ptr with
    | none => simp [hr] at he
    | some idx =>
      simp only [hr] at he
      by_cases hbad : idx ≥ s.l.capacity ∨ s.node_used.getD idx false = true
      · rw [if_pos hbad] at he
        simp only [Option.some.injEq] at he
        subst he
        simp at hok
      · rw [if_neg hbad] at he
        simp only [not_or, not_le, Bool.not_eq_true] at hbad
        have hidx : idx < l0.capacity := by rw [← e1]; exact hbad.1
        have hnode : list_index_to_node s.l idx = some (node_at l0 idx) := by
          rw [list_index_to_node_eq hbad.1, node_at_congr e2 e3]
        simp only [hnode] at he
        cases hd : read_bytes buffer (node_ptr + 2) s.l.element_size with
        | none => simp [hd] at he
        | some d =>
          simp only [hd] at he
          have hstep := deser_step hinv h16 hidx hbad.2 d
          obtain ⟨done', hinv', hlen⟩ := ih _ _ _ _ hstep he hok
          refine ⟨done', hinv', ?_⟩
          rw [hlen]; simp; omega

theorem unused_nodes_succ (l : ListT) (used : List Bool) (k : Nat) :
    unused_nodes l used (k + 1) =
      if used.getD k false then unused_nodes l used k
      else unused_nodes l used k ++ [node_at l k] := by
  unfold unused_nodes
  rw [List.range_succ, List.filter_append, List.map_append]
  by_cases hu : used.getD k false = true
  · simp only [hu, List.filter_cons, List.filter_nil, Bool.not_true, if_true]
    simp
  · simp only [hu, List.filter_cons, List.filter_nil, if_false]
    have : used.getD k false = false := by simpa using hu
    simp only [this, Bool.not_false, if_true, List.map_cons, List.map_nil]
    simp

theorem mem_unused_nodes {l : ListT} {used : List Bool} {k : Nat} {x : Ptr} :
    x ∈ unused_nodes l used k ↔ ∃ i, i < k ∧ used.getD i false = false ∧ node_at l i = x := by
  simp [unused_nodes, and_assoc]

theorem unused_nodes_nodup (l : ListT) (used : List Bool) (k : Nat) :
    (unused_nodes l used k).Nodup := by
  unfold unused_nodes
  exact ((List.nodup_range k).filter _).map (fun i j e => node_at_inj l e)

/-- The final free-list loop of `list_deserialize` chains the unclaimed slots. -/
theorem rebuild_spec (l : ListT) (used : List Bool) (h : Heap) :
    ∀ k, k ≤ l.capacity →
      Chain (nxt ((List.range k).foldl (deser_rebuild_step l used) (h, none)).1)
        ((List.range k).foldl (deser_rebuild_step l used) (h, none)).2
        (unused_nodes l used k).reverse none ∧
      (∀ q, q ∉ unused_nodes l used k →
        ((List.range k).foldl (deser_rebuild_step l used) (h, none)).1 q = h q) ∧
      (∀ q, (((List.range k).foldl (deser_rebuild_step l used) (h, none)).1 q).data
        = (h q).data) := by
  intro k
  induction k with
  | zero => intro _; simp [unused_nodes]
  | succ k ih =>
    intro hk
    obtain ⟨c, hfr, hd⟩ := ih (by omega)
    rw [List.range_succ, List.foldl_append]
    simp only [List.foldl_cons, List.foldl_nil]
    rw [unused_nodes_succ]
    by_cases hu : used.getD k false = true
    · simp only [deser_rebuild_step, hu, if_true]
      exact ⟨c, hfr, hd⟩
    · have hnode : list_index_to_node l k = some (node_at l k) :=
        list_index_to_node_eq (by omega)
      have hnew : node_at l k ∉ unused_nodes l used k := by
        intro hm
        obtain ⟨i, hi, -, e⟩ := mem_unused_nodes.1 hm
        have := node_at_inj l e
        omega
      simp only [deser_rebuild_step, hu, hnode, if_false, Bool.false_eq_true]
      refine ⟨?_, ?_, ?_⟩
      · simp only [List.reverse_append, List.reverse_cons, List.reverse_nil, List.nil_append,
          List.singleton_append, chain_cons, true_and, nxt_set_prev, nxt_set_next,
          Function.update_same]
        rw [chain_update (fun hm => hnew (List.mem_reverse.1 hm))]
        exact c
      · intro q hq
        simp only [List.mem_append, List.mem_singleton, not_or] at hq
        rw [set_prev_of_ne hq.2, set_next_of_ne hq.2]
        exact hfr q hq.1
      · intro q
        simp [hd q]

theorem DeserInv.done_le_capacity {l0 : ListT} {s : DeserState} {done : List Ptr}
    (hinv : DeserInv l0 s done) : done.length ≤ l0.capacity := by
  obtain ⟨-, -, -, -, -, -, hnd, -, -, hsub⟩ := hinv
  have := (List.subperm_of_subset hnd hsub).length_le
  rwa [pool_nodes_length] at this

/-- The list assembled at the end of a successful `list_deserialize` is valid. -/
theorem deser_finish {l0 : ListT} {s : DeserState} {done : List Ptr}
    (hinv : DeserInv l0 s done) (h16 : l0.capacity < 65536) :
    Valid
      ((List.range s.l.capacity).foldl
        (deser_rebuild_step { s.l with tail := s.prev_node } s.node_used) (s.h, none)).1
      { s.l with
        tail := s.prev_node,
        free_list := ((List.range s.l.capacity).foldl
          (deser_rebuild_step { s.l with tail := s.prev_node } s.node_used) (s.h, none)).2 }
      done (unused_nodes l0 s.node_used l0.capacity).reverse := by
  have hlen := hinv.done_le_capacity
  obtain ⟨e1, e2, e3, hf, hb, hs, hnd, hul, hu, hsub⟩ := hinv
  have hun : unused_nodes ({ s.l with tail := s.prev_node } : ListT) s.node_used s.l.capacity
      = unused_nodes l0 s.node_used l0.capacity := by
    unfold unused_nodes
    rw [e1]
    congr 1
    funext i
    exact node_at_congr e2 e3 i
  obtain ⟨c, hfr, hd⟩ := rebuild_spec ({ s.l with tail := s.prev_node } : ListT) s.node_used s.h
    s.l.capacity (le_refl _)
  rw [hun] at c hfr
  have hdis : ∀ x ∈ done, x ∉ unused_nodes l0 s.node_used l0.capacity := by
    intro x hx hm
    obtain ⟨i, hi, hfalse, e⟩ := mem_unused_nodes.1 hm
    have := (hu i hi).2 (e ▸ hx)
    rw [hfalse] at this
    exact Bool.false_ne_true this
  refine ⟨⟨?_, ?_, hnd, hs, ?_, ?_⟩, c, ?_⟩
  · refine (chain_congr ?_).2 hf
    intro x hx
    simp [nxt, hfr x (hdis x hx)]
  · refine (chain_congr ?_).2 hb
    intro x hx
    simp [prv, hfr x (hdis x (List.mem_reverse.1 hx))]
  · show s.l.size ≤ s.l.capacity
    rw [hs, e1]; exact hlen
  · show s.l.capacity < 65536
    rw [e1]; exact h16
  · have hp : ∀ L : ListT, L.capacity = l0.capacity → L.element_size = l0.element_size →
        L.node_pool = l0.node_pool → pool_nodes L = pool_nodes l0 :=
      fun L a b c => pool_nodes_congr a b c
    refine List.Perm.trans ?_ (List.Perm.of_eq (hp _ e1 e2 e3).symm)
    apply (List.perm_ext_iff_of_nodup ?_ (pool_nodes_nodup l0)).2
    · intro x
      constructor
      · intro hx
        rcases List.mem_append.1 hx with hx | hx
        · exact hsub x hx
        · obtain ⟨i, hi, -, e⟩ := mem_unused_nodes.1 (List.mem_reverse.1 hx)
          exact mem_pool_nodes.2 ⟨i, hi, e⟩
      · intro hx
        obtain ⟨i, hi, e⟩ := mem_pool_nodes.1 hx
        by_cases hui : s.node_used.getD i false = true
        · exact List.mem_append_left _ (e ▸ (hu i hi).1 hui)
        · refine List.mem_append_right _ (List.mem_reverse.2 ?_)
          exact mem_unused_nodes.2 ⟨i, hi, by simpa using hui, e⟩
    · refine List.nodup_append.2 ⟨hnd, List.nodup_reverse.2 (unused_nodes_nodup _ _ _), ?_⟩
      intro x hx hm
      exact hdis x hx (List.mem_reverse.1 hm)

/-- A successful `list_deserialize` leaves a valid list, whatever the
destination held before. -/
theorem deserialize_valid {fuel : Nat} {h : Heap} {l : ListT} {buffer : Bytes} {H : Heap}
    {L : ListT} (h16 : l.capacity < 65536)
    (he : list_deserialize fuel h l buffer = some (true, H, L)) :
    ∃ act fr, Valid H L act fr ∧ L.capacity = l.capacity ∧
      L.element_size = l.element_size ∧ L.node_pool = l.node_pool := by
  unfold list_deserialize at he
  cases h0 : read_u16 buffer 0 with
  | none => simp [h0] at he
  | some hsize =>
    cases h2 : read_u16 buffer 2 with
    | none => simp [h0, h2] at he
    | some hcap =>
      cases h4 : read_u16 buffer 4 with
      | none => simp [h0, h2, h4] at he
      | some hes =>
        simp only [h0, h2, h4] at he
        split at he
        · simp at he
        · split at he
          · simp at he
          · cases hc : list_clear fuel h l with
            | none => simp [hc] at he
            | some r =>
              obtain ⟨h1, l1⟩ := r
              obtain ⟨c1, c2, c3, c4, c5, c6⟩ := list_clear_fields hc
              simp only [hc] at he
              split at he
              · simp at he
              · rename_i s hloop
                split at he
                · rename_i hok
                  simp only [Option.some.injEq, Prod.mk.injEq, true_and] at he
                  obtain ⟨rfl, rfl⟩ := he
                  have hinv0 : DeserInv
                      ({ l1 with free_list := ((List.range l1.capacity).foldl
                          (deser_free_step l1) (h1, none)).2 } : ListT)
                      { ok := true,
                        h := ((List.range l1.capacity).foldl (deser_free_step l1) (h1, none)).1,
                        l := { l1 with free_list := ((List.range l1.capacity).foldl
                          (deser_free_step l1) (h1, none)).2 },
                        node_used := List.replicate l1.capacity false,
                        prev_node := none } [] := by
                    refine ⟨rfl, rfl, rfl, ?_, ?_, ?_, List.nodup_nil, ?_, ?_, ?_⟩
                    · simpa using c4
                    · simp
                    · simpa using c6
                    · simp
                    · intro i hi
                      have hi' : i < l1.capacity := hi
                      simp [List.getD_eq_getElem?_getD, List.getElem?_replicate, hi']
                    · simp
                  have h16' : ({ l1 with free_list := ((List.range l1.capacity).foldl
                      (deser_free_step l1) (h1, none)).2 } : ListT).capacity < 65536 := by
                    show l1.capacity < 65536
                    rw [c1]; exact h16
                  obtain ⟨done, hinv, -⟩ := deser_loop_inv buffer _ h16' _ _ _ _ _ hinv0 hloop hok
                  have hfin := deser_finish hinv h16'
                  refine ⟨_, _, hfin, ?_, ?_, ?_⟩
                  · show s.l.capacity = l.capacity
                    rw [hinv.1]; exact c1
                  · show s.l.element_size = l.element_size
                    rw [hinv.2.1]; exact c2
                  · show s.l.node_pool = l.node_pool
                    rw [hinv.2.2.1]; exact c3
                · simp at he

/-- Every list reachable by single-list operations is valid. -/
theorem Reach.all_valid {h : Heap} {l : ListT} (hr : Reach h l) : ∃ act fr, Valid h l act fr := by
  induction hr with
  | create hc _ hcr => exact ⟨_, _, (list_create_valid hc hcr).1⟩
  | insert position e _ hp ih =>
    obtain ⟨act, fr, hv⟩ := ih
    exact valid_insert hv hp e
  | push_front e _ ih =>
    obtain ⟨act, fr, hv⟩ := ih
    exact valid_push_front hv e
  | push_back e _ ih =>
    obtain ⟨act, fr, hv⟩ := ih
    exact valid_push_back hv e
  | erase p _ hp ih =>
    obtain ⟨act, fr, hv⟩ := ih
    exact valid_erase hv hp
  | pop_front out _ ih =>
    obtain ⟨act, fr, hv⟩ := ih
    exact valid_pop_front hv out
  | pop_back out _ ih =>
    obtain ⟨act, fr, hv⟩ := ih
    exact valid_pop_back hv out
  | replace position e _ _ ih =>
    obtain ⟨act, fr, hv⟩ := ih
    exact ⟨act, fr, replace_valid hv position e⟩
  | clear fuel _ hf he ih =>
    obtain ⟨act, fr, hv⟩ := ih
    have hlen : act.length ≤ fuel := by rw [← hv.1.2.2.2.1]; exact hf
    obtain ⟨H', L', he', hV, -⟩ := clear_valid hv hlen
    rw [he] at he'
    simp only [Option.some.injEq, Prod.mk.injEq] at he'
    obtain ⟨rfl, rfl⟩ := he'
    exact ⟨_, _, hV⟩
  | reverse fuel _ hf he ih =>
    obtain ⟨act, fr, hv⟩ := ih
    have hlen : act.length ≤ fuel := by rw [← hv.1.2.2.2.1]; exact hf
    obtain ⟨H', L', he', hV, -⟩ := reverse_valid hv hlen
    rw [he] at he'
    simp only [Option.some.injEq, Prod.mk.injEq] at he'
    obtain ⟨rfl, rfl⟩ := he'
    exact ⟨_, _, hV⟩
  | remove_if fuel predicate pd _ hf he ih =>
    obtain ⟨act, fr, hv⟩ := ih
    have hlen : act.length ≤ fuel := by rw [← hv.1.2.2.2.1]; exact hf
    obtain ⟨H', L', fr', he', hV, -⟩ := remove_if_valid hv predicate pd hlen
    rw [he] at he'
    simp only [Option.some.injEq, Prod.mk.injEq] at he'
    obtain ⟨-, rfl, rfl⟩ := he'
    exact ⟨_, _, hV⟩
  | remove fuel value _ hf he ih =>
    obtain ⟨act, fr, hv⟩ := ih
    have hlen : act.length ≤ fuel := by rw [← hv.1.2.2.2.1]; exact hf
    obtain ⟨H', L', fr', he', hV, -⟩ := remove_if_valid hv none value hlen
    unfold list_remove at he
    rw [he] at he'
    simp only [Option.some.injEq, Prod.mk.injEq] at he'
    obtain ⟨-, rfl, rfl⟩ := he'
    exact ⟨_, _, hV⟩
  | unique fuel _ hf he ih =>
    obtain ⟨act, fr, hv⟩ := ih
    have hlen : act.length ≤ fuel := by rw [← hv.1.2.2.2.1]; exact hf
    obtain ⟨c', H', L', act', fr', he', hV, -⟩ := unique_valid hv hlen
    rw [he] at he'
    simp only [Option.some.injEq, Prod.mk.injEq] at he'
    obtain ⟨-, rfl, rfl⟩ := he'
    exact ⟨_, _, hV⟩
  | deserialize fuel buffer _ he ih =>
    obtain ⟨act, fr, hv⟩ := ih
    obtain ⟨act', fr', hV, -⟩ := deserialize_valid hv.1.2.2.2.2.2 he
    exact ⟨_, _, hV⟩

/-- C3 (as amended). In every state of a list reachable from a freshly created
list through the single-list mutating operations (insert, erase, push, pop,
replace, clear, reverse, remove, remove_if, unique) and through
`list_deserialize` calls that return true, the free list is a finite chain whose
length plus `size` equals `capacity`. -/
theorem free_plus_count {h : Heap} {l : ListT} (hr : Reach h l) :
    ∃ fr : List Ptr, (∀ fuel, fr.length ≤ fuel → free_walk fuel h l = some fr) ∧
      fr.length + l.size = l.capacity := by
  obtain ⟨act, fr, hv⟩ := hr.all_valid
  refine ⟨fr, fun fuel hf => walk_of_chain hv.2.1 hf, ?_⟩
  have := hv.length
  rw [hv.1.2.2.2.1]
  omega

theorem demo3_reach' : Reach demo3.1 demo3.2 :=
  Reach.push_back (le32 3) (Reach.push_back (le32 2) (Reach.push_back (le32 1)
    (Reach.create (by decide : 5 < 65536) (by decide : 4 < 65536) rfl)))

theorem free_plus_count_witness :
    Reach demo3.1 demo3.2 ∧
    ∃ fr : List Ptr, (∀ fuel, fr.length ≤ fuel → free_walk fuel demo3.1 demo3.2 = some fr) ∧
      fr.length + demo3.2.size = demo3.2.capacity :=
  ⟨demo3_reach', free_plus_count demo3_reach'⟩

/-- C3 (counterexample). After `list_splice` moved the node of `20` from
`[10, 20, 30, 40]` to the end of `[1, 2, 3]` (both lists of capacity 10 built
by `push_back`), the destination has count 4 and a free list of 7 slots, the
source count 3 and a free list of 6 slots. -/
theorem free_plus_count_fails_after_splice :
    demoA_spliced.map (fun r => (r.1,
        (r.2.2.1.size, (free_walk 20 r.2.1 r.2.2.1).map List.length, r.2.2.1.capacity),
        (r.2.2.2.size, (free_walk 20 r.2.1 r.2.2.2).map List.length, r.2.2.2.capacity))) =
      some (true, (4, some 7, 10), (3, some 6, 10)) ∧ 7 + 4 ≠ 10 ∧ 6 + 3 ≠ 10 := by
  refine ⟨by decide, by decide, by decide⟩

theorem fill_valid (e : Bytes) :
    ∀ (n : Nat) (s : Heap × ListT) (act fr : List Ptr), Valid s.1 s.2 act fr →
      s.2.size + n ≤ s.2.capacity →
      (∃ act' fr', Valid (fill e n s).1 (fill e n s).2 act' fr') ∧
      (fill e n s).2.size = s.2.size + n ∧ (fill e n s).2.capacity = s.2.capacity ∧
      (fill e n s).2.element_size = s.2.element_size := by
  intro n
  induction n with
  | zero =>
    intro s act fr hv _
    exact ⟨⟨act, fr, hv⟩, rfl, rfl, rfl⟩
  | succ n ih =>
    intro s act fr hv hle
    obtain ⟨⟨act', fr', hv'⟩, hs, hc, he⟩ := ih s act fr hv (by omega)
    have hlt : (fill e n s).2.size < (fill e n s).2.capacity := by rw [hs, hc]; omega
    have hv'' : Valid (fill e n s).1 (fill e n s).2 (act' ++ []) fr' := by simpa using hv'
    obtain ⟨x, fr2, H, L, -, hins, hV, -, -, hsz, hcap, hes, -⟩ := insert_valid hv'' hlt e
    simp only [List.head?_nil] at hins
    have hpb : list_push_back (fill e n s).1 (fill e n s).2 e = (true, H, L) := hins
    simp only [fill, hpb]
    refine ⟨⟨_, _, hV⟩, ?_, ?_, ?_⟩
    · rw [hsz, hs]; omega
    · rw [hcap, hc]
    · rw [hes, he]

theorem fill_reach (e : Bytes) (s : Heap × ListT) (hr : Reach s.1 s.2) :
    ∀ n, Reach (fill e n s).1 (fill e n s).2 := by
  intro n
  induction n with
  | zero => exact hr
  | succ n ih => exact Reach.push_back e ih

theorem big_created_eq :
    list_create mem0 4096 65535 65535 = some (big_created.1, big_created.2) := by
  unfold list_create big_created
  rw [if_neg (by decide)]

theorem big_list_facts :
    Reach big_list.1 big_list.2 ∧ big_list.2.size = 65535 ∧ big_list.2.capacity = 65535 ∧
    big_list.2.element_size = 65535 := by
  have hc : Reach big_created.1 big_created.2 :=
    @Reach.create mem0 4096 65535 65535 big_created.1 big_created.2 (by decide) (by decide)
      big_created_eq
  obtain ⟨hv, e1, e2, e3, e4, -⟩ :=
    @list_create_valid mem0 4096 65535 65535 big_created.1 big_created.2 (by decide)
      big_created_eq
  obtain ⟨-, hs, hcap, hes⟩ := fill_valid (List.replicate 65535 0) 65535 big_created _ _ hv
    (by rw [e4, e1])
  refine ⟨fill_reach _ _ hc _, ?_, ?_, ?_⟩
  · show (fill (List.replicate 65535 0) 65535 big_created).2.size = 65535
    rw [hs, e4]
  · show (fill (List.replicate 65535 0) 65535 big_created).2.capacity = 65535
    rw [hcap, e1]
  · show (fill (List.replicate 65535 0) 65535 big_created).2.element_size = 65535
    rw [hes, e2]

theorem serialize_size_wraps_at (h : Heap) (l : ListT) (hs : l.size = 65535)
    (he : l.element_size = 65535) :
    list_get_serialize_size l = 5 ∧ list_serialize h l (List.replicate 5 0) = none := by
  have h1 : list_get_serialize_size l = 5 := by
    unfold list_get_serialize_size sizeof_list_persist_header_t list_persist_node_size
    rw [hs, he]
  refine ⟨h1, ?_⟩
  unfold list_serialize
  simp only [h1, hs, he]
  simp [write_bytes, u16_bytes]

/-- C1. For the full list of capacity 65535 with 65535-byte elements (made by
`list_create` and 65535 `list_push_back` calls) `list_get_serialize_size`
wraps to 5, and `list_serialize` into a buffer of that many bytes passes the
size check and then writes its six-byte header past the end of the buffer. -/
theorem serialize_size_wraps :
    Reach big_list.1 big_list.2 ∧ big_list.2.size = 65535 ∧
    big_list.2.element_size = 65535 ∧
    (6 + 65535 * (2 + 65535) = 4294967301 ∧ list_get_serialize_size big_list.2 = 5) ∧
    list_serialize big_list.1 big_list.2 (List.replicate 5 0) = none := by
  obtain ⟨hr, hs, -, he⟩ := big_list_facts
  obtain ⟨h1, h2⟩ := serialize_size_wraps_at big_list.1 big_list.2 hs he
  exact ⟨hr, hs, he, ⟨by norm_num, h1⟩, h2⟩

theorem write_bytes_append (pre old bs : Bytes) (hlen : bs.length ≤ old.length) :
    write_bytes (pre ++ old) pre.length bs = some (pre ++ bs ++ old.drop bs.length) := by
  unfold write_bytes
  rw [if_pos (by simp; omega)]
  congr 1
  rw [List.take_left', List.drop_append_eq_append_drop]
  · have : pre.length + bs.length - pre.length = bs.length := by omega
    simp [this, List.drop_eq_nil_of_le]
  · rfl

theorem u16_bytes_length (v : Nat) : (u16_bytes v).length = 2 := rfl

theorem list_node_to_index_node_at {l : ListT} {i : Nat} (hi : i < l.capacity)
    (h16 : l.capacity < 65536) : list_node_to_index l (node_at l i) = i := by
  have hp := LIST_NODE_SIZE_pos l.element_size
  have h2 : i * LIST_NODE_SIZE l.element_size / LIST_NODE_SIZE l.element_size = i :=
    Nat.mul_div_cancel _ hp
  have h3 : i % 65536 = i := Nat.mod_eq_of_lt (by omega)
  simp only [list_node_to_index, node_at, Nat.add_sub_cancel_left, Nat.mul_mod_left, h2, h3]
  have c1 : ¬ (l.node_pool + i * LIST_NODE_SIZE l.element_size < l.node_pool ∨ 0 ≠ 0) := by
    simp
  have c2 : ¬ i ≥ l.capacity := Nat.not_le.2 hi
  rw [if_neg c1, if_neg c2]

/-- The record loop of `list_serialize` writes one record per node. -/
theorem serialize_loop_spec {h : Heap} {l : ListT} (h16 : l.capacity < 65536)
    {act : List Ptr} :
    ∀ {rem : Nat} {cur : Option Ptr} {pre old : Bytes},
      Chain (nxt h) cur act none → (∀ p ∈ act, p ∈ pool_nodes l) →
      (∀ p ∈ act, l.element_size ≤ (h p).data.length) →
      act.length ≤ rem → act.length * (2 + l.element_size) ≤ old.length →
      serialize_loop h l rem cur pre.length (pre ++ old) = some (true,
        pre ++ (act.map (fun p => record_bytes (list_node_to_index l p) (elem h l p))).flatten
          ++ old.drop (act.length * (2 + l.element_size))) := by
  induction act with
  | nil =>
    intro rem cur pre old hc _ _ _ _
    simp only [chain_nil] at hc
    subst hc
    cases rem <;> simp [serialize_loop]
  | cons x xs ih =>
    intro rem cur pre old hc hpool hdata hrem hold
    obtain ⟨hx, hc'⟩ := hc
    subst hx
    cases rem with
    | zero => simp at hrem
    | succ rem =>
      obtain ⟨i, hi, hxi⟩ := mem_pool_nodes.1 (hpool x (List.mem_cons_self _ _))
      have hidx : list_node_to_index l x = i := by
        rw [← hxi]; exact list_node_to_index_node_at hi h16
      have hne : ¬ (list_node_to_index l x = 65535) := by rw [hidx]; omega
      have hdx : ((h x).data.take l.element_size).length = l.element_size := by
        rw [List.length_take]
        exact Nat.min_eq_left (hdata x (List.mem_cons_self _ _))
      simp only [List.length_cons] at hold hrem
      have hold' : (xs.length + 1) * (2 + l.element_size)
          = xs.length * (2 + l.element_size) + (2 + l.element_size) := by ring
      rw [hold'] at hold
      have hw1 := write_bytes_append pre old (u16_bytes (list_node_to_index l x))
        (by rw [u16_bytes_length]; omega)
      have hw2 := write_bytes_append (pre ++ u16_bytes (list_node_to_index l x))
        (old.drop 2) ((h x).data.take l.element_size)
        (by rw [hdx, List.length_drop]; omega)
      simp only [List.length_append, u16_bytes_length] at hw2
      simp only [u16_bytes_length] at hw1
      simp only [serialize_loop, hne, if_false, hw1, List.append_assoc]
      simp only [List.append_assoc] at hw2
      rw [hw2]
      simp only [List.drop_drop, hdx]
      have hptr : pre.length + list_persist_node_size l.element_size
          = (pre ++ u16_bytes (list_node_to_index l x)
              ++ (h x).data.take l.element_size).length := by
        simp [list_persist_node_size, u16_bytes_length, hdx]
      rw [hptr]
      have := @ih rem (h x).next
        (pre ++ u16_bytes (list_node_to_index l x) ++ (h x).data.take l.element_size)
        (old.drop (2 + l.element_size)) hc'
        (fun p hp => hpool p (List.mem_cons_of_mem _ hp))
        (fun p hp => hdata p (List.mem_cons_of_mem _ hp)) (by omega)
        (by rw [List.length_drop]; omega)
      simp only [List.append_assoc] at this ⊢
      rw [this]
      simp only [List.map_cons, List.flatten_cons, record_bytes, elem, List.append_assoc,
        List.drop_drop, List.length_cons]
      have harith : 2 + l.element_size + xs.length * (2 + l.element_size)
          = (xs.length + 1) * (2 + l.element_size) := by ring
      rw [harith]

theorem records_length {h : Heap} {l : ListT} {act : List Ptr}
    (hdata : ∀ p ∈ act, l.element_size ≤ (h p).data.length) :
    ((act.map (fun p => record_bytes (list_node_to_index l p) (elem h l p))).flatten).length
      = act.length * (2 + l.element_size) := by
  induction act with
  | nil => simp
  | cons x xs ih =>
    have hx : (elem h l x).length = l.element_size := by
      unfold elem
      rw [List.length_take]
      exact Nat.min_eq_left (hdata x (List.mem_cons_self _ _))
    have ih' := ih (fun p hp => hdata p (List.mem_cons_of_mem _ hp))
    simp only [List.map_cons, List.flatten_cons, List.length_append, List.length_cons,
      record_bytes, u16_bytes_length, hx] at ih' ⊢
    rw [ih']
    ring

theorem list_image_length {h : Heap} {l : ListT} {act : List Ptr}
    (hdata : ∀ p ∈ act, l.element_size ≤ (h p).data.length) :
    (list_image h l act).length = 6 + act.length * (2 + l.element_size) := by
  unfold list_image
  simp only [List.length_append, u16_bytes_length, records_length hdata]

/-- `list_serialize` on a valid list whose required size does not wrap: the
buffer receives the image of the list and the return value is its length. -/
theorem serialize_spec {h : Heap} {l : ListT} {act fr : List Ptr} (hv : Valid h l act fr)
    (hdata : ∀ p ∈ act, l.element_size ≤ (h p).data.length)
    (hnw : 6 + l.size * (2 + l.element_size) < 4294967296) (buffer : Bytes)
    (hlen : 6 + l.size * (2 + l.element_size) ≤ buffer.length) :
    list_get_serialize_size l = 6 + l.size * (2 + l.element_size) ∧
    list_serialize h l buffer = some (6 + l.size * (2 + l.element_size),
      list_image h l act ++ buffer.drop (6 + l.size * (2 + l.element_size))) := by
  have hreq : list_get_serialize_size l = 6 + l.size * (2 + l.element_size) := by
    unfold list_get_serialize_size sizeof_list_persist_header_t list_persist_node_size
    exact Nat.mod_eq_of_lt hnw
  refine ⟨hreq, ?_⟩
  have hsz : l.size = act.length := hv.1.2.2.2.1
  have h16 := hv.1.2.2.2.2.2
  have hpool : ∀ p ∈ act, p ∈ pool_nodes l := by
    intro p hp
    exact (hv.2.2.subset (List.mem_append_left _ hp))
  have w1 := write_bytes_append [] buffer (u16_bytes l.size) (by rw [u16_bytes_length]; omega)
  have w2 := write_bytes_append (u16_bytes l.size) (buffer.drop 2) (u16_bytes l.capacity)
    (by rw [u16_bytes_length, List.length_drop]; omega)
  have w3 := write_bytes_append (u16_bytes l.size ++ u16_bytes l.capacity) (buffer.drop 4)
    (u16_bytes l.element_size) (by rw [u16_bytes_length, List.length_drop]; omega)
  simp only [List.nil_append, List.length_nil, u16_bytes_length, List.length_append,
    List.drop_drop] at w1 w2 w3
  have hloop := @serialize_loop_spec h l h16 act l.size l.head
    (u16_bytes l.size ++ u16_bytes l.capacity ++ u16_bytes l.element_size) (buffer.drop 6)
    hv.1.1 hpool hdata (by omega) (by rw [List.length_drop, ← hsz]; omega)
  simp only [List.length_append, u16_bytes_length, List.drop_drop] at hloop
  unfold list_serialize
  simp only [hreq, Nat.not_lt.2 hlen, if_false, w1]
  rw [w2]
  simp only [Nat.reduceAdd] at w3 ⊢
  rw [w3]
  simp only [sizeof_list_persist_header_t]
  rw [hloop]
  simp only [list_image, hsz]

theorem getD_append_zero (pre rest : Bytes) (a : Nat) :
    (pre ++ a :: rest).getD pre.length 0 = a := by
  induction pre with
  | nil => rfl
  | cons x pre ih => simpa using ih

theorem getD_append_one (pre rest : Bytes) (a b : Nat) :
    (pre ++ a :: b :: rest).getD (pre.length + 1) 0 = b := by
  induction pre with
  | nil => rfl
  | cons x pre ih => simpa using ih

theorem read_u16_append (pre rest : Bytes) {v : Nat} (hv : v < 65536) :
    read_u16 (pre ++ (u16_bytes v ++ rest)) pre.length = some v := by
  unfold read_u16 u16_bytes
  rw [if_pos (by simp)]
  have h0 : (pre ++ ([v % 256, v / 256 % 256] ++ rest)).getD pre.length 0 = v % 256 :=
    getD_append_zero pre _ _
  have h1 : (pre ++ ([v % 256, v / 256 % 256] ++ rest)).getD (pre.length + 1) 0
      = v / 256 % 256 := getD_append_one pre _ _ _
  rw [h0, h1]
  congr 1
  omega

theorem read_bytes_append (pre d rest : Bytes) :
    read_bytes (pre ++ (d ++ rest)) pre.length d.length = some d := by
  unfold read_bytes
  rw [if_pos (by simp)]
  simp

theorem take_memcpy (old d : Bytes) : (memcpy old d d.length).take d.length = d := by
  unfold memcpy
  simp

/-- The record loop of `list_deserialize` accepts well-formed records and
claims their slots in order. -/
theorem deser_loop_total (buffer : Bytes) {l0 : ListT} (h16 : l0.capacity < 65536)
    {recs : List (Nat × Bytes)} :
    ∀ {pre post : Bytes} {s : DeserState} {done : List Ptr},
      buffer = pre ++ ((recs.map (fun r => record_bytes r.1 r.2)).flatten ++ post) →
      (∀ r ∈ recs, r.2.length = l0.element_size ∧ r.1 < l0.capacity) →
      (recs.map (fun r => r.1)).Nodup → (∀ r ∈ recs, node_at l0 r.1 ∉ done) →
      DeserInv l0 s done → s.ok = true →
      ∃ s', deserialize_loop buffer (2 + l0.element_size) recs.length pre.length s = some s' ∧
        s'.ok = true ∧ DeserInv l0 s' (done ++ recs.map (fun r => node_at l0 r.1)) ∧
        (∀ r ∈ recs, (s'.h (node_at l0 r.1)).data.take l0.element_size = r.2) ∧
        (∀ q, q ∉ recs.map (fun r => node_at l0 r.1) → (s'.h q).data = (s.h q).data) := by
  induction recs with
  | nil =>
    intro pre post s done _ _ _ _ hinv hok
    exact ⟨s, rfl, hok, by simpa using hinv, by simp, fun _ _ => rfl⟩
  | cons r rs ih =>
    intro pre post s done hbuf hrec hnd hnew hinv hok
    obtain ⟨hrlen, hridx⟩ := hrec r (List.mem_cons_self _ _)
    have e1 := hinv.1
    have e2 := hinv.2.1
    have e3 := hinv.2.2.1
    have hu := hinv.2.2.2.2.2.2.2.2.1
    have hr16 : r.1 < 65536 := by omega
    have hbuf1 : buffer = pre ++ (u16_bytes r.1 ++ (r.2 ++
        ((rs.map (fun r => record_bytes r.1 r.2)).flatten ++ post))) := by
      rw [hbuf]; simp [record_bytes]
    have hread : read_u16 buffer pre.length = some r.1 := by
      rw [hbuf1]; exact read_u16_append _ _ hr16
    have hbuf2 : buffer = (pre ++ u16_bytes r.1) ++ (r.2 ++
        ((rs.map (fun r => record_bytes r.1 r.2)).flatten ++ post)) := by
      rw [hbuf1]; simp
    have hreadb : read_bytes buffer (pre.length + 2) s.l.element_size = some r.2 := by
      have := read_bytes_append (pre ++ u16_bytes r.1) r.2
        ((rs.map (fun r => record_bytes r.1 r.2)).flatten ++ post)
      rw [← hbuf2] at this
      simpa [u16_bytes_length, hrlen, e2] using this
    have hnode_new : node_at l0 r.1 ∉ done := hnew r (List.mem_cons_self _ _)
    have hunused : s.node_used.getD r.1 false = false := by
      cases hb : s.node_used.getD r.1 false with
      | false => rfl
      | true => exact absurd ((hu r.1 hridx).1 hb) hnode_new
    have hgood : ¬ (r.1 ≥ s.l.capacity ∨ s.node_used.getD r.1 false = true) := by
      rw [e1, hunused]; simp; exact hridx
    have hnode : list_index_to_node s.l r.1 = some (node_at l0 r.1) := by
      rw [list_index_to_node_eq (by rw [e1]; exact hridx), node_at_congr e2 e3]
    have hstep := deser_step hinv h16 hridx hunused r.2
    have hnd' := List.nodup_cons.1 hnd
    have hbuf3 : buffer = (pre ++ record_bytes r.1 r.2) ++
        ((rs.map (fun r => record_bytes r.1 r.2)).flatten ++ post) := by
      rw [hbuf2]; simp [record_bytes]
    have hnew' : ∀ r' ∈ rs, node_at l0 r'.1 ∉ done ++ [node_at l0 r.1] := by
      intro r' hr' hm
      rcases List.mem_append.1 hm with hm | hm
      · exact hnew r' (List.mem_cons_of_mem _ hr') hm
      · simp at hm
        have : r'.1 = r.1 := node_at_inj l0 hm
        exact hnd'.1 (List.mem_map.2 ⟨r', hr', this⟩)
    obtain ⟨s', hrun, hok', hinv', hdat, hfrm⟩ := ih hbuf3
      (fun r' hr' => hrec r' (List.mem_cons_of_mem _ hr')) hnd'.2 hnew' hstep rfl
    have hplen : (pre ++ record_bytes r.1 r.2).length = pre.length + (2 + l0.element_size) := by
      simp [record_bytes, u16_bytes_length, hrlen]
    rw [hplen] at hrun
    refine ⟨s', ?_, hok', by simpa using hinv', ?_, ?_⟩
    · simp only [List.length_cons, deserialize_loop, hread, if_neg hgood, hnode, hreadb]
      exact hrun
    · intro r' hr'
      rcases List.mem_cons.1 hr' with e | hr'
      · subst e
        have hnot : node_at l0 r'.1 ∉ rs.map (fun r => node_at l0 r.1) := by
          intro hm
          obtain ⟨r'', hr'', e⟩ := List.mem_map.1 hm
          have : r''.1 = r'.1 := node_at_inj l0 e
          exact hnd'.1 (List.mem_map.2 ⟨r'', hr'', this⟩)
        rw [hfrm _ hnot]
        cases hp : s.prev_node with
        | none =>
          simp only [hp, set_next_data, set_prev_data, set_data_data, if_true, e2, ← hrlen]
          exact take_memcpy _ _
        | some pv =>
          simp only [hp, set_next_data, set_prev_data, set_data_data, if_true, e2, ← hrlen]
          exact take_memcpy _ _
      · exact hdat r' hr'
    · intro q hq
      simp only [List.map_cons, List.mem_cons, not_or] at hq
      rw [hfrm q hq.2]
      cases hp : s.prev_node with
      | none => simp [hp, hq.1]
      | some pv => simp [hp, hq.1]

theorem read_header (a b c : Nat) (rest : Bytes) (ha : a < 65536) (hb : b < 65536)
    (hc : c < 65536) :
    read_u16 (u16_bytes a ++ (u16_bytes b ++ (u16_bytes c ++ rest))) 0 = some a ∧
    read_u16 (u16_bytes a ++ (u16_bytes b ++ (u16_bytes c ++ rest))) 2 = some b ∧
    read_u16 (u16_bytes a ++ (u16_bytes b ++ (u16_bytes c ++ rest))) 4 = some c := by
  refine ⟨?_, ?_, ?_⟩
  · exact read_u16_append [] _ ha
  · have := read_u16_append (u16_bytes a) (u16_bytes c ++ rest) hb
    rwa [u16_bytes_length] at this
  · have := read_u16_append (u16_bytes a ++ u16_bytes b) rest hc
    rw [List.length_append, u16_bytes_length, u16_bytes_length, List.append_assoc] at this
    exact this

/-- On a buffer holding a well-formed image (a header followed by records
with distinct in-range slot indices, then anything), `list_deserialize`
into a valid list of the same element size returns `true` and rebuilds
exactly the recorded sequence. -/
theorem deserialize_total {h : Heap} {l : ListT} {dact dfr : List Ptr}
    (hv : Valid h l dact dfr) {fuel : Nat} (hf : dact.length ≤ fuel)
    (hes16 : l.element_size < 65536) (hcap : Nat) (recs : List (Nat × Bytes)) (junk : Bytes)
    (hsc : recs.length ≤ hcap) (hcl : hcap ≤ l.capacity)
    (hrec : ∀ r ∈ recs, r.2.length = l.element_size ∧ r.1 < l.capacity)
    (hnd : (recs.map (fun r => r.1)).Nodup)
    (hnw : 6 + recs.length * (2 + l.element_size) < 4294967296) :
    ∃ H L fr, list_deserialize fuel h l
        (u16_bytes recs.length ++ (u16_bytes hcap ++ (u16_bytes l.element_size ++
          ((recs.map (fun r => record_bytes r.1 r.2)).flatten ++ junk)))) = some (true, H, L) ∧
      Valid H L (recs.map (fun r => node_at l r.1)) fr ∧
      (∀ r ∈ recs, elem H L (node_at l r.1) = r.2) ∧
      L.capacity = l.capacity ∧ L.element_size = l.element_size ∧
      L.node_pool = l.node_pool := by
  have h16 : l.capacity < 65536 := hv.1.2.2.2.2.2
  obtain ⟨h1, l1, hclear, -, -, -, -, -⟩ := clear_valid hv hf
  obtain ⟨c1, c2, c3, c4, c5, c6⟩ := list_clear_fields hclear
  obtain ⟨r0, r2, r4⟩ := read_header recs.length hcap l.element_size
    ((recs.map (fun r => record_bytes r.1 r.2)).flatten ++ junk) (by omega) (by omega) hes16
  generalize hbuf : (u16_bytes recs.length ++ (u16_bytes hcap ++ (u16_bytes l.element_size ++
          ((recs.map (fun r => record_bytes r.1 r.2)).flatten ++ junk)))) = buffer at r0 r2 r4
  have hbuf' : buffer = (u16_bytes recs.length ++ u16_bytes hcap ++ u16_bytes l.element_size) ++
      ((recs.map (fun r => record_bytes r.1 r.2)).flatten ++ junk) := by
    rw [← hbuf]; simp
  have hblen : 6 + recs.length * (2 + l.element_size) ≤ buffer.length := by
    rw [hbuf']
    simp only [List.length_append, u16_bytes_length]
    have hl : ((recs.map (fun r => record_bytes r.1 r.2)).flatten).length
        = recs.length * (2 + l.element_size) := by
      clear hbuf hbuf' r0 r2 r4 hnd hsc hnw
      induction recs with
      | nil => simp
      | cons r rs ih =>
        have ih' := ih (fun r' hr' => hrec r' (List.mem_cons_of_mem _ hr'))
        have := (hrec r (List.mem_cons_self _ _)).1
        rw [List.map_cons, List.flatten_cons, List.length_append, ih', List.length_cons]
        simp only [record_bytes, List.length_append, u16_bytes_length, this]
        ring
    omega
  have hinv0 : DeserInv l
      { ok := true,
        h := ((List.range l1.capacity).foldl (deser_free_step l1) (h1, none)).1,
        l := { l1 with free_list := ((List.range l1.capacity).foldl
          (deser_free_step l1) (h1, none)).2 },
        node_used := List.replicate l1.capacity false,
        prev_node := none } [] := by
    refine ⟨c1, c2, c3, ?_, ?_, ?_, List.nodup_nil, ?_, ?_, ?_⟩
    · simpa using c4
    · simp
    · simpa using c6
    · simp [c1]
    · intro i hi
      have hi' : i < l1.capacity := by rw [c1]; exact hi
      simp [List.getD_eq_getElem?_getD, List.getElem?_replicate, hi']
    · simp
  have hplen : (u16_bytes recs.length ++ u16_bytes hcap ++ u16_bytes l.element_size).length
      = 6 := by simp [u16_bytes_length]
  obtain ⟨s, hrun, hok, hinv, hdat, -⟩ := deser_loop_total buffer h16 hbuf' hrec hnd
    (fun _ _ => List.not_mem_nil _) hinv0 rfl
  rw [hplen] at hrun
  simp only [List.nil_append] at hinv
  have hfin := deser_finish hinv h16
  obtain ⟨-, -, hd⟩ := rebuild_spec ({ s.l with tail := s.prev_node } : ListT) s.node_used s.h
    s.l.capacity (le_refl _)
  refine ⟨_, _, _, ?_, hfin, ?_, ?_, ?_, ?_⟩
  · unfold list_deserialize
    simp only [r0, r2, r4]
    rw [if_neg (by simp; omega)]
    simp only [list_persist_node_size, sizeof_list_persist_header_t]
    rw [Nat.mod_eq_of_lt hnw, if_neg (by omega)]
    simp only [hclear, hrun, hok, if_true]
  · intro r hr
    show ( _ : Bytes) = r.2
    unfold elem
    rw [hd]
    show (s.h (node_at l r.1)).data.take s.l.element_size = r.2
    rw [hinv.2.1]
    exact hdat r hr
  · show s.l.capacity = l.capacity
    exact hinv.1
  · show s.l.element_size = l.element_size
    exact hinv.2.1
  · show s.l.node_pool = l.node_pool
    exact hinv.2.2.1

/-- Round trip for lists whose serialized size fits in 32 bits: serializing
a valid list and deserializing the buffer into any valid list of the same
element size and at least the same capacity returns `true` and reproduces
the size and the element bytes in order. -/
theorem round_trip_no_wrap {hs : Heap} {ls : ListT} {act fr : List Ptr}
    (hv : Valid hs ls act fr)
    (hdata : ∀ p ∈ act, ls.element_size ≤ (hs p).data.length)
    (hes16 : ls.element_size < 65536)
    (hnw : 6 + ls.size * (2 + ls.element_size) < 4294967296)
    {hd : Heap} {ld : ListT} {dact dfr : List Ptr} (hvd : Valid hd ld dact dfr)
    (hes : ld.element_size = ls.element_size) (hcap : ls.capacity ≤ ld.capacity)
    (buffer : Bytes) (hlen : buffer.length = list_get_serialize_size ls)
    {fuel : Nat} (hf : dact.length ≤ fuel) :
    ∃ b H L act1 fr1,
      list_serialize hs ls buffer = some (list_get_serialize_size ls, b) ∧
      list_deserialize fuel hd ld b = some (true, H, L) ∧
      Valid H L act1 fr1 ∧ list_size L = list_size ls ∧
      act1.map (elem H L) = act.map (elem hs ls) := by
  have h16 : ls.capacity < 65536 := hv.1.2.2.2.2.2
  have hsz : ls.size = act.length := hv.1.2.2.2.1
  have hreq : list_get_serialize_size ls = 6 + ls.size * (2 + ls.element_size) := by
    unfold list_get_serialize_size sizeof_list_persist_header_t list_persist_node_size
    exact Nat.mod_eq_of_lt hnw
  obtain ⟨-, hser⟩ := serialize_spec hv hdata hnw buffer (by rw [hlen, hreq])
  have hpool : ∀ p ∈ act, p ∈ pool_nodes ls := fun p hp =>
    (hv.2.2.subset (List.mem_append_left _ hp))
  have hidx : ∀ p ∈ act, list_node_to_index ls p < ls.capacity ∧
      node_at ls (list_node_to_index ls p) = p := by
    intro p hp
    obtain ⟨i, hi, e⟩ := mem_pool_nodes.1 (hpool p hp)
    rw [← e, list_node_to_index_node_at hi h16]
    exact ⟨hi, rfl⟩
  have hrecs : (act.map (fun p => (list_node_to_index ls p, elem hs ls p))).map
      (fun r => record_bytes r.1 r.2)
      = act.map (fun p => record_bytes (list_node_to_index ls p) (elem hs ls p)) := by
    rw [List.map_map]; rfl
  have hrl : (act.map (fun p => (list_node_to_index ls p, elem hs ls p))).length = ls.size := by
    rw [List.length_map, hsz]
  obtain ⟨H, L, fr1, hdes, hval, hel, -, -, -⟩ := deserialize_total hvd hf (by rw [hes]; exact hes16)
    ls.capacity (act.map (fun p => (list_node_to_index ls p, elem hs ls p)))
    (buffer.drop (6 + ls.size * (2 + ls.element_size)))
    (by rw [hrl]; exact hv.1.2.2.2.2.1) hcap
    (by
      intro r hr
      obtain ⟨p, hp, rfl⟩ := List.mem_map.1 hr
      refine ⟨?_, lt_of_lt_of_le (hidx p hp).1 hcap⟩
      show (elem hs ls p).length = ld.element_size
      unfold elem
      rw [List.length_take, hes]
      exact Nat.min_eq_left (hdata p hp))
    (by
      rw [List.map_map]
      refine List.Nodup.map_on ?_ hv.1.2.2.1
      intro x hx y hy e
      have e' : list_node_to_index ls x = list_node_to_index ls y := e
      rw [← (hidx x hx).2, ← (hidx y hy).2, e'])
    (by rw [hrl, hes]; exact hnw)
  rw [hrl, hrecs, hes] at hdes
  refine ⟨list_image hs ls act ++ buffer.drop (6 + ls.size * (2 + ls.element_size)), H, L,
    (act.map (fun p => (list_node_to_index ls p, elem hs ls p))).map (fun r => node_at ld r.1),
    fr1, ?_, ?_, hval, ?_, ?_⟩
  · rw [hreq]; exact hser
  · unfold list_image
    simpa using hdes
  · show L.size = ls.size
    rw [hval.1.2.2.2.1, List.length_map, List.length_map, hsz]
  · rw [List.map_map, List.map_map]
    apply List.map_congr_left
    intro p hp
    exact hel _ (List.mem_map_of_mem _ hp)

/-- The round trip of `[1, 2, 3]` (capacity 5) into the full list
`[1, 2, 3, 4, 5]` through a buffer of 24 bytes. -/
theorem round_trip_no_wrap_demo :
    ∃ b H L act1 fr1,
      list_serialize demo3.1 demo3.2 (List.replicate 24 0)
        = some (list_get_serialize_size demo3.2, b) ∧
      list_deserialize 5 demo5.1 demo5.2 b = some (true, H, L) ∧
      Valid H L act1 fr1 ∧ list_size L = list_size demo3.2 ∧
      act1.map (elem H L) = [1000, 1020, 1040].map (elem demo3.1 demo3.2) :=
  round_trip_no_wrap (by decide : Valid demo3.1 demo3.2 [1000, 1020, 1040] [1060, 1080])
    (by decide) (by decide) (by decide)
    (by decide : Valid demo5.1 demo5.2 [1000, 1020, 1040, 1060, 1080] [])
    (by decide) (by decide) (List.replicate 24 0) (by decide) (by decide)

/-- C11. `list_merge` does not move the last element of the source: for two
distinct well-formed lists with disjoint nodes and equal `element_size`, a
source `pre ++ [lst]` of at least two nodes and `dest.size + src.size <=
dest.capacity`, `list_merge(dest, src)` returns true, the sequence of `dest`
becomes the old one followed by `pre` only, and `src` keeps its last node
`lst` with count 1 (it is not empty). -/
theorem merge_leaves_last (fuel : Nat) (h : Heap) (l1 l2 : ListT) (a1 pre : List Ptr) (lst : Ptr)
    (hd : IsList h l1 a1) (hs : IsList h l2 (pre ++ [lst]))
    (hdisj : ∀ x ∈ a1, x ∉ pre ++ [lst])
    (hes : l1.element_size = l2.element_size) (hne : pre ≠ [])
    (hcap : l1.size + l2.size ≤ l1.capacity) (hfuel : pre.length ≤ fuel) :
    ∃ H L1 L2, list_merge fuel h l1 l2 = some (true, H, L1, L2) ∧
      (∀ n, L1.size ≤ n →
        forward_walk n H L1 = some (a1 ++ pre) ∧
        list_elems n H L1 = some ((a1 ++ pre).map (elem h l1))) ∧
      (∀ n, L2.size ≤ n →
        forward_walk n H L2 = some [lst] ∧
        list_elems n H L2 = some [elem h l2 lst]) ∧
      L1.size + 1 = l1.size + l2.size ∧ L2.size = 1 ∧ list_empty L2 = false := by
  have hd' : IsList h l1 (a1 ++ []) := by simpa using hd
  have hs' : IsList h l2 ([] ++ pre ++ lst :: []) := by simpa using hs
  have hl2 : l2.size = pre.length + 1 := by rw [hs.2.2.2.1]; simp
  obtain ⟨H, L1, L2, heq, hl1, hl2', hdata, hs1, hs2, he1, he2, -, -⟩ :=
    splice_run_islist fuel h l1 l2 a1 [] [] pre [] lst hd' hs'
      (by simpa using hdisj) hes hne (by omega) hfuel
  have hhead : l2.head = pre.head? := by
    rw [hs.head_eq]
    cases pre with
    | nil => exact absurd rfl hne
    | cons x xs => rfl
  have htail : l2.tail = some lst := by rw [hs.tail_eq]; simp
  have hsz : L2.size = 1 := by omega
  refine ⟨H, L1, L2, ?_, ?_, ?_, by omega, hsz, ?_⟩
  · unfold list_merge
    rw [hhead, htail]
    simpa using heq
  · intro n hn
    have := elems_of_islist hl1 he1 hdata hn
    simpa using this
  · intro n hn
    have := elems_of_islist hl2' he2 hdata hn
    simpa using this
  · simp [list_empty, hsz]

theorem merge_leaves_last_witness :
    IsList demoB.1 demoB.2.1 [1000, 1020, 1040] ∧
    IsList demoB.1 demoB.2.2 ([2000, 2020] ++ [2040]) ∧
    demoB.2.1.size + demoB.2.2.size ≤ demoB.2.1.capacity ∧
    ∃ H L1 L2, list_merge 10 demoB.1 demoB.2.1 demoB.2.2 = some (true, H, L1, L2) ∧
      (∀ n, L1.size ≤ n →
        forward_walk n H L1 = some ([1000, 1020, 1040] ++ [2000, 2020]) ∧
        list_elems n H L1 =
          some (([1000, 1020, 1040] ++ [2000, 2020]).map (elem demoB.1 demoB.2.1))) ∧
      (∀ n, L2.size ≤ n →
        forward_walk n H L2 = some [2040] ∧
        list_elems n H L2 = some [elem demoB.1 demoB.2.2 2040]) ∧
      L1.size + 1 = demoB.2.1.size + demoB.2.2.size ∧ L2.size = 1 ∧ list_empty L2 = false :=
  ⟨by decide, by decide, by decide,
    merge_leaves_last 10 demoB.1 demoB.2.1 demoB.2.2 [1000, 1020, 1040] [2000, 2020] 2040
      (by decide) (by decide) (by decide) (by decide) (by decide) (by decide) (by decide)⟩

/-- With a source of one element `list_merge` moves nothing and still
relinks: on `[1, 2, 3]` and `[7]` it returns true, both counts stay 3 and 1,
the destination loses its tail pointer and its last node now points to the
node of the source. -/
theorem merge_single_breaks_dest :
    demoD_merged.map (fun r => (r.1, r.2.2.1.size, r.2.2.1.tail,
        forward_walk 10 r.2.1 r.2.2.1)) =
      some (true, 3, none, some [1000, 1020, 1040, 2000]) ∧
    demoD_merged.map (fun r => (backward_walk 10 r.2.1 r.2.2.1, r.2.2.2.size,
        forward_walk 10 r.2.1 r.2.2.2)) = some (some [], 1, some [2000]) := by
  refine ⟨by decide, by decide⟩

/-- The counting loop of `list_splice` stops at `last` or at the end of the
chain, whichever comes first. -/
theorem splice_count_stop {h : Heap} {last stop : Option Ptr} {run : List Ptr} :
    ∀ {fuel : Nat} {a : Option Ptr} {c : Nat}, Chain (nxt h) a run stop →
      (stop = none ∨ stop = last) → (∀ x ∈ run, last ≠ some x) →
      run.length ≤ fuel → c < 65536 →
      splice_count h last fuel a c = some ((c + run.length) % 65536) := by
  induction run with
  | nil =>
    intro fuel a c hc hstop _ _ hlt
    simp only [chain_nil] at hc
    subst hc
    have : c % 65536 = c := Nat.mod_eq_of_lt hlt
    cases a with
    | none => cases fuel <;> simp [splice_count, this]
    | some p =>
      rcases hstop with e | e
      · simp at e
      · cases fuel <;> simp [splice_count, this, e]
  | cons x xs ih =>
    intro fuel a c hc hstop hnot hf hlt
    obtain ⟨ha, hc'⟩ := hc
    subst ha
    have hx : last ≠ some x := hnot x (List.mem_cons_self _ _)
    cases fuel with
    | zero => simp at hf
    | succ fuel =>
      simp only [splice_count, Ne.symm hx, if_false]
      have hc'' : Chain (nxt h) (h x).next xs stop := hc'
      rw [ih hc'' hstop (fun y hy => hnot y (List.mem_cons_of_mem _ hy)) (by simpa using hf)
        (Nat.mod_lt _ (by norm_num))]
      simp only [List.length_cons]
      congr 1
      omega

/-- C12. Splice failure is side-effect free: let `run` be the nodes from
`first` up to (excluding) `last`, or to the end of the chain when `last` is not
met. When `first` is `NULL`, or the two `element_size` differ, or `dest.size +
run_length > dest.capacity`, `list_splice` returns false and the memory (all
links and data) and both list structures (head, tail, size, free list) are
exactly as before. -/
theorem splice_failure_no_effect (fuel : Nat) (h : Heap) (l1 l2 : ListT)
    (position first last stop : Option Ptr) (run : List Ptr)
    (hrun : Chain (nxt h) first run stop) (hstop : stop = none ∨ stop = last)
    (hnl : ∀ x ∈ run, last ≠ some x) (h16 : run.length < 65536) (hfuel : run.length ≤ fuel)
    (hfail : first = none ∨ l1.element_size ≠ l2.element_size ∨
      l1.size + run.length > l1.capacity) :
    list_splice fuel h l1 position l2 first last = some (false, h, l1, l2) := by
  cases first with
  | none => rfl
  | some fst =>
    by_cases hes : l1.element_size ≠ l2.element_size
    · simp only [list_splice]
      rw [if_pos hes]
    · have hcap : l1.size + run.length > l1.capacity := by
        rcases hfail with e | e | e
        · simp at e
        · exact absurd e hes
        · exact e
      have hcount := @splice_count_stop h last stop run fuel (some fst) 0 hrun hstop hnl hfuel
        (by norm_num)
      rw [Nat.zero_add, Nat.mod_eq_of_lt h16] at hcount
      simp only [list_splice, hcount]
      rw [if_neg hes, if_pos hcap]

/-- The three failure cases of `list_splice` on `[1, 2, 3]` (capacity 10)
and `[10, 20, 30, 40]`: a `NULL` first on the actual lists, a destination of
another element size, and a destination whose capacity is 3. -/
theorem splice_failure_no_effect_witness :
    list_splice 10 demoA.1 demoA.2.1 none demoA.2.2 none (some 2040)
      = some (false, demoA.1, demoA.2.1, demoA.2.2) ∧
    list_splice 10 demoA.1 { demoA.2.1 with element_size := 8 } none demoA.2.2 (some 2020)
        (some 2040)
      = some (false, demoA.1, { demoA.2.1 with element_size := 8 }, demoA.2.2) ∧
    list_splice 10 demoA.1 { demoA.2.1 with capacity := 3 } none demoA.2.2 (some 2020) none
      = some (false, demoA.1, { demoA.2.1 with capacity := 3 }, demoA.2.2) :=
  ⟨splice_failure_no_effect 10 demoA.1 demoA.2.1 demoA.2.2 none none (some 2040) none []
      (by decide) (by decide) (by decide) (by decide) (by decide) (Or.inl rfl),
    splice_failure_no_effect 10 demoA.1 { demoA.2.1 with element_size := 8 } demoA.2.2 none
      (some 2020) (some 2040) (some 2040) [2020]
      (by decide) (by decide) (by decide) (by decide) (by decide) (Or.inr (Or.inl (by decide))),
    splice_failure_no_effect 10 demoA.1 { demoA.2.1 with capacity := 3 } demoA.2.2 none
      (some 2020) none none [2020, 2040, 2060]
      (by decide) (by decide) (by decide) (by decide) (by decide)
      (Or.inr (Or.inr (by decide)))⟩

/-- C13 (as amended). With list1 = [1, 2, 3] and list2 = [10, 20, 30, 40]
(4-byte elements, capacity 10 each), `list_splice(list1, NULL, list2, node(20),
node(30))` returns true and moves only the node of 20: list1 becomes
[1, 2, 3, 20] and list2 becomes [10, 30, 40], with counts 4 and 3. -/
theorem splice_scenario_single_node :
    list_elems 10 demoA.1 demoA.2.1 = some [le32 1, le32 2, le32 3] ∧
    list_elems 10 demoA.1 demoA.2.2 = some [le32 10, le32 20, le32 30, le32 40] ∧
    elem demoA.1 demoA.2.2 2020 = le32 20 ∧ elem demoA.1 demoA.2.2 2040 = le32 30 ∧
    demoA_spliced.map (fun r => (r.1, list_elems 10 r.2.1 r.2.2.1, r.2.2.1.size)) =
      some (true, some [le32 1, le32 2, le32 3, le32 20], 4) ∧
    demoA_spliced.map (fun r => (list_elems 10 r.2.1 r.2.2.2, r.2.2.2.size)) =
      some (some [le32 10, le32 30, le32 40], 3) := by
  refine ⟨by decide, by decide, by decide, by decide, by decide, by decide⟩

/-- C13 (counterexample). On the same lists `list_splice(list1, NULL, list2,
node(20), node(40))` moves the two nodes of 20 and 30: list1 becomes
[1, 2, 3, 20, 30] and list2 becomes [10, 40]. -/
theorem splice_scenario_last40_moves_two :
    list_elems 10 demoA.1 demoA.2.1 = some [le32 1, le32 2, le32 3] ∧
    list_elems 10 demoA.1 demoA.2.2 = some [le32 10, le32 20, le32 30, le32 40] ∧
    elem demoA.1 demoA.2.2 2020 = le32 20 ∧ elem demoA.1 demoA.2.2 2060 = le32 40 ∧
    demoA_spliced40.map (fun r => (r.1, list_elems 10 r.2.1 r.2.2.1, r.2.2.1.size)) =
      some (true, some [le32 1, le32 2, le32 3, le32 20, le32 30], 5) ∧
    demoA_spliced40.map (fun r => (list_elems 10 r.2.1 r.2.2.2, r.2.2.2.size)) =
      some (some [le32 10, le32 40], 2) := by
  refine ⟨by decide, by decide, by decide, by decide, by decide, by decide⟩

theorem read_u16_some {buf : Bytes} {off : Nat} (h : off + 2 ≤ buf.length) :
    read_u16 buf off = some (buf.getD off 0 % 256 + 256 * (buf.getD (off + 1) 0 % 256)) := by
  unfold read_u16
  rw [if_pos h]

theorem read_u16_bound {buf : Bytes} {off v : Nat} (h : read_u16 buf off = some v) :
    off + 2 ≤ buf.length := by
  unfold read_u16 at h
  by_contra hc
  rw [if_neg hc] at h
  exact Option.noConfusion h

/-- C14 (as amended). Deserializing into a smaller list: for every buffer
holding a header whose capacity field exceeds the capacity of the destination,
`list_deserialize` returns false and leaves the memory and the destination
list exactly as they were, whatever the destination held (it is empty
afterwards only if it was empty before). -/
theorem deserialize_smaller_capacity (fuel : Nat) (h : Heap) (l : ListT) (buffer : Bytes)
    (hlen : 6 ≤ buffer.length) (hcap : ∃ c, read_u16 buffer 2 = some c ∧ l.capacity < c) :
    list_deserialize fuel h l buffer = some (false, h, l) := by
  obtain ⟨c, h2, hc⟩ := hcap
  unfold list_deserialize
  rw [read_u16_some (by omega : 0 + 2 ≤ buffer.length), h2,
    read_u16_some (by omega : 4 + 2 ≤ buffer.length)]
  simp only
  rw [if_pos (Or.inr (Or.inr hc))]

theorem deserialize_smaller_capacity_witness :
    6 ≤ buf_cap10.length ∧ (∃ c, read_u16 buf_cap10 2 = some c ∧ demo3.2.capacity < c) ∧
    list_deserialize 5 demo3.1 demo3.2 buf_cap10 = some (false, demo3.1, demo3.2) :=
  ⟨by decide, ⟨10, by decide, by decide⟩,
    deserialize_smaller_capacity 5 demo3.1 demo3.2 buf_cap10 (by decide)
      ⟨10, by decide, by decide⟩⟩

/-- C14 (counterexample). The list `[1, 2, 3]` of capacity 5 is not empty
after `list_deserialize` rejected an image whose capacity field is 10: it
still has count 3 and its three nodes. -/
theorem deserialize_smaller_capacity_not_emptied :
    read_u16 buf_cap10 2 = some 10 ∧ demo3.2.capacity = 5 ∧
    (list_deserialize 5 demo3.1 demo3.2 buf_cap10).map (fun r =>
        (r.1, list_empty r.2.2, r.2.2.size, list_elems 5 r.2.1 r.2.2)) =
      some (false, false, 3, some [le32 1, le32 2, le32 3]) := by
  refine ⟨by decide, by decide, by decide⟩

/-- C15. A corrupt record leaves a half-populated list: deserializing into
a fresh list of capacity 5 an image whose first record names slot 1 and whose
second record names slot 1 again, or names slot 9, returns false with count 1,
`head` at slot 1 and `tail` `NULL`; the free list holds four nodes, among them
the active node of slot 1, and slot 0 is on neither list. -/
theorem deserialize_bad_record_leaves_partial_list :
    Valid (demo_create 1000 5).1 (demo_create 1000 5).2 [] [1000, 1020, 1040, 1060, 1080] ∧
    parse_records buf_dup 4 2 6 = [(1, le32 7), (1, le32 8)] ∧
    parse_records buf_oob 4 2 6 = [(1, le32 7), (9, le32 8)] ∧
    demo_dup.map (fun r => (r.1, r.2.2.size, r.2.2.head, r.2.2.tail)) =
      some (false, 1, some 1020, none) ∧
    demo_dup.map (fun r => (forward_walk 5 r.2.1 r.2.2, free_walk 5 r.2.1 r.2.2,
        elem r.2.1 r.2.2 1020)) =
      some (some [1020], some [1080, 1060, 1040, 1020], le32 7) ∧
    demo_oob.map (fun r => (r.1, r.2.2.size, r.2.2.head, r.2.2.tail)) =
      some (false, 1, some 1020, none) ∧
    demo_oob.map (fun r => (forward_walk 5 r.2.1 r.2.2, free_walk 5 r.2.1 r.2.2,
        elem r.2.1 r.2.2 1020)) =
      some (some [1020], some [1080, 1060, 1040, 1020], le32 7) := by
  refine ⟨by decide, by decide, by decide, by decide, by decide, by decide, by decide⟩

/-- C19. Required size formula: for every list with `size <= 65535` and
`element_size <= 65535`, `list_get_serialize_size` returns the integer
`6 + size * (2 + element_size)` exactly when `size` and `element_size` are not
both 65535; for `size = element_size = 65535` the 32-bit result wraps and the
function returns 5 instead of 4294967301. In every case the result depends on
`size` and `element_size` only. -/
theorem serialize_size_formula (l : ListT) (hs : l.size ≤ 65535) (he : l.element_size ≤ 65535) :
    (list_get_serialize_size l = 6 + l.size * (2 + l.element_size) ↔
      ¬ (l.size = 65535 ∧ l.element_size = 65535)) ∧
    (l.size = 65535 ∧ l.element_size = 65535 →
      list_get_serialize_size l = 5 ∧ 6 + l.size * (2 + l.element_size) = 4294967301) ∧
    list_get_serialize_size l = (6 + l.size * (2 + l.element_size)) % 4294967296 := by
  have hdef : list_get_serialize_size l = (6 + l.size * (2 + l.element_size)) % 4294967296 := rfl
  refine ⟨?_, ?_, hdef⟩
  · constructor
    · intro heq hboth
      obtain ⟨e1, e2⟩ := hboth
      rw [hdef, e1, e2] at heq
      exact absurd heq (by decide)
    · intro hnot
      rw [hdef]
      apply Nat.mod_eq_of_lt
      by_cases h1 : l.size = 65535
      · have h2 : l.element_size ≤ 65534 := by
          by_contra hc
          exact hnot ⟨h1, by omega⟩
        have := Nat.mul_le_mul hs (by omega : 2 + l.element_size ≤ 65536)
        omega
      · have := Nat.mul_le_mul (by omega : l.size ≤ 65534)
          (by omega : 2 + l.element_size ≤ 65537)
        omega
  · intro hboth
    obtain ⟨e1, e2⟩ := hboth
    rw [hdef, e1, e2]
    exact ⟨by decide, by decide⟩

/-- The wrap happens on a list made by `list_create(65535, 65535)` and 65535
`list_push_back` calls. -/
theorem serialize_size_formula_witness :
    Reach big_list.1 big_list.2 ∧ big_list.2.size ≤ 65535 ∧ big_list.2.element_size ≤ 65535 ∧
    list_get_serialize_size big_list.2 = 5 ∧
    6 + big_list.2.size * (2 + big_list.2.element_size) = 4294967301 :=
  ⟨big_list_facts.1, le_of_eq big_list_facts.2.1, le_of_eq big_list_facts.2.2.2,
    (serialize_size_formula big_list.2 (le_of_eq big_list_facts.2.1)
      (le_of_eq big_list_facts.2.2.2)).2.1 ⟨big_list_facts.2.1, big_list_facts.2.2.2⟩⟩

theorem filter_length_not (p : Ptr → Bool) (xs : List Ptr) :
    (xs.filter (fun x => !p x)).length + (xs.filter p).length = xs.length := by
  induction xs with
  | nil => rfl
  | cons x xs ih =>
    cases hp : p x <;> simp [List.filter_cons, hp] <;> omega

/-- C20. `list_remove_if` / `list_remove`: on a well-formed list with active
nodes `act`, `list_remove_if` returns the number of nodes whose element
satisfies the test (the predicate applied to the element, or, without a
predicate, bytewise equality of the `element_size` element bytes with the
value); the resulting head-to-tail sequence is `act` without exactly those
nodes, the others in their original order and with unchanged bytes; the count
decreases by the returned value; `list_remove(value)` is the call without a
predicate. -/
theorem remove_if_semantics {h : Heap} {l : ListT} {act fr : List Ptr} (hv : Valid h l act fr)
    (predicate : Option Pred) (pd : Bytes) {fuel : Nat} (hf : act.length ≤ fuel) :
    ∃ n H L, list_remove_if fuel h l predicate pd = some (n, H, L) ∧
      n = (act.filter (node_matches h l predicate pd)).length ∧
      (∀ k, L.size ≤ k →
        forward_walk k H L = some (act.filter (fun x => !node_matches h l predicate pd x)) ∧
        backward_walk k H L =
          some (act.filter (fun x => !node_matches h l predicate pd x)).reverse ∧
        list_elems k H L =
          some ((act.filter (fun x => !node_matches h l predicate pd x)).map (elem h l))) ∧
      L.size + n = l.size ∧
      (predicate = none → list_remove fuel h l pd = some (n, H, L) ∧
        ∀ x, node_matches h l none pd x = (elem h l x == pd.take l.element_size)) := by
  obtain ⟨H, L, fr', heq, hV, hdata, hes, -, -⟩ := remove_if_valid hv predicate pd hf
  have hsz : L.size = (act.filter (fun x => !node_matches h l predicate pd x)).length :=
    hV.1.2.2.2.1
  refine ⟨_, H, L, heq, rfl, ?_, ?_, ?_⟩
  · intro k hk
    obtain ⟨h1, h2⟩ := elems_of_islist hV.1 hes hdata hk
    exact ⟨h1, hV.1.backward (by omega), h2⟩
  · rw [hsz, hv.1.2.2.2.1]
    exact filter_length_not _ _
  · intro hp
    subst hp
    exact ⟨heq, fun x => rfl⟩

theorem remove_if_semantics_witness :
    Valid demo7.1 demo7.2 [1000, 1020, 1040, 1060, 1080, 1100, 1120] [1140, 1160, 1180] ∧
    list_elems 7 demo7.1 demo7.2 =
      some [le32 1, le32 2, le32 3, le32 2, le32 4, le32 2, le32 5] ∧
    ∃ n H L, list_remove_if 7 demo7.1 demo7.2 (some is_even) [] = some (n, H, L) ∧
      n = 4 ∧
      (∀ k, L.size ≤ k →
        forward_walk k H L = some [1000, 1040, 1120] ∧
        backward_walk k H L = some [1120, 1040, 1000] ∧
        list_elems k H L = some [le32 1, le32 3, le32 5]) ∧
      L.size + n = 7 ∧
      (some is_even = none → list_remove 7 demo7.1 demo7.2 [] = some (n, H, L) ∧
        ∀ x, node_matches demo7.1 demo7.2 none [] x
          = (elem demo7.1 demo7.2 x == ([] : Bytes).take demo7.2.element_size)) :=
  ⟨by decide, by decide,
    remove_if_semantics
      (by decide : Valid demo7.1 demo7.2 [1000, 1020, 1040, 1060, 1080, 1100, 1120]
        [1140, 1160, 1180]) (some is_even) [] (by decide)⟩

/-- A buffer shorter than the required size is rejected and left as it was. -/
theorem serialize_too_small (h : Heap) (l : ListT) (buffer : Bytes)
    (hlen : buffer.length < list_get_serialize_size l) :
    list_serialize h l buffer = some (0, buffer) := by
  unfold list_serialize
  simp only
  rw [if_pos hlen]

theorem serialize_overrun_at (h : Heap) (l : ListT) (hs : l.size = 65535)
    (he : l.element_size = 65535) (buffer : Bytes) (hlen : buffer.length = 5) :
    list_get_serialize_size l = 5 ∧ list_serialize h l buffer = none := by
  have h1 : list_get_serialize_size l = 5 := by
    unfold list_get_serialize_size sizeof_list_persist_header_t list_persist_node_size
    rw [hs, he]
  refine ⟨h1, ?_⟩
  unfold list_serialize
  simp only [h1, hs, he]
  rw [if_neg (by omega)]
  have h4 : write_bytes buffer 0 (u16_bytes 65535) = some (u16_bytes 65535 ++ buffer.drop 2) := by
    unfold write_bytes
    rw [if_pos (by simp [u16_bytes]; omega)]
    simp [u16_bytes]
  simp only [h4]
  have h5 : write_bytes (u16_bytes 65535 ++ buffer.drop 2) 2 (u16_bytes l.capacity)
      = some (u16_bytes 65535 ++ u16_bytes l.capacity ++ buffer.drop 4) := by
    unfold write_bytes
    rw [if_pos (by simp [u16_bytes]; omega)]
    simp [u16_bytes]
  simp only [h5]
  have h6 : write_bytes (u16_bytes 65535 ++ u16_bytes l.capacity ++ buffer.drop 4) 4
      (u16_bytes 65535) = none := by
    unfold write_bytes
    rw [if_neg (by simp [u16_bytes]; omega)]
  simp only [h6]

/-- C18. For the full list of capacity 65535 with 65535-byte elements (made by
`list_create` and 65535 `list_push_back` calls) the required size is reported
as 5, so `list_serialize` does not reject a buffer of 5 bytes: it passes the
size check and stores the six-byte header past the end of the buffer, instead
of returning the required size with the header and 65535 records in place. -/
theorem serialize_overruns_buffer (buffer : Bytes) (hlen : buffer.length = 5) :
    Reach big_list.1 big_list.2 ∧ list_get_serialize_size big_list.2 = 5 ∧
    ¬ (buffer.length < list_get_serialize_size big_list.2) ∧
    list_serialize big_list.1 big_list.2 buffer = none := by
  obtain ⟨hr, hs, -, he⟩ := big_list_facts
  obtain ⟨h1, h2⟩ := serialize_overrun_at big_list.1 big_list.2 hs he buffer hlen
  exact ⟨hr, h1, by omega, h2⟩

theorem serialize_overruns_buffer_witness :
    (List.replicate 5 255).length = 5 ∧
    Reach big_list.1 big_list.2 ∧ list_get_serialize_size big_list.2 = 5 ∧
    ¬ ((List.replicate 5 255).length < list_get_serialize_size big_list.2) ∧
    list_serialize big_list.1 big_list.2 (List.replicate 5 255) = none :=
  ⟨by decide, serialize_overruns_buffer (List.replicate 5 255) (by decide)⟩

theorem read_bytes_length {buf : Bytes} {off n : Nat} {d : Bytes}
    (h : read_bytes buf off n = some d) : d.length = n ∧ off + n ≤ buf.length := by
  unfold read_bytes at h
  by_cases hc : off + n ≤ buf.length
  · rw [if_pos hc] at h
    simp only [Option.some.injEq] at h
    subst h
    refine ⟨?_, hc⟩
    simp
    omega
  · rw [if_neg hc] at h
    exact Option.noConfusion h

theorem take_memcpy_of_length {old d : Bytes} {n : Nat} (h : d.length = n) :
    (memcpy old d n).take n = d := by
  subst h
  exact take_memcpy old d

/-- The record loop of `list_deserialize` returns when all its reads stay
inside the buffer. -/
theorem deser_loop_returns (buffer : Bytes) (es : Nat) :
    ∀ (rem node_ptr : Nat) (s : DeserState), s.l.element_size = es →
      node_ptr + rem * (2 + es) ≤ buffer.length →
      ∃ s', deserialize_loop buffer (2 + es) rem node_ptr s = some s' := by
  intro rem
  induction rem with
  | zero => intro node_ptr s _ _; exact ⟨s, rfl⟩
  | succ rem ih =>
    intro node_ptr s hes hlen
    have hmul : (rem + 1) * (2 + es) = rem * (2 + es) + (2 + es) := by ring
    rw [hmul] at hlen
    simp only [deserialize_loop]
    rw [read_u16_some (by omega : node_ptr + 2 ≤ buffer.length)]
    simp only
    split
    · exact ⟨_, rfl⟩
    · split
      · exact ⟨_, rfl⟩
      · have hrb : read_bytes buffer (node_ptr + 2) s.l.element_size
            = some ((buffer.drop (node_ptr + 2)).take s.l.element_size) := by
          unfold read_bytes
          rw [if_pos (by rw [hes]; omega)]
        simp only [hrb]
        apply ih
        · cases hp : s.prev_node <;> simp [hes]
        · omega

/-- What the record loop of `list_deserialize` leaves behind: it ends with
`ok` set exactly when every record names a slot below the capacity that no
earlier record (and no node of `done`) claimed, and then the records have been
linked in order. -/
theorem deser_loop_result (buffer : Bytes) {l0 : ListT} (h16 : l0.capacity < 65536) :
    ∀ (rem node_ptr : Nat) (s : DeserState) (done : List Ptr) (s' : DeserState),
      DeserInv l0 s done → s.ok = true →
      deserialize_loop buffer (2 + l0.element_size) rem node_ptr s = some s' →
      (s'.ok = true ↔
        (∀ r ∈ parse_records buffer l0.element_size rem node_ptr,
          r.1 < l0.capacity ∧ node_at l0 r.1 ∉ done) ∧
        ((parse_records buffer l0.element_size rem node_ptr).map (fun r => r.1)).Nodup) ∧
      (s'.ok = true →
        DeserInv l0 s' (done ++
          (parse_records buffer l0.element_size rem node_ptr).map (fun r => node_at l0 r.1)) ∧
        (∀ r ∈ parse_records buffer l0.element_size rem node_ptr,
          (s'.h (node_at l0 r.1)).data.take l0.element_size = r.2) ∧
        (∀ q, q ∉ (parse_records buffer l0.element_size rem node_ptr).map
            (fun r => node_at l0 r.1) → (s'.h q).data = (s.h q).data) ∧
        (0 < rem → node_ptr + rem * (2 + l0.element_size) ≤ buffer.length)) := by
  intro rem
  induction rem with
  | zero =>
    intro node_ptr s done s' hinv hok he
    simp only [deserialize_loop, Option.some.injEq] at he
    subst he
    simp only [parse_records, List.map_nil, List.append_nil, List.not_mem_nil, false_implies,
      implies_true, List.nodup_nil, and_self, iff_true, true_and, lt_irrefl]
    exact ⟨hok, fun _ => ⟨hinv, trivial⟩⟩
  | succ rem ih =>
    intro node_ptr s done s' hinv hok he
    have e1 := hinv.1
    have e2 := hinv.2.1
    have e3 := hinv.2.2.1
    have hu := hinv.2.2.2.2.2.2.2.2.1
    simp only [deserialize_loop] at he
    cases hr : read_u16 buffer node_ptr with
    | none => simp [hr] at he
    | some idx =>
      simp only [hr] at he
      by_cases hbad : idx ≥ s.l.capacity ∨ s.node_used.getD idx false = true
      · rw [if_pos hbad] at he
        simp only [Option.some.injEq] at he
        subst he
        have hnot : ¬ (idx < l0.capacity ∧ node_at l0 idx ∉ done) := by
          rintro ⟨hlt, hnd⟩
          rcases hbad with hb | hb
          · rw [e1] at hb; omega
          · exact hnd ((hu idx hlt).1 hb)
        constructor
        · constructor
          · intro h; simp at h
          · rintro ⟨hall, -⟩
            have hmem : (idx, (read_bytes buffer (node_ptr + 2) l0.element_size).getD []) ∈
                parse_records buffer l0.element_size (rem + 1) node_ptr := by
              simp [parse_records, hr]
            exact absurd (hall _ hmem) hnot
        · intro h; simp at h
      · rw [if_neg hbad] at he
        simp only [not_or, not_le, Bool.not_eq_true] at hbad
        have hidx : idx < l0.capacity := by rw [← e1]; exact hbad.1
        have hnode : list_index_to_node s.l idx = some (node_at l0 idx) := by
          rw [list_index_to_node_eq hbad.1, node_at_congr e2 e3]
        simp only [hnode] at he
        cases hd : read_bytes buffer (node_ptr + 2) s.l.element_size with
        | none => simp [hd] at he
        | some d =>
          simp only [hd] at he
          obtain ⟨hdlen, hdb⟩ := read_bytes_length hd
          have hstep := deser_step hinv h16 hidx hbad.2 d
          have hnode_new : node_at l0 idx ∉ done := by
            intro hm
            have := (hu idx hidx).2 hm
            rw [hbad.2] at this
            exact Bool.false_ne_true this
          obtain ⟨hiff, hcons⟩ := ih _ _ _ s' hstep rfl he
          have hpr : parse_records buffer l0.element_size (rem + 1) node_ptr
              = (idx, d) :: parse_records buffer l0.element_size rem
                (node_ptr + (2 + l0.element_size)) := by
            simp only [parse_records, hr, ← e2, hd, Option.getD_some]
          rw [hpr]
          generalize parse_records buffer l0.element_size rem
            (node_ptr + (2 + l0.element_size)) = rest at hiff hcons
          have hkey : ((∀ r ∈ rest, r.1 < l0.capacity ∧ node_at l0 r.1 ∉ done ++ [node_at l0 idx]) ∧
              (rest.map (fun r => r.1)).Nodup) ↔
              ((∀ r ∈ (idx, d) :: rest, r.1 < l0.capacity ∧ node_at l0 r.1 ∉ done) ∧
              (((idx, d) :: rest).map (fun r => r.1)).Nodup) := by
            constructor
            · rintro ⟨hall, hnd⟩
              refine ⟨?_, ?_⟩
              · intro r hr'
                rcases List.mem_cons.1 hr' with e | hr'
                · subst e; exact ⟨hidx, hnode_new⟩
                · exact ⟨(hall r hr').1, fun hm => (hall r hr').2 (List.mem_append_left _ hm)⟩
              · rw [List.map_cons, List.nodup_cons]
                refine ⟨?_, hnd⟩
                intro hm
                obtain ⟨r, hr', e⟩ := List.mem_map.1 hm
                have e' : r.1 = idx := e
                apply (hall r hr').2
                rw [e']
                simp
            · rintro ⟨hall, hnd⟩
              rw [List.map_cons, List.nodup_cons] at hnd
              refine ⟨?_, hnd.2⟩
              intro r hr'
              refine ⟨(hall r (List.mem_cons_of_mem _ hr')).1, ?_⟩
              intro hm
              rcases List.mem_append.1 hm with hm | hm
              · exact (hall r (List.mem_cons_of_mem _ hr')).2 hm
              · simp only [List.mem_singleton] at hm
                have : r.1 = idx := node_at_inj l0 hm
                exact hnd.1 (List.mem_map.2 ⟨r, hr', this⟩)
          refine ⟨hiff.trans hkey, ?_⟩
          intro hok'
          obtain ⟨hinv', hdat, hfrm, hbnd⟩ := hcons hok'
          have hgood := hiff.1 hok'
          have hnot : node_at l0 idx ∉ rest.map (fun r => node_at l0 r.1) := by
            intro hm
            obtain ⟨r, hr', e⟩ := List.mem_map.1 hm
            apply (hgood.1 r hr').2
            rw [e]
            simp
          refine ⟨by simpa using hinv', ?_, ?_, ?_⟩
          · intro r hr'
            rcases List.mem_cons.1 hr' with e | hr'
            · subst e
              rw [hfrm _ hnot]
              cases hp : s.prev_node with
              | none =>
                simp only [hp, set_next_data, set_prev_data, set_data_data, if_true]
                rw [← e2]
                exact take_memcpy_of_length hdlen
              | some pv =>
                simp only [hp, set_next_data, set_prev_data, set_data_data, if_true]
                rw [← e2]
                exact take_memcpy_of_length hdlen
            · exact hdat r hr'
          · intro q hq
            simp only [List.map_cons, List.mem_cons, not_or] at hq
            rw [hfrm q hq.2]
            cases hp : s.prev_node with
            | none => simp [hp, hq.1]
            | some pv => simp [hp, hq.1]
          · intro _
            rw [e2] at hdb
            have hmul : (rem + 1) * (2 + l0.element_size)
                = rem * (2 + l0.element_size) + (2 + l0.element_size) := by ring
            rw [hmul]
            rcases Nat.eq_zero_or_pos rem with h0 | hpos
            · subst h0; omega
            · have := hbnd hpos
              omega

/-- The state in which `list_deserialize` enters its record loop. -/
theorem deser_init_inv {l l1 : ListT} (h1 : Heap) (c1 : l1.capacity = l.capacity)
    (c2 : l1.element_size = l.element_size) (c3 : l1.node_pool = l.node_pool)
    (c4 : l1.head = none) (c6 : l1.size = 0) :
    DeserInv l
      { ok := true,
        h := ((List.range l1.capacity).foldl (deser_free_step l1) (h1, none)).1,
        l := { l1 with free_list := ((List.range l1.capacity).foldl
          (deser_free_step l1) (h1, none)).2 },
        node_used := List.replicate l1.capacity false,
        prev_node := none } [] := by
  refine ⟨c1, c2, c3, ?_, ?_, ?_, List.nodup_nil, ?_, ?_, ?_⟩
  · simpa using c4
  · simp
  · simpa using c6
  · simp [c1]
  · intro i hi
    have hi' : i < l1.capacity := by rw [c1]; exact hi
    simp [List.getD_eq_getElem?_getD, List.getElem?_replicate, hi']
  · simp

/-- `list_deserialize` once the header has been read and accepted and the
destination cleared: the result is decided by the record loop. -/
theorem deserialize_after_header {fuel : Nat} {h : Heap} {l : ListT} {buffer : Bytes}
    {hsize hcap hes : Nat} (h0 : read_u16 buffer 0 = some hsize)
    (h2 : read_u16 buffer 2 = some hcap) (h4 : read_u16 buffer 4 = some hes)
    (hhdr : ¬ (hsize > hcap ∨ hes ≠ l.element_size ∨ l.capacity < hcap))
    (hlen : ¬ (buffer.length < (6 + hsize * (2 + hes)) % 4294967296))
    {h1 : Heap} {l1 : ListT} (hc : list_clear fuel h l = some (h1, l1)) :
    (deserialize_loop buffer (2 + l.element_size) hsize 6
        { ok := true,
          h := ((List.range l1.capacity).foldl (deser_free_step l1) (h1, none)).1,
          l := { l1 with free_list := ((List.range l1.capacity).foldl
            (deser_free_step l1) (h1, none)).2 },
          node_used := List.replicate l1.capacity false,
          prev_node := none } = none → list_deserialize fuel h l buffer = none) ∧
    (∀ s, deserialize_loop buffer (2 + l.element_size) hsize 6
        { ok := true,
          h := ((List.range l1.capacity).foldl (deser_free_step l1) (h1, none)).1,
          l := { l1 with free_list := ((List.range l1.capacity).foldl
            (deser_free_step l1) (h1, none)).2 },
          node_used := List.replicate l1.capacity false,
          prev_node := none } = some s →
      list_deserialize fuel h l buffer =
        if s.ok then
          some (true,
            ((List.range s.l.capacity).foldl
              (deser_rebuild_step { s.l with tail := s.prev_node } s.node_used) (s.h, none)).1,
            { s.l with
              tail := s.prev_node,
              free_list := ((List.range s.l.capacity).foldl
                (deser_rebuild_step { s.l with tail := s.prev_node } s.node_used)
                (s.h, none)).2 })
        else some (false, s.h, s.l)) := by
  have hese : hes = l.element_size := by
    by_contra hne
    exact hhdr (Or.inr (Or.inl hne))
  subst hese
  constructor
  · intro hrun
    unfold list_deserialize
    simp only [h0, h2, h4]
    rw [if_neg hhdr]
    simp only [list_persist_node_size, sizeof_list_persist_header_t]
    rw [if_neg hlen]
    simp only [hc, hrun]
  · intro s hrun
    unfold list_deserialize
    simp only [h0, h2, h4]
    rw [if_neg hhdr]
    simp only [list_persist_node_size, sizeof_list_persist_header_t]
    rw [if_neg hlen]
    simp only [hc, hrun]

/-- Acceptance condition of `list_deserialize` when the required size does
not wrap: into a well-formed destination and from a buffer with a complete
header, the call returns, and it returns true exactly when the condition of
the specification holds. -/
theorem deserialize_accepts_iff {h : Heap} {l : ListT} {dact dfr : List Ptr}
    (hv : Valid h l dact dfr) {fuel : Nat} (hf : dact.length ≤ fuel) (buffer : Bytes)
    {hsize hcap hes : Nat} (h0 : read_u16 buffer 0 = some hsize)
    (h2 : read_u16 buffer 2 = some hcap) (h4 : read_u16 buffer 4 = some hes)
    (hnw : 6 + hsize * (2 + hes) < 4294967296) :
    ∃ b H L, list_deserialize fuel h l buffer = some (b, H, L) ∧
      (b = true ↔ accepts l buffer hsize hcap hes) := by
  have h16 : l.capacity < 65536 := hv.1.2.2.2.2.2
  by_cases hhdr : hsize > hcap ∨ hes ≠ l.element_size ∨ l.capacity < hcap
  · refine ⟨false, h, l, ?_, ?_⟩
    · unfold list_deserialize
      simp only [h0, h2, h4]
      rw [if_pos hhdr]
    · constructor
      · intro hb; exact absurd hb (by decide)
      · rintro ⟨a1, a2, a3, -⟩
        rcases hhdr with e | e | e
        · omega
        · exact absurd a2 e
        · omega
  · by_cases hlen : buffer.length < (6 + hsize * (2 + hes)) % 4294967296
    · refine ⟨false, h, l, ?_, ?_⟩
      · unfold list_deserialize
        simp only [h0, h2, h4]
        rw [if_neg hhdr]
        simp only [list_persist_node_size, sizeof_list_persist_header_t]
        rw [if_pos hlen]
      · constructor
        · intro hb; exact absurd hb (by decide)
        · rintro ⟨-, -, -, a4, -⟩
          rw [Nat.mod_eq_of_lt hnw] at hlen
          omega
    · have hese : hes = l.element_size := by
        by_contra hne
        exact hhdr (Or.inr (Or.inl hne))
      obtain ⟨h1, l1, hclear, -, -, -, -, -⟩ := clear_valid hv hf
      obtain ⟨c1, c2, c3, c4, c5, c6⟩ := list_clear_fields hclear
      have hinv0 := deser_init_inv h1 c1 c2 c3 c4 c6
      have hlen' : 6 + hsize * (2 + l.element_size) ≤ buffer.length := by
        rw [Nat.mod_eq_of_lt hnw] at hlen
        rw [← hese]; omega
      obtain ⟨s, hrun⟩ := deser_loop_returns buffer l.element_size hsize 6
        { ok := true,
          h := ((List.range l1.capacity).foldl (deser_free_step l1) (h1, none)).1,
          l := { l1 with free_list := ((List.range l1.capacity).foldl
            (deser_free_step l1) (h1, none)).2 },
          node_used := List.replicate l1.capacity false,
          prev_node := none } c2 hlen'
      have hres := (deser_loop_result buffer h16 hsize 6 _ [] s hinv0 rfl hrun).1
      have hform := (deserialize_after_header h0 h2 h4 hhdr hlen hclear).2 s hrun
      simp only [not_or, not_lt, ne_eq, not_not, gt_iff_lt] at hhdr
      have hacc : s.ok = true ↔ accepts l buffer hsize hcap hes := by
        rw [hres]
        unfold accepts
        rw [hese]
        constructor
        · rintro ⟨hall, hnd⟩
          exact ⟨hhdr.1, rfl, hhdr.2.2, hlen', fun r hr => (hall r hr).1, hnd⟩
        · rintro ⟨-, -, -, -, hall, hnd⟩
          exact ⟨fun r hr => ⟨hall r hr, List.not_mem_nil _⟩, hnd⟩
      cases hok : s.ok with
      | true =>
        rw [if_pos hok] at hform
        exact ⟨true, _, _, hform, by rw [← hacc, hok]⟩
      | false =>
        rw [if_neg (by rw [hok]; decide)] at hform
        refine ⟨false, _, _, hform, ?_⟩
        rw [← hacc, hok]

theorem deser_loop_overread (buffer : Bytes) (nps rem node_ptr : Nat) (s : DeserState)
    (hrem : 0 < rem) (hr : read_u16 buffer node_ptr = none) :
    deserialize_loop buffer nps rem node_ptr s = none := by
  cases rem with
  | zero => exact absurd hrem (by decide)
  | succ rem => simp only [deserialize_loop, hr]

theorem deserialize_overread_at {h : Heap} {l : ListT} {fr : List Ptr} (hv : Valid h l [] fr)
    (hcap : l.capacity = 65535) (hes : l.element_size = 65535) (fuel : Nat) :
    list_deserialize fuel h l buf_wrap = none := by
  obtain ⟨h1, l1, hclear, -, -, -, -, -⟩ := @clear_valid h l [] fr hv fuel (Nat.zero_le _)
  have h0 : read_u16 buf_wrap 0 = some 65535 := by decide
  have h2 : read_u16 buf_wrap 2 = some 65535 := by decide
  have h4 : read_u16 buf_wrap 4 = some 65535 := by decide
  exact (@deserialize_after_header fuel h l buf_wrap 65535 65535 65535 h0 h2 h4
    (by rw [hcap, hes]; decide) (by decide) h1 l1 hclear).1
    (deser_loop_overread buf_wrap _ 65535 6 _ (by decide) (by decide))

/-- C16. With the header `size = capacity = element_size = 65535` the
required size `6 + 65535 * (2 + 65535)` wraps to 5 in `uint32_t`: a buffer of
six bytes holding only that header passes the length check of
`list_deserialize` into the list made by `list_create(65535, 65535)`, and the
record loop then reads the first slot index past the end of the buffer,
although the acceptance condition fails (the buffer is shorter than
4294967301 bytes) and the call should return false. -/
theorem deserialize_wrapped_size_overreads (fuel : Nat) :
    list_create mem0 4096 65535 65535 = some (big_created.1, big_created.2) ∧
    buf_wrap.length = 6 ∧ read_u16 buf_wrap 0 = some 65535 ∧
    read_u16 buf_wrap 2 = some 65535 ∧ read_u16 buf_wrap 4 = some 65535 ∧
    (6 + 65535 * (2 + 65535)) % 4294967296 = 5 ∧
    ¬ accepts big_created.2 buf_wrap 65535 65535 65535 ∧
    list_deserialize fuel big_created.1 big_created.2 buf_wrap = none := by
  obtain ⟨hv, hcap, hes, -⟩ :=
    @list_create_valid mem0 4096 65535 65535 big_created.1 big_created.2 (by decide)
      big_created_eq
  refine ⟨big_created_eq, by decide, by decide, by decide, by decide, by decide, ?_,
    deserialize_overread_at hv hcap hes fuel⟩
  rintro ⟨-, -, -, a4, -⟩
  have : buf_wrap.length = 6 := by decide
  omega

/-- A successful `list_deserialize`, in full: the header was accepted and the
records were linked in order into the slots they name. -/
theorem deserialize_success_core {fuel : Nat} {h : Heap} {l : ListT} {buffer : Bytes}
    {H : Heap} {L : ListT} (h16 : l.capacity < 65536)
    (he : list_deserialize fuel h l buffer = some (true, H, L)) :
    ∃ hsize fr, read_u16 buffer 0 = some hsize ∧
      Valid H L ((parse_records buffer l.element_size hsize 6).map (fun r => node_at l r.1)) fr ∧
      (∀ r ∈ parse_records buffer l.element_size hsize 6,
        r.1 < l.capacity ∧ elem H L (node_at l r.1) = r.2) ∧
      ((parse_records buffer l.element_size hsize 6).map (fun r => r.1)).Nodup ∧
      (parse_records buffer l.element_size hsize 6).length = hsize ∧
      L.capacity = l.capacity ∧ L.element_size = l.element_size ∧
      L.node_pool = l.node_pool := by
  have hcopy := he
  unfold list_deserialize at he
  cases h0 : read_u16 buffer 0 with
  | none => simp [h0] at he
  | some hsize =>
    cases h2 : read_u16 buffer 2 with
    | none => simp [h0, h2] at he
    | some hcap =>
      cases h4 : read_u16 buffer 4 with
      | none => simp [h0, h2, h4] at he
      | some hes =>
        simp only [h0, h2, h4] at he
        by_cases hhdr : hsize > hcap ∨ hes ≠ l.element_size ∨ l.capacity < hcap
        · rw [if_pos hhdr] at he; simp at he
        · rw [if_neg hhdr] at he
          simp only [list_persist_node_size, sizeof_list_persist_header_t] at he
          by_cases hlen : buffer.length < (6 + hsize * (2 + hes)) % 4294967296
          · rw [if_pos hlen] at he; simp at he
          · cases hc : list_clear fuel h l with
            | none => rw [if_neg hlen] at he; simp [hc] at he
            | some r =>
              obtain ⟨h1, l1⟩ := r
              clear he
              obtain ⟨c1, c2, c3, c4, c5, c6⟩ := list_clear_fields hc
              have hform := deserialize_after_header h0 h2 h4 hhdr hlen hc
              have hinv0 := deser_init_inv h1 c1 c2 c3 c4 c6
              cases hrun : deserialize_loop buffer (2 + l.element_size) hsize 6
                  { ok := true,
                    h := ((List.range l1.capacity).foldl (deser_free_step l1) (h1, none)).1,
                    l := { l1 with free_list := ((List.range l1.capacity).foldl
                      (deser_free_step l1) (h1, none)).2 },
                    node_used := List.replicate l1.capacity false,
                    prev_node := none } with
              | none => rw [hform.1 hrun] at hcopy; exact Option.noConfusion hcopy
              | some s =>
                rw [hform.2 s hrun] at hcopy
                cases hok : s.ok with
                | false => rw [if_neg (by rw [hok]; decide)] at hcopy; simp at hcopy
                | true =>
                  rw [if_pos hok] at hcopy
                  simp only [Option.some.injEq, Prod.mk.injEq, true_and] at hcopy
                  obtain ⟨rfl, rfl⟩ := hcopy
                  obtain ⟨hiff, hcons⟩ := deser_loop_result buffer h16 hsize 6 _ [] s hinv0 rfl hrun
                  obtain ⟨hinv, hdat, -, -⟩ := hcons hok
                  have hgood := hiff.1 hok
                  simp only [List.nil_append] at hinv
                  have hfin := deser_finish hinv h16
                  obtain ⟨-, -, hd⟩ := rebuild_spec ({ s.l with tail := s.prev_node } : ListT)
                    s.node_used s.h s.l.capacity (le_refl _)
                  have hlens : ∀ (n off : Nat),
                      (parse_records buffer l.element_size n off).length = n := by
                    intro n
                    induction n with
                    | zero => intro off; rfl
                    | succ n ih => intro off; simp [parse_records, ih]
                  refine ⟨hsize, _, rfl, hfin, ?_, hgood.2, hlens _ _, hinv.1, hinv.2.1,
                    hinv.2.2.1⟩
                  intro r hr
                  refine ⟨(hgood.1 r hr).1, ?_⟩
                  unfold elem
                  rw [hd]
                  show (s.h (node_at l r.1)).data.take s.l.element_size = r.2
                  rw [hinv.2.1]
                  exact hdat r hr

theorem valid_free_exact {h : Heap} {l : ListT} {act fr : List Ptr} (hv : Valid h l act fr) :
    fr.Nodup ∧ ∀ p, p ∈ fr ↔ p ∈ pool_nodes l ∧ p ∉ act := by
  have hnd := hv.nodup
  have hperm := hv.2.2
  refine ⟨(List.nodup_append.1 hnd).2.1, ?_⟩
  intro p
  constructor
  · intro hp
    exact ⟨hperm.subset (List.mem_append_right _ hp),
      fun ha => (List.nodup_append.1 hnd).2.2 ha hp⟩
  · rintro ⟨hp, hna⟩
    rcases List.mem_append.1 (hperm.symm.subset hp) with ha | hf
    · exact absurd ha hna
    · exact hf

theorem result_of_flag (o : Option (Bool × Heap × ListT)) (d : Bool × Heap × ListT)
    (ho : o.map (fun r => r.1) = some true) :
    o = some (true, (o.getD d).2.1, (o.getD d).2.2) := by
  cases o with
  | none => simp at ho
  | some r =>
    obtain ⟨b, H, L⟩ := r
    simp only [Option.map_some', Option.some.injEq] at ho
    subst ho
    rfl

/-- C17. Restoration preserves physical slot identity and the internal
invariants: after a successful `list_deserialize` whose header announces
`hsize` records, the head-to-tail node sequence is, record by record, the pool
slot of the destination whose index is the slot index of that record, and the
element bytes are, in the same order, the data bytes of the records; the
backward walk is the reverse of the forward walk; the free list consists of
exactly the pool slots that no record names, each once; the count equals
`hsize`; and free-list length plus count equals the capacity. -/
theorem deserialize_restores {fuel : Nat} {h : Heap} {l : ListT} {buffer : Bytes}
    {H : Heap} {L : ListT} (h16 : l.capacity < 65536)
    (he : list_deserialize fuel h l buffer = some (true, H, L)) :
    ∃ hsize fr, read_u16 buffer 0 = some hsize ∧
      (∀ r ∈ parse_records buffer l.element_size hsize 6, r.1 < l.capacity) ∧
      (∀ n, hsize ≤ n →
        forward_walk n H L =
          some ((parse_records buffer l.element_size hsize 6).map (fun r => node_at l r.1)) ∧
        backward_walk n H L =
          some ((parse_records buffer l.element_size hsize 6).map
            (fun r => node_at l r.1)).reverse ∧
        list_elems n H L =
          some ((parse_records buffer l.element_size hsize 6).map (fun r => r.2))) ∧
      (∀ n, fr.length ≤ n → free_walk n H L = some fr) ∧ fr.Nodup ∧
      (∀ p, p ∈ fr ↔ p ∈ pool_nodes l ∧
        p ∉ (parse_records buffer l.element_size hsize 6).map (fun r => node_at l r.1)) ∧
      list_size L = hsize ∧ fr.length + list_size L = list_capacity L ∧
      list_capacity L = list_capacity l := by
  obtain ⟨hsize, fr, h0, hv, hrec, -, hlen, e1, e2, e3⟩ := deserialize_success_core h16 he
  have hsz : L.size = hsize := by
    rw [hv.1.2.2.2.1, List.length_map, hlen]
  obtain ⟨hfn, hfm⟩ := valid_free_exact hv
  rw [pool_nodes_congr e1 e2 e3] at hfm
  refine ⟨hsize, fr, h0, fun r hr => (hrec r hr).1, ?_, ?_, hfn, hfm, hsz, ?_, e1⟩
  · intro n hn
    have hn' : ((parse_records buffer l.element_size hsize 6).map
        (fun r => node_at l r.1)).length ≤ n := by
      rw [List.length_map, hlen]; exact hn
    refine ⟨hv.1.forward hn', hv.1.backward hn', ?_⟩
    rw [hv.1.elems hn', List.map_map]
    congr 1
    apply List.map_congr_left
    intro r hr
    exact (hrec r hr).2
  · intro n hn
    exact walk_of_chain hv.2.1 hn
  · have := hv.length
    rw [List.length_map, hlen] at this
    show fr.length + L.size = L.capacity
    omega

theorem deserialize_restores_witness :
    demo3.2.capacity < 65536 ∧
    list_elems 5 demo3.1 demo3.2 = some [le32 1, le32 2, le32 3] ∧
    ∃ hsize fr, read_u16 buf_two 0 = some hsize ∧
      (∀ r ∈ parse_records buf_two demo3.2.element_size hsize 6, r.1 < demo3.2.capacity) ∧
      (∀ n, hsize ≤ n →
        forward_walk n demo_restored.1 demo_restored.2 =
          some ((parse_records buf_two demo3.2.element_size hsize 6).map
            (fun r => node_at demo3.2 r.1)) ∧
        backward_walk n demo_restored.1 demo_restored.2 =
          some ((parse_records buf_two demo3.2.element_size hsize 6).map
            (fun r => node_at demo3.2 r.1)).reverse ∧
        list_elems n demo_restored.1 demo_restored.2 =
          some ((parse_records buf_two demo3.2.element_size hsize 6).map (fun r => r.2))) ∧
      (∀ n, fr.length ≤ n → free_walk n demo_restored.1 demo_restored.2 = some fr) ∧
      fr.Nodup ∧
      (∀ p, p ∈ fr ↔ p ∈ pool_nodes demo3.2 ∧
        p ∉ (parse_records buf_two demo3.2.element_size hsize 6).map
          (fun r => node_at demo3.2 r.1)) ∧
      list_size demo_restored.2 = hsize ∧
      fr.length + list_size demo_restored.2 = list_capacity demo_restored.2 ∧
      list_capacity demo_restored.2 = list_capacity demo3.2 :=
  ⟨by decide, by decide,
    deserialize_restores (by decide)
      (result_of_flag (list_deserialize 5 demo3.1 demo3.2 buf_two) (false, demo3.1, demo3.2)
        (by decide))⟩

/-- The restored list of the example, evaluated: the records `(slot 3, 7)`
and `(slot 1, 8)` give the nodes 1060 and 1020 in this order and the free
list holds the slots 4, 2 and 0. -/
theorem deserialize_restores_demo :
    parse_records buf_two 4 2 6 = [(3, le32 7), (1, le32 8)] ∧
    forward_walk 5 demo_restored.1 demo_restored.2 = some [1060, 1020] ∧
    list_elems 5 demo_restored.1 demo_restored.2 = some [le32 7, le32 8] ∧
    free_walk 5 demo_restored.1 demo_restored.2 = some [1080, 1040, 1000] := by
  refine ⟨by decide, by decide, by decide, by decide⟩

/-- C28. `list_reverse` reverses the order: on a well-formed list with node
sequence `act`, the call returns and afterwards the forward walk is
`act.reverse`, the backward walk is `act`, the element sequence is the reverse
of the one before (no element byte changes), the count is unchanged, the old
tail is the new head and the old head the new tail. -/
theorem reverse_semantics {h : Heap} {l : ListT} {act fr : List Ptr} (hv : Valid h l act fr)
    {fuel : Nat} (hf : act.length ≤ fuel) :
    ∃ H L, list_reverse fuel h l = some (H, L) ∧
      (∀ n, act.length ≤ n →
        forward_walk n H L = some act.reverse ∧ backward_walk n H L = some act ∧
        list_elems n H L = (list_elems n h l).map List.reverse ∧
        list_elems n H L = some ((act.map (elem h l)).reverse)) ∧
      list_size L = list_size l ∧ L.head = l.tail ∧ L.tail = l.head ∧
      list_size L = act.length := by
  obtain ⟨H, L, he, hV, e1, e2, e3, -, e5, -, hd, -, -⟩ := reverse_valid hv hf
  refine ⟨H, L, he, ?_, e3, e1, e2, ?_⟩
  · intro n hn
    have hn' : act.reverse.length ≤ n := by simpa using hn
    have hE : list_elems n H L = some ((act.map (elem h l)).reverse) := by
      rw [hV.1.elems hn', ← List.map_reverse]
      congr 1
      apply List.map_congr_left
      intro q _
      exact elem_frame e5 (hd q)
    refine ⟨hV.1.forward hn', ?_, ?_, hE⟩
    · have := hV.1.backward hn'
      simpa using this
    · rw [hE, hv.1.elems hn]
      rfl
  · show L.size = act.length
    rw [e3]; exact hv.1.2.2.2.1

theorem reverse_semantics_witness :
    Valid demo5.1 demo5.2 [1000, 1020, 1040, 1060, 1080] [] ∧
    list_elems 5 demo5.1 demo5.2 = some [le32 1, le32 2, le32 3, le32 4, le32 5] ∧
    ∃ H L, list_reverse 5 demo5.1 demo5.2 = some (H, L) ∧
      (∀ n, 5 ≤ n →
        forward_walk n H L = some [1080, 1060, 1040, 1020, 1000] ∧
        backward_walk n H L = some [1000, 1020, 1040, 1060, 1080] ∧
        list_elems n H L = (list_elems n demo5.1 demo5.2).map List.reverse ∧
        list_elems n H L = some [le32 5, le32 4, le32 3, le32 2, le32 1]) ∧
      list_size L = list_size demo5.2 ∧ L.head = demo5.2.tail ∧ L.tail = demo5.2.head ∧
      list_size L = 5 :=
  ⟨by decide, by decide,
    reverse_semantics (by decide : Valid demo5.1 demo5.2 [1000, 1020, 1040, 1060, 1080] [])
      (by decide)⟩

/-- C29. `list_swap` exchanges contents only: afterwards the forward walk,
the backward walk, the free-list walk and the count of each list are those
the other list had before, the memory is untouched, and the capacity, the
element size and the pool reference of each list are unchanged; when the two
element sizes agree the element sequences are exchanged as well, and
`list_front` on each list yields what it yielded on the other before. -/
theorem swap_semantics (h : Heap) (a b : ListT) :
    (∀ n, forward_walk n h (list_swap a b).1 = forward_walk n h b ∧
      forward_walk n h (list_swap a b).2 = forward_walk n h a ∧
      backward_walk n h (list_swap a b).1 = backward_walk n h b ∧
      backward_walk n h (list_swap a b).2 = backward_walk n h a ∧
      free_walk n h (list_swap a b).1 = free_walk n h b ∧
      free_walk n h (list_swap a b).2 = free_walk n h a) ∧
    list_size (list_swap a b).1 = list_size b ∧ list_size (list_swap a b).2 = list_size a ∧
    list_capacity (list_swap a b).1 = list_capacity a ∧
    list_capacity (list_swap a b).2 = list_capacity b ∧
    (list_swap a b).1.element_size = a.element_size ∧
    (list_swap a b).2.element_size = b.element_size ∧
    (list_swap a b).1.node_pool = a.node_pool ∧ (list_swap a b).2.node_pool = b.node_pool ∧
    (a.element_size = b.element_size →
      (∀ n, list_elems n h (list_swap a b).1 = list_elems n h b ∧
        list_elems n h (list_swap a b).2 = list_elems n h a) ∧
      (∀ out, list_front h (list_swap a b).1 out = list_front h b out ∧
        list_front h (list_swap a b).2 out = list_front h a out)) := by
  refine ⟨fun n => ⟨rfl, rfl, rfl, rfl, rfl, rfl⟩, rfl, rfl, rfl, rfl, rfl, rfl, rfl, rfl, ?_⟩
  intro hes
  have e1 : elem h (list_swap a b).1 = elem h b := by
    funext p; simp only [elem, list_swap, hes]
  have e2 : elem h (list_swap a b).2 = elem h a := by
    funext p; simp only [elem, list_swap, hes]
  refine ⟨fun n => ⟨?_, ?_⟩, fun out => ⟨?_, ?_⟩⟩
  · simp only [list_elems, e1]; rfl
  · simp only [list_elems, e2]; rfl
  · simp only [list_front, list_swap, hes]
  · simp only [list_front, list_swap, hes]

/-- The example of the specification: A = [1, 2, 3] and B = [4, 5] give
size(A) = 2, front(A) = 4, size(B) = 3, front(B) = 1. -/
theorem swap_semantics_witness :
    demoE.2.1.element_size = demoE.2.2.element_size ∧
    list_elems 5 demoE.1 demoE.2.1 = some [le32 1, le32 2, le32 3] ∧
    list_elems 5 demoE.1 demoE.2.2 = some [le32 4, le32 5] ∧
    (∀ n, list_elems n demoE.1 (list_swap demoE.2.1 demoE.2.2).1
        = list_elems n demoE.1 demoE.2.2 ∧
      list_elems n demoE.1 (list_swap demoE.2.1 demoE.2.2).2
        = list_elems n demoE.1 demoE.2.1) ∧
    list_size (list_swap demoE.2.1 demoE.2.2).1 = list_size demoE.2.2 ∧
    list_size (list_swap demoE.2.1 demoE.2.2).1 = 2 ∧
    list_front demoE.1 (list_swap demoE.2.1 demoE.2.2).1 [0, 0, 0, 0] = (true, le32 4) ∧
    list_size (list_swap demoE.2.1 demoE.2.2).2 = 3 ∧
    list_front demoE.1 (list_swap demoE.2.1 demoE.2.2).2 [0, 0, 0, 0] = (true, le32 1) :=
  ⟨by decide, by decide, by decide,
    ((swap_semantics demoE.1 demoE.2.1 demoE.2.2).2.2.2.2.2.2.2.2.2 (by decide)).1,
    (swap_semantics demoE.1 demoE.2.1 demoE.2.2).2.1,
    by decide, by decide, by decide, by decide⟩

/-- The loop of `list_find_if` returns the first matching node of the chain. -/
theorem find_loop_spec (h : Heap) (l : ListT) (predicate : Option Pred) (value : Bytes)
    {post : List Ptr} :
    ∀ {fuel : Nat} {cur : Option Ptr}, Chain (nxt h) cur post none → post.length ≤ fuel →
      list_find_if_loop h l predicate value fuel cur
        = some (post.find? (node_matches h l predicate value)) := by
  induction post with
  | nil =>
    intro fuel cur hc _
    simp only [chain_nil] at hc
    subst hc
    cases fuel <;> rfl
  | cons x xs ih =>
    intro fuel cur hc hf
    obtain ⟨hx, hc'⟩ := hc
    subst hx
    cases fuel with
    | zero => simp at hf
    | succ fuel =>
      simp only [list_find_if_loop, List.find?_cons]
      cases hm : node_matches h l predicate value x with
      | true => simp
      | false =>
        simp only [Bool.false_eq_true, if_false]
        exact ih hc' (by simpa using hf)

/-- Where the scan of `list_find_if` starts. -/
theorem find_start {h : Heap} {l : ListT} {pre post : List Ptr}
    (hl : IsList h l (pre ++ post)) :
    (∀ s, pre.getLast? = some s → (h s).next = post.head?) ∧
    (pre.getLast? = none → l.head = post.head?) ∧ Chain (nxt h) post.head? post none := by
  rcases eq_nil_or_snoc pre with e | ⟨ys, s, e⟩
  · subst e
    have hh : l.head = post.head? := by simpa using hl.head_eq
    refine ⟨fun s hs => by simp at hs, fun _ => hh, ?_⟩
    rw [← hh]
    simpa using hl.1
  · subst e
    have hl' : IsList h l (ys ++ s :: post) := by simpa using hl
    obtain ⟨e1, -, -, c, -, -⟩ := hl'.links
    refine ⟨fun t ht => ?_, fun hn => by simp at hn, c⟩
    simp at ht
    subst ht
    exact e1

theorem find_if_spec {h : Heap} {l : ListT} {pre post : List Ptr}
    (hl : IsList h l (pre ++ post)) (predicate : Option Pred) (value : Bytes) {fuel : Nat}
    (hf : post.length ≤ fuel) :
    list_find_if fuel h l pre.getLast? predicate value
      = some (post.find? (node_matches h l predicate value)) := by
  obtain ⟨e1, e2, c⟩ := find_start hl
  cases hp : pre.getLast? with
  | none =>
    simp only [list_find_if]
    rw [e2 hp]
    exact find_loop_spec h l predicate value c hf
  | some s =>
    simp only [list_find_if]
    rw [e1 s hp]
    exact find_loop_spec h l predicate value c hf

/-- C22. `list_find_if` returns the first match strictly after `start`: on a
well-formed list whose node sequence is `pre ++ post`, with `start` the last
node of `pre` (`NULL` when `pre` is empty, so that `post` is the whole list),
the call returns the first node of `post` whose element passes the test (the
predicate, or bytewise equality with `value` over `element_size` bytes when no
predicate is given); it returns `NULL` exactly when no node of `post` passes,
in particular when `start` is the tail; `list_find` is the search from the
head by bytewise equality. The call only reads the list. -/
theorem find_if_first_match {h : Heap} {l : ListT} {pre post : List Ptr}
    (hl : IsList h l (pre ++ post)) (predicate : Option Pred) (value : Bytes) {fuel : Nat}
    (hf : post.length ≤ fuel) :
    ∃ r, list_find_if fuel h l pre.getLast? predicate value = some r ∧
      (∀ x, r = some x ↔ node_matches h l predicate value x = true ∧
        ∃ a b, post = a ++ x :: b ∧ ∀ y ∈ a, node_matches h l predicate value y = false) ∧
      (r = none ↔ ∀ y ∈ post, node_matches h l predicate value y = false) ∧
      (post = [] → r = none) ∧
      (pre = [] → predicate = none → list_find fuel h l value = some r) ∧
      (∀ x, node_matches h l none value x = (elem h l x == value.take l.element_size)) := by
  refine ⟨_, find_if_spec hl predicate value hf, ?_, ?_, ?_, ?_, fun x => rfl⟩
  · intro x
    rw [List.find?_eq_some]
    simp
  · rw [List.find?_eq_none]
    simp
  · intro e; subst e; rfl
  · intro e1 e2
    subst e1 e2
    have := find_if_spec hl none value hf
    simpa [list_find] using this

theorem find_if_first_match_witness :
    IsList demo9.1 demo9.2
      ([1000, 1020] ++ [1040, 1060, 1080, 1100, 1120, 1140, 1160]) ∧
    list_elems 9 demo9.1 demo9.2 =
      some [le32 1, le32 2, le32 3, le32 2, le32 4, le32 2, le32 5, le32 2, le32 6] ∧
    list_find_if 9 demo9.1 demo9.2 (some 1020) none (le32 2) = some (some 1060) ∧
    list_find_if 9 demo9.1 demo9.2 (some 1160) none (le32 2) = some none ∧
    list_find_if 9 demo9.1 demo9.2 none none (le32 7) = some none ∧
    list_find_if 9 demo9.1 demo9.2 none (some is_even) [] = some (some 1020) ∧
    ∃ r, list_find_if 7 demo9.1 demo9.2 ([1000, 1020] : List Ptr).getLast? none (le32 2)
        = some r ∧
      (∀ x, r = some x ↔ node_matches demo9.1 demo9.2 none (le32 2) x = true ∧
        ∃ a b, [1040, 1060, 1080, 1100, 1120, 1140, 1160] = a ++ x :: b ∧
          ∀ y ∈ a, node_matches demo9.1 demo9.2 none (le32 2) y = false) ∧
      (r = none ↔ ∀ y ∈ ([1040, 1060, 1080, 1100, 1120, 1140, 1160] : List Ptr),
        node_matches demo9.1 demo9.2 none (le32 2) y = false) ∧
      (([1040, 1060, 1080, 1100, 1120, 1140, 1160] : List Ptr) = [] → r = none) ∧
      (([1000, 1020] : List Ptr) = [] → (none : Option Pred) = none →
        list_find 7 demo9.1 demo9.2 (le32 2) = some r) ∧
      (∀ x, node_matches demo9.1 demo9.2 none (le32 2) x
        = (elem demo9.1 demo9.2 x == (le32 2).take demo9.2.element_size)) :=
  ⟨by decide, by decide, by decide, by decide, by decide, by decide,
    find_if_first_match
      (by decide : IsList demo9.1 demo9.2
        ([1000, 1020] ++ [1040, 1060, 1080, 1100, 1120, 1140, 1160]))
      none (le32 2) (by decide)⟩

/-- The resumable search from `start`, the last node of `pre`, collects the
matching nodes of `post` in order. -/
theorem find_all_spec {h : Heap} {l : ListT} (predicate : Option Pred) (value : Bytes)
    {fuel : Nat} :
    ∀ (k : Nat) {pre post : List Ptr} {n : Nat}, post.length ≤ k →
      IsList h l (pre ++ post) → post.length ≤ fuel →
      (post.filter (node_matches h l predicate value)).length < n →
      find_all fuel h l predicate value n pre.getLast?
        = some (post.filter (node_matches h l predicate value)) := by
  intro k
  induction k with
  | zero =>
    intro pre post n hk hl hf hn
    have : post = [] := List.length_eq_zero.1 (Nat.le_zero.1 hk)
    subst this
    cases n with
    | zero => simp at hn
    | succ n =>
      simp only [find_all, find_if_spec hl predicate value hf]
      rfl
  | succ k ih =>
    intro pre post n hk hl hf hn
    cases n with
    | zero => simp at hn
    | succ n =>
      simp only [find_all, find_if_spec hl predicate value hf]
      cases hr : post.find? (node_matches h l predicate value) with
      | none =>
        have : post.filter (node_matches h l predicate value) = [] := by
          rw [List.filter_eq_nil_iff]
          exact List.find?_eq_none.1 hr
        rw [this]
      | some x =>
        obtain ⟨hm, a, b, hpost, ha⟩ := List.find?_eq_some.1 hr
        subst hpost
        have hfa : a.filter (node_matches h l predicate value) = [] := by
          rw [List.filter_eq_nil_iff]
          intro y hy
          have := ha y hy
          simpa using this
        have hfil : (a ++ x :: b).filter (node_matches h l predicate value)
            = x :: b.filter (node_matches h l predicate value) := by
          rw [List.filter_append, hfa, List.nil_append, List.filter_cons, if_pos hm]
        rw [hfil] at hn ⊢
        have hl' : IsList h l ((pre ++ a ++ [x]) ++ b) := by simpa using hl
        have hlast : (pre ++ a ++ [x]).getLast? = some x := by simp
        have := @ih (pre ++ a ++ [x]) b n (by simp at hk; omega) hl' (by simp at hf; omega)
          (by simp at hn; omega)
        rw [hlast] at this
        simp only [this, Option.map_some']

/-- C23. Resumable search enumerates all matches: on a well-formed list with
node sequence `act`, calling `list_find_if` first with `start = NULL` and then
with the previous result as `start` until `NULL` is returned ends after one
call more than there are matching nodes, and the non-`NULL` results are exactly
the nodes whose element passes the test, each once, in head-to-tail order;
their number is the number of matching elements. -/
theorem find_all_matches {h : Heap} {l : ListT} {act : List Ptr} (hl : IsList h l act)
    (predicate : Option Pred) (value : Bytes) {fuel n : Nat} (hf : act.length ≤ fuel)
    (hn : (act.filter (node_matches h l predicate value)).length < n) :
    find_all fuel h l predicate value n none
      = some (act.filter (node_matches h l predicate value)) ∧
    (act.filter (node_matches h l predicate value)).Nodup ∧
    (∀ x, x ∈ act.filter (node_matches h l predicate value) ↔
      x ∈ act ∧ node_matches h l predicate value x = true) ∧
    List.Sublist (act.filter (node_matches h l predicate value)) act := by
  have hl' : IsList h l ([] ++ act) := by simpa using hl
  refine ⟨@find_all_spec h l predicate value fuel act.length [] act n (le_refl _) hl' hf hn,
    hl.2.2.1.filter _, fun x => List.mem_filter, List.filter_sublist _⟩

theorem find_all_matches_witness :
    IsList demo9.1 demo9.2 [1000, 1020, 1040, 1060, 1080, 1100, 1120, 1140, 1160] ∧
    list_elems 9 demo9.1 demo9.2 =
      some [le32 1, le32 2, le32 3, le32 2, le32 4, le32 2, le32 5, le32 2, le32 6] ∧
    find_all 9 demo9.1 demo9.2 none (le32 2) 5 none = some [1020, 1060, 1100, 1140] ∧
    ([1020, 1060, 1100, 1140] : List Ptr).length = 4 ∧
    find_all 9 demo9.1 demo9.2 (some is_even) [] 7 none
      = some [1020, 1060, 1080, 1100, 1140, 1160] ∧
    ([1020, 1060, 1080, 1100, 1140, 1160] : List Ptr).length = 6 :=
  ⟨by decide, by decide,
    (find_all_matches
      (by decide : IsList demo9.1 demo9.2
        [1000, 1020, 1040, 1060, 1080, 1100, 1120, 1140, 1160])
      none (le32 2) (by decide) (by decide)).1,
    by decide,
    (find_all_matches
      (by decide : IsList demo9.1 demo9.2
        [1000, 1020, 1040, 1060, 1080, 1100, 1120, 1140, 1160])
      (some is_even) [] (by decide) (by decide)).1,
    by decide⟩

theorem at_fwd_chain {h : Heap} :
    ∀ (i : Nat) {cur : Option Ptr} {xs : List Ptr}, Chain (nxt h) cur xs none →
      list_at_fwd h i cur = xs[i]? := by
  intro i
  induction i with
  | zero =>
    intro cur xs hc
    rw [← List.head?_eq_getElem?]
    exact chain_none_head hc
  | succ i ih =>
    intro cur xs hc
    cases xs with
    | nil =>
      simp only [chain_nil] at hc
      subst hc
      have := @ih none [] (by simp)
      simpa [list_at_fwd, list_next] using this
    | cons x xs =>
      obtain ⟨hx, hc'⟩ := hc
      subst hx
      simp only [list_at_fwd, list_next, List.getElem?_cons_succ]
      exact ih hc'

theorem at_bwd_chain {h : Heap} :
    ∀ (i : Nat) {cur : Option Ptr} {xs : List Ptr}, Chain (prv h) cur xs none →
      list_at_bwd h i cur = xs[i]? := by
  intro i
  induction i with
  | zero =>
    intro cur xs hc
    rw [← List.head?_eq_getElem?]
    exact chain_none_head hc
  | succ i ih =>
    intro cur xs hc
    cases xs with
    | nil =>
      simp only [chain_nil] at hc
      subst hc
      have := @ih none [] (by simp)
      simpa [list_at_bwd, list_prev] using this
    | cons x xs =>
      obtain ⟨hx, hc'⟩ := hc
      subst hx
      simp only [list_at_bwd, list_prev, List.getElem?_cons_succ]
      exact ih hc'

theorem to_int16_of_range {i : Int} (h1 : -32768 ≤ i) (h2 : i ≤ 32767) : to_int16 i = i := by
  unfold to_int16; omega

/-- `list_at` with an index that fits `int16_t` and is not negative. -/
theorem list_at_of_nat {h : Heap} {l : ListT} {act : List Ptr} (hl : IsList h l act) (i : Nat)
    (hi : i ≤ 32767) : list_at h l i = if i < l.size then act[i]? else none := by
  unfold list_at
  rw [to_int16_of_range (by omega) (by omega)]
  simp only
  by_cases hlt : i < l.size
  · rw [if_neg (by omega), if_neg (by omega), if_pos hlt]
    simpa using at_fwd_chain i hl.1
  · rw [if_pos (by omega), if_neg hlt]

/-- `list_at` with a negative index `-k`: `k` steps back from the tail. -/
theorem list_at_of_neg {h : Heap} {l : ListT} {act : List Ptr} (hl : IsList h l act) (k : Nat)
    (h1 : 0 < k) (h2 : k ≤ 32768) : list_at h l (-(k : Int)) = act.reverse[k]? := by
  unfold list_at
  rw [to_int16_of_range (by omega) (by omega)]
  simp only
  rw [if_neg (by omega), if_pos (by omega)]
  have : (- -(k : Int)).toNat = k := by simp
  rw [this]
  exact at_bwd_chain k hl.2.1

/-- C24 (as amended). `list_at` with a non-negative index that fits the
`int16_t` parameter: on a well-formed list with node sequence `act`, for
`0 <= i <= 32767`, if `i < count` then `list_at` returns the `i`-th node of
`act` (the head for `i = 0`) and `list_get` that node's data, and if
`i >= count` both return `NULL`. -/
theorem list_at_nonneg {h : Heap} {l : ListT} {act : List Ptr} (hl : IsList h l act) (i : Nat)
    (hi : i ≤ 32767) :
    (i < list_size l → ∃ n, act[i]? = some n ∧ list_at h l i = some n ∧
      list_get h l i = some (h n).data) ∧
    (list_size l ≤ i → list_at h l i = none ∧ list_get h l i = none) ∧
    list_at h l 0 = l.head := by
  have hsz : l.size = act.length := hl.2.2.2.1
  refine ⟨?_, ?_, ?_⟩
  · intro hlt
    have hlt' : i < l.size := hlt
    cases hget : act[i]? with
    | none =>
      have := List.getElem?_eq_none_iff.1 hget
      omega
    | some n =>
      have hat : list_at h l i = some n := by
        rw [list_at_of_nat hl i hi, if_pos hlt', hget]
      refine ⟨n, rfl, hat, ?_⟩
      simp only [list_get, hat]
  · intro hge
    have hge' : ¬ i < l.size := by have : l.size ≤ i := hge; omega
    have hat : list_at h l i = none := by
      rw [list_at_of_nat hl i hi, if_neg hge']
    refine ⟨hat, ?_⟩
    simp only [list_get, hat]
  · have := list_at_of_nat hl 0 (by omega)
    simp only [Nat.cast_zero] at this
    rw [this, hl.head_eq, List.head?_eq_getElem?]
    by_cases h0 : 0 < l.size
    · rw [if_pos h0]
    · rw [if_neg h0]
      have : act = [] := List.length_eq_zero.1 (by omega)
      subst this
      rfl

theorem list_at_nonneg_witness :
    IsList demo3.1 demo3.2 [1000, 1020, 1040] ∧
    ((2 < list_size demo3.2 → ∃ n, ([1000, 1020, 1040] : List Ptr)[2]? = some n ∧
        list_at demo3.1 demo3.2 (2 : Nat) = some n ∧
        list_get demo3.1 demo3.2 (2 : Nat) = some (demo3.1 n).data) ∧
      (list_size demo3.2 ≤ 2 → list_at demo3.1 demo3.2 (2 : Nat) = none ∧
        list_get demo3.1 demo3.2 (2 : Nat) = none) ∧
      list_at demo3.1 demo3.2 0 = demo3.2.head) ∧
    list_at demo3.1 demo3.2 2 = some 1040 ∧ list_get demo3.1 demo3.2 2 = some (le32 3) ∧
    list_at demo3.1 demo3.2 3 = none ∧ list_at demo3.1 demo3.2 0 = some 1000 :=
  ⟨by decide, list_at_nonneg (by decide : IsList demo3.1 demo3.2 [1000, 1020, 1040]) 2
    (by decide), by decide, by decide, by decide, by decide⟩

theorem list_size_eq (l : ListT) : list_size l = l.size := rfl

theorem list_at_conv (h : Heap) (l : ListT) {i j : Int} (hij : to_int16 i = to_int16 j) :
    list_at h l i = list_at h l j := by
  unfold list_at
  rw [hij]

theorem big_list_valid :
    ∃ act fr, Valid big_list.1 big_list.2 act fr ∧ act.length = 65535 := by
  obtain ⟨hv, e1, -, -, e4, -⟩ :=
    @list_create_valid mem0 4096 65535 65535 big_created.1 big_created.2 (by decide)
      big_created_eq
  obtain ⟨⟨act, fr, hV⟩, hs, -, -⟩ :=
    fill_valid (List.replicate 65535 0) 65535 big_created _ _ hv (by rw [e4, e1])
  have hs' : big_list.2.size = 65535 := by
    show (fill (List.replicate 65535 0) 65535 big_created).2.size = 65535
    rw [hs, e4]
  refine ⟨act, fr, hV, ?_⟩
  have := hV.1.2.2.2.1
  have hV' : big_list.2.size = act.length := this
  rw [← hV', hs']

/-- C24 (counterexample). On the list of 65535 elements made by
`list_create(65535, 65535)` and 65535 `list_push_back` calls, the index 40000
is below the count but does not fit `int16_t`: the call `list_at(list, 40000)`
receives -25536, walks back from the tail and returns the node at position
39998, which is not the node at position 40000. -/
theorem list_at_index_beyond_int16 :
    ∃ act, IsList big_list.1 big_list.2 act ∧ (40000 : Nat) < list_size big_list.2 ∧
      to_int16 40000 = -25536 ∧
      list_at big_list.1 big_list.2 40000 = act[39998]? ∧ act[39998]? ≠ act[40000]? := by
  obtain ⟨act, fr, hV, hlen⟩ := big_list_valid
  have hs : big_list.2.size = 65535 := big_list_facts.2.1
  refine ⟨act, hV.1, ?_, by decide, ?_, ?_⟩
  · rw [list_size_eq, hs]; decide
  · have h1 : list_at big_list.1 big_list.2 40000 = list_at big_list.1 big_list.2
        (-((25536 : Nat) : Int)) := list_at_conv _ _ (by decide)
    rw [h1, list_at_of_neg hV.1 25536 (by decide) (by decide),
      List.getElem?_reverse (by rw [hlen]; decide), hlen]
  · exact (List.nodup_iff_getElem?_ne_getElem?.1 hV.1.2.2.1) 39998 40000 (by decide)
      (by rw [hlen]; decide)

/-- C25. `list_at(list, -1)` does not return the last element: on a
well-formed list with node sequence `pre ++ [x]` the tail is `x`, but
`list_at(list, -1)` takes one `prev` step from the tail and returns the last
node of `pre`, the element before the last (`NULL` when the list has one
element). -/
theorem list_at_minus_one {h : Heap} {l : ListT} {pre : List Ptr} {x : Ptr}
    (hl : IsList h l (pre ++ [x])) :
    l.tail = some x ∧ list_at h l (-1) = pre.getLast? ∧ list_at h l (-1) ≠ some x ∧
    (pre = [] → list_at h l (-1) = none ∧ list_get h l (-1) = none) := by
  have ht : l.tail = some x := by rw [hl.tail_eq]; simp
  have hat : list_at h l (-1) = pre.getLast? := by
    have := list_at_of_neg hl 1 (by decide) (by decide)
    simp only [Nat.cast_one] at this
    rw [this]
    simp only [List.reverse_append, List.reverse_cons, List.reverse_nil, List.nil_append,
      List.singleton_append, List.getElem?_cons_succ]
    rw [← List.head?_eq_getElem?, List.head?_reverse]
  refine ⟨ht, hat, ?_, ?_⟩
  · rw [hat]
    intro hx
    have hm : x ∈ pre := List.mem_of_getLast?_eq_some hx
    have hnd := hl.2.2.1
    rw [List.nodup_append] at hnd
    exact hnd.2.2 hm (List.mem_singleton_self x) 
  · intro hp
    subst hp
    have hn : list_at h l (-1) = none := by rw [hat]; rfl
    refine ⟨hn, ?_⟩
    simp only [list_get, hn]

theorem list_at_minus_one_witness :
    IsList demo3.1 demo3.2 ([1000, 1020] ++ [1040]) ∧
    list_elems 3 demo3.1 demo3.2 = some [le32 1, le32 2, le32 3] ∧
    (demo3.2.tail = some 1040 ∧
      list_at demo3.1 demo3.2 (-1) = ([1000, 1020] : List Ptr).getLast? ∧
      list_at demo3.1 demo3.2 (-1) ≠ some 1040 ∧
      (([1000, 1020] : List Ptr) = [] →
        list_at demo3.1 demo3.2 (-1) = none ∧ list_get demo3.1 demo3.2 (-1) = none)) ∧
    list_at demo3.1 demo3.2 (-1) = some 1020 ∧ list_get demo3.1 demo3.2 (-1) = some (le32 2) :=
  ⟨by decide, by decide,
    list_at_minus_one (by decide : IsList demo3.1 demo3.2 ([1000, 1020] ++ [1040])),
    by decide, by decide⟩

theorem to_int16_add (a b : Int) : to_int16 (to_int16 a + b) = to_int16 (a + b) := by
  unfold to_int16; omega

theorem to_int16_idem (a : Int) : to_int16 (to_int16 a) = to_int16 a := by
  unfold to_int16; omega

/-- The loop of `list_index` from an active node counts the nodes before it,
in `int16_t` arithmetic. -/
theorem index_loop_spec {h : Heap} {l : ListT} :
    ∀ (k : Nat) {pre post : List Ptr} {n : Ptr} {c : Int} {fuel : Nat}, pre.length = k →
      IsList h l (pre ++ n :: post) → k ≤ fuel → to_int16 c = c →
      list_index_loop h l.head fuel (some n) c = some (to_int16 (c + k)) := by
  intro k
  induction k with
  | zero =>
    intro pre post n c fuel hk hl _ hc
    have : pre = [] := List.length_eq_zero.1 hk
    subst this
    have hh : l.head = some n := by simpa using hl.head_eq
    cases fuel <;> simp [list_index_loop, hh] <;> exact hc.symm
  | succ k ih =>
    intro pre post n c fuel hk hl hf hc
    rcases eq_nil_or_snoc pre with e | ⟨ys, y, e⟩
    · subst e; simp at hk
    · subst e
      have hys : ys.length = k := by simpa using hk
      have hnd := hl.2.2.1
      have hne : some n ≠ l.head := by
        rw [hl.head_eq]
        intro hx
        have hm : n ∈ ys ++ [y] := by
          cases ys with
          | nil => simp at hx; simp [hx]
          | cons a as => simp at hx; simp [hx]
        rw [List.nodup_append] at hnd
        exact hnd.2.2 hm (List.mem_cons_self _ _)
      have hprev : (h n).prev = some y := by
        have := hl.links.2.1
        simpa using this
      have hl' : IsList h l (ys ++ y :: (n :: post)) := by simpa using hl
      cases fuel with
      | zero => simp at hf
      | succ fuel =>
        simp only [list_index_loop, if_neg hne, list_prev, hprev]
        rw [ih hys hl' (by omega) (to_int16_idem _), to_int16_add]
        congr 2
        push_cast
        ring

/-- `list_index` of the node at position `pre.length`. -/
theorem list_index_spec {h : Heap} {l : ListT} {pre post : List Ptr} {n : Ptr}
    (hl : IsList h l (pre ++ n :: post)) {fuel : Nat} (hf : pre.length ≤ fuel) :
    list_index fuel h l (some n) = some (to_int16 pre.length) := by
  have := @index_loop_spec h l pre.length pre post n 0 fuel rfl hl hf (by decide)
  simpa [list_index] using this

theorem split_at_index {xs : List Ptr} :
    ∀ {i : Nat} {n : Ptr}, xs[i]? = some n →
      xs = xs.take i ++ n :: xs.drop (i + 1) ∧ (xs.take i).length = i := by
  induction xs with
  | nil => intro i n hx; simp at hx
  | cons x xs ih =>
    intro i n hx
    cases i with
    | zero =>
      simp at hx
      subst hx
      simp
    | succ i =>
      simp only [List.getElem?_cons_succ] at hx
      obtain ⟨e1, e2⟩ := ih hx
      refine ⟨?_, by simpa using e2⟩
      simp only [List.take_succ_cons, List.drop_succ_cons, List.cons_append]
      rw [← e1]

/-- Below position 32768 `list_index` inverts `list_at`. -/
theorem list_index_inverts_at {h : Heap} {l : ListT} {act : List Ptr} (hl : IsList h l act)
    (i : Nat) (hi : i ≤ 32767) (hlt : i < list_size l) {fuel : Nat} (hf : i ≤ fuel) :
    ∃ n, list_at h l i = some n ∧ act[i]? = some n ∧
      list_index fuel h l (list_at h l i) = some (i : Int) := by
  have hlt' : i < l.size := hlt
  have hsz : l.size = act.length := hl.2.2.2.1
  have hat0 := list_at_of_nat hl i hi
  rw [if_pos hlt'] at hat0
  cases hget0 : act[i]? with
  | none =>
    have := List.getElem?_eq_none_iff.1 hget0
    omega
  | some n =>
  have hget : act[i]? = some n := hget0
  have hat : list_at h l i = some n := by rw [hat0, hget0]
  obtain ⟨e1, e2⟩ := split_at_index hget
  have hl' : IsList h l (act.take i ++ n :: act.drop (i + 1)) := by rw [← e1]; exact hl
  refine ⟨n, hat, rfl, ?_⟩
  rw [hat, list_index_spec hl' (by rw [e2]; exact hf), e2]
  exact congrArg some (to_int16_of_range (by omega) (by omega))

/-- C26. `list_index` counts in `int16_t`: on the list of 65535 elements made
by `list_create(65535, 65535)` and 65535 `list_push_back` calls, whose node
sequence is `act`, the active node at position 32768 is preceded by 32768
nodes, but `list_index` returns -32768 for it. -/
theorem list_index_wraps :
    ∃ act n, IsList big_list.1 big_list.2 act ∧ act.length = 65535 ∧
      act[32768]? = some n ∧ (act.take 32768).length = 32768 ∧
      act = act.take 32768 ++ n :: act.drop 32769 ∧
      ∀ fuel, 32768 ≤ fuel → list_index fuel big_list.1 big_list.2 (some n) = some (-32768) := by
  obtain ⟨act, fr, hV, hlen⟩ := big_list_valid
  cases hget : act[32768]? with
  | none =>
    have := List.getElem?_eq_none_iff.1 hget
    omega
  | some n =>
    obtain ⟨e1, e2⟩ := split_at_index hget
    have hl' : IsList big_list.1 big_list.2 (act.take 32768 ++ n :: act.drop (32768 + 1)) := by
      rw [← e1]; exact hV.1
    refine ⟨act, n, hV.1, hlen, hget, e2, e1, ?_⟩
    intro fuel hf
    rw [list_index_spec hl' (by rw [e2]; exact hf), e2]
    exact congrArg some (by decide)

/-- Once the walk of `list_index` has passed `NULL` it never meets the head
of a non-empty list. -/
theorem index_loop_stuck (h : Heap) {head : Option Ptr} (hne : head ≠ none) :
    ∀ (fuel : Nat) (c : Int), list_index_loop h head fuel none c = none := by
  intro fuel
  induction fuel with
  | zero => intro c; simp only [list_index_loop, if_neg (Ne.symm hne)]
  | succ fuel ih =>
    intro c
    simp only [list_index_loop, if_neg (Ne.symm hne), list_prev]
    exact ih _

/-- The loop of `list_index` started at a node of another list. -/
theorem index_loop_foreign {h : Heap} {l2 : ListT} {head : Option Ptr} :
    ∀ (k : Nat) {pre post : List Ptr} {n : Ptr} {c : Int} {fuel : Nat}, pre.length = k →
      IsList h l2 (pre ++ n :: post) → (∀ x ∈ pre ++ [n], head ≠ some x) →
      (head ≠ none → list_index_loop h head fuel (some n) c = none) ∧
      (head = none → k + 1 ≤ fuel → to_int16 c = c →
        list_index_loop h head fuel (some n) c = some (to_int16 (c + (k + 1 : Nat)))) := by
  intro k
  induction k with
  | zero =>
    intro pre post n c fuel hk hl hfor
    have : pre = [] := List.length_eq_zero.1 hk
    subst this
    have hne : some n ≠ head := Ne.symm (hfor n (by simp))
    have hprev : (h n).prev = none := by
      have := hl.links.2.1
      simpa using this
    constructor
    · intro hh
      cases fuel with
      | zero => simp only [list_index_loop, if_neg hne]
      | succ fuel =>
        simp only [list_index_loop, if_neg hne, list_prev, hprev]
        exact index_loop_stuck h hh _ _
    · intro hh hf _
      subst hh
      cases fuel with
      | zero => simp at hf
      | succ fuel =>
        simp only [list_index_loop, if_neg hne, list_prev, hprev]
        cases fuel <;> simp [list_index_loop]
  | succ k ih =>
    intro pre post n c fuel hk hl hfor
    rcases eq_nil_or_snoc pre with e | ⟨ys, y, e⟩
    · subst e; simp at hk
    · subst e
      have hys : ys.length = k := by simpa using hk
      have hne : some n ≠ head := Ne.symm (hfor n (by simp))
      have hprev : (h n).prev = some y := by
        have := hl.links.2.1
        simpa using this
      have hl' : IsList h l2 (ys ++ y :: (n :: post)) := by simpa using hl
      have hfor' : ∀ x ∈ ys ++ [y], head ≠ some x := fun x hx =>
        hfor x (List.mem_append_left _ hx)
      obtain ⟨i1, i2⟩ := @ih ys (n :: post) y (to_int16 (c + 1)) (fuel - 1) hys hl' hfor'
      constructor
      · intro hh
        cases fuel with
        | zero => simp only [list_index_loop, if_neg hne]
        | succ fuel =>
          simp only [list_index_loop, if_neg hne, list_prev, hprev]
          exact i1 hh
      · intro hh hf _
        cases fuel with
        | zero => simp at hf
        | succ fuel =>
          simp only [list_index_loop, if_neg hne, list_prev, hprev]
          have := i2 hh (by simp; omega) (to_int16_idem _)
          simp only [Nat.add_sub_cancel] at this
          rw [this, to_int16_add]
          congr 2
          push_cast
          ring

/-- C27. `list_index` has no sentinel for a node that is not on the list:
it walks `prev` from the node until it meets the head of the list. For an
active node `n` of another well-formed list, at position `pre.length` there,
the walk of a non-empty list passes `NULL` and never ends; on an empty list it
ends at `NULL` and returns `pre.length + 1`, not -1. Only the `NULL` reference
gives -1. -/
theorem list_index_foreign_node {h : Heap} {l1 l2 : ListT} {pre post : List Ptr} {n : Ptr}
    (hs : IsList h l2 (pre ++ n :: post)) (hfor : ∀ x ∈ pre ++ [n], l1.head ≠ some x) :
    (l1.head ≠ none → ∀ fuel, list_index fuel h l1 (some n) = none) ∧
    (l1.head = none → ∀ fuel, pre.length + 1 ≤ fuel →
      list_index fuel h l1 (some n) = some (to_int16 (pre.length + 1 : Nat))) ∧
    (∀ fuel, list_index fuel h l1 none = some (-1)) := by
  refine ⟨fun hh fuel => ?_, fun hh fuel hf => ?_, fun fuel => rfl⟩
  · exact (@index_loop_foreign h l2 l1.head pre.length pre post n 0 fuel rfl hs hfor).1 hh
  · have := (@index_loop_foreign h l2 l1.head pre.length pre post n 0 fuel rfl hs hfor).2 hh hf
      (by decide)
    simpa [list_index] using this

theorem list_index_foreign_node_witness :
    IsList demoA.1 demoA.2.1 [1000, 1020, 1040] ∧
    IsList demoA.1 demoA.2.2 ([2000] ++ 2020 :: [2040, 2060]) ∧
    demoA.2.1.head = some 1000 ∧
    (∀ fuel, list_index fuel demoA.1 demoA.2.1 (some 2020) = none) ∧
    IsList demoC.1 demoC.2.1 [] ∧ IsList demoC.1 demoC.2.2 ([2000] ++ 2020 :: []) ∧
    (∀ fuel, ([2000] : List Ptr).length + 1 ≤ fuel →
      list_index fuel demoC.1 demoC.2.1 (some 2020) = some 2) ∧
    list_index 0 demoA.1 demoA.2.1 none = some (-1) :=
  ⟨by decide, by decide, by decide,
    (list_index_foreign_node
      (by decide : IsList demoA.1 demoA.2.2 ([2000] ++ 2020 :: [2040, 2060]))
      (by decide : ∀ x ∈ [2000] ++ [2020], demoA.2.1.head ≠ some x)).1 (by decide),
    by decide, by decide,
    (list_index_foreign_node
      (by decide : IsList demoC.1 demoC.2.2 ([2000] ++ 2020 :: []))
      (by decide : ∀ x ∈ [2000] ++ [2020], demoC.2.1.head ≠ some x)).2.1 (by decide),
    by decide⟩

theorem elem_congr {h H : Heap} {l L : ListT} (hes : L.element_size = l.element_size)
    (hd : ∀ q, (H q).data = (h q).data) : elem H L = elem h l := by
  funext q
  exact elem_frame hes (hd q)

theorem memcmp_eq_elem (h : Heap) (l : ListT) (a b : Ptr) :
    memcmp_eq (h a).data (h b).data l.element_size = (elem h l a == elem h l b) := rfl

/-- The outer loop of `list_unique`, with its exact result. -/
theorem unique_outer_exact (inner_fuel : Nat) :
    ∀ (n : Nat) {todo done : List Ptr} {fuel : Nat} {h : Heap} {l : ListT} {fr : List Ptr}
      {c : Nat}, todo.length ≤ n →
      Valid h l (done ++ todo) fr → todo.length ≤ fuel → todo.length ≤ inner_fuel + 1 →
      c + todo.length < 65536 + 1 →
      ∃ c' H L fr', list_unique_outer inner_fuel fuel h l todo.head? c = some (c', H, L) ∧
        Valid H L (done ++ unique_rounds (elem h l) n todo) fr' ∧
        c' + (unique_rounds (elem h l) n todo).length = c + todo.length ∧
        (∀ q, (H q).data = (h q).data) ∧ L.element_size = l.element_size ∧
        L.capacity = l.capacity ∧ L.node_pool = l.node_pool := by
  intro n
  induction n with
  | zero =>
    intro todo done fuel h l fr c hn hv _ _ _
    have : todo = [] := List.length_eq_zero.1 (Nat.le_zero.1 hn)
    subst this
    refine ⟨c, h, l, fr, ?_, by simpa [unique_rounds] using hv, by simp [unique_rounds],
      fun _ => rfl, rfl, rfl, rfl⟩
    cases fuel <;> simp [list_unique_outer]
  | succ n ih =>
    intro todo done fuel h l fr c hn hv hf hif hc
    cases todo with
    | nil =>
      refine ⟨c, h, l, fr, ?_, by simpa [unique_rounds] using hv, by simp [unique_rounds],
        fun _ => rfl, rfl, rfl, rfl⟩
      cases fuel <;> simp [list_unique_outer]
    | cons pre rest =>
      have hnext : (h pre).next = rest.head? := hv.1.links.1
      cases fuel with
      | zero => simp at hf
      | succ fuel =>
        have hv' : Valid h l ((done ++ [pre]) ++ rest) fr := by simpa using hv
        obtain ⟨H1, L1, fr1, hrun1, hV1, hd1, hes1, hcap1, hpool1⟩ :=
          @unique_inner_spec pre rest (done ++ [pre]) inner_fuel h l fr c hv'
            (by simpa using hif) (by simp at hc; omega)
        have hfeq : (fun x => !memcmp_eq (h pre).data (h x).data l.element_size)
            = (fun x => !(elem h l pre == elem h l x)) := rfl
        rw [hfeq] at hV1
        have hV1' : Valid H1 L1 (done ++ pre :: rest.filter
            (fun x => !(elem h l pre == elem h l x))) fr1 := by
          simpa using hV1
        have hnext1 : (H1 pre).next = (rest.filter
            (fun x => !(elem h l pre == elem h l x))).head? :=
          hV1'.1.links.1
        have hle := List.length_filter_le (fun x => !(elem h l pre == elem h l x)) rest
        have hadd := filter_length_add
          (fun x => memcmp_eq (h pre).data (h x).data l.element_size) rest
        rw [hfeq] at hadd
        obtain ⟨c', H, L, fr', hrun, hV, hcnt, hd, hes, hcap, hpool⟩ :=
          @ih (rest.filter (fun x => !(elem h l pre == elem h l x)))
            (done ++ [pre]) fuel H1 L1 fr1
            (c + (rest.filter
              (fun x => memcmp_eq (h pre).data (h x).data l.element_size)).length)
            (by simp at hn; omega) hV1 (by simp at hf; omega) (by simp at hif; omega)
            (by simp at hc; omega)
        rw [elem_congr hes1 hd1] at hV hcnt
        refine ⟨c', H, L, fr', ?_, ?_, ?_, fun q => (hd q).trans (hd1 q),
          hes.trans hes1, hcap.trans hcap1, hpool.trans hpool1⟩
        · simp only [List.head?_cons, list_unique_outer, list_next, hnext, hrun1]
          rw [← hfeq] at hnext1
          simp only [hnext1]
          exact hrun
        · simpa [unique_rounds] using hV
        · simp only [unique_rounds, List.length_cons]
          omega

theorem unique_rounds_nil (key : Ptr → Bytes) (n : Nat) : unique_rounds key n [] = [] := by
  cases n <;> rfl

/-- The rounds of `list_unique` keep the first occurrences. -/
theorem unique_rounds_eq (key : Ptr → Bytes) (xs : List Ptr) :
    ∀ (seen : List Bytes) (n : Nat),
      (xs.filter (fun x => !seen.contains (key x))).length ≤ n →
      unique_rounds key n (xs.filter (fun x => !seen.contains (key x)))
        = first_occurrences key seen xs := by
  induction xs with
  | nil => intro seen n _; exact unique_rounds_nil key n
  | cons x xs ih =>
    intro seen n hn
    by_cases hs : seen.contains (key x) = true
    · have hf : (x :: xs).filter (fun x => !seen.contains (key x))
          = xs.filter (fun x => !seen.contains (key x)) := by
        rw [List.filter_cons, if_neg (by rw [hs]; decide)]
      rw [hf] at hn ⊢
      simp only [first_occurrences, hs, if_true]
      exact ih seen n hn
    · have hs' : seen.contains (key x) = false := by simpa using hs
      have hf : (x :: xs).filter (fun x => !seen.contains (key x))
          = x :: xs.filter (fun x => !seen.contains (key x)) := by
        rw [List.filter_cons, if_pos (by rw [hs']; decide)]
      rw [hf] at hn ⊢
      cases n with
      | zero => simp at hn
      | succ n =>
        have hff : (xs.filter (fun y => !seen.contains (key y))).filter
            (fun y => !(key x == key y))
            = xs.filter (fun y => !(key x :: seen).contains (key y)) := by
          rw [List.filter_filter]
          apply List.filter_congr
          intro y _
          simp only [List.contains_cons, Bool.not_or, Bool.and_comm]
          cases hxy : (key x == key y) <;> cases hyx : (key y == key x) <;> simp_all
        have hlen : (xs.filter (fun y => !(key x :: seen).contains (key y))).length ≤ n := by
          rw [← hff]
          have hle := List.length_filter_le (fun y => !(key x == key y))
            (xs.filter (fun y => !seen.contains (key y)))
          rw [List.length_cons] at hn
          omega
        simp only [unique_rounds, first_occurrences, hs', Bool.false_eq_true, if_false]
        rw [hff, ih (key x :: seen) n hlen]

/-- A node is kept exactly when its bytes are new and no earlier node carries
them. -/
theorem mem_first_occurrences (key : Ptr → Bytes) (xs : List Ptr) :
    ∀ (seen : List Bytes) (x : Ptr),
      x ∈ first_occurrences key seen xs ↔
        ∃ a b, xs = a ++ x :: b ∧ key x ∉ seen ∧ ∀ y ∈ a, key y ≠ key x := by
  induction xs with
  | nil => intro seen x; simp [first_occurrences]
  | cons z zs ih =>
    intro seen x
    by_cases hs : seen.contains (key z) = true
    · have hz : key z ∈ seen := by simpa using hs
      simp only [first_occurrences, hs, if_true]
      rw [ih]
      constructor
      · rintro ⟨a, b, e, h1, h2⟩
        refine ⟨z :: a, b, by rw [e]; rfl, h1, ?_⟩
        intro y hy
        rcases List.mem_cons.1 hy with e' | hy
        · subst e'; intro hk; exact h1 (hk ▸ hz)
        · exact h2 y hy
      · rintro ⟨a, b, e, h1, h2⟩
        cases a with
        | nil =>
          simp only [List.nil_append, List.cons.injEq] at e
          exact absurd (e.1 ▸ hz) h1
        | cons w a =>
          simp only [List.cons_append, List.cons.injEq] at e
          exact ⟨a, b, e.2, h1, fun y hy => h2 y (List.mem_cons_of_mem _ hy)⟩
    · have hs' : seen.contains (key z) = false := by simpa using hs
      have hz : key z ∉ seen := by simpa using hs'
      simp only [first_occurrences, hs', Bool.false_eq_true, if_false, List.mem_cons]
      rw [ih]
      constructor
      · rintro (e | ⟨a, b, e, h1, h2⟩)
        · subst e
          exact ⟨[], zs, rfl, hz, fun y hy => by simp at hy⟩
        · refine ⟨z :: a, b, by rw [e]; rfl, fun hm => h1 (List.mem_cons_of_mem _ hm), ?_⟩
          intro y hy
          rcases List.mem_cons.1 hy with e' | hy
          · subst e'; intro hk; exact h1 (by rw [hk]; exact List.mem_cons_self _ _)
          · exact h2 y hy
      · rintro ⟨a, b, e, h1, h2⟩
        cases a with
        | nil =>
          simp only [List.nil_append, List.cons.injEq] at e
          exact Or.inl e.1.symm
        | cons w a =>
          simp only [List.cons_append, List.cons.injEq] at e
          obtain ⟨e1, e2⟩ := e
          subst e1
          refine Or.inr ⟨a, b, e2, ?_, fun y hy => h2 y (List.mem_cons_of_mem _ hy)⟩
          intro hm
          rcases List.mem_cons.1 hm with e' | hm
          · exact h2 z (List.mem_cons_self _ _) e'.symm
          · exact h1 hm

theorem first_occurrences_sublist (key : Ptr → Bytes) (xs : List Ptr) :
    ∀ seen : List Bytes, List.Sublist (first_occurrences key seen xs) xs := by
  induction xs with
  | nil => intro seen; exact List.Sublist.slnil
  | cons z zs ih =>
    intro seen
    by_cases hs : seen.contains (key z) = true
    · simp only [first_occurrences, hs, if_true]
      exact (ih seen).cons z
    · have hs' : seen.contains (key z) = false := by simpa using hs
      simp only [first_occurrences, hs', Bool.false_eq_true, if_false]
      exact (ih _).cons₂ z

theorem first_occurrences_keys (key : Ptr → Bytes) (xs : List Ptr) :
    ∀ seen : List Bytes, ((first_occurrences key seen xs).map key).Nodup ∧
      ∀ k ∈ (first_occurrences key seen xs).map key, k ∉ seen := by
  induction xs with
  | nil => intro seen; simp [first_occurrences]
  | cons z zs ih =>
    intro seen
    by_cases hs : seen.contains (key z) = true
    · simp only [first_occurrences, hs, if_true]
      exact ih seen
    · have hs' : seen.contains (key z) = false := by simpa using hs
      have hz : key z ∉ seen := by simpa using hs'
      simp only [first_occurrences, hs', Bool.false_eq_true, if_false, List.map_cons,
        List.nodup_cons, List.mem_cons]
      obtain ⟨i1, i2⟩ := ih (key z :: seen)
      refine ⟨⟨fun hm => i2 _ hm (List.mem_cons_self _ _), i1⟩, ?_⟩
      rintro k (e | hk)
      · subst e; exact hz
      · exact fun hm => i2 k hk (List.mem_cons_of_mem _ hm)

theorem unique_rounds_first (key : Ptr → Bytes) (xs : List Ptr) :
    unique_rounds key xs.length xs = first_occurrences key [] xs := by
  have hf : xs.filter (fun x => !([] : List Bytes).contains (key x)) = xs := by
    apply List.filter_eq_self.2
    intro a _
    rfl
  have := unique_rounds_eq key xs [] xs.length (by rw [hf])
  rwa [hf] at this

/-- `list_unique` on a valid list, with its exact result. -/
theorem unique_exact {h : Heap} {l : ListT} {act fr : List Ptr} (hv : Valid h l act fr)
    {fuel : Nat} (hf : act.length ≤ fuel) :
    ∃ c H L fr', list_unique fuel h l = some (c, H, L) ∧
      Valid H L (first_occurrences (elem h l) [] act) fr' ∧
      c + (first_occurrences (elem h l) [] act).length = act.length ∧
      (∀ q, (H q).data = (h q).data) ∧ L.element_size = l.element_size := by
  have hlen := hv.1.length_le
  have h16 := hv.1.2.2.2.2.2
  have hv' : Valid h l ([] ++ act) fr := by simpa using hv
  obtain ⟨c, H, L, fr', hrun, hV, hcnt, hd, hes, -, -⟩ :=
    @unique_outer_exact fuel act.length act [] fuel h l fr 0 (le_refl _) hv' hf (by omega)
      (by omega)
  rw [unique_rounds_first] at hV hcnt
  refine ⟨c, H, L, fr', ?_, by simpa using hV, by simpa using hcnt, hd, hes⟩
  unfold list_unique
  rw [hv.1.head_eq, hrun]

/-- C21. `list_unique` is a global de-duplication: on a well-formed list with
node sequence `act` the call returns and leaves, in their original order,
exactly the nodes of `act` that are not preceded by a node with the same
element bytes (the first occurrence of each byte value); no two remaining
elements are bytewise equal, no element byte changes, and the return value is
the original count minus the resulting count. -/
theorem unique_semantics {h : Heap} {l : ListT} {act fr : List Ptr} (hv : Valid h l act fr)
    {fuel : Nat} (hf : act.length ≤ fuel) :
    ∃ c H L, list_unique fuel h l = some (c, H, L) ∧
      (∀ n, list_size L ≤ n →
        forward_walk n H L = some (first_occurrences (elem h l) [] act) ∧
        backward_walk n H L = some (first_occurrences (elem h l) [] act).reverse ∧
        list_elems n H L = some ((first_occurrences (elem h l) [] act).map (elem h l))) ∧
      (∀ x, x ∈ first_occurrences (elem h l) [] act ↔
        ∃ a b, act = a ++ x :: b ∧ ∀ y ∈ a, elem h l y ≠ elem h l x) ∧
      List.Sublist (first_occurrences (elem h l) [] act) act ∧
      ((first_occurrences (elem h l) [] act).map (elem h l)).Nodup ∧
      c + list_size L = list_size l := by
  obtain ⟨c, H, L, fr', hrun, hV, hcnt, hd, hes⟩ := unique_exact hv hf
  have hsz : L.size = (first_occurrences (elem h l) [] act).length := hV.1.2.2.2.1
  refine ⟨c, H, L, hrun, ?_, ?_, first_occurrences_sublist _ _ _,
    (first_occurrences_keys _ _ _).1, ?_⟩
  · intro n hn
    have hn' : L.size ≤ n := hn
    obtain ⟨h1, h2⟩ := elems_of_islist hV.1 hes hd hn'
    exact ⟨h1, hV.1.backward (by omega), h2⟩
  · intro x
    rw [mem_first_occurrences]
    simp
  · show c + L.size = l.size
    rw [hsz, hv.1.2.2.2.1]
    exact hcnt

theorem unique_semantics_witness :
    Valid demo11.1 demo11.2
      [1000, 1020, 1040, 1060, 1080, 1100, 1120, 1140, 1160, 1180, 1200] [] ∧
    list_elems 11 demo11.1 demo11.2 =
      some [le32 1, le32 1, le32 2, le32 2, le32 2, le32 2, le32 3, le32 4, le32 4, le32 5,
        le32 1] ∧
    first_occurrences (elem demo11.1 demo11.2) []
      [1000, 1020, 1040, 1060, 1080, 1100, 1120, 1140, 1160, 1180, 1200]
      = [1000, 1040, 1120, 1140, 1180] ∧
    ([1000, 1040, 1120, 1140, 1180] : List Ptr).map (elem demo11.1 demo11.2)
      = [le32 1, le32 2, le32 3, le32 4, le32 5] ∧
    ∃ c H L, list_unique 11 demo11.1 demo11.2 = some (c, H, L) ∧
      (∀ n, list_size L ≤ n →
        forward_walk n H L = some (first_occurrences (elem demo11.1 demo11.2) []
          [1000, 1020, 1040, 1060, 1080, 1100, 1120, 1140, 1160, 1180, 1200]) ∧
        backward_walk n H L = some (first_occurrences (elem demo11.1 demo11.2) []
          [1000, 1020, 1040, 1060, 1080, 1100, 1120, 1140, 1160, 1180, 1200]).reverse ∧
        list_elems n H L = some ((first_occurrences (elem demo11.1 demo11.2) []
          [1000, 1020, 1040, 1060, 1080, 1100, 1120, 1140, 1160, 1180, 1200]).map
            (elem demo11.1 demo11.2))) ∧
      (∀ x, x ∈ first_occurrences (elem demo11.1 demo11.2) []
          [1000, 1020, 1040, 1060, 1080, 1100, 1120, 1140, 1160, 1180, 1200] ↔
        ∃ a b, [1000, 1020, 1040, 1060, 1080, 1100, 1120, 1140, 1160, 1180, 1200]
            = a ++ x :: b ∧
          ∀ y ∈ a, elem demo11.1 demo11.2 y ≠ elem demo11.1 demo11.2 x) ∧
      List.Sublist (first_occurrences (elem demo11.1 demo11.2) []
          [1000, 1020, 1040, 1060, 1080, 1100, 1120, 1140, 1160, 1180, 1200])
        [1000, 1020, 1040, 1060, 1080, 1100, 1120, 1140, 1160, 1180, 1200] ∧
      ((first_occurrences (elem demo11.1 demo11.2) []
          [1000, 1020, 1040, 1060, 1080, 1100, 1120, 1140, 1160, 1180, 1200]).map
        (elem demo11.1 demo11.2)).Nodup ∧
      c + list_size L = list_size demo11.2 :=
  ⟨by decide, by decide, by decide, by decide,
    unique_semantics
      (by decide : Valid demo11.1 demo11.2
        [1000, 1020, 1040, 1060, 1080, 1100, 1120, 1140, 1160, 1180, 1200] [])
      (by decide)⟩

/-- The example of the specification: `list_unique` on
`[1, 1, 2, 2, 2, 2, 3, 4, 4, 5, 1]` returns 6 and leaves `[1, 2, 3, 4, 5]`. -/
theorem unique_demo :
    (list_unique 11 demo11.1 demo11.2).map (fun r => (r.1, r.2.2.size,
        list_elems 11 r.2.1 r.2.2)) =
      some (6, 5, some [le32 1, le32 2, le32 3, le32 4, le32 5]) := by
  decide

theorem to_int16_range (i : Int) : -32768 ≤ to_int16 i ∧ to_int16 i ≤ 32767 := by
  unfold to_int16; omega

/-- `list_at` returns `NULL` or an active node. -/
theorem list_at_position {h : Heap} {l : ListT} {act : List Ptr} (hl : IsList h l act)
    (index : Int) : ∃ pre post, act = pre ++ post ∧ list_at h l index = post.head? := by
  have hmem : list_at h l index = none ∨ ∃ n, list_at h l index = some n ∧ n ∈ act := by
    obtain ⟨r1, r2⟩ := to_int16_range index
    rw [list_at_conv h l (to_int16_idem index).symm]
    by_cases hneg : to_int16 index < 0
    · have e : to_int16 index = -(((-to_int16 index).toNat : Nat) : Int) := by omega
      rw [e, list_at_of_neg hl _ (by omega) (by omega)]
      cases hg : act.reverse[(-to_int16 index).toNat]? with
      | none => exact Or.inl rfl
      | some n => exact Or.inr ⟨n, rfl, List.mem_reverse.1 (List.getElem?_mem hg)⟩
    · have e : to_int16 index = (((to_int16 index).toNat : Nat) : Int) := by omega
      rw [e, list_at_of_nat hl _ (by omega)]
      by_cases hlt : (to_int16 index).toNat < l.size
      · rw [if_pos hlt]
        cases hg : act[(to_int16 index).toNat]? with
        | none => exact Or.inl rfl
        | some n => exact Or.inr ⟨n, rfl, List.getElem?_mem hg⟩
      · rw [if_neg hlt]; exact Or.inl rfl
  rcases hmem with e | ⟨n, e, hn⟩
  · exact ⟨act, [], by simp, by rw [e]; rfl⟩
  · obtain ⟨s, t, hst⟩ := List.append_of_mem hn
    exact ⟨s, n :: t, hst, by rw [e]; rfl⟩

theorem insert_full_fails (h : Heap) (l : ListT) (position : Option Ptr) (e : Bytes)
    (hfull : l.size = l.capacity) : list_insert h l position e = (false, h, l) := by
  unfold list_insert
  simp [hfull]

/-- A run of `list_insert` calls succeeds as long as there is room. -/
theorem insert_all_spec :
    ∀ (script : List (Int × Bytes)) (s : Heap × ListT) (act fr : List Ptr),
      Valid s.1 s.2 act fr → s.2.size + script.length ≤ s.2.capacity →
      (insert_all script s).1 = List.replicate script.length true ∧
      (∃ act' fr', Valid (insert_all script s).2.1 (insert_all script s).2.2 act' fr') ∧
      (insert_all script s).2.2.size = s.2.size + script.length ∧
      (insert_all script s).2.2.capacity = s.2.capacity := by
  intro script
  induction script with
  | nil =>
    intro s act fr hv _
    exact ⟨rfl, ⟨act, fr, hv⟩, rfl, rfl⟩
  | cons c rest ih =>
    intro s act fr hv hle
    obtain ⟨index, e⟩ := c
    simp only [List.length_cons] at hle
    obtain ⟨pre, post, hact, hat⟩ := list_at_position hv.1 index
    subst hact
    obtain ⟨n, fr', H, L, -, hins, hV, -, -, hsz, hcap, -, -⟩ :=
      insert_valid hv (by omega) e
    rw [← hat] at hins
    obtain ⟨i1, i2, i3, i4⟩ := ih (H, L) _ _ hV (by
      show L.size + rest.length ≤ L.capacity
      rw [hsz, hcap]; omega)
    simp only [insert_all, hins, List.length_cons, List.replicate_succ]
    refine ⟨by rw [i1], i2, ?_, ?_⟩
    · rw [i3]
      show L.size + rest.length = s.2.size + (rest.length + 1)
      rw [hsz]; omega
    · rw [i4]; exact hcap

/-- C30. `list_clear` empties the list and recycles every slot: on a
well-formed list the call returns; afterwards the count is 0, `head` and `tail`
are `NULL`, `list_empty` holds and the free list holds every slot of the pool
exactly once, `capacity` of them; and any `capacity` following `list_insert`
calls (each at the end or before a node chosen by `list_at`) all return true
and fill the list, after which every further `list_insert` returns false. -/
theorem clear_recycles {h : Heap} {l : ListT} {act fr : List Ptr} (hv : Valid h l act fr)
    {fuel : Nat} (hf : act.length ≤ fuel) :
    ∃ H L free, list_clear fuel h l = some (H, L) ∧
      list_size L = 0 ∧ L.head = none ∧ L.tail = none ∧ list_empty L = true ∧
      (∀ n, list_capacity L ≤ n →
        forward_walk n H L = some [] ∧ free_walk n H L = some free) ∧
      free.length = list_capacity L ∧ List.Perm free (pool_nodes L) ∧
      list_capacity L = list_capacity l ∧
      (∀ script : List (Int × Bytes), script.length = list_capacity L →
        (insert_all script (H, L)).1 = List.replicate (list_capacity L) true ∧
        list_size (insert_all script (H, L)).2.2 = list_capacity L ∧
        ∀ position e,
          list_insert (insert_all script (H, L)).2.1 (insert_all script (H, L)).2.2 position e
            = (false, (insert_all script (H, L)).2.1, (insert_all script (H, L)).2.2)) := by
  obtain ⟨H, L, hclear, hV, hcap, -, -, -⟩ := clear_valid hv hf
  obtain ⟨-, -, -, c4, c5, c6⟩ := list_clear_fields hclear
  have hlen : (act.reverse ++ fr).length = L.capacity := by
    have := hV.length
    simpa using this
  refine ⟨H, L, act.reverse ++ fr, hclear, c6, c4, c5, ?_, ?_, hlen, ?_, hcap, ?_⟩
  · simp [list_empty, c6]
  · intro n hn
    have hn' : L.capacity ≤ n := hn
    refine ⟨hV.1.forward (by simp), walk_of_chain hV.2.1 (by omega)⟩
  · simpa using hV.2.2
  · intro script hs
    have hs' : script.length = L.capacity := hs
    obtain ⟨i1, -, i3, i4⟩ := insert_all_spec script (H, L) _ _ hV (by
      show L.size + script.length ≤ L.capacity
      rw [c6, hs']; omega)
    have i3' : (insert_all script (H, L)).2.2.size = L.capacity := by
      rw [i3]
      show L.size + script.length = L.capacity
      rw [c6, hs']; omega
    have i4' : (insert_all script (H, L)).2.2.capacity = L.capacity := i4
    refine ⟨by rw [i1, hs']; rfl, i3', ?_⟩
    intro position e
    exact insert_full_fails _ _ position e (by rw [i3', i4'])

/-- The cleared list `[1, 2, 3]` of capacity 5 takes five inserts (at the
end, before the head, before the second node, before the node found by index
-1, at the end) and refuses the sixth. -/
theorem clear_recycles_witness :
    Valid demo3.1 demo3.2 [1000, 1020, 1040] [1060, 1080] ∧
    (list_clear 3 demo3.1 demo3.2).map (fun r => (r.2.size, r.2.head, r.2.tail)) =
      some (0, none, none) ∧
    (list_clear 3 demo3.1 demo3.2).map (fun r => (list_empty r.2, free_walk 5 r.1 r.2)) =
      some (true, some [1040, 1020, 1000, 1060, 1080]) ∧
    (list_clear 3 demo3.1 demo3.2).map (fun r =>
        ((insert_all [(0, le32 1), (0, le32 2), (1, le32 3), (-1, le32 4), (9, le32 5),
          (0, le32 6)] r).1,
         list_elems 5 (insert_all [(0, le32 1), (0, le32 2), (1, le32 3), (-1, le32 4),
          (9, le32 5), (0, le32 6)] r).2.1 (insert_all [(0, le32 1), (0, le32 2), (1, le32 3),
          (-1, le32 4), (9, le32 5), (0, le32 6)] r).2.2)) =
      some ([true, true, true, true, true, false],
        some [le32 2, le32 4, le32 3, le32 1, le32 5]) ∧
    ∃ H L free, list_clear 3 demo3.1 demo3.2 = some (H, L) ∧
      list_size L = 0 ∧ L.head = none ∧ L.tail = none ∧ list_empty L = true ∧
      (∀ n, list_capacity L ≤ n →
        forward_walk n H L = some [] ∧ free_walk n H L = some free) ∧
      free.length = list_capacity L ∧ List.Perm free (pool_nodes L) ∧
      list_capacity L = list_capacity demo3.2 ∧
      (∀ script : List (Int × Bytes), script.length = list_capacity L →
        (insert_all script (H, L)).1 = List.replicate (list_capacity L) true ∧
        list_size (insert_all script (H, L)).2.2 = list_capacity L ∧
        ∀ position e,
          list_insert (insert_all script (H, L)).2.1 (insert_all script (H, L)).2.2 position e
            = (false, (insert_all script (H, L)).2.1, (insert_all script (H, L)).2.2)) :=
  ⟨by decide, by decide, by decide, by decide,
    clear_recycles (by decide : Valid demo3.1 demo3.2 [1000, 1020, 1040] [1060, 1080])
      (by decide)⟩

/-- C31. `list_replace` overwrites one element in place: on a well-formed
list, for a node `p` (in particular an active one) and an element buffer of at
least `element_size` bytes, the call returns true, the element of `p` becomes the first
`element_size` bytes of the buffer, the list record (head, tail, count, free
list head) is the same, every other node (links and data) and the links of `p`
are unchanged, so the forward, backward and free-list walks and all other
elements are as before. -/
theorem replace_semantics {h : Heap} {l : ListT} {act fr : List Ptr} (hv : Valid h l act fr)
    (p : Ptr) (e : Bytes) (he : l.element_size ≤ e.length) :
    ∃ H, list_replace h l (some p) e = (true, H, l) ∧
      elem H l p = e.take l.element_size ∧
      (H p).next = (h p).next ∧ (H p).prev = (h p).prev ∧
      (∀ q, q ≠ p → H q = h q) ∧ (∀ q, q ≠ p → elem H l q = elem h l q) ∧
      Valid H l act fr ∧
      (∀ n, forward_walk n H l = forward_walk n h l ∧
        backward_walk n H l = backward_walk n h l ∧ free_walk n H l = free_walk n h l) := by
  have hV := replace_valid hv (some p) e
  have hnx : nxt (set_data h p (memcpy (h p).data e l.element_size)) = nxt h := by
    funext q; simp [nxt]
  have hpv : prv (set_data h p (memcpy (h p).data e l.element_size)) = prv h := by
    funext q; simp [prv]
  refine ⟨set_data h p (memcpy (h p).data e l.element_size), rfl, ?_, by simp, by simp, ?_, ?_,
    hV, ?_⟩
  · unfold elem
    simp only [set_data_data, if_true, memcpy]
    rw [List.take_append_of_le_length (by simp [he])]
    simp
  · intro q hq
    simp [set_data, hq]
  · intro q hq
    unfold elem
    simp [set_data, hq]
  · intro n
    simp only [forward_walk, backward_walk, free_walk, hnx, hpv, and_self]

theorem replace_semantics_witness :
    Valid demo3.1 demo3.2 [1000, 1020, 1040] [1060, 1080] ∧
    list_elems 3 demo3.1 demo3.2 = some [le32 1, le32 2, le32 3] ∧
    list_elems 3 (list_replace demo3.1 demo3.2 (some 1020) (le32 9)).2.1
      (list_replace demo3.1 demo3.2 (some 1020) (le32 9)).2.2
      = some [le32 1, le32 9, le32 3] ∧
    ∃ H, list_replace demo3.1 demo3.2 (some 1020) (le32 9) = (true, H, demo3.2) ∧
      elem H demo3.2 1020 = (le32 9).take demo3.2.element_size ∧
      (H 1020).next = (demo3.1 1020).next ∧ (H 1020).prev = (demo3.1 1020).prev ∧
      (∀ q, q ≠ 1020 → H q = demo3.1 q) ∧
      (∀ q, q ≠ 1020 → elem H demo3.2 q = elem demo3.1 demo3.2 q) ∧
      Valid H demo3.2 [1000, 1020, 1040] [1060, 1080] ∧
      (∀ n, forward_walk n H demo3.2 = forward_walk n demo3.1 demo3.2 ∧
        backward_walk n H demo3.2 = backward_walk n demo3.1 demo3.2 ∧
        free_walk n H demo3.2 = free_walk n demo3.1 demo3.2) :=
  ⟨by decide, by decide, by decide,
    replace_semantics (by decide : Valid demo3.1 demo3.2 [1000, 1020, 1040] [1060, 1080])
      1020 (le32 9) (by decide)⟩

/-- C32. `list_front` / `list_back`: on an empty well-formed list both return
false and leave the output buffer as it was; on a non-empty one they return
true and copy the `element_size` bytes of the first (respectively last) element
over the start of the output buffer, so that an output buffer of
`element_size` bytes holds exactly that element. The calls only read the list. -/
theorem front_back_semantics {h : Heap} {l : ListT} {act : List Ptr} (hl : IsList h l act)
    (out : Bytes) :
    (act = [] → list_empty l = true ∧ list_front h l out = (false, out) ∧
      list_back h l out = (false, out)) ∧
    (∀ x, act.head? = some x →
      list_front h l out = (true, elem h l x ++ out.drop l.element_size) ∧
      (out.length = l.element_size → list_front h l out = (true, elem h l x))) ∧
    (∀ x, act.getLast? = some x →
      list_back h l out = (true, elem h l x ++ out.drop l.element_size) ∧
      (out.length = l.element_size → list_back h l out = (true, elem h l x))) := by
  have hh := hl.head_eq
  have ht := hl.tail_eq
  refine ⟨?_, ?_, ?_⟩
  · intro e
    subst e
    have hs : l.size = 0 := by simpa using hl.2.2.2.1
    simp only [List.head?_nil] at hh
    simp only [List.getLast?_nil] at ht
    simp [list_empty, list_front, list_back, hh, ht, hs]
  · intro x hx
    rw [hx] at hh
    have h1 : list_front h l out = (true, elem h l x ++ out.drop l.element_size) := by
      simp only [list_front, hh, memcpy, elem]
    refine ⟨h1, fun hlen => ?_⟩
    rw [h1, List.drop_eq_nil_of_le (by omega), List.append_nil]
  · intro x hx
    rw [hx] at ht
    have h1 : list_back h l out = (true, elem h l x ++ out.drop l.element_size) := by
      simp only [list_back, ht, memcpy, elem]
    refine ⟨h1, fun hlen => ?_⟩
    rw [h1, List.drop_eq_nil_of_le (by omega), List.append_nil]

theorem front_back_semantics_witness :
    IsList demo3.1 demo3.2 [1000, 1020, 1040] ∧
    list_elems 3 demo3.1 demo3.2 = some [le32 1, le32 2, le32 3] ∧
    list_front demo3.1 demo3.2 [0, 0, 0, 0] = (true, le32 1) ∧
    list_back demo3.1 demo3.2 [0, 0, 0, 0] = (true, le32 3) ∧
    IsList (demo_create 1000 5).1 (demo_create 1000 5).2 [] ∧
    list_front (demo_create 1000 5).1 (demo_create 1000 5).2 [7, 7, 7, 7]
      = (false, [7, 7, 7, 7]) ∧
    list_back (demo_create 1000 5).1 (demo_create 1000 5).2 [7, 7, 7, 7]
      = (false, [7, 7, 7, 7]) :=
  ⟨by decide, by decide,
    ((front_back_semantics (by decide : IsList demo3.1 demo3.2 [1000, 1020, 1040])
      [0, 0, 0, 0]).2.1 1000 (by decide)).2 (by decide),
    ((front_back_semantics (by decide : IsList demo3.1 demo3.2 [1000, 1020, 1040])
      [0, 0, 0, 0]).2.2 1040 (by decide)).2 (by decide),
    by decide,
    ((front_back_semantics
      (by decide : IsList (demo_create 1000 5).1 (demo_create 1000 5).2 [])
      [7, 7, 7, 7]).1 rfl).2.1,
    ((front_back_semantics
      (by decide : IsList (demo_create 1000 5).1 (demo_create 1000 5).2 [])
      [7, 7, 7, 7]).1 rfl).2.2⟩

theorem for_each_loop_spec {σ : Type} (callback : ForeachFunc σ)
    (hcb : ∀ h l p u q, ((callback h l p u).1 q).next = (h q).next) {act : List Ptr} :
    ∀ {fuel : Nat} {h : Heap} {l : ListT} {cur : Option Ptr} {u : σ},
      Chain (nxt h) cur act none → act.length ≤ fuel →
      list_for_each_if_loop callback fuel h l cur u
        = some (act.foldl (fun s p => callback s.1 s.2.1 p s.2.2) (h, l, u)) := by
  induction act with
  | nil =>
    intro fuel h l cur u hc _
    simp only [chain_nil] at hc
    subst hc
    cases fuel <;> rfl
  | cons x xs ih =>
    intro fuel h l cur u hc hf
    obtain ⟨hx, hc'⟩ := hc
    subst hx
    cases fuel with
    | zero => simp at hf
    | succ fuel =>
      have hn : nxt (callback h l x u).1 = nxt h := by
        funext q
        simp only [nxt, hcb]
      simp only [list_for_each_if_loop, List.foldl_cons]
      have hx : ((callback h l x u).1 x).next = nxt h x := by rw [hcb]; rfl
      rw [hx]
      exact ih (by rw [hn]; exact hc') (by simpa using hf)

theorem foldl_logged {σ : Type} (callback : ForeachFunc σ) (act : List Ptr) :
    ∀ (h : Heap) (l : ListT) (u : σ) (log : List Ptr),
      (act.foldl (fun s p => logged callback s.1 s.2.1 p s.2.2) (h, l, (u, log))).2.2.2
        = log ++ act := by
  induction act with
  | nil => intro h l u log; simp
  | cons x xs ih =>
    intro h l u log
    rw [List.foldl_cons]
    exact (ih (callback h l x u).1 (callback h l x u).2.1 (callback h l x u).2.2
      (log ++ [x])).trans (by simp)

/-- C33. `list_for_each_if` visits everything in order, for a callback that
leaves the `next` link of every node as it is (it may read and overwrite
element bytes and its user data): on a well-formed list with node sequence
`act` the call returns after invoking the callback on the nodes of `act`, one
after the other from head to tail, each once and without any filtering (the
log of the calls is exactly `act`); a callback that records its node sees
`act`, a counting callback adds the count, and on an empty list the callback
is not invoked. -/
theorem for_each_visits_all {σ : Type} {h : Heap} {l : ListT} {act : List Ptr}
    (hl : IsList h l act) (callback : ForeachFunc σ)
    (hcb : ∀ h1 l1 p u1 q, ((callback h1 l1 p u1).1 q).next = (h1 q).next)
    (u : σ) {fuel : Nat} (hf : act.length ≤ fuel) :
    list_for_each_if fuel h l (some callback) u
      = some (act.foldl (fun s p => callback s.1 s.2.1 p s.2.2) (h, l, u)) ∧
    (list_for_each_if fuel h l (some (logged callback)) (u, [])).map (fun r => r.2.2.2)
      = some act ∧
    list_for_each_if fuel h l (some record_node) [] = some (h, l, act) ∧
    (∀ c, list_for_each_if fuel h l (some count_all) c = some (h, l, c + list_size l)) ∧
    (act = [] → list_for_each_if fuel h l (some callback) u = some (h, l, u)) := by
  have hgen : ∀ {τ : Type} (cb : ForeachFunc τ)
      (_ : ∀ h1 l1 p u1 q, ((cb h1 l1 p u1).1 q).next = (h1 q).next) (v : τ),
      list_for_each_if fuel h l (some cb) v
        = some (act.foldl (fun s p => cb s.1 s.2.1 p s.2.2) (h, l, v)) :=
    fun cb hc v => for_each_loop_spec cb hc hl.1 hf
  refine ⟨hgen callback hcb u, ?_, ?_, ?_, ?_⟩
  · rw [hgen (logged callback) (fun h1 l1 p u1 q => hcb h1 l1 p u1.1 q) (u, [])]
    simp only [Option.map_some', foldl_logged, List.nil_append]
  · rw [hgen record_node (fun _ _ _ _ _ => rfl) []]
    congr 1
    have : ∀ (xs pre : List Ptr),
        xs.foldl (fun s p => record_node s.1 s.2.1 p s.2.2) (h, l, pre)
          = (h, l, pre ++ xs) := by
      intro xs
      induction xs with
      | nil => intro pre; simp
      | cons x xs ih =>
        intro pre
        rw [List.foldl_cons]
        exact (ih (pre ++ [x])).trans (by simp)
    simpa using this act []
  · intro c
    rw [hgen count_all (fun _ _ _ _ _ => rfl) c]
    congr 1
    have : ∀ (xs : List Ptr) (k : Nat),
        xs.foldl (fun s p => count_all s.1 s.2.1 p s.2.2) (h, l, k)
          = (h, l, k + xs.length) := by
      intro xs
      induction xs with
      | nil => intro k; simp
      | cons x xs ih =>
        intro k
        rw [List.foldl_cons]
        refine (ih (k + 1)).trans ?_
        rw [List.length_cons]
        congr 2
        omega
    rw [this, list_size_eq, hl.2.2.2.1]
  · intro e
    subst e
    exact hgen callback hcb u

theorem for_each_visits_all_witness :
    IsList demo3.1 demo3.2 [1000, 1020, 1040] ∧
    (list_for_each_if 3 demo3.1 demo3.2 (some (logged (overwrite_with (le32 7)))) (0, [])).map
      (fun r => r.2.2.2) = some [1000, 1020, 1040] ∧
    list_for_each_if 3 demo3.1 demo3.2 (some count_all) 0
      = some (demo3.1, demo3.2, 0 + list_size demo3.2) ∧
    (list_for_each_if 3 demo3.1 demo3.2 (some (overwrite_with (le32 7))) 0).map
      (fun r => (r.2.2, list_elems 3 r.1 r.2.1)) = some (3, some [le32 7, le32 7, le32 7]) ∧
    (list_for_each_if 9 demo9.1 demo9.2 (some count_all) 0).map (fun r => r.2.2) = some 9 ∧
    (list_for_each_if 0 (demo_create 1000 5).1 (demo_create 1000 5).2 (some count_all) 0).map
      (fun r => r.2.2) = some 0 :=
  ⟨by decide,
    (for_each_visits_all (by decide : IsList demo3.1 demo3.2 [1000, 1020, 1040])
      (overwrite_with (le32 7)) (fun _ _ _ _ _ => by simp [overwrite_with]) 0
      (by decide)).2.1,
    (for_each_visits_all (by decide : IsList demo3.1 demo3.2 [1000, 1020, 1040])
      (overwrite_with (le32 7)) (fun _ _ _ _ _ => by simp [overwrite_with]) 0
      (by decide)).2.2.2.1 0,
    by decide, by decide, by decide⟩

/-- C33 (counterexample). A callback that erases its node: on the list
`[1, 2, 3]` the callback `erase_matching` for the value 1 calls `list_erase` on
the first node, which puts the node on the free list, and the loop then follows
its `next` link into the free list: the callback is invoked on the node of `1`
and on the two free slots, and never on the nodes of `2` and `3`, which are
still the active nodes of the list when the call returns. -/
theorem for_each_erasing_callback_skips_nodes :
    IsList demo3.1 demo3.2 [1000, 1020, 1040] ∧
    free_walk 5 demo3.1 demo3.2 = some [1060, 1080] ∧
    (list_for_each_if 10 demo3.1 demo3.2 (some (erase_matching (le32 1))) []).map
      (fun r => r.2.2) = some [1000, 1060, 1080] ∧
    (list_for_each_if 10 demo3.1 demo3.2 (some (logged (erase_matching (le32 1)))) ([], [])).map
      (fun r => r.2.2.2) = some [1000, 1060, 1080] ∧
    (list_for_each_if 10 demo3.1 demo3.2 (some (erase_matching (le32 1))) []).map
      (fun r => (forward_walk 10 r.1 r.2.1, list_elems 10 r.1 r.2.1)) =
      some (some [1020, 1040], some [le32 2, le32 3]) := by
  refine ⟨by decide, by decide, by decide, by decide, by decide⟩

/-- C34. Creation: `list_create` returns none when `capacity` or
`element_size` is zero; otherwise it returns an empty list: size 0,
`list_empty` true, `list_capacity = list_max_size = capacity`, head and tail
none, and the free list is the chain of all `capacity` pool slots in pool
order. `list_create_from_buf` returns none for a null buffer and gives the
same result as `list_create` on a caller-supplied pool. -/
theorem creation_semantics (h0 : Heap) (pool cap es : Nat) (hc : cap < 65536) :
    (cap = 0 ∨ es = 0 → list_create h0 pool cap es = none ∧
      ∀ buf, list_create_from_buf h0 buf cap es = none) ∧
    list_create_from_buf h0 none cap es = none ∧
    list_create_from_buf h0 (some pool) cap es = list_create h0 pool cap es ∧
    (0 < cap → 0 < es → ∃ h l, list_create h0 pool cap es = some (h, l) ∧
      list_size l = 0 ∧ list_empty l = true ∧ list_capacity l = cap ∧ list_max_size l = cap ∧
      l.element_size = es ∧ l.head = none ∧ l.tail = none ∧
      Valid h l [] (pool_nodes l) ∧ (pool_nodes l).length = cap ∧
      (∀ fuel, cap ≤ fuel → free_walk fuel h l = some (pool_nodes l)) ∧
      (∀ fuel, forward_walk fuel h l = some [] ∧ backward_walk fuel h l = some [])) := by
  refine ⟨?_, rfl, rfl, ?_⟩
  · intro hz
    refine ⟨by simp [list_create, hz], fun buf => ?_⟩
    cases buf with
    | none => rfl
    | some b => simp [list_create_from_buf, hz]
  · intro hcap hes
    have hne : ¬ (cap = 0 ∨ es = 0) := by omega
    cases hcr : list_create h0 pool cap es with
    | none => simp [list_create, hne] at hcr
    | some r =>
      obtain ⟨h, l⟩ := r
      obtain ⟨hv, h1, h2, _, h4, _, _⟩ := list_create_valid hc hcr
      have hh := hv.1.head_eq
      have ht := hv.1.tail_eq
      simp only [List.head?_nil] at hh
      simp only [List.getLast?_nil] at ht
      have hlen : (pool_nodes l).length = cap := by rw [pool_nodes_length, h1]
      refine ⟨h, l, rfl, h4, by simp [list_empty, h4], h1, h1, h2, hh, ht, hv, hlen, ?_, ?_⟩
      · intro fuel hf
        exact walk_of_chain hv.2.1 (by omega)
      · intro fuel
        exact ⟨hv.1.forward (Nat.zero_le _), hv.1.backward (Nat.zero_le _)⟩

theorem creation_semantics_witness :
    (∃ h l, list_create mem0 1000 5 4 = some (h, l) ∧
      list_size l = 0 ∧ list_empty l = true ∧ list_capacity l = 5 ∧ list_max_size l = 5 ∧
      l.element_size = 4 ∧ l.head = none ∧ l.tail = none ∧
      Valid h l [] (pool_nodes l) ∧ (pool_nodes l).length = 5 ∧
      (∀ fuel, 5 ≤ fuel → free_walk fuel h l = some (pool_nodes l)) ∧
      (∀ fuel, forward_walk fuel h l = some [] ∧ backward_walk fuel h l = some [])) ∧
    free_walk 5 (demo_create 1000 5).1 (demo_create 1000 5).2
      = some [1000, 1020, 1040, 1060, 1080] ∧
    list_create mem0 1000 0 4 = none ∧ list_create mem0 1000 5 0 = none ∧
    list_create_from_buf mem0 none 5 4 = none :=
  ⟨(creation_semantics mem0 1000 5 4 (by decide)).2.2.2 (by decide) (by decide),
    by decide,
    ((creation_semantics mem0 1000 0 4 (by decide)).1 (Or.inl rfl)).1,
    ((creation_semantics mem0 1000 5 0 (by decide)).1 (Or.inr rfl)).1,
    (creation_semantics mem0 1000 5 4 (by decide)).2.1⟩

/-- C35. Slot partition: in every state reachable from a freshly created
list by single-list operations there are an active sequence `act` (the forward
walk from head) and a free sequence `fr` (the walk of the free list) such that
neither contains a slot twice, each of the `capacity` pool slots lies on
exactly one of the two, and the two chains hold pool slots only. -/
theorem slot_partition {h : Heap} {l : ListT} (hr : Reach h l) :
    ∃ act fr : List Ptr,
      (∀ fuel, l.capacity ≤ fuel →
        forward_walk fuel h l = some act ∧ free_walk fuel h l = some fr) ∧
      act.Nodup ∧ fr.Nodup ∧
      (∀ i, i < l.capacity →
        (node_at l i ∈ act ∧ node_at l i ∉ fr) ∨ (node_at l i ∉ act ∧ node_at l i ∈ fr)) ∧
      (∀ p, p ∈ act ∨ p ∈ fr → ∃ i, i < l.capacity ∧ node_at l i = p) ∧
      act.length + fr.length = l.capacity := by
  obtain ⟨act, fr, hv⟩ := hr.all_valid
  have hlen := hv.length
  have hnd := hv.nodup
  obtain ⟨hfn, hfe⟩ := valid_free_exact hv
  refine ⟨act, fr, ?_, (List.nodup_append.1 hnd).1, hfn, ?_, ?_, hlen⟩
  · intro fuel hf
    exact ⟨hv.1.forward (by omega), walk_of_chain hv.2.1 (by omega)⟩
  · intro i hi
    have hm : node_at l i ∈ pool_nodes l := mem_pool_nodes.2 ⟨i, hi, rfl⟩
    by_cases ha : node_at l i ∈ act
    · exact Or.inl ⟨ha, fun hf => ((hfe _).1 hf).2 ha⟩
    · exact Or.inr ⟨ha, (hfe _).2 ⟨hm, ha⟩⟩
  · intro p hp
    have hm : p ∈ pool_nodes l := hv.2.2.subset (List.mem_append.2 hp)
    obtain ⟨i, hi, e⟩ := mem_pool_nodes.1 hm
    exact ⟨i, hi, e⟩

theorem slot_partition_witness :
    Reach demo3.1 demo3.2 ∧
    forward_walk 5 demo3.1 demo3.2 = some [1000, 1020, 1040] ∧
    free_walk 5 demo3.1 demo3.2 = some [1060, 1080] ∧
    ∃ act fr : List Ptr,
      (∀ fuel, demo3.2.capacity ≤ fuel →
        forward_walk fuel demo3.1 demo3.2 = some act ∧
        free_walk fuel demo3.1 demo3.2 = some fr) ∧
      act.Nodup ∧ fr.Nodup ∧
      (∀ i, i < demo3.2.capacity →
        (node_at demo3.2 i ∈ act ∧ node_at demo3.2 i ∉ fr) ∨
        (node_at demo3.2 i ∉ act ∧ node_at demo3.2 i ∈ fr)) ∧
      (∀ p, p ∈ act ∨ p ∈ fr → ∃ i, i < demo3.2.capacity ∧ node_at demo3.2 i = p) ∧
      act.length + fr.length = demo3.2.capacity :=
  ⟨demo3_reach', by decide, by decide, slot_partition demo3_reach'⟩

/-- C36. Splice of an empty run is not a no-op. On the well-formed lists
`[1, 2, 3]` and `[10, 20, 30, 40]`, `list_splice(dest, NULL, src, node(20),
node(20))` returns true with both counts unchanged, but afterwards the
forward walk of the destination runs through three source nodes, its tail is
the node of `10`, and the source's forward walk stops after its head; and
`list_splice(dest, node(2), src, node(10), node(10))` makes the destination's
forward walk leave the destination after its head. -/
theorem splice_empty_run_breaks_lists :
    Valid demoA.1 demoA.2.1 [1000, 1020, 1040] [1060, 1080, 1100, 1120, 1140, 1160, 1180] ∧
    Valid demoA.1 demoA.2.2 [2000, 2020, 2040, 2060] [2080, 2100, 2120, 2140, 2160, 2180] ∧
    demoA.2.1.element_size = demoA.2.2.element_size ∧
    demoA_empty_run.map (fun r => (r.1, r.2.2.1.size, r.2.2.2.size)) = some (true, 3, 4) ∧
    demoA_empty_run.map (fun r => (forward_walk 12 r.2.1 r.2.2.1, r.2.2.1.tail,
        backward_walk 12 r.2.1 r.2.2.1)) =
      some (some [1000, 1020, 1040, 2020, 2040, 2060], some 2000, some [2000]) ∧
    demoA_empty_run.map (fun r => (forward_walk 12 r.2.1 r.2.2.2,
        backward_walk 12 r.2.1 r.2.2.2)) =
      some (some [2000], some [2060, 2040, 2020, 1040, 1020, 1000]) ∧
    demoA_empty_run_head.map (fun r => (r.1, r.2.2.1.size, r.2.2.2.size)) = some (true, 3, 4) ∧
    demoA_empty_run_head.map (fun r => (forward_walk 12 r.2.1 r.2.2.1,
        backward_walk 12 r.2.1 r.2.2.1)) =
      some (some [1000, 2000, 2020, 2040, 2060], some [1040, 1020]) ∧
    demoA_empty_run_head.map (fun r => backward_walk 12 r.2.1 r.2.2.2) =
      some (some [2060, 2040, 2020, 2000, 1000]) := by
  refine ⟨by decide, by decide, by decide, by decide, by decide, by decide, by decide,
    by decide, by decide⟩

/-- C37. LIFO slot reuse: on a well-formed list with an active node `p`,
`list_erase(list, p)` succeeds and puts `p` at the head of the free list, and
an immediately following `list_insert` at any position of the remaining list
(before an active node, or `NULL` for the end) with an element buffer of at
least `element_size` bytes succeeds and stores the element in the node `p`
itself, so in the same pool slot, leaving the free list as it was before the
erase. -/
theorem lifo_slot_reuse {h : Heap} {l : ListT} {pre post fr : List Ptr} {p : Ptr}
    (hv : Valid h l (pre ++ p :: post) fr) (a b : List Ptr) (hab : pre ++ post = a ++ b)
    (e : Bytes) (he : l.element_size ≤ e.length) :
    ∃ H1 L1, list_erase h l (some p) = (true, H1, L1) ∧ L1.free_list = some p ∧
      Valid H1 L1 (pre ++ post) (p :: fr) ∧
      ∃ H2 L2, list_insert H1 L1 b.head? e = (true, H2, L2) ∧
        Valid H2 L2 (a ++ p :: b) fr ∧ elem H2 L2 p = e.take l.element_size ∧
        L2.free_list = l.free_list ∧ L2.size = l.size ∧
        list_node_to_index L2 p = list_node_to_index l p := by
  obtain ⟨H1, L1, he1, hv1, -, hs1, hc1, hes1, hp1⟩ := erase_valid hv
  have hfl1 : L1.free_list = some p := hv1.2.1.1
  have hlt : L1.size < L1.capacity := by
    have := hv.1.2.2.2.2.1
    omega
  have hv1' : Valid H1 L1 (a ++ b) (p :: fr) := hab ▸ hv1
  obtain ⟨n, fr', H2, L2, hfr, hi, hv2, hd, -, hs2, hc2, hes2, hp2⟩ := insert_valid hv1' hlt e
  injection hfr with hn hfr'
  subst hn
  subst hfr'
  refine ⟨H1, L1, he1, hfl1, hv1, H2, L2, hi, hv2, ?_, ?_, by omega, ?_⟩
  · rw [← hes1]
    exact elem_insert hes2 (by rw [hes1]; exact he) hd
  · have h1 := hv2.2.1
    have h2 := hv.2.1
    cases fr with
    | nil =>
      simp only [chain_nil] at h1 h2
      rw [h1, h2]
    | cons x xs => rw [h1.1, h2.1]
  · simp only [list_node_to_index, hes2, hes1, hp2, hp1, hc2, hc1]

theorem lifo_slot_reuse_witness :
    Valid demo3.1 demo3.2 ([1000] ++ 1020 :: [1040]) [1060, 1080] ∧
    ∃ H1 L1, list_erase demo3.1 demo3.2 (some 1020) = (true, H1, L1) ∧
      L1.free_list = some 1020 ∧
      Valid H1 L1 ([1000] ++ [1040]) (1020 :: [1060, 1080]) ∧
      ∃ H2 L2, list_insert H1 L1 ([1000, 1040] : List Ptr).head? (le32 9) = (true, H2, L2) ∧
        Valid H2 L2 ([] ++ 1020 :: [1000, 1040]) [1060, 1080] ∧
        elem H2 L2 1020 = (le32 9).take demo3.2.element_size ∧
        L2.free_list = demo3.2.free_list ∧ L2.size = demo3.2.size ∧
        list_node_to_index L2 1020 = list_node_to_index demo3.2 1020 :=
  ⟨by decide,
    lifo_slot_reuse
      (by decide : Valid demo3.1 demo3.2 ([1000] ++ 1020 :: [1040]) [1060, 1080])
      [] [1000, 1040] rfl (le32 9) (by decide)⟩

theorem node_eq_of_fields {a b : Node} (h1 : a.next = b.next) (h2 : a.prev = b.prev)
    (h3 : a.data = b.data) : a = b := by
  cases a; cases b
  simp only at h1 h2 h3
  subst h1; subst h2; subst h3
  rfl

/-- C39. `list_reverse` is an involution: on a well-formed list the first
call returns a well-formed list with the reversed node sequence, and a second
call on that result returns exactly the original memory and list record, so
the same head, tail, count, the same next/prev links and data of every node
and the same head-to-tail sequence. -/
theorem reverse_involution {h : Heap} {l : ListT} {act : List Ptr} (hl : IsList h l act)
    {fuel : Nat} (hf : act.length ≤ fuel) :
    ∃ H1 L1, list_reverse fuel h l = some (H1, L1) ∧ IsList H1 L1 act.reverse ∧
      (∀ n, act.length ≤ n → forward_walk n H1 L1 = some act.reverse) ∧
      list_reverse fuel H1 L1 = some (h, l) := by
  obtain ⟨H1, he1, a1, a2, a3⟩ := reverse_loop_spec hl.1 hf
  have hc1 : Chain (nxt H1) l.tail act.reverse none := by
    refine (chain_congr ?_).2 hl.2.1
    intro x hx
    exact (a1 x (List.mem_reverse.1 hx)).1
  have hc2 : Chain (prv H1) l.head act none := by
    refine (chain_congr ?_).2 hl.1
    intro x hx
    exact (a1 x hx).2
  obtain ⟨H2, he2, b1, b2, b3⟩ := reverse_loop_spec hc1 (by simpa using hf)
  have hH : H2 = h := by
    funext q
    by_cases hq : q ∈ act
    · obtain ⟨c1, c2⟩ := b1 q (List.mem_reverse.2 hq)
      obtain ⟨d1, d2⟩ := a1 q hq
      exact node_eq_of_fields (by rw [c1, d2]) (by rw [c2, d1]) (by rw [b3, a3])
    · rw [b2 q (fun hm => hq (List.mem_reverse.1 hm)), a2 q hq]
  have hil : IsList H1 { l with head := l.tail, tail := l.head } act.reverse := by
    obtain ⟨-, -, hn, hs, hc, h16⟩ := hl
    refine ⟨hc1, ?_, List.nodup_reverse.2 hn, by simpa using hs, hc, h16⟩
    rw [List.reverse_reverse]
    exact hc2
  refine ⟨H1, { l with head := l.tail, tail := l.head }, ?_, hil, ?_, ?_⟩
  · simp [list_reverse, he1]
  · intro n hn
    exact hil.forward (by simpa using hn)
  · simp only [list_reverse, he2, hH]

theorem reverse_involution_witness :
    IsList demo3.1 demo3.2 [1000, 1020, 1040] ∧
    ∃ H1 L1, list_reverse 3 demo3.1 demo3.2 = some (H1, L1) ∧
      IsList H1 L1 ([1000, 1020, 1040] : List Ptr).reverse ∧
      (∀ n, ([1000, 1020, 1040] : List Ptr).length ≤ n →
        forward_walk n H1 L1 = some ([1000, 1020, 1040] : List Ptr).reverse) ∧
      list_reverse 3 H1 L1 = some (demo3.1, demo3.2) :=
  ⟨by decide,
    reverse_involution (by decide : IsList demo3.1 demo3.2 [1000, 1020, 1040]) (by decide)⟩

theorem lock_run_stuck {s : LockState} (h0 : lock_step s 0 = none) (h1 : lock_step s 1 = none) :
    ∀ schedule : List Thread, lock_run schedule s = s := by
  have hall : ∀ t : Thread, lock_step s t = none := by
    intro t
    match t with
    | 0 => exact h0
    | 1 => exact h1
  intro schedule
  induction schedule with
  | nil => rfl
  | cons t ts ih =>
    simp only [lock_run, List.foldl_cons, hall t, Option.getD_none]
    exact ih

theorem deadlocked_forever {s : LockState} (hd : deadlocked s = true) :
    ∀ schedule : List Thread, lock_finished (lock_run schedule s) = false := by
  simp only [deadlocked, Bool.and_eq_true, Bool.not_eq_true', Option.isNone_iff_eq_none] at hd
  intro schedule
  rw [lock_run_stuck hd.1.2 hd.2]
  exact hd.1.1

theorem opposite_order_deadlocks {a b : Ptr} (hab : a ≠ b) :
    deadlocked (lock_run [0, 1]
      (lock_start [LockOp.lock a, LockOp.lock b, LockOp.unlock b, LockOp.unlock a]
        [LockOp.lock b, LockOp.lock a, LockOp.unlock a, LockOp.unlock b])) = true := by
  have h1 : (a == b) = false := by simpa using hab
  have h2 : (b == a) = false := by simpa using fun e : b = a => hab e.symm
  have hs : lock_run [0, 1]
      (lock_start [LockOp.lock a, LockOp.lock b, LockOp.unlock b, LockOp.unlock a]
        [LockOp.lock b, LockOp.lock a, LockOp.unlock a, LockOp.unlock b])
      = { held := [(b, 1), (a, 0)],
          todo0 := [LockOp.lock b, LockOp.unlock b, LockOp.unlock a],
          todo1 := [LockOp.lock a, LockOp.unlock a, LockOp.unlock b] } := by
    simp [lock_run, lock_start, lock_step, todo_of, set_todo, holder, List.find?, h1]
  rw [hs]
  simp [deadlocked, lock_step, todo_of, set_todo, holder, lock_finished, List.find?, h1, h2]

/-- C40. The two-list operations take the locks in argument order, not in a
fixed order: `list_swap(list1, list2)`, `list_splice(list1, .., list2, ..)` and
`list_merge(list1, list2)` lock `list1` first and `list2` second. For two
different lists `a` and `b`, when one thread calls the operation on `(a, b)` and
the other on `(b, a)` and each has made its first lock call, both threads wait
for the mutex the other holds, and under no further schedule does either call
return; run one after the other, the same two calls do return. -/
theorem two_list_lock_order_deadlock (a b : Ptr) (hab : a ≠ b) (first1 first2 : Ptr)
    (es : Nat) :
    (list_swap_locks (some a) (some b)).head? = some (LockOp.lock a) ∧
    (list_swap_locks (some b) (some a)).head? = some (LockOp.lock b) ∧
    (list_splice_locks (some a) (some b) (some first1) es es).head? = some (LockOp.lock a) ∧
    (list_splice_locks (some b) (some a) (some first2) es es).head? = some (LockOp.lock b) ∧
    deadlocked (lock_run [0, 1] (lock_start (list_swap_locks (some a) (some b))
      (list_swap_locks (some b) (some a)))) = true ∧
    (∀ schedule, lock_finished (lock_run ([0, 1] ++ schedule)
      (lock_start (list_swap_locks (some a) (some b))
        (list_swap_locks (some b) (some a)))) = false) ∧
    deadlocked (lock_run [0, 1]
      (lock_start (list_splice_locks (some a) (some b) (some first1) es es)
        (list_splice_locks (some b) (some a) (some first2) es es))) = true ∧
    (∀ schedule, lock_finished (lock_run ([0, 1] ++ schedule)
      (lock_start (list_splice_locks (some a) (some b) (some first1) es es)
        (list_splice_locks (some b) (some a) (some first2) es es))) = false) ∧
    deadlocked (lock_run [0, 1]
      (lock_start (list_merge_locks (some a) (some b) (some first1) es es)
        (list_merge_locks (some b) (some a) (some first2) es es))) = true ∧
    lock_finished (lock_run [0, 0, 0, 0, 1, 1, 1, 1]
      (lock_start (list_swap_locks (some a) (some b))
        (list_swap_locks (some b) (some a)))) = true := by
  have hd := opposite_order_deadlocks hab
  have hsw : ∀ x y : Ptr, list_swap_locks (some x) (some y)
      = [LockOp.lock x, LockOp.lock y, LockOp.unlock y, LockOp.unlock x] := fun _ _ => rfl
  have hsp : ∀ x y f : Ptr, list_splice_locks (some x) (some y) (some f) es es
      = [LockOp.lock x, LockOp.lock y, LockOp.unlock y, LockOp.unlock x] := by
    intro x y f
    simp [list_splice_locks]
  have hrun : ∀ (schedule : List Thread) (s : LockState),
      lock_run ([0, 1] ++ schedule) s = lock_run schedule (lock_run [0, 1] s) := by
    intro schedule s
    simp [lock_run, List.foldl_append]
  have hba : b ≠ a := fun e => hab e.symm
  refine ⟨rfl, rfl, by rw [hsp]; rfl, by rw [hsp]; rfl, ?_, ?_, ?_, ?_, ?_, ?_⟩
  · rw [hsw, hsw]; exact hd
  · intro schedule
    rw [hrun, hsw, hsw]
    exact deadlocked_forever hd schedule
  · rw [hsp, hsp]; exact hd
  · intro schedule
    rw [hrun, hsp, hsp]
    exact deadlocked_forever hd schedule
  · rw [list_merge_locks, list_merge_locks, hsp, hsp]; exact hd
  · rw [hsw, hsw]
    have h1 : (a == b) = false := by simpa using hab
    have h2 : (b == a) = false := by simpa using hba
    simp [lock_run, lock_start, lock_step, todo_of, set_todo, holder, lock_finished,
      List.find?, h1, h2, hab, hba]

theorem two_list_lock_order_deadlock_witness :
    deadlocked (lock_run [0, 1] (lock_start (list_swap_locks (some 1000) (some 2000))
      (list_swap_locks (some 2000) (some 1000)))) = true ∧
    lock_run [0, 1] (lock_start (list_swap_locks (some 1000) (some 2000))
      (list_swap_locks (some 2000) (some 1000)))
      = { held := [(2000, 1), (1000, 0)],
          todo0 := [LockOp.lock 2000, LockOp.unlock 2000, LockOp.unlock 1000],
          todo1 := [LockOp.lock 1000, LockOp.unlock 1000, LockOp.unlock 2000] } ∧
    lock_finished (lock_run [0, 0, 0, 0, 1, 1, 1, 1]
      (lock_start (list_swap_locks (some 1000) (some 2000))
        (list_swap_locks (some 1000) (some 2000)))) = true :=
  ⟨(two_list_lock_order_deadlock 1000 2000 (by decide) 2000 1000 4).2.2.2.2.1,
    by decide, by decide⟩

theorem take_drop_add (B : Bytes) (a x y : Nat) :
    (B.drop a).take (x + y) = (B.drop a).take x ++ (B.drop (a + x)).take y := by
  rw [List.take_add, List.drop_drop]

theorem u16_bytes_read {B : Bytes} {off v : Nat} (hr : read_u16 B off = some v)
    (hb : ∀ b ∈ B, b < 256) : u16_bytes v = (B.drop off).take 2 := by
  unfold read_u16 at hr
  split at hr
  · rename_i hlen
    simp only [Option.some.injEq] at hr
    cases hd : B.drop off with
    | nil =>
      have := congrArg List.length hd
      simp at this
      omega
    | cons b0 t =>
      cases t with
      | nil =>
        have := congrArg List.length hd
        simp at this
        omega
      | cons b1 rest =>
        have e0 : B[off]? = some b0 := by
          have := List.getElem?_drop B off 0
          rw [hd] at this
          simpa using this.symm
        have e1 : B[off + 1]? = some b1 := by
          have := List.getElem?_drop B off 1
          rw [hd] at this
          simpa using this.symm
        have m0 : b0 < 256 := hb b0 (List.getElem?_mem e0)
        have m1 : b1 < 256 := hb b1 (List.getElem?_mem e1)
        have g0 : B.getD off 0 = b0 := by simp [List.getD_eq_getElem?_getD, e0]
        have g1 : B.getD (off + 1) 0 = b1 := by simp [List.getD_eq_getElem?_getD, e1]
        rw [g0, g1] at hr
        subst hr
        simp only [u16_bytes, List.take_succ_cons, List.take_zero]
        congr 1
        · omega
        · congr 1
          omega
  · exact absurd hr (by simp)

theorem parse_records_flatten {B : Bytes} (es : Nat) (hb : ∀ b ∈ B, b < 256) :
    ∀ (n off : Nat), off + n * (2 + es) ≤ B.length →
      ((parse_records B es n off).map (fun r => record_bytes r.1 r.2)).flatten
        = (B.drop off).take (n * (2 + es)) := by
  intro n
  induction n with
  | zero => intro off _; simp [parse_records]
  | succ n ih =>
    intro off hlen
    have hl : off + (2 + es) + n * (2 + es) ≤ B.length := by
      have : (n + 1) * (2 + es) = n * (2 + es) + (2 + es) := by ring
      omega
    have h1 : off + 2 ≤ B.length := by omega
    have h2 : off + 2 + es ≤ B.length := by omega
    have r1 := read_u16_some h1
    have r2 : read_bytes B (off + 2) es = some ((B.drop (off + 2)).take es) := by
      unfold read_bytes
      rw [if_pos h2]
    simp only [parse_records, List.map_cons, List.flatten_cons, r2, Option.getD_some]
    rw [ih (off + (2 + es)) hl, record_bytes]
    have hu := u16_bytes_read r1 hb
    rw [r1, Option.getD_some, hu]
    have e : (n + 1) * (2 + es) = 2 + es + n * (2 + es) := by ring
    rw [e, take_drop_add B off (2 + es) (n * (2 + es)), take_drop_add B off 2 es]

/-- A successful `list_deserialize` read a complete header that passed the
header and the length checks. -/
theorem deserialize_success_header {fuel : Nat} {h : Heap} {l : ListT} {buffer : Bytes}
    {H : Heap} {L : ListT} (he : list_deserialize fuel h l buffer = some (true, H, L)) :
    ∃ hsize hcap, read_u16 buffer 0 = some hsize ∧ read_u16 buffer 2 = some hcap ∧
      read_u16 buffer 4 = some l.element_size ∧ hsize ≤ hcap ∧ hcap ≤ l.capacity ∧
      (6 + hsize * (2 + l.element_size)) % 4294967296 ≤ buffer.length := by
  unfold list_deserialize at he
  cases h0 : read_u16 buffer 0 with
  | none => simp [h0] at he
  | some hsize =>
    cases h2 : read_u16 buffer 2 with
    | none => simp [h0, h2] at he
    | some hcap =>
      cases h4 : read_u16 buffer 4 with
      | none => simp [h0, h2, h4] at he
      | some hes =>
        simp only [h0, h2, h4] at he
        by_cases hhdr : hsize > hcap ∨ hes ≠ l.element_size ∨ l.capacity < hcap
        · rw [if_pos hhdr] at he; simp at he
        · rw [if_neg hhdr] at he
          simp only [list_persist_node_size, sizeof_list_persist_header_t] at he
          by_cases hlen : buffer.length < (6 + hsize * (2 + hes)) % 4294967296
          · rw [if_pos hlen] at he; simp at he
          · simp only [not_or, not_lt, Decidable.not_not] at hhdr
            obtain ⟨a1, a2, a3⟩ := hhdr
            subst a2
            exact ⟨hsize, hcap, rfl, rfl, rfl, by omega, a3, by omega⟩

/-- The image written back after a successful `list_deserialize` into a list
of the header's capacity, when the required size does not wrap. -/
theorem image_stable_no_wrap {fuel : Nat} {h : Heap} {l : ListT} {B : Bytes} {H : Heap}
    {L : ListT} (h16 : l.capacity < 65536)
    (he : list_deserialize fuel h l B = some (true, H, L))
    (hcap : read_u16 B 2 = some l.capacity) (hb : ∀ b ∈ B, b < 256)
    (hnw : 6 + L.size * (2 + L.element_size) < 4294967296) :
    list_get_serialize_size L = 6 + L.size * (2 + L.element_size) ∧
    list_get_serialize_size L ≤ B.length ∧
    ∀ buffer : Bytes, buffer.length = list_get_serialize_size L →
      list_serialize H L buffer
        = some (list_get_serialize_size L, B.take (list_get_serialize_size L)) := by
  obtain ⟨hsize, fr, h0, hv, hrec, -, hlen, e1, e2, e3⟩ := deserialize_success_core h16 he
  obtain ⟨hsize', hcap', h0', h2', h4', -, -, hbound⟩ := deserialize_success_header he
  rw [h0] at h0'
  simp only [Option.some.injEq] at h0'
  subst h0'
  have hsz : L.size = hsize := by
    rw [hv.1.2.2.2.1, List.length_map, hlen]
  rw [hsz, e2] at hnw
  rw [Nat.mod_eq_of_lt hnw] at hbound
  have hreq : list_get_serialize_size L = 6 + hsize * (2 + l.element_size) := by
    unfold list_get_serialize_size sizeof_list_persist_header_t list_persist_node_size
    rw [hsz, e2]
    exact Nat.mod_eq_of_lt hnw
  have hflat := parse_records_flatten l.element_size hb hsize 6 hbound
  have hrl : ∀ (n off : Nat), off + n * (2 + l.element_size) ≤ B.length →
      ∀ r ∈ parse_records B l.element_size n off, r.2.length = l.element_size := by
    intro n
    induction n with
    | zero => intro off _ r hr; simp [parse_records] at hr
    | succ n ih =>
      intro off hl r hr
      have hl' : off + (2 + l.element_size) + n * (2 + l.element_size) ≤ B.length := by
        have : (n + 1) * (2 + l.element_size)
            = n * (2 + l.element_size) + (2 + l.element_size) := by ring
        omega
      simp only [parse_records, List.mem_cons] at hr
      rcases hr with e | hr
      · subst e
        have r2 : read_bytes B (off + 2) l.element_size
            = some ((B.drop (off + 2)).take l.element_size) := by
          unfold read_bytes
          rw [if_pos (by omega)]
        rw [r2, Option.getD_some]
        exact (read_bytes_length r2).1
      · exact ih _ hl' r hr
  have hdata : ∀ p ∈ (parse_records B l.element_size hsize 6).map (fun r => node_at l r.1),
      L.element_size ≤ (H p).data.length := by
    intro p hp
    obtain ⟨r, hr, e⟩ := List.mem_map.1 hp
    subst e
    have h1 := (hrec r hr).2
    have h2 := hrl hsize 6 hbound r hr
    have h3 := congrArg List.length h1
    rw [h2] at h3
    unfold elem at h3
    rw [List.length_take] at h3
    rw [e2]
    omega
  have himg : list_image H L ((parse_records B l.element_size hsize 6).map
      (fun r => node_at l r.1)) = B.take (6 + hsize * (2 + l.element_size)) := by
    unfold list_image
    rw [List.map_map]
    have hm : (parse_records B l.element_size hsize 6).map
        ((fun p => record_bytes (list_node_to_index L p) (elem H L p)) ∘
          (fun r => node_at l r.1))
        = (parse_records B l.element_size hsize 6).map (fun r => record_bytes r.1 r.2) := by
      apply List.map_congr_left
      intro r hr
      obtain ⟨hi, hel⟩ := hrec r hr
      simp only [Function.comp]
      rw [hel, ← node_at_congr e2 e3 r.1,
        list_node_to_index_node_at (by rw [e1]; exact hi) (by rw [e1]; exact h16)]
    rw [hm, hflat, hsz, e1, e2, u16_bytes_read h0 hb, u16_bytes_read hcap hb,
      u16_bytes_read h4' hb]
    have t1 := take_drop_add B 0 2 2
    have t2 := take_drop_add B 0 (2 + 2) 2
    have t3 := take_drop_add B 0 (2 + 2 + 2) (hsize * (2 + l.element_size))
    simp only [List.drop_zero, Nat.zero_add] at t1 t2 t3
    rw [show 6 + hsize * (2 + l.element_size) = 2 + 2 + 2 + hsize * (2 + l.element_size) by ring,
      t3, t2, t1, List.drop_zero]
  refine ⟨by rw [hreq, hsz, e2], by rw [hreq]; exact hbound, ?_⟩
  intro buffer hbl
  have hs := (serialize_spec hv hdata (by rw [hsz, e2]; exact hnw) buffer
    (by rw [hbl, hreq, hsz, e2])).2
  rw [hs, himg, hsz, e2, hreq]
  rw [List.drop_eq_nil_of_le (by rw [hbl, hreq]), List.append_nil]

/-- The statement of `deserialize_total` without the bound on the required
size: a buffer that holds the whole image is long enough for the length check
also when the required size wraps. -/
theorem deserialize_total_long {h : Heap} {l : ListT} {dact dfr : List Ptr}
    (hv : Valid h l dact dfr) {fuel : Nat} (hf : dact.length ≤ fuel)
    (hes16 : l.element_size < 65536) (hcap : Nat) (recs : List (Nat × Bytes)) (junk : Bytes)
    (hsc : recs.length ≤ hcap) (hcl : hcap ≤ l.capacity)
    (hrec : ∀ r ∈ recs, r.2.length = l.element_size ∧ r.1 < l.capacity)
    (hnd : (recs.map (fun r => r.1)).Nodup) :
    ∃ H L fr, list_deserialize fuel h l
        (u16_bytes recs.length ++ (u16_bytes hcap ++ (u16_bytes l.element_size ++
          ((recs.map (fun r => record_bytes r.1 r.2)).flatten ++ junk)))) = some (true, H, L) ∧
      Valid H L (recs.map (fun r => node_at l r.1)) fr ∧
      (∀ r ∈ recs, elem H L (node_at l r.1) = r.2) ∧
      L.capacity = l.capacity ∧ L.element_size = l.element_size ∧
      L.node_pool = l.node_pool := by
  have h16 : l.capacity < 65536 := hv.1.2.2.2.2.2
  obtain ⟨h1, l1, hclear, -, -, -, -, -⟩ := clear_valid hv hf
  obtain ⟨c1, c2, c3, c4, c5, c6⟩ := list_clear_fields hclear
  obtain ⟨r0, r2, r4⟩ := read_header recs.length hcap l.element_size
    ((recs.map (fun r => record_bytes r.1 r.2)).flatten ++ junk) (by omega) (by omega) hes16
  generalize hbuf : (u16_bytes recs.length ++ (u16_bytes hcap ++ (u16_bytes l.element_size ++
          ((recs.map (fun r => record_bytes r.1 r.2)).flatten ++ junk)))) = buffer at r0 r2 r4
  have hbuf' : buffer = (u16_bytes recs.length ++ u16_bytes hcap ++ u16_bytes l.element_size) ++
      ((recs.map (fun r => record_bytes r.1 r.2)).flatten ++ junk) := by
    rw [← hbuf]; simp
  have hblen : 6 + recs.length * (2 + l.element_size) ≤ buffer.length := by
    rw [hbuf']
    simp only [List.length_append, u16_bytes_length]
    have hl : ((recs.map (fun r => record_bytes r.1 r.2)).flatten).length
        = recs.length * (2 + l.element_size) := by
      clear hbuf hbuf' r0 r2 r4 hnd hsc
      induction recs with
      | nil => simp
      | cons r rs ih =>
        have ih' := ih (fun r' hr' => hrec r' (List.mem_cons_of_mem _ hr'))
        have := (hrec r (List.mem_cons_self _ _)).1
        rw [List.map_cons, List.flatten_cons, List.length_append, ih', List.length_cons]
        simp only [record_bytes, List.length_append, u16_bytes_length, this]
        ring
    omega
  have hinv0 : DeserInv l
      { ok := true,
        h := ((List.range l1.capacity).foldl (deser_free_step l1) (h1, none)).1,
        l := { l1 with free_list := ((List.range l1.capacity).foldl
          (deser_free_step l1) (h1, none)).2 },
        node_used := List.replicate l1.capacity false,
        prev_node := none } [] := by
    refine ⟨c1, c2, c3, ?_, ?_, ?_, List.nodup_nil, ?_, ?_, ?_⟩
    · simpa using c4
    · simp
    · simpa using c6
    · simp [c1]
    · intro i hi
      have hi' : i < l1.capacity := by rw [c1]; exact hi
      simp [List.getD_eq_getElem?_getD, List.getElem?_replicate, hi']
    · simp
  have hplen : (u16_bytes recs.length ++ u16_bytes hcap ++ u16_bytes l.element_size).length
      = 6 := by simp [u16_bytes_length]
  obtain ⟨s, hrun, hok, hinv, hdat, -⟩ := deser_loop_total buffer h16 hbuf' hrec hnd
    (fun _ _ => List.not_mem_nil _) hinv0 rfl
  rw [hplen] at hrun
  simp only [List.nil_append] at hinv
  have hfin := deser_finish hinv h16
  obtain ⟨-, -, hd⟩ := rebuild_spec ({ s.l with tail := s.prev_node } : ListT) s.node_used s.h
    s.l.capacity (le_refl _)
  refine ⟨_, _, _, ?_, hfin, ?_, ?_, ?_, ?_⟩
  · unfold list_deserialize
    simp only [r0, r2, r4]
    rw [if_neg (by simp; omega)]
    simp only [list_persist_node_size, sizeof_list_persist_header_t]
    have hmod := Nat.mod_le (6 + recs.length * (2 + l.element_size)) 4294967296
    rw [if_neg (by omega)]
    simp only [hclear, hrun, hok, if_true]
  · intro r hr
    show ( _ : Bytes) = r.2
    unfold elem
    rw [hd]
    show (s.h (node_at l r.1)).data.take s.l.element_size = r.2
    rw [hinv.2.1]
    exact hdat r hr
  · show s.l.capacity = l.capacity
    exact hinv.1
  · show s.l.element_size = l.element_size
    exact hinv.2.1
  · show s.l.node_pool = l.node_pool
    exact hinv.2.2.1


theorem flatten_records_length {es : Nat} {recs : List (Nat × Bytes)}
    (hrec : ∀ r ∈ recs, r.2.length = es) :
    ((recs.map (fun r => record_bytes r.1 r.2)).flatten).length = recs.length * (2 + es) := by
  induction recs with
  | nil => simp
  | cons r rs ih =>
    have ih' := ih (fun r' hr' => hrec r' (List.mem_cons_of_mem _ hr'))
    have := hrec r (List.mem_cons_self _ _)
    rw [List.map_cons, List.flatten_cons, List.length_append, ih', List.length_cons]
    simp only [record_bytes, List.length_append, u16_bytes_length, this]
    ring

/-- An image with the header `size = capacity = element_size = 65535` is
accepted by an empty list of that capacity and element size, and the restored
list reports the required size 5 and overruns a buffer of 5 bytes. -/
theorem image_wrap_at {h : Heap} {l : ListT} {dact dfr : List Ptr}
    (hv : Valid h l dact dfr) {fuel : Nat} (hf : dact.length ≤ fuel)
    (hcap : l.capacity = 65535) (hes : l.element_size = 65535)
    (recs : List (Nat × Bytes)) (hlen : recs.length = 65535)
    (hrec : ∀ r ∈ recs, r.2.length = 65535 ∧ r.1 < 65535)
    (hnd : (recs.map (fun r => r.1)).Nodup) :
    ∃ H L, list_deserialize fuel h l
        (u16_bytes 65535 ++ (u16_bytes 65535 ++ (u16_bytes 65535 ++
          ((recs.map (fun r => record_bytes r.1 r.2)).flatten ++ [])))) = some (true, H, L) ∧
      list_capacity L = 65535 ∧ list_size L = 65535 ∧ L.element_size = 65535 ∧
      list_get_serialize_size L = 5 ∧
      ∀ buffer : Bytes, buffer.length = 5 → list_serialize H L buffer = none := by
  have hrec' : ∀ r ∈ recs, r.2.length = l.element_size ∧ r.1 < l.capacity := by
    intro r hr
    rw [hes, hcap]
    exact hrec r hr
  obtain ⟨H, L, fr, he, hV, -, e1, e2, -⟩ :=
    deserialize_total_long hv hf (by omega) 65535 recs [] (by omega) (by omega) hrec' hnd
  rw [hlen, hes] at he
  have hs : L.size = 65535 := by
    rw [hV.1.2.2.2.1, List.length_map, hlen]
  have hE : L.element_size = 65535 := by rw [e2, hes]
  refine ⟨H, L, he, by rw [list_capacity, e1, hcap], hs, hE,
    (serialize_overrun_at H L hs hE (List.replicate 5 0) rfl).1, ?_⟩
  intro buffer hb
  exact (serialize_overrun_at H L hs hE buffer hb).2

theorem zero_records_facts (n es : Nat) :
    (zero_records n es).length = n ∧
    (∀ r ∈ zero_records n es, r.2.length = es ∧ r.1 < n) ∧
    ((zero_records n es).map (fun r => r.1)).Nodup := by
  refine ⟨?_, ?_, ?_⟩
  · simp only [zero_records, List.length_map, List.length_range]
  · intro r hr
    simp only [zero_records, List.mem_map, List.mem_range] at hr
    obtain ⟨i, hi, e⟩ := hr
    subst e
    exact ⟨List.length_replicate _ _, hi⟩
  · have : (zero_records n es).map (fun r => r.1) = List.range n := by
      simp only [zero_records, List.map_map]
      exact List.map_id _
    rw [this]
    exact List.nodup_range _

theorem zero_image_facts (n cap es : Nat) (hn : n < 65536) (hc : cap < 65536)
    (he : es < 65536) :
    (zero_image n cap es).length = 6 + n * (2 + es) ∧
    read_u16 (zero_image n cap es) 0 = some n ∧
    read_u16 (zero_image n cap es) 2 = some cap ∧
    read_u16 (zero_image n cap es) 4 = some es ∧
    ∀ b ∈ zero_image n cap es, b < 256 := by
  obtain ⟨hl, hrec, -⟩ := zero_records_facts n es
  have hfl := @flatten_records_length es (zero_records n es) (fun r hr => (hrec r hr).1)
  obtain ⟨r0, r2, r4⟩ := read_header n cap es
    (((zero_records n es).map (fun r => record_bytes r.1 r.2)).flatten ++ []) hn hc he
  refine ⟨?_, r0, r2, r4, ?_⟩
  · unfold zero_image
    simp only [List.length_append, u16_bytes_length, hfl, hl, List.length_nil]
    omega
  · intro b hb
    unfold zero_image at hb
    simp only [List.mem_append, List.mem_flatten, List.mem_map, List.not_mem_nil,
      or_false] at hb
    have hu : ∀ v x, x ∈ u16_bytes v → x < 256 := by
      intro v x hx
      simp only [u16_bytes, List.mem_cons, List.mem_singleton, List.not_mem_nil,
        or_false] at hx
      rcases hx with e | e <;> (subst e; exact Nat.mod_lt _ (by decide))
    rcases hb with hb | hb | hb | ⟨bs, ⟨r, hr, e⟩, hb⟩
    · exact hu _ _ hb
    · exact hu _ _ hb
    · exact hu _ _ hb
    · subst e
      simp only [zero_records, List.mem_map, List.mem_range] at hr
      obtain ⟨i, -, e⟩ := hr
      subst e
      simp only [record_bytes, List.mem_append] at hb
      rcases hb with hb | hb
      · exact hu _ _ hb
      · rw [List.eq_of_mem_replicate hb]
        decide

/-- C38. Image stability fails where the required size wraps. The list
made by `list_create(65535, 65535)` accepts the image `big_image` (header
`size = capacity = element_size = 65535`, so the header capacity is the
capacity of the list, followed by the 65535 records of the slots 0 to 65534;
4294967301 bytes, each below 256): `list_deserialize` returns true. The
restored list reports the required size 5 instead of 4294967301, and
`list_serialize` into a buffer of that many bytes passes the size check and
writes the 6-byte header past the end of the buffer, so the first
`required_size` bytes of the image are not produced. -/
theorem image_unstable_at_wrap :
    big_image.length = 4294967301 ∧ (∀ b ∈ big_image, b < 256) ∧
    read_u16 big_image 2 = some (list_capacity big_created.2) ∧
    ∃ H L, list_deserialize 0 big_created.1 big_created.2 big_image = some (true, H, L) ∧
      list_size L = 65535 ∧ L.element_size = 65535 ∧
      list_get_serialize_size L = 5 ∧
      ∀ buffer : Bytes, buffer.length = list_get_serialize_size L →
        list_serialize H L buffer = none := by
  obtain ⟨hv, e1, e2, -, -, -, -⟩ :=
    @list_create_valid mem0 4096 65535 65535 big_created.1 big_created.2 (by decide)
      big_created_eq
  obtain ⟨hl, hrec, hnd⟩ := zero_records_facts 65535 65535
  obtain ⟨b1, -, b2, -, b3⟩ := zero_image_facts 65535 65535 65535 (by decide) (by decide)
    (by decide)
  obtain ⟨H, L, he, -, hs, hE, hreq, hser⟩ :=
    image_wrap_at hv (Nat.le_refl 0) e1 e2 (zero_records 65535 65535) hl hrec hnd
  refine ⟨b1, b3, ?_, H, L, he, hs, hE, hreq, ?_⟩
  · rw [list_capacity, e1]
    exact b2
  · intro buffer hb
    rw [hreq] at hb
    exact hser buffer hb

/-- The image `buf_two_more` restored into the list `[1, 2, 3]` of capacity 5
and written back: the 18 bytes of the header and the two records. -/
theorem image_stable_demo :
    read_u16 buf_two_more 2 = some demo3.2.capacity ∧
    buf_two_more.length = 21 ∧
    (list_deserialize 5 demo3.1 demo3.2 buf_two_more).map (fun r => r.1) = some true ∧
    list_get_serialize_size
      ((list_deserialize 5 demo3.1 demo3.2 buf_two_more).getD (false, demo3.1, demo3.2)).2.2
      = 18 ∧
    list_serialize
      ((list_deserialize 5 demo3.1 demo3.2 buf_two_more).getD (false, demo3.1, demo3.2)).2.1
      ((list_deserialize 5 demo3.1 demo3.2 buf_two_more).getD (false, demo3.1, demo3.2)).2.2
      (List.replicate 18 0) = some (18, buf_two_more.take 18) := by
  have hcap : read_u16 buf_two_more 2 = some demo3.2.capacity := by decide
  have hfl : (list_deserialize 5 demo3.1 demo3.2 buf_two_more).map (fun r => r.1)
      = some true := by decide
  have he := result_of_flag (list_deserialize 5 demo3.1 demo3.2 buf_two_more)
    (false, demo3.1, demo3.2) hfl
  have hsz : list_get_serialize_size
      ((list_deserialize 5 demo3.1 demo3.2 buf_two_more).getD (false, demo3.1, demo3.2)).2.2
      = 18 := by decide
  obtain ⟨-, -, h3⟩ := image_stable_no_wrap (by decide) he hcap (by decide)
    (by decide)
  have h4 := h3 (List.replicate 18 0) (by rw [hsz]; rfl)
  rw [hsz] at h4
  exact ⟨hcap, by decide, hfl, hsz, h4⟩

end EList
